import Mathlib

/-!
# aretext: incremental parser, grapheme-cluster segmentation, text tree

A verification development over a shallow embedding of

* `syntax2/parser/parser.go`  (incremental parser),
* `internal/pkg/text/segment/grapheme_cluster.go`  (UAX #29 grapheme clusters),
* the text tree exercised by `text/tree_test.go`,
* `internal/pkg/file/load.go`  (loading a file into a tree),
* `internal/pkg/exec/mutator.go`  (mutators of the editor state),
* `config/config.go`  (the configuration).

Part I holds the embedding (definitions), Part II the lemmas and theorems.
Positions and lengths are `uint64` codepoint counts in the source; they are
bounded by the length of an in-memory document and no sum of them wraps
around, so they are taken in `Nat`. The one place where a sum may wrap around
is the position of the parse loops, to which a parse function may add any
count it reports: there the loops are also given in 64-bit arithmetic. Code of the repository that is not among
the sources read here (the computation tree of the parser, the tracking rune
iterator, the text tree) is modelled from the specification; the doc comment
of each such definition says so.
-/

set_option autoImplicit false

namespace Aretext

/-! ## Part I: definitions -/

/-- A Unicode codepoint, Go's `rune` (an `int32`). -/
abbrev Rune := Int

/-- The codepoints of a document, in order: what `text.Tree` shows to the parser through
`NumChars()` (the length) and `ReaderAtPosition(pos, ReadDirectionForward)` (the suffix
from `pos`). -/
abbrev Doc := List Rune

/-! ### The incremental parser (`syntax2/parser/parser.go`) -/

namespace Parser

/-- Parse states (interface `State` of the parser package): opaque values compared with
`Equals`, with the initial `EmptyState` and Go's nil interface value, which is the
`NextState` of the zero `Result`. -/
class ParseState (σ : Type) where
  EmptyState : σ
  nilState : σ

/-- Token recognised by a parse function: `Offset` counts codepoints from the position at
which the parse function was started. -/
structure ComputedToken where
  Offset : Nat
  Length : Nat
  Role : Nat
deriving DecidableEq, Repr

/-- Token of a document: start position, length in codepoints, role. -/
structure Token where
  StartPos : Nat
  Length : Nat
  Role : Nat
deriving DecidableEq, Repr

/-- The type `Result` (parser.go:29): the result of a single execution of a parse function. -/
structure Result (σ : Type) where
  NumConsumed : Nat
  ComputedTokens : List ComputedToken
  NextState : σ
deriving DecidableEq, Repr

/-- The value `FailedResult` (parser.go:36): the zero `Result`. -/
def FailedResult {σ : Type} [ParseState σ] : Result σ :=
  { NumConsumed := 0, ComputedTokens := [], NextState := ParseState.nilState }

/-- The method `Result.IsSuccess` (parser.go:39). -/
def Result.IsSuccess {σ : Type} (r : Result σ) : Bool :=
  decide (r.NumConsumed > 0)

/-- The method `Result.IsFailure` (parser.go:44). -/
def Result.IsFailure {σ : Type} (r : Result σ) : Bool :=
  !r.IsSuccess

/-- The type `Func` (parser.go:26): a deterministic parse function. It sees the document only
through the rune iterator it is handed, so its behaviour is fixed by what it does after each
rune sequence it may have read so far (in document order, from the start position):
`onRunes state seen = some res` returns `res` without reading further, `none` calls
`NextRune` once more; `onEOF state seen` is what it returns once `NextRune` has reported
`io.EOF` after the runes `seen`. Reads made through clones of the iterator are reads of
the same runes, and the tracking iterator records the furthest one. -/
structure Func (σ : Type) where
  onRunes : σ → List Rune → Option (Result σ)
  onEOF : σ → List Rune → Result σ

/-- Modelled from the spec: the tracking rune iterator (`TrackingRuneIter`, not among the
sources), a decorator of the forward rune iterator that "records the maximum number of
codepoints read through it". `runeIter` holds the runes not read yet. -/
structure TrackingRuneIter where
  runeIter : List Rune
  maxRead : Nat
deriving DecidableEq, Repr

/-- Modelled from the spec: `NewTrackingRuneIter` starts tracking a rune iterator. -/
def NewTrackingRuneIter (runeIter : List Rune) : TrackingRuneIter :=
  { runeIter := runeIter, maxRead := 0 }

/-- Modelled from the spec: `TrackingRuneIter.NextRune`; `none` is `io.EOF`, which is not a
codepoint and is not counted. -/
def TrackingRuneIter.NextRune (it : TrackingRuneIter) : Option Rune × TrackingRuneIter :=
  match it.runeIter with
  | [] => (none, it)
  | r :: rs => (some r, { runeIter := rs, maxRead := it.maxRead + 1 })

/-- Modelled from the spec: `TrackingRuneIter.MaxRead`. -/
def TrackingRuneIter.MaxRead (it : TrackingRuneIter) : Nat :=
  it.maxRead

/-- Running a parse function against a tracking iterator whose unread runes are `runes`,
after it has read `seen`; `maxRead` is the iterator's counter. -/
def Func.callOn {σ : Type} (f : Func σ) (state : σ) :
    List Rune → List Rune → Nat → Result σ × TrackingRuneIter
  | [], seen, maxRead =>
    match f.onRunes state seen with
    | some res => (res, { runeIter := [], maxRead := maxRead })
    | none =>
      (f.onEOF state seen, (TrackingRuneIter.NextRune { runeIter := [], maxRead := maxRead }).2)
  | r :: rs, seen, maxRead =>
    match f.onRunes state seen with
    | some res => (res, { runeIter := r :: rs, maxRead := maxRead })
    | none =>
      f.callOn state (TrackingRuneIter.NextRune { runeIter := r :: rs, maxRead := maxRead }).2.runeIter
        (seen ++ [r]) (TrackingRuneIter.NextRune { runeIter := r :: rs, maxRead := maxRead }).2.maxRead

/-- The call `p.parseFunc(trackingIter, state)` of a parse function: the result and the
iterator as the call leaves it. -/
def Func.call {σ : Type} (f : Func σ) (trackingIter : TrackingRuneIter) (state : σ) :
    Result σ × TrackingRuneIter :=
  f.callOn state trackingIter.runeIter [] trackingIter.maxRead

/-- Modelled from the spec: what the recovery wrapper substitutes for a failed result, "a
synthetic leaf that consumes exactly one codepoint with no tokens and the same entry state
carried forward". -/
def recoverResult {σ : Type} (state : σ) (res : Result σ) : Result σ :=
  if res.IsFailure then { NumConsumed := 1, ComputedTokens := [], NextState := state } else res

/-- Modelled from the spec: `Func.recoverFromFailure` (not among the sources), the "recover
from failure" wrapper applied by `New`. -/
def Func.recoverFromFailure {σ : Type} (f : Func σ) : Func σ :=
  { onRunes := fun state seen => (f.onRunes state seen).map (recoverResult state)
    onEOF := fun state seen => recoverResult state (f.onEOF state seen) }

/-- Modelled from the spec: a `Computation` (not among the sources) is a node of a persistent
binary tree. A leaf records "the codepoints it looked at", "the codepoints it consumed",
"the entry state, the exit state" and "a flat list of tokens"; an internal node has "two
child computations". The summaries of a subtree are computed by `ReadLength` and
`ConsumedLength`. -/
inductive Computation (σ : Type) where
  | leaf (readLength consumedLength : Nat) (startState endState : σ)
      (tokens : List ComputedToken) : Computation σ
  | node (leftChild rightChild : Computation σ) : Computation σ
deriving DecidableEq, Repr

/-- Modelled from the spec: `NewComputation(readLength, consumedLength, startState, endState,
tokens)` records one invocation of the parse function as a leaf. -/
def NewComputation {σ : Type} (readLength consumedLength : Nat) (startState endState : σ)
    (tokens : List ComputedToken) : Computation σ :=
  .leaf readLength consumedLength startState endState tokens

/-- Modelled from the spec: the summary "total consumed length" of a subtree. -/
def Computation.ConsumedLength {σ : Type} : Computation σ → Nat
  | .leaf _ consumedLength _ _ _ => consumedLength
  | .node l r => l.ConsumedLength + r.ConsumedLength

/-- Modelled from the spec: the summary "total maxRead of its subtree": how far past its own
start position the subtree looked. -/
def Computation.ReadLength {σ : Type} : Computation σ → Nat
  | .leaf readLength _ _ _ _ => readLength
  | .node l r => max l.ReadLength (l.ConsumedLength + r.ReadLength)

/-- Modelled from the spec: the entry state of a computation. -/
def Computation.StartState {σ : Type} : Computation σ → σ
  | .leaf _ _ startState _ _ => startState
  | .node l _ => l.StartState

/-- Modelled from the spec: the exit state of a computation (`EndState()`). -/
def Computation.EndState {σ : Type} : Computation σ → σ
  | .leaf _ _ _ endState _ => endState
  | .node _ r => r.EndState

/-- Modelled from the spec: `c.Append(other)` on a possibly nil receiver, the concatenation
of two computations. The spec leaves the balancing scheme open; it is not modelled, and
the facts proved about searching a computation hold for every tree shape. -/
def Computation.Append {σ : Type} : Option (Computation σ) → Computation σ → Option (Computation σ)
  | none, other => some other
  | some c, other => some (.node c other)

/-- Modelled from the spec: `ConcatLeafComputations` concatenates leaf computations in order;
nil for no leaves. -/
def ConcatLeafComputations {σ : Type} (leaves : List (Computation σ)) : Option (Computation σ) :=
  leaves.foldl Computation.Append none

/-- Modelled from the spec: the search of `LargestMatchingSubComputation` in a computation
that starts at position `readStartPos`: "at each internal node, if the left subtree’s range
covers the target start position, recurse left; else descend right with the offset
adjusted. A leaf matches iff its start position equals the target, its entry state equals
`s`, and its `maxRead` range fits within the allowed upper bound. Internal nodes match when
both children match and their combined range fits the bound." -/
def Computation.largestSubComputationInRange {σ : Type} [DecidableEq σ] :
    Computation σ → Nat → Nat → Nat → σ → Option (Computation σ)
  | .leaf readLength consumedLength startState endState tokens,
      readStartPos, rangeStartPos, rangeEndPos, state =>
    if readStartPos = rangeStartPos ∧ readStartPos + readLength ≤ rangeEndPos ∧ startState = state
    then some (.leaf readLength consumedLength startState endState tokens)
    else none
  | .node l r, readStartPos, rangeStartPos, rangeEndPos, state =>
    if readStartPos = rangeStartPos ∧ readStartPos + (Computation.node l r).ReadLength ≤ rangeEndPos
        ∧ (Computation.node l r).StartState = state
    then some (.node l r)
    else if rangeStartPos < readStartPos + l.ConsumedLength
    then l.largestSubComputationInRange readStartPos rangeStartPos rangeEndPos state
    else r.largestSubComputationInRange (readStartPos + l.ConsumedLength) rangeStartPos rangeEndPos state

/-- Modelled from the spec: `LargestMatchingSubComputation(rangeStartPos, rangeEndPos, state)`
on a possibly nil computation, the largest sub-computation that starts at `rangeStartPos`
with entry state `state` and looked at nothing at or past `rangeEndPos`. -/
def Computation.LargestMatchingSubComputation {σ : Type} [DecidableEq σ]
    (c : Option (Computation σ)) (rangeStartPos rangeEndPos : Nat) (state : σ) :
    Option (Computation σ) :=
  match c with
  | none => none
  | some c => c.largestSubComputationInRange 0 rangeStartPos rangeEndPos state

/-- The tokens of a computation that starts at position `startPos`, in document order, at
their document positions. -/
def Computation.tokensFrom {σ : Type} : Computation σ → Nat → List Token
  | .leaf _ _ _ _ tokens, startPos =>
    tokens.map fun t => { StartPos := startPos + t.Offset, Length := t.Length, Role := t.Role }
  | .node l r, startPos => l.tokensFrom startPos ++ r.tokensFrom (startPos + l.ConsumedLength)

/-- The token list of a (possibly nil) computation of a whole document. -/
def Computation.Tokens {σ : Type} : Option (Computation σ) → List Token
  | none => []
  | some c => c.tokensFrom 0

/-- The leaf computations of a computation, in order. -/
def Computation.leaves {σ : Type} : Computation σ → List (Computation σ)
  | .leaf readLength consumedLength startState endState tokens =>
    [.leaf readLength consumedLength startState endState tokens]
  | .node l r => l.leaves ++ r.leaves

/-- The leaf computations of a possibly nil computation. -/
def Computation.Leaves {σ : Type} : Option (Computation σ) → List (Computation σ)
  | none => []
  | some c => c.leaves

/-- An edit (type `Edit`, used by parser.go:117-153 through its three fields). -/
structure Edit where
  pos : Nat
  numInserted : Nat
  numDeleted : Nat
deriving DecidableEq, Repr

/-- The constant `math.MaxUint64`. -/
def MaxUint64 : Nat := 18446744073709551615

/-- The type `P` (parser.go:51): a parser with the cached result of the last parse. -/
structure P (σ : Type) where
  parseFunc : Func σ
  prevComputation : Option (Computation σ)

/-- The function `New` (parser.go:57). -/
def New {σ : Type} (f : Func σ) : P σ :=
  { parseFunc := f.recoverFromFailure, prevComputation := none }

/-- The method `P.runParseFunc` (parser.go:103). -/
def P.runParseFunc {σ : Type} (p : P σ) (tree : Doc) (pos : Nat) (state : σ) : Computation σ :=
  let reader := tree.drop pos
  let trackingIter := NewTrackingRuneIter reader
  let out := p.parseFunc.call trackingIter state
  NewComputation out.2.MaxRead out.1.NumConsumed state out.1.NextState out.1.ComputedTokens

/-- The method `P.findReusableComputation` (parser.go:117). -/
def P.findReusableComputation {σ : Type} [DecidableEq σ] (p : P σ) (pos : Nat) (edit : Edit)
    (state : σ) : Option (Computation σ) :=
  if pos < edit.pos then
    Computation.LargestMatchingSubComputation p.prevComputation pos edit.pos state
  else if edit.numInserted > 0 ∧ pos ≥ edit.pos + edit.numInserted then
    Computation.LargestMatchingSubComputation p.prevComputation (pos - edit.numInserted) MaxUint64 state
  else if edit.numDeleted > 0 ∧ pos ≥ edit.pos then
    Computation.LargestMatchingSubComputation p.prevComputation (pos + edit.numDeleted) MaxUint64 state
  else
    none

/-- The loop of `P.ParseAll` (parser.go:69-74) from position `pos` in state `state`: the leaf
computations it appends, in order. Each unit of `fuel` pays for one iteration; `none` means
the loop is still running when the fuel is spent. -/
def P.parseAllLoop {σ : Type} (p : P σ) (tree : Doc) : Nat → Nat → σ → Option (List (Computation σ))
  | fuel, pos, state =>
    if pos < tree.length then
      match fuel with
      | 0 => none
      | fuel + 1 =>
        let c := p.runParseFunc tree pos state
        (p.parseAllLoop tree fuel (pos + c.ConsumedLength) c.EndState).map (c :: ·)
    else some []

/-- The method `P.ParseAll` (parser.go:64): the computation returned and the parser with its
cache updated. The loop is given one iteration per codepoint of the document. -/
def P.ParseAll {σ : Type} [ParseState σ] (p : P σ) (tree : Doc) :
    Option (Option (Computation σ) × P σ) :=
  (p.parseAllLoop tree tree.length 0 ParseState.EmptyState).map fun leafComputations =>
    let c := ConcatLeafComputations leafComputations
    (c, { p with prevComputation := c })

/-- The loop of `P.ReparseAfterEdit` (parser.go:90-98) from position `pos` in state `state`
with the computation `c` built so far. -/
def P.reparseLoop {σ : Type} [DecidableEq σ] (p : P σ) (tree : Doc) (edit : Edit) :
    Nat → Nat → σ → Option (Computation σ) → Option (Option (Computation σ))
  | fuel, pos, state, c =>
    if pos < tree.length then
      match fuel with
      | 0 => none
      | fuel + 1 =>
        let nextComputation :=
          match p.findReusableComputation pos edit state with
          | some reused => reused
          | none => p.runParseFunc tree pos state
        p.reparseLoop tree edit fuel (pos + nextComputation.ConsumedLength) nextComputation.EndState
          (Computation.Append c nextComputation)
    else some c

/-- The method `P.ReparseAfterEdit` (parser.go:85). -/
def P.ReparseAfterEdit {σ : Type} [DecidableEq σ] [ParseState σ] (p : P σ) (tree : Doc)
    (edit : Edit) : Option (Option (Computation σ) × P σ) :=
  (p.reparseLoop tree edit tree.length 0 ParseState.EmptyState none).map fun c =>
    (c, { p with prevComputation := c })

/-- The document after an edit: `edit.numDeleted` codepoints removed at `edit.pos` and the
codepoints `inserted` (there are `edit.numInserted` of them) put in their place. -/
def Edit.applyTo (edit : Edit) (inserted : List Rune) (tree : Doc) : Doc :=
  tree.take edit.pos ++ inserted ++ tree.drop (edit.pos + edit.numDeleted)

/-- An editing session: `ParseAll` on the initial document, then, for each edit in turn, the
edit applied to the document and `ReparseAfterEdit` called exactly once. Yields the last
computation returned, the parser and the final document. -/
def reparseEdits {σ : Type} [DecidableEq σ] [ParseState σ] :
    List (Edit × List Rune) → Option (Computation σ) × P σ × Doc →
      Option (Option (Computation σ) × P σ × Doc)
  | [], st => some st
  | (edit, inserted) :: rest, (_, p, tree) =>
    match p.ReparseAfterEdit (edit.applyTo inserted tree) edit with
    | none => none
    | some (c, p') => reparseEdits rest (c, p', edit.applyTo inserted tree)

/-- The session of a new parser: `ParseAll`, then one `ReparseAfterEdit` per edit. -/
def parseThenReparse {σ : Type} [DecidableEq σ] [ParseState σ] (f : Func σ) (tree : Doc)
    (edits : List (Edit × List Rune)) : Option (Option (Computation σ) × P σ × Doc) :=
  match (New f).ParseAll tree with
  | none => none
  | some (c, p) => reparseEdits edits (c, p, tree)

/-! ### Notions used to state the properties of the parser -/

/-- The leaf computation that `runParseFunc` builds when the parse function `g` is started in
`state` on a reader whose unread runes are `t`. -/
def Func.leafOn {σ : Type} (g : Func σ) (t : List Rune) (state : σ) : Computation σ :=
  NewComputation (g.call (NewTrackingRuneIter t) state).2.MaxRead
    (g.call (NewTrackingRuneIter t) state).1.NumConsumed state
    (g.call (NewTrackingRuneIter t) state).1.NextState
    (g.call (NewTrackingRuneIter t) state).1.ComputedTokens

/-- The parse function reads at least one codepoint before it returns, and never reports
more codepoints consumed than it has read. -/
def Func.ReadsWhatItConsumes {σ : Type} (f : Func σ) : Prop :=
  (∀ state seen res, f.onRunes state seen = some res →
      seen ≠ [] ∧ res.NumConsumed ≤ seen.length) ∧
    (∀ state seen, (f.onEOF state seen).NumConsumed ≤ seen.length)

/-- The sum of the consumed lengths of a list of computations. -/
def sumConsumed {σ : Type} (cs : List (Computation σ)) : Nat :=
  (cs.map Computation.ConsumedLength).sum

/-- The computations `cs` are what consecutive invocations of the parse function `g` yield
on the unread runes `t`, the first started in `state`, each next one started where the
previous one stopped consuming and in the state it ended in. -/
def IsRun {σ : Type} (g : Func σ) : List Rune → σ → List (Computation σ) → Prop
  | _, _, [] => True
  | t, state, c :: cs =>
    t ≠ [] ∧ c = g.leafOn t state ∧ IsRun g (t.drop c.ConsumedLength) c.EndState cs

/-- Whether `sub` is the sub-computation of `c` that starts at position `q`, when `c` itself
starts at position `startPos`. -/
def Computation.subAt {σ : Type} [DecidableEq σ] :
    Computation σ → Nat → Computation σ → Nat → Bool
  | .leaf readLength consumedLength startState endState tokens, startPos, sub, q =>
    decide (Computation.leaf readLength consumedLength startState endState tokens = sub ∧ startPos = q)
  | .node l r, startPos, sub, q =>
    decide (Computation.node l r = sub ∧ startPos = q) || l.subAt startPos sub q
      || r.subAt (startPos + l.ConsumedLength) sub q

/-- An edit is an insertion or a deletion, not both at once. -/
def Edit.IsPure (edit : Edit) : Prop :=
  edit.numInserted = 0 ∨ edit.numDeleted = 0

instance (edit : Edit) : Decidable edit.IsPure := by
  unfold Edit.IsPure; infer_instance

/-- An edit of the document `tree` that inserts the codepoints `inserted`: it is a deletion,
or an insertion at a position before the end of the document. -/
def Edit.ValidFor (edit : Edit) (inserted : List Rune) (tree : Doc) : Prop :=
  inserted.length = edit.numInserted ∧
    (edit.numInserted = 0 ∨ (edit.numDeleted = 0 ∧ edit.pos < tree.length))

instance (edit : Edit) (inserted : List Rune) (tree : Doc) :
    Decidable (edit.ValidFor inserted tree) := by
  unfold Edit.ValidFor; infer_instance

/-- Every edit of the sequence is valid for the document it is applied to. -/
def ValidEdits : Doc → List (Edit × List Rune) → Prop
  | _, [] => True
  | tree, (edit, inserted) :: rest =>
    edit.ValidFor inserted tree ∧ ValidEdits (edit.applyTo inserted tree) rest

/-- The document after a sequence of edits. -/
def finalDoc : Doc → List (Edit × List Rune) → Doc
  | tree, [] => tree
  | tree, (edit, inserted) :: rest => finalDoc (edit.applyTo inserted tree) rest

/-- The leaf computations of `c` consume, one after the other from position 0, exactly the
`n` codepoints of a document, and each of them satisfies `0 < consumed ≤ maxRead`. -/
def Computation.Covers {σ : Type} (c : Option (Computation σ)) (n : Nat) : Prop :=
  sumConsumed (Computation.Leaves c) = n ∧
    ∀ l ∈ Computation.Leaves c, 0 < l.ConsumedLength ∧ l.ConsumedLength ≤ l.ReadLength

/-- The state in which a run of computations started in `state` ends. -/
def lastState {σ : Type} : σ → List (Computation σ) → σ
  | state, [] => state
  | _, c :: cs => lastState c.EndState cs

/-- Consecutive computations, the first at position `startPos`, none of which looked at a
position at or past `rangeEndPos`. -/
def FitsFrom {σ : Type} : Nat → Nat → List (Computation σ) → Prop
  | _, _, [] => True
  | startPos, rangeEndPos, c :: cs =>
    startPos + c.ReadLength ≤ rangeEndPos ∧ FitsFrom (startPos + c.ConsumedLength) rangeEndPos cs

/-- The tokens of consecutive computations, the first at position `startPos`. -/
def leavesTokens {σ : Type} : List (Computation σ) → Nat → List Token
  | [], _ => []
  | c :: cs, startPos => c.tokensFrom startPos ++ leavesTokens cs (startPos + c.ConsumedLength)

/-! ### Example parse functions -/

/-- A two-valued state space for the examples: the initial state and the nil state. -/
inductive ExampleState where
  | Empty : ExampleState
  | Nil : ExampleState
deriving DecidableEq, Repr

instance : ParseState ExampleState where
  EmptyState := ExampleState.Empty
  nilState := ExampleState.Nil

/-- Example parse function: reads one codepoint and makes it a token whose role is the
codepoint. -/
def perRuneFunc : Func ExampleState :=
  { onRunes := fun state seen =>
      match seen with
      | [] => none
      | r :: _ => some { NumConsumed := 1, ComputedTokens := [⟨0, 1, r.toNat⟩], NextState := state }
    onEOF := fun _ _ => FailedResult }

/-- Example parse function: reads up to the end of the document and makes one token of
everything it read. -/
def restOfDocFunc : Func ExampleState :=
  { onRunes := fun _ _ => none
    onEOF := fun state seen =>
      { NumConsumed := seen.length, ComputedTokens := [⟨0, seen.length, 0⟩], NextState := state } }

/-- Example parse function: reports one codepoint consumed, as a token, without reading. -/
def blindFunc : Func ExampleState :=
  { onRunes := fun state _ =>
      some { NumConsumed := 1, ComputedTokens := [⟨0, 1, 0⟩], NextState := state }
    onEOF := fun _ _ => FailedResult }

/-- Example parse function: fails at once, without reading. -/
def failingFunc : Func ExampleState :=
  { onRunes := fun _ _ => some FailedResult
    onEOF := fun _ _ => FailedResult }

/-- Example parse function: reads one codepoint and reports two consumed. -/
def doubleFunc : Func ExampleState :=
  { onRunes := fun state seen =>
      match seen with
      | [] => none
      | _ :: _ => some { NumConsumed := 2, ComputedTokens := [], NextState := state }
    onEOF := fun _ _ => FailedResult }

/-- Example: the leaf computation of `perRuneFunc` for the codepoint `r`. -/
def perRuneLeaf (r : Nat) : Computation ExampleState :=
  .leaf 1 1 .Empty .Empty [⟨0, 1, r⟩]

/-- Example: the parser of `perRuneFunc` after `ParseAll` on the document `[10, 20]`. -/
def perRuneParser : P ExampleState :=
  { parseFunc := perRuneFunc.recoverFromFailure
    prevComputation := some (.node (perRuneLeaf 10) (perRuneLeaf 20)) }

end Parser

/-! ### Grapheme clusters (`internal/pkg/text/segment/grapheme_cluster.go`) -/

namespace segment

/-- The grapheme-break property classes (`gbProp`, generated by `gen_props.go` from the
`--propertyName` list of grapheme_cluster.go:9). `None` is the zero value: the class of a
codepoint that has none of the listed properties, and the `lastProp` of a new iterator. -/
inductive gbProp where
  | None
  | Prepend
  | Control
  | Extend
  | Regional_Indicator
  | SpacingMark
  | L
  | V
  | T
  | LV
  | LVT
  | ZWJ
  | CR
  | LF
  | Extended_Pictographic
deriving DecidableEq, Repr

/-- A segment (`Segment`): the runes appended to it, in the order they were appended. -/
structure Segment where
  runes : List Rune
deriving DecidableEq, Repr

/-- The function `NewSegment`: an empty segment. -/
def NewSegment : Segment :=
  { runes := [] }

/-- The method `Segment.Append`. -/
def Segment.Append (seg : Segment) (r : Rune) : Segment :=
  { runes := seg.runes ++ [r] }

/-- The method `Segment.NumRunes`. -/
def Segment.NumRunes (seg : Segment) : Nat :=
  seg.runes.length

/-- The method `Segment.ReverseRunes`. -/
def Segment.ReverseRunes (seg : Segment) : Segment :=
  { runes := seg.runes.reverse }

/-- The type `graphemeClusterIter` (grapheme_cluster.go:14). `runeIter` holds the runes the
rune iterator has not produced yet; `currentSegment` is a pointer and may be nil. -/
structure graphemeClusterIter where
  currentSegment : Option Segment
  runeIter : List Rune
  lastProp : gbProp
  inExtendedPictographic : Bool
  afterExtendedPictographicPlusZWJ : Bool
  lastPropsWereRIOdd : Bool
  lastPropsWereRIEven : Bool
deriving DecidableEq, Repr

/-- The function `NewGraphemeClusterIter` (grapheme_cluster.go:28). -/
def NewGraphemeClusterIter (runeIter : List Rune) : graphemeClusterIter :=
  { currentSegment := some NewSegment
    runeIter := runeIter
    lastProp := gbProp.None
    inExtendedPictographic := false
    afterExtendedPictographicPlusZWJ := false
    lastPropsWereRIOdd := false
    lastPropsWereRIEven := false }

/-- The method `graphemeClusterIter.processRune` (grapheme_cluster.go:75): whether the
position before the rune is a valid breakpoint, and the iterator after the deferred update
of its state. The table `gbPropForRune` (generated, not among the sources) is a parameter. -/
def graphemeClusterIter.processRune (gbPropForRune : Rune → gbProp) (g : graphemeClusterIter)
    (r : Rune) : Bool × graphemeClusterIter :=
  let prop := gbPropForRune r
  let canBreakBefore : Bool :=
    -- GB3: CR × LF
    if prop = gbProp.LF ∧ g.lastProp = gbProp.CR then false
    -- GB4: (Control | CR | LF) ÷        GB5: ÷ (Control | CR | LF)
    else if g.lastProp = gbProp.Control ∨ g.lastProp = gbProp.CR ∨ g.lastProp = gbProp.LF ∨
        prop = gbProp.Control ∨ prop = gbProp.CR ∨ prop = gbProp.LF then true
    else if
        -- GB6: L × (L | V | LV | LVT)
        (g.lastProp = gbProp.L ∧
          (prop = gbProp.L ∨ prop = gbProp.V ∨ prop = gbProp.LV ∨ prop = gbProp.LVT)) ∨
        -- GB7: (LV | V) × (V | T)
        ((g.lastProp = gbProp.LV ∨ g.lastProp = gbProp.V) ∧ (prop = gbProp.V ∨ prop = gbProp.T)) ∨
        -- GB8: (LVT | T) × T
        ((g.lastProp = gbProp.LVT ∨ g.lastProp = gbProp.T) ∧ prop = gbProp.T) ∨
        -- GB9: × (Extend | ZWJ)
        prop = gbProp.Extend ∨ prop = gbProp.ZWJ ∨
        -- GB9a: × SpacingMark
        prop = gbProp.SpacingMark ∨
        -- GB9b: Prepend ×
        g.lastProp = gbProp.Prepend ∨
        -- GB11: ExtPict Extend* ZWJ × ExtPict
        (g.afterExtendedPictographicPlusZWJ = true ∧ prop = gbProp.Extended_Pictographic) ∨
        -- GB12, GB13: (RI RI)* RI × RI
        (g.lastPropsWereRIOdd = true ∧ prop = gbProp.Regional_Indicator) then false
    -- GB999: Any ÷ Any
    else true
  -- the deferred update of the state
  (canBreakBefore,
    { g with
      lastPropsWereRIEven := decide (prop = gbProp.Regional_Indicator) && g.lastPropsWereRIOdd
      lastPropsWereRIOdd := decide (prop = gbProp.Regional_Indicator) && !g.lastPropsWereRIOdd
      afterExtendedPictographicPlusZWJ := g.inExtendedPictographic && decide (prop = gbProp.ZWJ)
      inExtendedPictographic :=
        decide (prop = gbProp.Extended_Pictographic) ||
          (g.inExtendedPictographic && decide (prop = gbProp.Extend))
      lastProp := prop })

/-- The loop of `graphemeClusterIter.NextSegment` (grapheme_cluster.go:48-71) over the runes
the rune iterator still holds. The result is `none` if the loop dereferences a nil
`currentSegment`; otherwise the segment returned (`none` for `io.EOF`) and the iterator. -/
def graphemeClusterIter.nextSegmentLoop (gbPropForRune : Rune → gbProp) :
    List Rune → graphemeClusterIter → Option (Option Segment × graphemeClusterIter)
  | [], g =>
    match g.currentSegment with
    | some seg =>
      if seg.NumRunes > 0 then
        some (some seg, { g with runeIter := [], currentSegment := none })
      else some (none, { g with runeIter := [] })
    | none => some (none, { g with runeIter := [] })
  | r :: rs, g =>
    match (g.processRune gbPropForRune r).2.currentSegment with
    | none => none
    | some seg =>
      if (g.processRune gbPropForRune r).1 = true ∧ seg.NumRunes > 0 then
        some (some seg,
          { (g.processRune gbPropForRune r).2 with
            runeIter := rs, currentSegment := some (NewSegment.Append r) })
      else
        graphemeClusterIter.nextSegmentLoop gbPropForRune rs
          { (g.processRune gbPropForRune r).2 with runeIter := rs, currentSegment := some (seg.Append r) }

/-- The method `graphemeClusterIter.NextSegment` (grapheme_cluster.go:47). -/
def graphemeClusterIter.NextSegment (gbPropForRune : Rune → gbProp) (g : graphemeClusterIter) :
    Option (Option Segment × graphemeClusterIter) :=
  graphemeClusterIter.nextSegmentLoop gbPropForRune g.runeIter g

/-- Calling `NextSegment` until it returns `io.EOF`: the segments returned, in order. Each
unit of `fuel` pays for one call; `none` if a call fails or the fuel is spent first. -/
def graphemeClusterIter.allSegments (gbPropForRune : Rune → gbProp) :
    Nat → graphemeClusterIter → Option (List Segment)
  | 0, _ => none
  | fuel + 1, g =>
    match g.NextSegment gbPropForRune with
    | none => none
    | some (none, _) => some []
    | some (some seg, g') => (graphemeClusterIter.allSegments gbPropForRune fuel g').map (seg :: ·)

/-- The type `reverseGraphemeClusterIter` (grapheme_cluster.go:135). `runeIter` holds the
runes not produced yet, in the order the iterator produces them (reverse document order). -/
structure reverseGraphemeClusterIter where
  currentSegment : Option Segment
  runeIter : List Rune
  lastProp : gbProp
deriving DecidableEq, Repr

/-- The function `NewReverseGraphemeClusterIter` (grapheme_cluster.go:142). -/
def NewReverseGraphemeClusterIter (runeIter : List Rune) : reverseGraphemeClusterIter :=
  { currentSegment := some NewSegment, runeIter := runeIter, lastProp := gbProp.None }

/-- The loop of `lookaheadExtendedPictographicSequence` (grapheme_cluster.go:262-276) over the
runes of the cloned iterator. -/
def lookaheadExtendedPictographicLoop (gbPropForRune : Rune → gbProp) : List Rune → Bool
  | [] => false
  | r :: rs =>
    if gbPropForRune r = gbProp.Extend then lookaheadExtendedPictographicLoop gbPropForRune rs
    else if gbPropForRune r = gbProp.Extended_Pictographic then true
    else false

/-- The method `reverseGraphemeClusterIter.lookaheadExtendedPictographicSequence`
(grapheme_cluster.go:258). -/
def reverseGraphemeClusterIter.lookaheadExtendedPictographicSequence
    (gbPropForRune : Rune → gbProp) (g : reverseGraphemeClusterIter) : Bool :=
  lookaheadExtendedPictographicLoop gbPropForRune g.runeIter

/-- The loop of `lookaheadEvenRI` (grapheme_cluster.go:282-294): the final `riCount`. -/
def lookaheadRICount (gbPropForRune : Rune → gbProp) : List Rune → Nat → Nat
  | [], riCount => riCount
  | r :: rs, riCount =>
    if gbPropForRune r = gbProp.Regional_Indicator then lookaheadRICount gbPropForRune rs (riCount + 1)
    else riCount

/-- The method `reverseGraphemeClusterIter.lookaheadEvenRI` (grapheme_cluster.go:279). -/
def reverseGraphemeClusterIter.lookaheadEvenRI (gbPropForRune : Rune → gbProp)
    (g : reverseGraphemeClusterIter) : Bool :=
  decide (lookaheadRICount gbPropForRune g.runeIter 0 % 2 = 0)

/-- The method `reverseGraphemeClusterIter.processRune` (grapheme_cluster.go:190); it is
called after `NextRune`, so `g.runeIter` holds the runes that follow `r` in the iterator. -/
def reverseGraphemeClusterIter.processRune (gbPropForRune : Rune → gbProp)
    (g : reverseGraphemeClusterIter) (r : Rune) : Bool × reverseGraphemeClusterIter :=
  let prop := gbPropForRune r
  let canBreakAfter : Bool :=
    -- GB3: CR × LF
    if prop = gbProp.CR ∧ g.lastProp = gbProp.LF then false
    -- GB4: (Control | CR | LF) ÷
    else if prop = gbProp.Control ∨ prop = gbProp.CR ∨ prop = gbProp.LF then true
    -- GB5: ÷ (Control | CR | LF)
    else if g.lastProp = gbProp.Control ∨ g.lastProp = gbProp.CR ∨ g.lastProp = gbProp.LF then true
    -- GB6: L × (L | V | LV | LVT)
    else if prop = gbProp.L ∧ (g.lastProp = gbProp.L ∨ g.lastProp = gbProp.V ∨
        g.lastProp = gbProp.LV ∨ g.lastProp = gbProp.LVT) then false
    -- GB7: (LV | V) × (V | T)
    else if (prop = gbProp.LV ∨ prop = gbProp.V) ∧ (g.lastProp = gbProp.V ∨ g.lastProp = gbProp.T) then
      false
    -- GB8: (LVT | T) × T
    else if (prop = gbProp.LVT ∨ prop = gbProp.T) ∧ g.lastProp = gbProp.T then false
    -- GB9: × (Extend | ZWJ)
    else if g.lastProp = gbProp.Extend ∨ g.lastProp = gbProp.ZWJ then false
    -- GB9a: × SpacingMark
    else if g.lastProp = gbProp.SpacingMark then false
    -- GB9b: Prepend ×
    else if prop = gbProp.Prepend then false
    -- GB11: ExtPict Extend* ZWJ × ExtPict
    else if prop = gbProp.ZWJ ∧ g.lastProp = gbProp.Extended_Pictographic ∧
        g.lookaheadExtendedPictographicSequence gbPropForRune = true then false
    -- GB12, GB13: (RI RI)* RI × RI
    else if g.lastProp = gbProp.Regional_Indicator ∧ prop = gbProp.Regional_Indicator ∧
        g.lookaheadEvenRI gbPropForRune = true then false
    -- GB999: Any ÷ Any
    else true
  -- the deferred update of the state
  (canBreakAfter, { g with lastProp := prop })

/-- The loop of `reverseGraphemeClusterIter.NextSegment` (grapheme_cluster.go:161-187). -/
def reverseGraphemeClusterIter.nextSegmentLoop (gbPropForRune : Rune → gbProp) :
    List Rune → reverseGraphemeClusterIter → Option (Option Segment × reverseGraphemeClusterIter)
  | [], g =>
    match g.currentSegment with
    | some seg =>
      if seg.NumRunes > 0 then
        some (some seg.ReverseRunes, { g with runeIter := [], currentSegment := none })
      else some (none, { g with runeIter := [] })
    | none => some (none, { g with runeIter := [] })
  | r :: rs, g =>
    match g.currentSegment with
    | none => none
    | some seg =>
      if (reverseGraphemeClusterIter.processRune gbPropForRune { g with runeIter := rs } r).1 = true
          ∧ seg.NumRunes > 0 then
        some (some seg.ReverseRunes,
          { (reverseGraphemeClusterIter.processRune gbPropForRune { g with runeIter := rs } r).2 with
            currentSegment := some (NewSegment.Append r) })
      else
        reverseGraphemeClusterIter.nextSegmentLoop gbPropForRune rs
          { (reverseGraphemeClusterIter.processRune gbPropForRune { g with runeIter := rs } r).2 with
            currentSegment := some (seg.Append r) }

/-- The method `reverseGraphemeClusterIter.NextSegment` (grapheme_cluster.go:160). -/
def reverseGraphemeClusterIter.NextSegment (gbPropForRune : Rune → gbProp)
    (g : reverseGraphemeClusterIter) : Option (Option Segment × reverseGraphemeClusterIter) :=
  reverseGraphemeClusterIter.nextSegmentLoop gbPropForRune g.runeIter g

/-- Calling `NextSegment` of the reverse iterator until it returns `io.EOF`. -/
def reverseGraphemeClusterIter.allSegments (gbPropForRune : Rune → gbProp) :
    Nat → reverseGraphemeClusterIter → Option (List Segment)
  | 0, _ => none
  | fuel + 1, g =>
    match g.NextSegment gbPropForRune with
    | none => none
    | some (none, _) => some []
    | some (some seg, g') =>
      (reverseGraphemeClusterIter.allSegments gbPropForRune fuel g').map (seg :: ·)

/-! ### The UAX #29 rules, as the specification words them -/

/-- Whether a class is Control, CR or LF. -/
def gbProp.isControlOrNewline (p : gbProp) : Bool :=
  decide (p = gbProp.Control ∨ p = gbProp.CR ∨ p = gbProp.LF)

/-- Whether the classes, read backwards from the end of a prefix, are zero or more Extend
preceded by an Extended_Pictographic: the prefix ends with `Extended_Pictographic Extend*`. -/
def endsExtPictExtend : List gbProp → Bool
  | [] => false
  | p :: ps =>
    if p = gbProp.Extend then endsExtPictExtend ps else decide (p = gbProp.Extended_Pictographic)

/-- Whether the prefix (given backwards) ends with `Extended_Pictographic Extend* ZWJ`. -/
def endsExtPictExtendZWJ : List gbProp → Bool
  | gbProp.ZWJ :: ps => endsExtPictExtend ps
  | _ => false

/-- The length of the maximal run of Regional_Indicator that ends the prefix (given
backwards). -/
def riRunLength : List gbProp → Nat
  | [] => 0
  | p :: ps => if p = gbProp.Regional_Indicator then riRunLength ps + 1 else 0

/-- Whether UAX #29 says break between a non-empty prefix, given backwards as `q :: before`,
and a following codepoint of class `p`: rules GB3, GB4, GB5, GB6 to GB9b, GB11, GB12 and
GB13, GB999, in that order. -/
def uaxBreakAfter : List gbProp → gbProp → Bool
  | [], _ => true
  | q :: before, p =>
    if q = gbProp.CR ∧ p = gbProp.LF then false
    else if q.isControlOrNewline = true ∨ p.isControlOrNewline = true then true
    else if (q = gbProp.L ∧ (p = gbProp.L ∨ p = gbProp.V ∨ p = gbProp.LV ∨ p = gbProp.LVT))
        ∨ ((q = gbProp.LV ∨ q = gbProp.V) ∧ (p = gbProp.V ∨ p = gbProp.T))
        ∨ ((q = gbProp.LVT ∨ q = gbProp.T) ∧ p = gbProp.T)
        ∨ (p = gbProp.Extend ∨ p = gbProp.ZWJ)
        ∨ p = gbProp.SpacingMark
        ∨ q = gbProp.Prepend
        ∨ (p = gbProp.Extended_Pictographic ∧ endsExtPictExtendZWJ (q :: before) = true)
        ∨ (p = gbProp.Regional_Indicator ∧ riRunLength (q :: before) % 2 = 1) then false
    else true

/-- Whether UAX #29 says break between the codepoints `i - 1` and `i` of a sequence of
classes `p_0 .. p_{n-1}`. -/
def uaxBreak (ps : List gbProp) (i : Nat) : Bool :=
  match ps.get? i with
  | none => true
  | some p => uaxBreakAfter (ps.take i).reverse p

/-- The segments of `cur ++ xs`, where `cur` is the segment under construction and the first
element of `xs` has index `i`: a segment ends before each element at whose index `brk` holds. -/
def splitBy {α : Type} (brk : Nat → Bool) : Nat → List α → List α → List (List α)
  | _, cur, [] => if 0 < cur.length then [cur] else []
  | i, cur, x :: xs =>
    if brk i = true ∧ 0 < cur.length then cur :: splitBy brk (i + 1) [x] xs
    else splitBy brk (i + 1) (cur ++ [x]) xs

/-- The positions at which the segments of a segmentation end. -/
def segmentEnds {α : Type} : List (List α) → List Nat
  | [] => []
  | s :: ss => s.length :: (segmentEnds ss).map (· + s.length)

/-- Forward segmentation by the rules, with the classes of the text before `cur ++ rest` given
backwards in `before`. -/
def splitForward (gbPropForRune : Rune → gbProp) : List gbProp → List Rune → List Rune → List (List Rune)
  | _, cur, [] => if 0 < cur.length then [cur] else []
  | before, cur, r :: rs =>
    if uaxBreakAfter before (gbPropForRune r) = true ∧ 0 < cur.length then
      cur :: splitForward gbPropForRune (gbPropForRune r :: before) [r] rs
    else splitForward gbPropForRune (gbPropForRune r :: before) (cur ++ [r]) rs

/-- Backward segmentation by the rules: `rest` holds the text not yet seen, backwards, `cur`
the segment under construction, backwards, and `last` the class of the rune seen last. -/
def splitBackward (gbPropForRune : Rune → gbProp) : gbProp → List Rune → List Rune → List (List Rune)
  | _, cur, [] => if 0 < cur.length then [cur.reverse] else []
  | last, cur, r :: rs =>
    if uaxBreakAfter (gbPropForRune r :: rs.map gbPropForRune) last = true ∧ 0 < cur.length then
      cur.reverse :: splitBackward gbPropForRune (gbPropForRune r) [r] rs
    else splitBackward gbPropForRune (gbPropForRune r) (cur ++ [r]) rs

/-- Segmentation from the end of a text: `xs` holds the text not yet seen, backwards, `cur`
the segment under construction, and a segment starts after the element of index `i - 1`
when `brk i` holds. -/
def splitByBackward {α : Type} (brk : Nat → Bool) : List α → List α → List (List α)
  | cur, [] => if 0 < cur.length then [cur] else []
  | cur, x :: xs =>
    if brk (xs.length + 1) = true ∧ 0 < cur.length then cur :: splitByBackward brk [x] xs
    else splitByBackward brk (x :: cur) xs

/-- Example table of grapheme-break classes for a few codepoints: CR, LF, two combining
marks, ZWJ, the regional indicators, one emoji; every other codepoint has no class. -/
def sampleProps (r : Rune) : gbProp :=
  if r = 0x0D then gbProp.CR
  else if r = 0x0A then gbProp.LF
  else if r = 0x0301 ∨ r = 0x0308 then gbProp.Extend
  else if r = 0x200D then gbProp.ZWJ
  else if 0x1F1E6 ≤ r ∧ r ≤ 0x1F1FF then gbProp.Regional_Indicator
  else if r = 0x1F600 then gbProp.Extended_Pictographic
  else gbProp.None

/-- The state of a forward iterator describes the classes `before` of the runes it has
processed (given backwards): the class seen last, whether they end with
`Extended_Pictographic Extend*`, whether they end with `Extended_Pictographic Extend* ZWJ`,
and the parity of the run of Regional_Indicator that ends them. -/
def graphemeClusterIter.Tracks (g : graphemeClusterIter) (before : List gbProp) : Prop :=
  (∀ q rest, before = q :: rest → g.lastProp = q) ∧
    g.inExtendedPictographic = endsExtPictExtend before ∧
    g.afterExtendedPictographicPlusZWJ = endsExtPictExtendZWJ before ∧
    g.lastPropsWereRIOdd = decide (riRunLength before % 2 = 1) ∧
    g.lastPropsWereRIEven = decide (0 < riRunLength before ∧ riRunLength before % 2 = 0)

end segment

/-! ### The text tree (exercised by `text/tree_test.go`) -/

namespace text

/-- A byte of a Go string. -/
abbrev Byte := Nat

/-- Go's `utf8.ValidRune`: a Unicode scalar value (not negative, not a surrogate, at most
U+10FFFF). -/
def validRune (r : Rune) : Bool :=
  (decide (0 ≤ r) && decide (r < 0xD800)) || (decide (0xE000 ≤ r) && decide (r ≤ 0x10FFFF))

/-- The UTF-8 encoding of a codepoint (Go's `utf8.EncodeRune`): one to four bytes for a
Unicode scalar value, the encoding of U+FFFD for any other value. -/
def encodeRune (r : Rune) : List Byte :=
  if validRune r = false then [0xEF, 0xBF, 0xBD]
  else if r.toNat < 0x80 then [r.toNat]
  else if r.toNat < 0x800 then [0xC0 + r.toNat / 64, 0x80 + r.toNat % 64]
  else if r.toNat < 0x10000 then
    [0xE0 + r.toNat / 4096, 0x80 + r.toNat / 64 % 64, 0x80 + r.toNat % 64]
  else
    [0xF0 + r.toNat / 262144, 0x80 + r.toNat / 4096 % 64, 0x80 + r.toNat / 64 % 64,
      0x80 + r.toNat % 64]

/-- The Go conversion `string(runes)`: the UTF-8 encoding of a sequence of codepoints. -/
def encodeRunes (runes : List Rune) : List Byte :=
  (runes.map encodeRune).flatten

/-- Whether a byte starts a codepoint: it is not a continuation byte `10xxxxxx`. -/
def isStartByte (b : Byte) : Bool :=
  decide (b < 0x80) || decide (0xC0 ≤ b)

/-- The number of bytes of the codepoint that a lead byte starts; 0 for a byte that is not a
valid lead byte. -/
def charWidth (b : Byte) : Nat :=
  if b < 0x80 then 1
  else if 0xC0 ≤ b ∧ b < 0xE0 then 2
  else if 0xE0 ≤ b ∧ b < 0xF0 then 3
  else if 0xF0 ≤ b ∧ b < 0xF8 then 4
  else 0

/-- Decoding and validation of UTF-8, byte by byte: `need` continuation bytes are still
expected for the codepoint under construction, `acc` holds its bits so far and `least` the
least value that its width may encode. `none` for ill-formed input. -/
def decodeLoop : List Byte → Nat → Nat → Nat → Option (List Rune)
  | [], need, _, _ => if need = 0 then some [] else none
  | b :: bs, 0, _, _ =>
    if b < 0x80 then (decodeLoop bs 0 0 0).map ((b : Rune) :: ·)
    else if 0xC0 ≤ b ∧ b < 0xE0 then decodeLoop bs 1 (b - 0xC0) 0x80
    else if 0xE0 ≤ b ∧ b < 0xF0 then decodeLoop bs 2 (b - 0xE0) 0x800
    else if 0xF0 ≤ b ∧ b < 0xF8 then decodeLoop bs 3 (b - 0xF0) 0x10000
    else none
  | b :: bs, need + 1, acc, least =>
    if 0x80 ≤ b ∧ b < 0xC0 then
      if need = 0 then
        if least ≤ acc * 64 + (b - 0x80) ∧ validRune ((acc * 64 + (b - 0x80) : Nat) : Rune) = true then
          (decodeLoop bs 0 0 0).map (((acc * 64 + (b - 0x80) : Nat) : Rune) :: ·)
        else none
      else decodeLoop bs need (acc * 64 + (b - 0x80)) least
    else none

/-- The codepoints of a byte sequence, `none` if it is not valid UTF-8. -/
def decodeUtf8 (bytes : List Byte) : Option (List Rune) :=
  decodeLoop bytes 0 0 0

/-- Modelled from the spec: the summaries cached in every node of the text tree, "byte length,
codepoint count, line-feed count". -/
structure Summary where
  numBytes : Nat
  numChars : Nat
  numLines : Nat
deriving DecidableEq, Repr

/-- Modelled from the spec: the summaries of the bytes of a leaf, "the exact count over its
bytes"; codepoints are counted by their start bytes, line feeds are the bytes U+000A. -/
def Summary.ofBytes (bytes : List Byte) : Summary :=
  { numBytes := bytes.length
    numChars := (bytes.filter isStartByte).length
    numLines := (bytes.filter (· = 0x0A)).length }

/-- Modelled from the spec: the summaries of an internal node, "the sum of its children’s". -/
def Summary.add (a b : Summary) : Summary :=
  { numBytes := a.numBytes + b.numBytes
    numChars := a.numChars + b.numChars
    numLines := a.numLines + b.numLines }

/-- Modelled from the spec: the nodes of the piece tree (not among the sources). A leaf "owns a
fixed-capacity UTF-8 byte buffer" and an internal node "owns two children (left, right)";
both carry the cached summaries. -/
inductive Node where
  | leaf (bytes : List Byte) (summary : Summary) : Node
  | inner (left right : Node) (summary : Summary) : Node
deriving DecidableEq, Repr

/-- The cached summaries of a node. -/
def Node.summary : Node → Summary
  | .leaf _ summary => summary
  | .inner _ _ summary => summary

/-- Modelled from the spec: a new leaf with the summaries of its bytes. -/
def newLeaf (bytes : List Byte) : Node :=
  .leaf bytes (Summary.ofBytes bytes)

/-- Modelled from the spec: a new internal node with the summaries of its children. -/
def newInner (left right : Node) : Node :=
  .inner left right (left.summary.add right.summary)

/-- Modelled from the spec: "concatenating all leaves in in-order yields the document bytes". -/
def Node.bytes : Node → List Byte
  | .leaf bytes _ => bytes
  | .inner left right _ => left.bytes ++ right.bytes

/-- Modelled from the spec: the type `Tree`, which "owns the root". -/
structure Tree where
  root : Node
deriving DecidableEq, Repr

/-- Modelled from the spec: `NewTree`, the empty tree. -/
def NewTree : Tree :=
  { root := newLeaf [] }

/-- Modelled from the spec: `Tree.String`, the text of the tree. -/
def Tree.String (tree : Tree) : List Byte :=
  tree.root.bytes

/-- Modelled from the spec: `Tree.NumChars`, from the cached summary of the root. -/
def Tree.NumChars (tree : Tree) : Nat :=
  tree.root.summary.numChars

/-- The errors of the text tree: ill-formed UTF-8, and an error of the reader. -/
inductive TreeError where
  | InvalidUtf8
  | IoError
deriving DecidableEq, Repr

/-- Modelled from the spec: the cut of the bytes of a document into leaves of at most
`maxBytesPerLeaf` bytes, "respecting UTF-8 codepoint boundaries": a codepoint whose bytes
would not all fit into the leaf under construction `cur` starts the next leaf. -/
def leafChunks (maxBytesPerLeaf : Nat) : List Byte → List Byte → List (List Byte)
  | [], cur => if 0 < cur.length then [cur] else []
  | b :: bs, cur =>
    if isStartByte b = true ∧ maxBytesPerLeaf < cur.length + charWidth b ∧ 0 < cur.length then
      cur :: leafChunks maxBytesPerLeaf bs [b]
    else leafChunks maxBytesPerLeaf bs (cur ++ [b])

/-- One level of the bottom-up construction: adjacent nodes are joined in pairs. -/
def joinPairs : List Node → List Node
  | a :: b :: rest => newInner a b :: joinPairs rest
  | rest => rest

/-- Modelled from the spec: a tree of depth O(log N) over the given nodes, built level by
level; `fuel` bounds the number of levels. -/
def buildTree : Nat → List Node → Node
  | _, [] => newLeaf []
  | _, [n] => n
  | 0, n :: _ => n
  | fuel + 1, nodes => buildTree fuel (joinPairs nodes)

/-- Modelled from the spec: a byte reader handed to `NewTreeFromReader`: the bytes it yields,
and the I/O error, if any, with which it ends instead of end-of-stream. -/
structure Reader where
  bytes : List Byte
  fails : Bool

/-- Modelled from the spec: `NewTreeFromReader`. "I/O errors from a streaming reader propagate",
ill-formed UTF-8 is an error, and otherwise the bytes are cut into leaves and the tree is
built over them ("construction is O(N)"). The capacity `maxBytesPerLeaf` of a leaf is a
constant of the package whose value is not among the sources. -/
def NewTreeFromReader (maxBytesPerLeaf : Nat) (r : Reader) : Except TreeError Tree :=
  if r.fails then .error TreeError.IoError
  else
    match decodeUtf8 r.bytes with
    | none => .error TreeError.InvalidUtf8
    | some _ =>
      let leaves := (leafChunks maxBytesPerLeaf r.bytes []).map newLeaf
      .ok { root := buildTree leaves.length leaves }

/-- Modelled from the spec: `NewTreeFromString`, the tree of the bytes of a string. -/
def NewTreeFromString (maxBytesPerLeaf : Nat) (s : List Byte) : Except TreeError Tree :=
  NewTreeFromReader maxBytesPerLeaf { bytes := s, fails := false }

end text

/-! ### Positions, lines and edits of the text tree -/

namespace text

/-- Modelled from the spec: `Tree.NumLines`, "lines = line-feed count + 1 for the virtual
trailing line", from the cached summary of the root. -/
def Tree.NumLines (tree : Tree) : Nat :=
  tree.root.summary.numLines + 1

/-- Modelled from the spec: the byte offset, within the bytes of a leaf, of the codepoint at
position `pos`. Codepoint starts are the bytes that are not continuation bytes; when the leaf
has no codepoint number `pos` the offset is the length of the bytes. -/
def byteOffsetForPosition : List Byte → Nat → Nat
  | [], _ => 0
  | b :: bs, pos =>
    if isStartByte b = true then
      match pos with
      | 0 => 0
      | pos + 1 => 1 + byteOffsetForPosition bs pos
    else 1 + byteOffsetForPosition bs pos

/-- Modelled from the spec: the byte offset of a position in a subtree ("summaries are
sufficient to answer position→(leaf, byte-offset-within-leaf)"): the descent goes left when
the position is below the codepoint count cached for the left child, and right otherwise. -/
def Node.byteOffsetForPosition : Node → Nat → Nat
  | .leaf bytes _, pos => text.byteOffsetForPosition bytes pos
  | .inner left right _, pos =>
    if pos < left.summary.numChars then left.byteOffsetForPosition pos
    else left.summary.numBytes + right.byteOffsetForPosition (pos - left.summary.numChars)

/-- Modelled from the spec: within the bytes of a leaf, the position just after the line feed
number `n` (counted from 0); the number of codepoints of the leaf when it has no such line
feed. -/
def positionAfterNewline : List Byte → Nat → Nat
  | [], _ => 0
  | b :: bs, n =>
    if b = 0x0A then
      match n with
      | 0 => 1
      | n + 1 => 1 + positionAfterNewline bs n
    else (if isStartByte b = true then 1 else 0) + positionAfterNewline bs n

/-- Modelled from the spec: the descent of `line_start_position`, which "exploits the cached
line-feed count per subtree: descend left if left’s line-feed count > k; else subtract and
descend right with k reduced by left’s line-feed count". Here `n` numbers the line feeds from
0, so that line `n + 1` starts just after line feed `n`; positions found in the right child
are counted from the start of the subtree. -/
def Node.positionAfterNewline : Node → Nat → Nat
  | .leaf bytes _, n => text.positionAfterNewline bytes n
  | .inner left right _, n =>
    if n < left.summary.numLines then left.positionAfterNewline n
    else left.summary.numChars + right.positionAfterNewline (n - left.summary.numLines)

/-- Modelled from the spec: `Tree.LineStartPosition`. "Line K starts at the codepoint
immediately after the K-th line-feed (U+000A), or at position 0 for K=0"; "if k exceeds the
number of lines, returns `num_chars()`". -/
def Tree.LineStartPosition (tree : Tree) (lineNum : Nat) : Nat :=
  match lineNum with
  | 0 => 0
  | n + 1 => tree.root.positionAfterNewline n

/-- Modelled from the spec: within the bytes of a leaf, the number of line feeds among the
codepoints before position `pos`. -/
def numNewlinesBeforePosition : List Byte → Nat → Nat
  | [], _ => 0
  | b :: bs, pos =>
    if isStartByte b = true then
      match pos with
      | 0 => 0
      | pos + 1 => (if b = 0x0A then 1 else 0) + numNewlinesBeforePosition bs pos
    else numNewlinesBeforePosition bs pos

/-- Modelled from the spec: the descent of `line_num_for_position` by the cached codepoint and
line-feed counts. -/
def Node.numNewlinesBeforePosition : Node → Nat → Nat
  | .leaf bytes _, pos => text.numNewlinesBeforePosition bytes pos
  | .inner left right _, pos =>
    if pos < left.summary.numChars then left.numNewlinesBeforePosition pos
    else left.summary.numLines + right.numNewlinesBeforePosition (pos - left.summary.numChars)

/-- Modelled from the spec: `Tree.LineNumForPosition`, "the zero-based line containing p",
where line K starts just after the K-th line feed: the number of line feeds before the
position. The position of a line feed is on the line that the line feed ends, as
`TestLineNumForPosition` of `text/tree_test.go` has it (position 2 of five line feeds is on
line 2, position 5 of "abcd\nefgh" on line 1). -/
def Tree.LineNumForPosition (tree : Tree) (pos : Nat) : Nat :=
  tree.root.numNewlinesBeforePosition pos

/-- The height of a node: 0 for a leaf. -/
def Node.height : Node → Nat
  | .leaf _ _ => 0
  | .inner left right _ => max left.height right.height + 1

/-- Whether the left child of an internal node is the higher one. -/
def Node.isLeftHeavy : Node → Bool
  | .leaf _ _ => false
  | .inner left right _ => decide (right.height < left.height)

/-- Whether the right child of an internal node is the higher one. -/
def Node.isRightHeavy : Node → Bool
  | .leaf _ _ => false
  | .inner left right _ => decide (left.height < right.height)

/-- A rotation to the right: the left child becomes the root. -/
def rotateRight : Node → Node
  | .inner (.inner ll lr _) right _ => newInner ll (newInner lr right)
  | node => node

/-- A rotation to the left: the right child becomes the root. -/
def rotateLeft : Node → Node
  | .inner left (.inner rl rr _) _ => newInner (newInner left rl) rr
  | node => node

/-- Modelled from the spec: the tree "is height-balanced", and the spec names "AVL with
rotation on insert/delete/split" as a natural fit: a node whose children differ in height by
more than one is rotated (twice when the higher child leans inwards). -/
def rebalance : Node → Node
  | .leaf bytes summary => .leaf bytes summary
  | .inner left right summary =>
    if right.height + 1 < left.height then
      rotateRight (newInner (if left.isRightHeavy = true then rotateLeft left else left) right)
    else if left.height + 1 < right.height then
      rotateLeft (newInner left (if right.isLeftHeavy = true then rotateRight right else right))
    else .inner left right summary

/-- Modelled from the spec: where a leaf that is over its capacity is split, "two leaves of
roughly half capacity each": the first codepoint boundary at or after the middle byte. -/
def splitOffset (bytes : List Byte) : Nat :=
  bytes.length / 2 +
    ((bytes.drop (bytes.length / 2)).takeWhile (fun b => !isStartByte b)).length

/-- Modelled from the spec: the insertion of the bytes of one codepoint at a position of a
subtree. The descent is by the cached codepoint counts; in the leaf the bytes go before the
codepoint at the position, or at the end when there is none ("if p > num_chars, the rune is
appended"); "leaves split when they would exceed capacity on insert"; the summaries of the
ancestors are renewed and the ancestors rebalanced on the way up. -/
def Node.insertAtPosition (maxBytesPerLeaf : Nat) : Node → Nat → List Byte → Node
  | .leaf bytes _, pos, encoded =>
    let offset := text.byteOffsetForPosition bytes pos
    let updated := bytes.take offset ++ encoded ++ bytes.drop offset
    if updated.length ≤ maxBytesPerLeaf then newLeaf updated
    else
      newInner (newLeaf (updated.take (splitOffset updated)))
        (newLeaf (updated.drop (splitOffset updated)))
  | .inner left right _, pos, encoded =>
    if pos < left.summary.numChars then
      rebalance (newInner (left.insertAtPosition maxBytesPerLeaf pos encoded) right)
    else
      rebalance (newInner left
        (right.insertAtPosition maxBytesPerLeaf (pos - left.summary.numChars) encoded))

/-- Modelled from the spec: `Tree.InsertAtPosition`, which "fails if the rune is not a valid
Unicode scalar value" and otherwise inserts the UTF-8 bytes of the rune. The method changes
the tree in place and returns an error: here it yields the tree after the call and the
error, if any. -/
def Tree.InsertAtPosition (maxBytesPerLeaf : Nat) (tree : Tree) (pos : Nat) (r : Rune) :
    Tree × Option TreeError :=
  if validRune r = false then (tree, some TreeError.InvalidUtf8)
  else ({ root := tree.root.insertAtPosition maxBytesPerLeaf pos (encodeRune r) }, none)

/-- Modelled from the spec: "nodes may also be merged when a deletion leaves a leaf under a
minimum fill threshold (e.g., ¼ capacity)": two sibling leaves of which one is under a
quarter of the capacity become one leaf when their bytes fit into it. -/
def mergeLeaves (maxBytesPerLeaf : Nat) : Node → Node
  | .inner (.leaf a sa) (.leaf b sb) summary =>
    if (a.length < maxBytesPerLeaf / 4 ∨ b.length < maxBytesPerLeaf / 4) ∧
        a.length + b.length ≤ maxBytesPerLeaf then newLeaf (a ++ b)
    else .inner (.leaf a sa) (.leaf b sb) summary
  | node => node

/-- Modelled from the spec: the deletion of the codepoint at a position of a subtree: in the
leaf found by the cached codepoint counts, the bytes from the start of the codepoint up to
the start of the next one are removed; on the way up the summaries are renewed, leaves
merged and the ancestors rebalanced. -/
def Node.deleteAtPosition (maxBytesPerLeaf : Nat) : Node → Nat → Node
  | .leaf bytes _, pos =>
    newLeaf (bytes.take (text.byteOffsetForPosition bytes pos) ++
      bytes.drop (text.byteOffsetForPosition bytes (pos + 1)))
  | .inner left right _, pos =>
    if pos < left.summary.numChars then
      rebalance (mergeLeaves maxBytesPerLeaf
        (newInner (left.deleteAtPosition maxBytesPerLeaf pos) right))
    else
      rebalance (mergeLeaves maxBytesPerLeaf
        (newInner left (right.deleteAtPosition maxBytesPerLeaf (pos - left.summary.numChars))))

/-- Modelled from the spec: `Tree.DeleteAtPosition`. "If p ≥ num_chars, no-op. Removes exactly
one codepoint; may merge or rebalance leaves." -/
def Tree.DeleteAtPosition (maxBytesPerLeaf : Nat) (tree : Tree) (pos : Nat) : Tree :=
  if tree.NumChars ≤ pos then tree
  else { root := tree.root.deleteAtPosition maxBytesPerLeaf pos }

/-- The two directions of a reader of the tree. -/
inductive ReadDirection where
  | ReadDirectionForward
  | ReadDirectionBackward
deriving DecidableEq, Repr

/-- Modelled from the spec: a reader of the tree, "a streaming reader that produces bytes
either forward or backward starting at the codepoint boundary at p": the tree it reads, the
byte offset it has reached and its direction. -/
structure TreeReader where
  tree : Tree
  offset : Nat
  direction : ReadDirection
deriving DecidableEq, Repr

/-- Modelled from the spec: `Tree.ReaderAtPosition`, the reader at the byte offset of the
position. Read backward from `NumChars` it yields the whole text, last byte first, as
`TestReadBackwards` of `text/tree_test.go` has it. -/
def Tree.ReaderAtPosition (tree : Tree) (pos : Nat) (direction : ReadDirection) : TreeReader :=
  { tree := tree, offset := tree.root.byteOffsetForPosition pos, direction := direction }

/-- The bytes that a reader has yet to yield, in the order in which it yields them: "the
backward reader returns bytes in reverse document order". -/
def TreeReader.remaining (reader : TreeReader) : List Byte :=
  match reader.direction with
  | .ReadDirectionForward => reader.tree.String.drop reader.offset
  | .ReadDirectionBackward => (reader.tree.String.take reader.offset).reverse

/-- Modelled from the spec: `Read` into a buffer of `n` bytes: the bytes read (as many as the
buffer holds, or all that remain), whether the end of the stream was met (`io.EOF`), and the
reader after the read. -/
def TreeReader.Read (reader : TreeReader) (n : Nat) : List Byte × Bool × TreeReader :=
  let bytes := reader.remaining.take n
  (bytes, decide (bytes.length < n),
    match reader.direction with
    | .ReadDirectionForward => { reader with offset := reader.offset + bytes.length }
    | .ReadDirectionBackward => { reader with offset := reader.offset - bytes.length })

/-- The invariants 2 and 3 of the spec on a subtree: the summaries cached in every node are
exact, and the bytes of every leaf are whole, valid UTF-8 codepoints. -/
def Node.wellFormed : Node → Bool
  | .leaf bytes summary =>
    decide (summary = Summary.ofBytes bytes) && (decodeUtf8 bytes).isSome
  | .inner left right summary =>
    decide (summary = left.summary.add right.summary) && left.wellFormed && right.wellFormed

/-- A tree holds the codepoint sequence `S`: its nodes are well formed and its text is the
UTF-8 encoding of `S`. -/
def Tree.Holds (tree : Tree) (S : List Rune) : Prop :=
  tree.root.wellFormed = true ∧ decodeUtf8 tree.String = some S

/-- A subtree represents the codepoint sequence `S`: its summaries are exact, every leaf holds
the encoding of valid codepoints, and in order the leaves hold `S`. -/
def Node.Rep : Node → List Rune → Prop
  | .leaf bytes summary, S =>
    summary = Summary.ofBytes bytes ∧ bytes = encodeRunes S ∧ ∀ r ∈ S, validRune r = true
  | .inner left right summary, S =>
    summary = left.summary.add right.summary ∧
      ∃ Sl Sr, S = Sl ++ Sr ∧ left.Rep Sl ∧ right.Rep Sr

end text

/-! ### Loading a file (`internal/pkg/file/load.go`) -/

namespace file

open text in
/-- The function `endsWithLineFeed`: one byte is read backward from the end of the text. -/
def endsWithLineFeed (tree : Tree) : Bool :=
  let reader := tree.ReaderAtPosition tree.NumChars ReadDirection.ReadDirectionBackward
  match reader.Read 1 with
  | (buf, err, _) =>
    if err = true ∨ buf.length = 0 then false
    else decide (buf.head? = some 0x0A)

open text in
/-- The function `removePosixEof`. `lastPos` is computed when the text ends with a line feed
only, so that `NumChars() - 1` does not wrap around. -/
def removePosixEof (maxBytesPerLeaf : Nat) (tree : Tree) : Tree :=
  if endsWithLineFeed tree = true then
    let lastPos := tree.NumChars - 1
    tree.DeleteAtPosition maxBytesPerLeaf lastPos
  else tree

open text in
/-- The function `Load`, for what it does to the text: the contents of the opened file are
read into a tree (`readContentsAndChecksum`) and `removePosixEof` is applied to it. Opening
the file, its modification time, the checksum and the watcher are left out. -/
def Load (maxBytesPerLeaf : Nat) (f : Reader) : Except TreeError Tree :=
  match NewTreeFromReader maxBytesPerLeaf f with
  | .error err => .error err
  | .ok tree => .ok (removePosixEof maxBytesPerLeaf tree)

end file

/-! ### Mutators of the editor state (`internal/pkg/exec/mutator.go`) -/

namespace exec

/-- The type `cursorState` of `internal/pkg/exec/state.go`. -/
structure cursorState where
  position : Nat
  logicalOffset : Nat
deriving DecidableEq, Repr

/-- The view of the document, with the fields that `mutator.go` uses. -/
structure viewState where
  origin : Nat
  width : Nat
  height : Nat
deriving DecidableEq, Repr

/-- The state that the mutators of `mutator.go` change: the text tree, the cursor and the
view. -/
structure State where
  tree : text.Tree
  cursor : cursorState
  view : viewState
deriving DecidableEq, Repr

/-- The interface `CursorLocator`: `Locate` finds a cursor from the state. -/
abbrev CursorLocator := State → cursorState

/-- The type `insertRuneMutator`. -/
structure insertRuneMutator where
  r : Rune

/-- The method `insertRuneMutator.Mutate`: an error of the tree ends it before the cursor
moves. -/
def insertRuneMutator.Mutate (maxBytesPerLeaf : Nat) (irm : insertRuneMutator) (state : State) :
    State :=
  let startPos := state.cursor.position
  match state.tree.InsertAtPosition maxBytesPerLeaf startPos irm.r with
  | (tree, some _) => { state with tree := tree }
  | (tree, none) =>
    { state with tree := tree, cursor := { state.cursor with position := startPos + 1 } }

/-- The type `deleteMutator`. -/
structure deleteMutator where
  loc : CursorLocator

/-- The method `deleteMutator.deleteCharacters`: `count` deletions at the same position. -/
def deleteMutator.deleteCharacters (maxBytesPerLeaf : Nat) (tree : text.Tree) (pos : Nat) :
    Nat → text.Tree
  | 0 => tree
  | count + 1 =>
    deleteMutator.deleteCharacters maxBytesPerLeaf (tree.DeleteAtPosition maxBytesPerLeaf pos)
      pos count

/-- The method `deleteMutator.Mutate`. -/
def deleteMutator.Mutate (maxBytesPerLeaf : Nat) (dm : deleteMutator) (state : State) : State :=
  let startPos := state.cursor.position
  let deleteToPos := (dm.loc state).position
  if startPos < deleteToPos then
    { state with
      tree := deleteMutator.deleteCharacters maxBytesPerLeaf state.tree startPos
        (deleteToPos - startPos)
      cursor := { position := startPos, logicalOffset := 0 } }
  else if startPos > deleteToPos then
    { state with
      tree := deleteMutator.deleteCharacters maxBytesPerLeaf state.tree deleteToPos
        (startPos - deleteToPos)
      cursor := { position := deleteToPos, logicalOffset := 0 } }
  else state

end exec

/-! ### Notions used to state the properties of the text tree -/

namespace text

/-- The line feed, U+000A. -/
def lineFeed : Rune := 0x0A

/-- In a codepoint sequence, the position just after the line feed number `n` (counted from
0), and the length of the sequence when it has no such line feed. -/
def positionAfterLineFeed : List Rune → Nat → Nat
  | [], _ => 0
  | r :: rs, n =>
    if r = lineFeed then
      match n with
      | 0 => 1
      | n + 1 => 1 + positionAfterLineFeed rs n
    else 1 + positionAfterLineFeed rs n

end text

/-! ### Example trees and states -/

namespace text

/-- An example: the codepoints of the text "a£\nb\n". -/
def exampleText : List Rune := [0x61, 0xA3, 0x0A, 0x62, 0x0A]

/-- An example: a tree of two leaves that holds the text "a£\nb\n". -/
def exampleTree : Tree :=
  { root := newInner (newLeaf [0x61, 0xC2, 0xA3]) (newLeaf [0x0A, 0x62, 0x0A]) }

/-- The line number that the tree of a string gives for a position, as the cases of
`TestLineNumForPosition` compute it: `none` if the string is not valid UTF-8. -/
def lineNumOfString (maxBytesPerLeaf : Nat) (s : List Byte) (pos : Nat) : Option Nat :=
  match NewTreeFromString maxBytesPerLeaf s with
  | .ok tree => some (tree.LineNumForPosition pos)
  | .error _ => none

end text

namespace exec

/-- An example: the state with the tree of "a£\nb\n", the cursor at position 1 and a view
of 80 columns and 24 rows. -/
def exampleState : State :=
  { tree := text.exampleTree
    cursor := { position := 1, logicalOffset := 0 }
    view := { origin := 0, width := 80, height := 24 } }

/-- An example: the locator of the position three codepoints after the cursor. -/
def exampleLocator : CursorLocator :=
  fun state => { position := state.cursor.position + 3, logicalOffset := 0 }

end exec

/-! ### The configuration (`config/config.go`) -/

namespace config

/-- A `float64` held in an untyped map, by its 64 bits. -/
structure Float64 where
  bits : Nat
deriving DecidableEq, Repr

/-- A value of type `interface{}`, by its dynamic type: the nil interface, the types that
`config.go` asserts (`string`, `int`, `float64`, `bool`, `[]interface{}` and
`map[string]interface{}`), and any other type, by its name. A slice and a map may be nil
(`none`); a map is given by its entries, of which the first for a key counts. -/
inductive Value where
  | nil
  | string (s : String)
  | int (n : Int)
  | float64 (f : Float64)
  | bool (b : Bool)
  | slice (s : Option (List Value))
  | map (m : Option (List (String × Value)))
  | other (typeName : String)

/-- The type `map[string]interface{}`; `none` is the nil map. -/
abbrev UntypedMap := Option (List (String × Value))

/-- The index expression `v, ok := m[key]`: `none` when `ok` is false. A nil map has no
entries. -/
def UntypedMap.get (m : UntypedMap) (key : String) : Option Value :=
  match m with
  | none => none
  | some entries => entries.lookup key

/-- The constant `DefaultSyntaxLanguage`. -/
def DefaultSyntaxLanguage : String := "undefined"

/-- The constant `DefaultTabSize`. -/
def DefaultTabSize : Int := 4

/-- The constant `DefaultTabExpand`. -/
def DefaultTabExpand : Bool := false

/-- The constant `DefaultAutoIndent`. -/
def DefaultAutoIndent : Bool := false

/-- The type `MenuCommandConfig`. -/
structure MenuCommandConfig where
  Name : String
  ShellCmd : String
deriving DecidableEq, Repr

/-- The type `Config`. A slice is `none` when it is nil. -/
structure Config where
  SyntaxLanguage : String
  TabSize : Int
  TabExpand : Bool
  AutoIndent : Bool
  MenuCommands : Option (List MenuCommandConfig)
  HideDirectories : Option (List String)
deriving DecidableEq, Repr

/-- The function `stringOrDefault`. The calls of `log.Printf` are left out here and below. -/
def stringOrDefault (m : UntypedMap) (key : String) (defaultVal : String) : String :=
  match m.get key with
  | none => defaultVal
  | some (.string s) => s
  | some _ => defaultVal

/-- The function `intOrDefault`. The conversion `int(v.(float64))` of Go, whose result for a
value out of the range of `int` depends on the implementation, is the parameter
`float64ToInt`. -/
def intOrDefault (float64ToInt : Float64 → Int) (m : UntypedMap) (key : String)
    (defaultVal : Int) : Int :=
  match m.get key with
  | none => defaultVal
  | some (.int n) => n
  | some (.float64 f) => float64ToInt f
  | some _ => defaultVal

/-- The function `boolOrDefault`. -/
def boolOrDefault (m : UntypedMap) (key : String) (defaultVal : Bool) : Bool :=
  match m.get key with
  | none => defaultVal
  | some (.bool b) => b
  | some _ => defaultVal

/-- The function `sliceOrNil`. -/
def sliceOrNil (m : UntypedMap) (key : String) : Option (List Value) :=
  match m.get key with
  | none => none
  | some (.slice s) => s
  | some _ => none

/-- The loop of `stringSliceOrNil`: the elements that are strings, in order. -/
def stringSliceLoop : List Value → List String
  | [] => []
  | .string s :: rest => s :: stringSliceLoop rest
  | _ :: rest => stringSliceLoop rest

/-- The function `stringSliceOrNil`. -/
def stringSliceOrNil (m : UntypedMap) (key : String) : Option (List String) :=
  match sliceOrNil m key with
  | none => none
  | some slice => some (stringSliceLoop slice)

/-- The loop of `menuCommandsFromSlice`: one menu command for each element that is a map. -/
def menuCommandsLoop : List Value → List MenuCommandConfig
  | [] => []
  | .map menuMap :: rest =>
    { Name := stringOrDefault menuMap "name" "[nil]"
      ShellCmd := stringOrDefault menuMap "shellCmd" "" } :: menuCommandsLoop rest
  | _ :: rest => menuCommandsLoop rest

/-- The function `menuCommandsFromSlice`: the result of `make` is not nil, also for a nil
slice. -/
def menuCommandsFromSlice (s : Option (List Value)) : Option (List MenuCommandConfig) :=
  match s with
  | none => some []
  | some elems => some (menuCommandsLoop elems)

/-- The function `ConfigFromUntypedMap`. -/
def ConfigFromUntypedMap (float64ToInt : Float64 → Int) (m : UntypedMap) : Config :=
  { SyntaxLanguage := stringOrDefault m "syntaxLanguage" DefaultSyntaxLanguage
    TabSize := intOrDefault float64ToInt m "tabSize" DefaultTabSize
    TabExpand := boolOrDefault m "tabExpand" DefaultTabExpand
    AutoIndent := boolOrDefault m "autoIndent" DefaultAutoIndent
    MenuCommands := menuCommandsFromSlice (sliceOrNil m "menuCommands")
    HideDirectories := stringSliceOrNil m "hideDirectories" }

/-- The function `DefaultConfig`. -/
def DefaultConfig (float64ToInt : Float64 → Int) : Config :=
  ConfigFromUntypedMap float64ToInt none

/-- The method `Config.Validate`: the error, `none` for nil. -/
def Config.Validate (c : Config) : Option String :=
  if c.TabSize < 1 then some "TabSize must be greater than zero"
  else none

/-- An example: a configuration with a tab size of 8 and one hidden directory. -/
def exampleConfig : Config :=
  { SyntaxLanguage := "go", TabSize := 8, TabExpand := true, AutoIndent := false,
    MenuCommands := some [], HideDirectories := some [".git"] }

end config

/-! ### Notions used to state the properties of the forward iterator -/

namespace segment

/-- The state of a forward iterator after `processRune` has been called on each rune of a
prefix, in order. -/
def graphemeClusterIter.processRunes (gbPropForRune : Rune → gbProp) (g : graphemeClusterIter)
    (runes : List Rune) : graphemeClusterIter :=
  runes.foldl (fun g r => (g.processRune gbPropForRune r).2) g

/-- Calling `NextSegment` `n` times: the iterator after the calls, `none` if a call fails. -/
def graphemeClusterIter.afterCalls (gbPropForRune : Rune → gbProp) :
    Nat → graphemeClusterIter → Option graphemeClusterIter
  | 0, g => some g
  | n + 1, g =>
    match g.NextSegment gbPropForRune with
    | none => none
    | some (_, g') => graphemeClusterIter.afterCalls gbPropForRune n g'

/-- Whether a class is Extend, ZWJ or SpacingMark. -/
def gbProp.isMark (p : gbProp) : Bool :=
  decide (p = gbProp.Extend ∨ p = gbProp.ZWJ ∨ p = gbProp.SpacingMark)

/-- The lengths of the segments of a run of `n` Regional_Indicator codepoints that UAX #29
asks for: pairs, followed by a single codepoint when `n` is odd. -/
def riSegmentLengths (n : Nat) : List Nat :=
  List.replicate (n / 2) 2 ++ (if n % 2 = 1 then [1] else [])

/-- Whether the maximal run of Regional_Indicator that ends a sequence of classes has length
`n`: the sequence is some classes that do not end with Regional_Indicator, followed by `n`
Regional_Indicator. -/
def riRunAtEnd (ps : List gbProp) (n : Nat) : Prop :=
  ∃ pre, ps = pre ++ List.replicate n gbProp.Regional_Indicator ∧
    ∀ q, pre.getLast? = some q → q ≠ gbProp.Regional_Indicator

/-- Whether a segment is one that may hold a Control, CR or LF: it holds none, or it is that
codepoint alone, or it is a CR followed by a LF. -/
def isControlSegment (gbPropForRune : Rune → gbProp) (seg : List Rune) : Prop :=
  (∀ r ∈ seg, (gbPropForRune r).isControlOrNewline = false) ∨
    (∃ c, seg = [c] ∧ (gbPropForRune c).isControlOrNewline = true) ∨
    (∃ a b, seg = [a, b] ∧ gbPropForRune a = gbProp.CR ∧ gbPropForRune b = gbProp.LF)

end segment

/-! ### Reading a reader to the end of its stream -/

namespace text

/-- Modelled from the spec: reading a reader to the end of its stream through a buffer of `n`
bytes, as `ioutil.ReadAll` does in `text/tree_test.go`: the bytes read, in the order in which
the reader yields them. Each unit of `fuel` pays for one `Read`; `none` if the fuel is spent
before the end of the stream. -/
def TreeReader.readAll (n : Nat) : Nat → TreeReader → Option (List Byte)
  | 0, _ => none
  | fuel + 1, reader =>
    if (reader.Read n).2.1 = true then some (reader.Read n).1
    else (TreeReader.readAll n fuel (reader.Read n).2.2).map ((reader.Read n).1 ++ ·)

/-- Modelled from the spec: the codepoints of the bytes that a reader yields. "The backward
reader returns bytes in reverse document order; codepoint-aware consumers must reassemble
UTF-8 in reverse": the codepoints of a backward stream are those of the reversed bytes, the
last one first. `none` if the bytes are not valid UTF-8. -/
def decodeStream (direction : ReadDirection) (bytes : List Byte) : Option (List Rune) :=
  match direction with
  | .ReadDirectionForward => decodeUtf8 bytes
  | .ReadDirectionBackward => (decodeUtf8 bytes.reverse).map List.reverse

/-- Modelled from the spec: the codepoint sequence read from the position `pos` in a direction
to the end of the stream, through a buffer of `bufSize` bytes. -/
def Tree.readRunes (tree : Tree) (pos : Nat) (direction : ReadDirection) (bufSize fuel : Nat) :
    Option (List Rune) :=
  match (tree.ReaderAtPosition pos direction).readAll bufSize fuel with
  | none => none
  | some bytes => decodeStream direction bytes

/-- The codepoints read from a position of the tree of a string, as the cases of
`TestReadBackwards` and `TestReaderStartLocation` compute them: `none` if the string is not
valid UTF-8. -/
def readRunesOfString (maxBytesPerLeaf : Nat) (s : List Byte) (pos : Nat)
    (direction : ReadDirection) (bufSize : Nat) : Option (List Rune) :=
  match NewTreeFromString maxBytesPerLeaf s with
  | .ok tree => tree.readRunes pos direction bufSize (tree.String.length + 1)
  | .error _ => none

end text

/-! ### Notions used to state the properties of the parse loops -/

namespace Parser

/-- The computations follow one another by their states: the first has the entry state
`state`, and each next one has for entry state the end state of the one before. -/
def IsChain {σ : Type} : σ → List (Computation σ) → Prop
  | _, [] => True
  | state, c :: cs => c.StartState = state ∧ IsChain c.EndState cs

/-- The loop of `P.ReparseAfterEdit` (parser.go:90-98) from position `pos` in state `state`:
the computations `nextComputation` that its iterations append, in order. Each unit of `fuel`
pays for one iteration; `none` means the loop is still running when the fuel is spent. -/
def P.reparseSteps {σ : Type} [DecidableEq σ] (p : P σ) (tree : Doc) (edit : Edit) :
    Nat → Nat → σ → Option (List (Computation σ))
  | fuel, pos, state =>
    if pos < tree.length then
      match fuel with
      | 0 => none
      | fuel + 1 =>
        let nextComputation :=
          match p.findReusableComputation pos edit state with
          | some reused => reused
          | none => p.runParseFunc tree pos state
        (p.reparseSteps tree edit fuel (pos + nextComputation.ConsumedLength)
          nextComputation.EndState).map (nextComputation :: ·)
    else some []

end Parser

/-! ### The parse loops in 64-bit arithmetic -/

namespace Parser

/-- The loop of `P.ParseAll` with the position kept in 64 bits, as `pos += c.ConsumedLength()`
(parser.go:71) computes it on a `uint64`: the sum wraps around at `MaxUint64 + 1`. The loop
`P.parseAllLoop` is this loop for the runs in which no position wraps around. -/
def P.parseAllLoopUint64 {σ : Type} (p : P σ) (tree : Doc) :
    Nat → Nat → σ → Option (List (Computation σ))
  | fuel, pos, state =>
    if pos < tree.length then
      match fuel with
      | 0 => none
      | fuel + 1 =>
        let c := p.runParseFunc tree pos state
        (p.parseAllLoopUint64 tree fuel ((pos + c.ConsumedLength) % (MaxUint64 + 1))
          c.EndState).map (c :: ·)
    else some []

/-- The loop of `P.ReparseAfterEdit` with the position kept in 64 bits, as
`pos += nextComputation.ConsumedLength()` (parser.go:96) computes it on a `uint64`: the
computations that its iterations append, in order. The loop `P.reparseSteps` is this loop
for the runs in which no position wraps around. -/
def P.reparseStepsUint64 {σ : Type} [DecidableEq σ] (p : P σ) (tree : Doc) (edit : Edit) :
    Nat → Nat → σ → Option (List (Computation σ))
  | fuel, pos, state =>
    if pos < tree.length then
      match fuel with
      | 0 => none
      | fuel + 1 =>
        let nextComputation :=
          match p.findReusableComputation pos edit state with
          | some reused => reused
          | none => p.runParseFunc tree pos state
        (p.reparseStepsUint64 tree edit fuel
          ((pos + nextComputation.ConsumedLength) % (MaxUint64 + 1))
          nextComputation.EndState).map (nextComputation :: ·)
    else some []

/-- Example parse function: reads one codepoint and reports one codepoint consumed, except
at the codepoint 20, where it reports `MaxUint64` codepoints consumed. -/
def wrapFunc : Func ExampleState :=
  { onRunes := fun state seen =>
      match seen with
      | [] => none
      | r :: _ =>
        some { NumConsumed := if r = 20 then MaxUint64 else 1, ComputedTokens := [],
               NextState := state }
    onEOF := fun _ _ => FailedResult }

end Parser

/-! ### The interface of the mutators and the composite mutator -/

namespace exec

/-- The interface `Mutator`, by its method `Mutate`, which changes the state it is handed: the
state after the call. The method `String` of `fmt.Stringer`, which only names the mutator,
is left out. -/
abbrev Mutator := State → State

/-- The type `CompositeMutator`. -/
structure CompositeMutator where
  subMutators : List Mutator

/-- The loop of `CompositeMutator.Mutate` over the sub-mutators still to be called. -/
def CompositeMutator.mutateLoop : List Mutator → State → State
  | [], state => state
  | subMutator :: rest, state => CompositeMutator.mutateLoop rest (subMutator state)

/-- The method `CompositeMutator.Mutate`. -/
def CompositeMutator.Mutate (cm : CompositeMutator) (state : State) : State :=
  CompositeMutator.mutateLoop cm.subMutators state

/-- The function `NewCompositeMutator`. -/
def NewCompositeMutator (subMutators : List Mutator) : Mutator :=
  (CompositeMutator.mk subMutators).Mutate

/-- The type `cursorMutator`. -/
structure cursorMutator where
  loc : CursorLocator

/-- The method `cursorMutator.Mutate`. -/
def cursorMutator.Mutate (cpm : cursorMutator) (state : State) : State :=
  { state with cursor := cpm.loc state }

/-- The function `NewCursorMutator`. -/
def NewCursorMutator (loc : CursorLocator) : Mutator :=
  (cursorMutator.mk loc).Mutate

/-- The function `NewInsertRuneMutator`. -/
def NewInsertRuneMutator (maxBytesPerLeaf : Nat) (r : Rune) : Mutator :=
  (insertRuneMutator.mk r).Mutate maxBytesPerLeaf

/-- The function `NewDeleteMutator`. -/
def NewDeleteMutator (maxBytesPerLeaf : Nat) (loc : CursorLocator) : Mutator :=
  (deleteMutator.mk loc).Mutate maxBytesPerLeaf

/-- The method `viewOriginZeroMutator.Mutate`, of a type without fields. -/
def viewOriginZeroMutator.Mutate (state : State) : State :=
  { state with view := { state.view with origin := 0 } }

/-- The function `NewViewOriginZeroMutator`. -/
def NewViewOriginZeroMutator : Mutator :=
  viewOriginZeroMutator.Mutate

/-- The method `viewOriginAtCursorMutator.Mutate`, of a type without fields. -/
def viewOriginAtCursorMutator.Mutate (state : State) : State :=
  { state with view := { state.view with origin := state.cursor.position } }

/-- The function `NewViewOriginAtCursorMutator`. -/
def NewViewOriginAtCursorMutator : Mutator :=
  viewOriginAtCursorMutator.Mutate

end exec

/-! ### Notions used to state the properties of the configuration -/

namespace config

/-- The string held by a value of dynamic type `string`: `none` for every other type. -/
def Value.asString : Value → Option String
  | .string s => some s
  | _ => none

/-- The elements of a slice that may be nil: a nil slice has none. -/
def sliceElems {α : Type} (s : Option (List α)) : List α :=
  match s with
  | none => []
  | some l => l

/-- The six keys that `ConfigFromUntypedMap` reads. -/
def recognisedKeys : List String :=
  ["syntaxLanguage", "tabSize", "tabExpand", "autoIndent", "menuCommands", "hideDirectories"]

/-- An example: an untyped map with a negative tab size, a tab-expand flag of the wrong
type, a list of hidden directories with a number in it, and a key that is not recognised. -/
def exampleMap : UntypedMap :=
  some [("tabSize", .int (-3)), ("tabExpand", .string "yes"),
    ("hideDirectories", .slice (some [.string ".git", .int 7, .string "vendor"])),
    ("colour", .string "blue")]

/-- An example: the map `exampleMap` with another value for the key that is not recognised,
and one more such key. -/
def exampleMap2 : UntypedMap :=
  some [("colour", .string "red"), ("tabSize", .int (-3)), ("tabExpand", .string "yes"),
    ("hideDirectories", .slice (some [.string ".git", .int 7, .string "vendor"])),
    ("font", .nil)]

end config

/-! ## Part II: lemmas and theorems -/

namespace Parser

variable {σ : Type}

/-! ### Running a parse function -/

theorem runParseFunc_eq_leafOn (p : P σ) (tree : Doc) (pos : Nat) (state : σ) :
    p.runParseFunc tree pos state = p.parseFunc.leafOn (tree.drop pos) state := rfl

/-- The recovery wrapper changes only the result of a call, not what the call reads. -/
theorem callOn_recover (f : Func σ) (state : σ) (t seen : List Rune) (m : Nat) :
    f.recoverFromFailure.callOn state t seen m =
      (recoverResult state (f.callOn state t seen m).1, (f.callOn state t seen m).2) := by
  induction t generalizing seen m with
  | nil =>
    simp only [Func.callOn, Func.recoverFromFailure]
    cases f.onRunes state seen <;> rfl
  | cons r rs ih =>
    simp only [Func.callOn]
    cases h : f.onRunes state seen with
    | none =>
      simp only [Func.recoverFromFailure, h, Option.map_none']
      exact ih _ _
    | some res => simp [Func.recoverFromFailure, h]

/-- The counter of the tracking iterator grows by at most the number of unread runes. -/
theorem callOn_maxRead (g : Func σ) (state : σ) (t seen : List Rune) (m : Nat) :
    m ≤ (g.callOn state t seen m).2.maxRead ∧
      (g.callOn state t seen m).2.maxRead ≤ m + t.length := by
  induction t generalizing seen m with
  | nil =>
    simp only [Func.callOn]
    cases g.onRunes state seen <;> simp [TrackingRuneIter.NextRune]
  | cons r rs ih =>
    simp only [Func.callOn]
    cases g.onRunes state seen with
    | none =>
      simp only [TrackingRuneIter.NextRune]
      have := ih (seen ++ [r]) (m + 1)
      simp only [List.length_cons]
      omega
    | some res => simp

/-- Locality: a call that stopped before the end of its input gives the same result and the
same count on every input that starts with the runes it read. -/
theorem callOn_local (g : Func σ) (state : σ) (t t' seen : List Rune) (m : Nat)
    (hlt : (g.callOn state t seen m).2.maxRead < m + t.length)
    (htake : t'.take ((g.callOn state t seen m).2.maxRead - m) =
      t.take ((g.callOn state t seen m).2.maxRead - m)) :
    (g.callOn state t' seen m).1 = (g.callOn state t seen m).1 ∧
      (g.callOn state t' seen m).2.maxRead = (g.callOn state t seen m).2.maxRead := by
  induction t generalizing t' seen m with
  | nil =>
    have := (callOn_maxRead g state [] seen m).1
    simp at hlt
    omega
  | cons r rs ih =>
    cases h : g.onRunes state seen with
    | some res =>
      cases t' <;> simp [Func.callOn, h]
    | none =>
      have e1 : g.callOn state (r :: rs) seen m = g.callOn state rs (seen ++ [r]) (m + 1) := by
        simp [Func.callOn, h, TrackingRuneIter.NextRune]
      rw [e1] at hlt htake ⊢
      have hb := callOn_maxRead g state rs (seen ++ [r]) (m + 1)
      obtain ⟨k, hk⟩ : ∃ k, (g.callOn state rs (seen ++ [r]) (m + 1)).2.maxRead - m = k + 1 :=
        ⟨(g.callOn state rs (seen ++ [r]) (m + 1)).2.maxRead - m - 1, by omega⟩
      rw [hk] at htake
      cases t' with
      | nil => simp at htake
      | cons r' rs' =>
        simp only [List.take_succ_cons, List.cons.injEq] at htake
        obtain ⟨hr, hrs⟩ := htake
        subst hr
        have e2 : g.callOn state (r' :: rs') seen m = g.callOn state rs' (seen ++ [r']) (m + 1) := by
          simp [Func.callOn, h, TrackingRuneIter.NextRune]
        rw [e2]
        have hk' : (g.callOn state rs (seen ++ [r']) (m + 1)).2.maxRead - (m + 1) = k := by omega
        apply ih
        · simp only [List.length_cons] at hlt; omega
        · rw [hk']; exact hrs

end Parser

namespace Parser

variable {σ : Type}

/-! ### The leaf computation of one invocation -/

theorem leafOn_eq (g : Func σ) (t : List Rune) (state : σ) :
    g.leafOn t state = .leaf (g.callOn state t [] 0).2.maxRead (g.callOn state t [] 0).1.NumConsumed
      state (g.callOn state t [] 0).1.NextState (g.callOn state t [] 0).1.ComputedTokens := rfl

theorem leafOn_startState (g : Func σ) (t : List Rune) (state : σ) :
    (g.leafOn t state).StartState = state := rfl

theorem leafOn_leaves (g : Func σ) (t : List Rune) (state : σ) :
    (g.leafOn t state).leaves = [g.leafOn t state] := rfl

theorem leafOn_readLength_le (g : Func σ) (t : List Rune) (state : σ) :
    (g.leafOn t state).ReadLength ≤ t.length := by
  have := (callOn_maxRead g state t [] 0).2
  rw [leafOn_eq]
  simpa [Computation.ReadLength] using this

theorem recoverResult_numConsumed (state : σ) (res : Result σ) :
    (recoverResult state res).NumConsumed = max 1 res.NumConsumed := by
  unfold recoverResult Result.IsFailure Result.IsSuccess
  by_cases h : res.NumConsumed > 0
  · simp [h]; omega
  · have : res.NumConsumed = 0 := by omega
    simp [this]

/-- Forward progress: behind the recovery wrapper every invocation consumes a codepoint. -/
theorem leafOn_recover_consumed_pos (f : Func σ) (t : List Rune) (state : σ) :
    0 < (f.recoverFromFailure.leafOn t state).ConsumedLength := by
  rw [leafOn_eq]
  simp only [Computation.ConsumedLength, callOn_recover, recoverResult_numConsumed]
  omega

/-- Where the result of a call comes from: the parse function returned after the runes
`seen'`, as many as the iterator counted, or it met the end of its input. -/
theorem callOn_origin (g : Func σ) (state : σ) (t seen : List Rune) :
    ∃ seen', seen'.length = (g.callOn state t seen seen.length).2.maxRead ∧
      (g.onRunes state seen' = some (g.callOn state t seen seen.length).1 ∨
        ((g.callOn state t seen seen.length).1 = g.onEOF state seen' ∧ seen' = seen ++ t)) := by
  induction t generalizing seen with
  | nil =>
    cases h : g.onRunes state seen with
    | none => exact ⟨seen, by simp [Func.callOn, h, TrackingRuneIter.NextRune]⟩
    | some res => exact ⟨seen, by simp [Func.callOn, h]⟩
  | cons r rs ih =>
    cases h : g.onRunes state seen with
    | none =>
      have e1 : g.callOn state (r :: rs) seen seen.length =
          g.callOn state rs (seen ++ [r]) (seen ++ [r]).length := by
        simp [Func.callOn, h, TrackingRuneIter.NextRune]
      rw [e1]
      obtain ⟨seen', h1, h2⟩ := ih (seen ++ [r])
      refine ⟨seen', h1, ?_⟩
      rcases h2 with h2 | ⟨h2, h3⟩
      · exact Or.inl h2
      · exact Or.inr ⟨h2, by simpa using h3⟩
    | some res => exact ⟨seen, by simp [Func.callOn, h]⟩

/-- Invariant 6 for one invocation of a parse function that reads what it consumes. -/
theorem leafOn_recover_consumed_le_read (f : Func σ) (hf : f.ReadsWhatItConsumes)
    (t : List Rune) (ht : t ≠ []) (state : σ) :
    (f.recoverFromFailure.leafOn t state).ConsumedLength ≤
      (f.recoverFromFailure.leafOn t state).ReadLength := by
  rw [leafOn_eq]
  simp only [Computation.ConsumedLength, Computation.ReadLength, callOn_recover,
    recoverResult_numConsumed]
  obtain ⟨seen', h1, h2⟩ := callOn_origin f state t []
  simp only [List.length_nil, List.nil_append] at h1 h2
  rcases h2 with h2 | ⟨h2, h3⟩
  · obtain ⟨hne, hle⟩ := hf.1 state seen' _ h2
    have : 0 < seen'.length := List.length_pos.mpr hne
    omega
  · have hle := hf.2 state seen'
    rw [← h2] at hle
    have : 0 < seen'.length := by rw [h3]; exact List.length_pos.mpr ht
    omega

/-- Locality of one invocation. -/
theorem leafOn_local (g : Func σ) (state : σ) (t t' : List Rune)
    (hlt : (g.leafOn t state).ReadLength < t.length)
    (htake : t'.take (g.leafOn t state).ReadLength = t.take (g.leafOn t state).ReadLength) :
    g.leafOn t' state = g.leafOn t state := by
  rw [leafOn_eq] at hlt htake
  simp only [Computation.ReadLength] at hlt htake
  obtain ⟨h1, h2⟩ := callOn_local g state t t' [] 0 (by simpa using hlt) (by simpa using htake)
  rw [leafOn_eq, leafOn_eq, h1, h2]

end Parser

namespace Parser

variable {σ : Type}

/-! ### Computations as sequences of leaves -/

theorem leaves_ne_nil (c : Computation σ) : c.leaves ≠ [] := by
  induction c with
  | leaf => simp [Computation.leaves]
  | node l r ihl _ => simp [Computation.leaves, ihl]

theorem sumConsumed_nil : sumConsumed ([] : List (Computation σ)) = 0 := rfl

theorem sumConsumed_cons (c : Computation σ) (cs : List (Computation σ)) :
    sumConsumed (c :: cs) = c.ConsumedLength + sumConsumed cs := by
  simp [sumConsumed]

theorem sumConsumed_append (xs ys : List (Computation σ)) :
    sumConsumed (xs ++ ys) = sumConsumed xs + sumConsumed ys := by
  simp [sumConsumed]

theorem sumConsumed_leaves (c : Computation σ) : sumConsumed c.leaves = c.ConsumedLength := by
  induction c with
  | leaf => simp [Computation.leaves, sumConsumed, Computation.ConsumedLength]
  | node l r ihl ihr =>
    simp [Computation.leaves, sumConsumed_append, ihl, ihr, Computation.ConsumedLength]

theorem lastState_append (state : σ) (xs ys : List (Computation σ)) :
    lastState state (xs ++ ys) = lastState (lastState state xs) ys := by
  induction xs generalizing state with
  | nil => rfl
  | cons c cs ih => simpa [lastState] using ih c.EndState

theorem lastState_leaves (state : σ) (c : Computation σ) :
    lastState state c.leaves = c.EndState := by
  induction c generalizing state with
  | leaf => simp [Computation.leaves, lastState, Computation.EndState]
  | node l r _ ihr => simp [Computation.leaves, lastState_append, ihr, Computation.EndState]

theorem isRun_append (g : Func σ) (t : List Rune) (state : σ) (xs ys : List (Computation σ)) :
    IsRun g t state (xs ++ ys) ↔
      IsRun g t state xs ∧ IsRun g (t.drop (sumConsumed xs)) (lastState state xs) ys := by
  induction xs generalizing t state with
  | nil => simp [IsRun, sumConsumed, lastState]
  | cons c cs ih =>
    simp only [List.cons_append, IsRun, List.append_eq, ih, sumConsumed_cons, lastState, List.drop_drop]
    constructor
    · rintro ⟨h1, h2, h3, h4⟩
      exact ⟨⟨h1, h2, h3⟩, h4⟩
    · rintro ⟨⟨h1, h2, h3⟩, h4⟩
      exact ⟨h1, h2, h3, h4⟩

/-- A computation whose leaves are a run started in `state` has entry state `state`. -/
theorem isRun_startState (g : Func σ) (c : Computation σ) (t : List Rune) (state : σ)
    (h : IsRun g t state c.leaves) : c.StartState = state := by
  induction c generalizing t state with
  | leaf rl cl ss es toks =>
    simp only [Computation.leaves, IsRun] at h
    have := congrArg Computation.StartState h.2.1
    simpa [Computation.StartState, leafOn_startState] using this
  | node l r ihl _ =>
    simp only [Computation.leaves, isRun_append] at h
    exact ihl t state h.1

theorem fitsFrom_mono (cs : List (Computation σ)) (o b b' : Nat) (hb : b ≤ b')
    (h : FitsFrom o b cs) : FitsFrom o b' cs := by
  induction cs generalizing o with
  | nil => trivial
  | cons c cs ih => exact ⟨le_trans h.1 hb, ih _ h.2⟩

theorem fitsFrom_append (xs ys : List (Computation σ)) (o b : Nat) :
    FitsFrom o b (xs ++ ys) ↔ FitsFrom o b xs ∧ FitsFrom (o + sumConsumed xs) b ys := by
  induction xs generalizing o with
  | nil => simp [FitsFrom, sumConsumed]
  | cons c cs ih =>
    simp only [List.cons_append, FitsFrom, List.append_eq, ih, sumConsumed_cons, and_assoc, Nat.add_assoc]

/-- No leaf of a computation looked past the read length of the computation. -/
theorem fitsFrom_leaves (c : Computation σ) (o : Nat) : FitsFrom o (o + c.ReadLength) c.leaves := by
  induction c generalizing o with
  | leaf => simp [Computation.leaves, FitsFrom, Computation.ReadLength]
  | node l r ihl ihr =>
    simp only [Computation.leaves, fitsFrom_append, Computation.ReadLength, sumConsumed_leaves]
    refine ⟨fitsFrom_mono _ _ _ _ ?_ (ihl o), fitsFrom_mono _ _ _ _ ?_ (ihr (o + l.ConsumedLength))⟩
    · have := le_max_left l.ReadLength (l.ConsumedLength + r.ReadLength); omega
    · have := le_max_right l.ReadLength (l.ConsumedLength + r.ReadLength); omega

/-! ### Searching a computation -/

/-- What `largestSubComputationInRange` returns is a run of consecutive leaves of the computation
searched, which starts at the target position, has the entry state asked for and fits
the bound. -/
theorem largestSub_infix [DecidableEq σ] (c : Computation σ) (start target bound : Nat)
    (state : σ) (sub : Computation σ)
    (h : c.largestSubComputationInRange start target bound state = some sub) :
    ∃ pre post, c.leaves = pre ++ sub.leaves ++ post ∧ start + sumConsumed pre = target ∧
      target + sub.ReadLength ≤ bound ∧ sub.StartState = state := by
  induction c generalizing start with
  | leaf rl cl ss es toks =>
    simp only [Computation.largestSubComputationInRange] at h
    split at h
    · rename_i hc
      cases h
      refine ⟨[], [], by simp, by simpa [sumConsumed] using hc.1, ?_, hc.2.2⟩
      rw [← hc.1]; exact hc.2.1
    · cases h
  | node l r ihl ihr =>
    simp only [Computation.largestSubComputationInRange] at h
    split at h
    · rename_i hc
      cases h
      refine ⟨[], [], by simp, by simpa [sumConsumed] using hc.1, ?_, hc.2.2⟩
      rw [← hc.1]; exact hc.2.1
    · split at h
      · obtain ⟨pre, post, h1, h2, h3, h4⟩ := ihl start h
        refine ⟨pre, post ++ r.leaves, ?_, h2, h3, h4⟩
        simp [Computation.leaves, h1]
      · obtain ⟨pre, post, h1, h2, h3, h4⟩ := ihr (start + l.ConsumedLength) h
        refine ⟨l.leaves ++ pre, post, ?_, ?_, h3, h4⟩
        · simp [Computation.leaves, h1]
        · rw [sumConsumed_append, sumConsumed_leaves]; omega

/-- What `largestSubComputationInRange` returns is the sub-computation at the target position. -/
theorem largestSub_subAt [DecidableEq σ] (c : Computation σ) (start target bound : Nat)
    (state : σ) (sub : Computation σ)
    (h : c.largestSubComputationInRange start target bound state = some sub) :
    c.subAt start sub target = true := by
  induction c generalizing start with
  | leaf rl cl ss es toks =>
    simp only [Computation.largestSubComputationInRange] at h
    split at h
    · rename_i hc
      cases h
      simp [Computation.subAt, hc.1]
    · cases h
  | node l r ihl ihr =>
    simp only [Computation.largestSubComputationInRange] at h
    split at h
    · rename_i hc
      cases h
      simp [Computation.subAt, hc.1]
    · split at h
      · simp [Computation.subAt, ihl start h]
      · simp [Computation.subAt, ihr _ h]

end Parser

namespace Parser

variable {σ : Type}

/-! ### The document before and after an edit -/

theorem applyTo_take (edit : Edit) (inserted : List Rune) (tree : Doc)
    (h : edit.pos ≤ tree.length) :
    (edit.applyTo inserted tree).take edit.pos = tree.take edit.pos := by
  unfold Edit.applyTo
  rw [List.append_assoc, List.take_append_of_le_length (by simp [h])]
  simp [List.take_take]

theorem applyTo_drop (edit : Edit) (inserted : List Rune) (tree : Doc)
    (h : edit.pos ≤ tree.length) (pos : Nat) (hpos : edit.pos + inserted.length ≤ pos) :
    (edit.applyTo inserted tree).drop pos =
      tree.drop (pos - inserted.length + edit.numDeleted) := by
  unfold Edit.applyTo
  have hlen : (List.take edit.pos tree ++ inserted).length = edit.pos + inserted.length := by
    simp [h]
  rw [List.drop_append_eq_append_drop, hlen, List.drop_eq_nil_of_le (by rw [hlen]; exact hpos),
    List.nil_append, List.drop_drop]
  congr 1
  omega

theorem applyTo_noop (edit : Edit) (tree : Doc) (h : tree.length ≤ edit.pos) :
    edit.applyTo [] tree = tree := by
  unfold Edit.applyTo
  rw [List.take_of_length_le h, List.drop_eq_nil_of_le (by omega)]
  simp

theorem take_drop_eq_of_take_eq (t t' : List Rune) (b o k : Nat) (hk : o + k ≤ b)
    (h : t'.take b = t.take b) : (t'.drop o).take k = (t.drop o).take k := by
  have h1 : t'.take (o + k) = t.take (o + k) := by
    have := congrArg (List.take (o + k)) h
    simpa [List.take_take, Nat.min_eq_left hk] using this
  have := congrArg (List.drop o) h1
  simpa [List.drop_take] using this

/-- Transport of a run across a change of the document that leaves the first `b` codepoints
alone, when no computation of the run looked at or past position `b`. -/
theorem isRun_transport (f : Func σ) (hf : f.ReadsWhatItConsumes) (t t' : List Rune) (b : Nat)
    (hb : b < t.length) (htake : t'.take b = t.take b) (cs : List (Computation σ)) (o : Nat)
    (state : σ) (hrun : IsRun f.recoverFromFailure (t.drop o) state cs) (hfit : FitsFrom o b cs) :
    IsRun f.recoverFromFailure (t'.drop o) state cs := by
  induction cs generalizing o state with
  | nil => trivial
  | cons c cs ih =>
    obtain ⟨hne, hc, hrest⟩ := hrun
    obtain ⟨hfit1, hfit2⟩ := hfit
    have hcl := leafOn_recover_consumed_pos f (t.drop o) state
    have hrl := leafOn_recover_consumed_le_read f hf (t.drop o) hne state
    rw [← hc] at hcl hrl
    have hlen' : b ≤ t'.length := by
      have := congrArg List.length htake
      simp only [List.length_take] at this
      omega
    have hloc : f.recoverFromFailure.leafOn (t'.drop o) state =
        f.recoverFromFailure.leafOn (t.drop o) state := by
      apply leafOn_local
      · rw [← hc, List.length_drop]; omega
      · rw [← hc]; exact take_drop_eq_of_take_eq t t' b o _ hfit1 htake
    refine ⟨?_, by rw [hloc]; exact hc, ?_⟩
    · intro hnil
      have := congrArg List.length hnil
      simp only [List.length_drop, List.length_nil] at this
      omega
    · rw [List.drop_drop] at hrest ⊢
      exact ih _ _ hrest hfit2

/-- What a search of a computation whose leaves are a run returns is itself a run, started
at the target position in the state asked for. -/
theorem largestSub_isRun [DecidableEq σ] (g : Func σ) (c : Computation σ) (t : List Rune)
    (state0 : σ) (hrun : IsRun g t state0 c.leaves) (target bound : Nat) (state : σ)
    (sub : Computation σ)
    (h : c.largestSubComputationInRange 0 target bound state = some sub) :
    IsRun g (t.drop target) state sub.leaves ∧ target + sub.ReadLength ≤ bound := by
  obtain ⟨pre, post, h1, h2, h3, h4⟩ := largestSub_infix c 0 target bound state sub h
  rw [h1, isRun_append, isRun_append] at hrun
  have h5 := hrun.1.2
  have h6 := isRun_startState g sub _ _ h5
  rw [h4] at h6
  rw [← h6] at h5
  have h7 : sumConsumed pre = target := by omega
  rw [h7] at h5
  exact ⟨h5, h3⟩

/-- Soundness of reuse: what `findReusableComputation` returns is what the parse function
yields on the document after the edit, from the current position and state. -/
theorem findReusable_isRun [DecidableEq σ] [ParseState σ] (f : Func σ)
    (hf : f.ReadsWhatItConsumes) (p : P σ) (tree : Doc) (edit : Edit) (inserted : List Rune)
    (hv : edit.ValidFor inserted tree)
    (hprev : IsRun f.recoverFromFailure tree ParseState.EmptyState
      (Computation.Leaves p.prevComputation))
    (pos : Nat) (hpos : pos < (edit.applyTo inserted tree).length) (state : σ)
    (sub : Computation σ) (h : p.findReusableComputation pos edit state = some sub) :
    IsRun f.recoverFromFailure ((edit.applyTo inserted tree).drop pos) state sub.leaves := by
  obtain ⟨hlen, hkind⟩ := hv
  cases hprevc : p.prevComputation with
  | none => simp [P.findReusableComputation, hprevc, Computation.LargestMatchingSubComputation] at h
  | some c =>
    rw [hprevc] at hprev
    simp only [Computation.Leaves] at hprev
    simp only [P.findReusableComputation, hprevc, Computation.LargestMatchingSubComputation] at h
    split at h
    · -- before the edit
      rename_i h1
      obtain ⟨hr, hbound⟩ := largestSub_isRun _ c tree _ hprev pos edit.pos state sub h
      by_cases hin : edit.pos < tree.length
      · have hfit := fitsFrom_mono _ _ _ _ hbound (fitsFrom_leaves sub pos)
        exact isRun_transport f hf tree _ edit.pos hin (applyTo_take edit inserted tree (by omega))
          _ _ _ hr hfit
      · have h0 : edit.numInserted = 0 := by
          rcases hkind with h0 | ⟨_, h0⟩
          · exact h0
          · omega
        have hnil : inserted = [] := List.length_eq_zero.mp (by omega)
        subst hnil
        rw [applyTo_noop edit tree (by omega)]
        exact hr
    · split at h
      · -- past an insertion
        rename_i h1 h2
        have h3 : edit.numDeleted = 0 ∧ edit.pos < tree.length := by
          rcases hkind with h0 | h0
          · omega
          · exact h0
        obtain ⟨hr, _⟩ := largestSub_isRun _ c tree _ hprev _ _ state sub h
        rw [applyTo_drop edit inserted tree (by omega) pos (by omega), h3.1, hlen]
        exact hr
      · split at h
        · -- past a deletion
          rename_i h1 h2 h3
          have h0 : edit.numInserted = 0 := by
            rcases hkind with h0 | h0
            · exact h0
            · omega
          have hnil : inserted = [] := List.length_eq_zero.mp (by omega)
          subst hnil
          obtain ⟨hr, _⟩ := largestSub_isRun _ c tree _ hprev _ _ state sub h
          by_cases hin : edit.pos ≤ tree.length
          · rw [applyTo_drop edit [] tree hin pos (by simp; omega)]
            simpa using hr
          · rw [applyTo_noop edit tree (by omega)] at hpos
            omega
        · cases h

end Parser

namespace Parser

variable {σ : Type}

/-! ### The two parse loops -/

theorem leavesTokens_append (xs ys : List (Computation σ)) (o : Nat) :
    leavesTokens (xs ++ ys) o = leavesTokens xs o ++ leavesTokens ys (o + sumConsumed xs) := by
  induction xs generalizing o with
  | nil => simp [leavesTokens, sumConsumed]
  | cons c cs ih =>
    simp only [List.cons_append, leavesTokens, List.append_eq, ih, sumConsumed_cons,
      List.append_assoc, Nat.add_assoc]

/-- The tokens of a computation are those of its leaves. -/
theorem tokensFrom_eq_leavesTokens (c : Computation σ) (o : Nat) :
    c.tokensFrom o = leavesTokens c.leaves o := by
  induction c generalizing o with
  | leaf => simp [Computation.tokensFrom, Computation.leaves, leavesTokens]
  | node l r ihl ihr =>
    simp [Computation.tokensFrom, Computation.leaves, leavesTokens_append, ihl, ihr,
      sumConsumed_leaves]

theorem tokens_eq_leavesTokens (c : Option (Computation σ)) :
    Computation.Tokens c = leavesTokens (Computation.Leaves c) 0 := by
  cases c with
  | none => rfl
  | some c => exact tokensFrom_eq_leavesTokens c 0

theorem leaves_append (acc : Option (Computation σ)) (c : Computation σ) :
    Computation.Leaves (Computation.Append acc c) = Computation.Leaves acc ++ c.leaves := by
  cases acc <;> rfl

theorem leaves_foldl_append (cs : List (Computation σ)) (acc : Option (Computation σ))
    (h : ∀ c ∈ cs, c.leaves = [c]) :
    Computation.Leaves (cs.foldl Computation.Append acc) = Computation.Leaves acc ++ cs := by
  induction cs generalizing acc with
  | nil => simp
  | cons c cs ih =>
    rw [List.foldl_cons, ih _ (fun x hx => h x (List.mem_cons_of_mem _ hx)), leaves_append,
      h c (List.mem_cons_self _ _)]
    simp

theorem isRun_mem_leaf (g : Func σ) (t : List Rune) (state : σ) (cs : List (Computation σ))
    (h : IsRun g t state cs) : ∀ c ∈ cs, c.leaves = [c] := by
  induction cs generalizing t state with
  | nil => simp
  | cons c cs ih =>
    intro x hx
    rcases List.mem_cons.mp hx with rfl | hx
    · rw [h.2.1]; rfl
    · exact ih _ _ h.2.2 x hx

/-- A run that consumes the whole input is unique. -/
theorem isRun_unique (g : Func σ) (t : List Rune) (state : σ) (xs ys : List (Computation σ))
    (hx : IsRun g t state xs) (hxl : t.length ≤ sumConsumed xs)
    (hy : IsRun g t state ys) (hyl : t.length ≤ sumConsumed ys) : xs = ys := by
  induction xs generalizing t state ys with
  | nil =>
    cases ys with
    | nil => rfl
    | cons c cs =>
      have := List.length_pos.mpr hy.1
      rw [sumConsumed_nil] at hxl
      omega
  | cons c cs ih =>
    cases ys with
    | nil =>
      have := List.length_pos.mpr hx.1
      rw [sumConsumed_nil] at hyl
      omega
    | cons c' cs' =>
      have hc : c = c' := by rw [hx.2.1, hy.2.1]
      subst hc
      rw [sumConsumed_cons] at hxl hyl
      rw [ih _ _ cs' hx.2.2 (by rw [List.length_drop]; omega) hy.2.2
        (by rw [List.length_drop]; omega)]

theorem isRun_sum_pos (f : Func σ) (t : List Rune) (state : σ) (cs : List (Computation σ))
    (h : IsRun f.recoverFromFailure t state cs) (hne : cs ≠ []) : 0 < sumConsumed cs := by
  cases cs with
  | nil => exact absurd rfl hne
  | cons c cs =>
    have := leafOn_recover_consumed_pos f t state
    rw [← h.2.1] at this
    rw [sumConsumed_cons]
    omega

/-- The loop of `ParseAll` ends within its fuel and yields the run that consumes the rest of
the document. -/
theorem parseAllLoop_spec (f : Func σ) (p : P σ) (hp : p.parseFunc = f.recoverFromFailure)
    (tree : Doc) (fuel pos : Nat) (state : σ) (hfuel : tree.length - pos ≤ fuel) :
    ∃ cs, p.parseAllLoop tree fuel pos state = some cs ∧
      IsRun f.recoverFromFailure (tree.drop pos) state cs ∧
      tree.length - pos ≤ sumConsumed cs := by
  induction fuel generalizing pos state with
  | zero =>
    refine ⟨[], ?_, trivial, by simp [sumConsumed]; omega⟩
    unfold P.parseAllLoop
    rw [if_neg (by omega)]
  | succ k ih =>
    unfold P.parseAllLoop
    by_cases hlt : pos < tree.length
    · rw [if_pos hlt]
      have hc : p.runParseFunc tree pos state = f.recoverFromFailure.leafOn (tree.drop pos) state := by
        rw [runParseFunc_eq_leafOn, hp]
      have hcl := leafOn_recover_consumed_pos f (tree.drop pos) state
      rw [← hc] at hcl
      obtain ⟨cs, h1, h2, h3⟩ := ih (pos + (p.runParseFunc tree pos state).ConsumedLength)
        (p.runParseFunc tree pos state).EndState (by omega)
      refine ⟨p.runParseFunc tree pos state :: cs, by simp [h1], ⟨?_, hc, ?_⟩, ?_⟩
      · intro hnil
        have := congrArg List.length hnil
        simp only [List.length_drop, List.length_nil] at this
        omega
      · rw [List.drop_drop]; exact h2
      · rw [sumConsumed_cons]; omega
    · rw [if_neg hlt]
      exact ⟨[], rfl, trivial, by simp [sumConsumed]; omega⟩

/-- The loop of `ReparseAfterEdit` ends within its fuel and appends the run that consumes the
rest of the document after the edit. -/
theorem reparseLoop_spec [DecidableEq σ] [ParseState σ] (f : Func σ)
    (hf : f.ReadsWhatItConsumes) (p : P σ) (hp : p.parseFunc = f.recoverFromFailure)
    (tree : Doc) (edit : Edit) (inserted : List Rune) (hv : edit.ValidFor inserted tree)
    (hprev : IsRun f.recoverFromFailure tree ParseState.EmptyState
      (Computation.Leaves p.prevComputation))
    (fuel pos : Nat) (state : σ) (acc : Option (Computation σ))
    (hfuel : (edit.applyTo inserted tree).length - pos ≤ fuel) :
    ∃ out cs, p.reparseLoop (edit.applyTo inserted tree) edit fuel pos state acc = some out ∧
      Computation.Leaves out = Computation.Leaves acc ++ cs ∧
      IsRun f.recoverFromFailure ((edit.applyTo inserted tree).drop pos) state cs ∧
      (edit.applyTo inserted tree).length - pos ≤ sumConsumed cs := by
  induction fuel generalizing pos state acc with
  | zero =>
    refine ⟨acc, [], ?_, by simp, trivial, by simp [sumConsumed]; omega⟩
    unfold P.reparseLoop
    rw [if_neg (by omega)]
  | succ k ih =>
    unfold P.reparseLoop
    by_cases hlt : pos < (edit.applyTo inserted tree).length
    · rw [if_pos hlt]
      simp only []
      generalize hnext : (match p.findReusableComputation pos edit state with
        | some reused => reused
        | none => p.runParseFunc (edit.applyTo inserted tree) pos state) = next
      have hrun : IsRun f.recoverFromFailure ((edit.applyTo inserted tree).drop pos) state
          next.leaves := by
        cases hfind : p.findReusableComputation pos edit state with
        | some reused =>
          rw [hfind] at hnext
          subst hnext
          exact findReusable_isRun f hf p tree edit inserted hv hprev pos hlt state _ hfind
        | none =>
          rw [hfind] at hnext
          subst hnext
          rw [runParseFunc_eq_leafOn, hp, leafOn_leaves]
          refine ⟨?_, rfl, trivial⟩
          intro hnil
          have := congrArg List.length hnil
          simp only [List.length_drop, List.length_nil] at this
          omega
      have hcl : 0 < next.ConsumedLength := by
        rw [← sumConsumed_leaves]
        exact isRun_sum_pos f _ _ _ hrun (leaves_ne_nil next)
      obtain ⟨out, cs, h1, h2, h3, h4⟩ := ih (pos + next.ConsumedLength) next.EndState
        (Computation.Append acc next) (by omega)
      refine ⟨out, next.leaves ++ cs, h1, ?_, ?_, ?_⟩
      · rw [h2, leaves_append, List.append_assoc]
      · rw [isRun_append, sumConsumed_leaves, lastState_leaves, List.drop_drop]
        exact ⟨hrun, h3⟩
      · rw [sumConsumed_append, sumConsumed_leaves]; omega
    · rw [if_neg hlt]
      exact ⟨acc, [], rfl, by simp, trivial, by simp [sumConsumed]; omega⟩

end Parser

namespace Parser

variable {σ : Type}

/-! ### Sessions of edits -/

theorem parseAll_spec [ParseState σ] (f : Func σ) (tree : Doc) :
    ∃ c, (New f).ParseAll tree = some (c, { New f with prevComputation := c }) ∧
      IsRun f.recoverFromFailure tree ParseState.EmptyState (Computation.Leaves c) ∧
      tree.length ≤ sumConsumed (Computation.Leaves c) := by
  obtain ⟨cs, h1, h2, h3⟩ := parseAllLoop_spec f (New f) rfl tree tree.length 0
    ParseState.EmptyState (by omega)
  refine ⟨ConcatLeafComputations cs, by simp [P.ParseAll, h1], ?_, ?_⟩
  · have : Computation.Leaves (ConcatLeafComputations cs) = cs := by
      unfold ConcatLeafComputations
      rw [leaves_foldl_append cs none (isRun_mem_leaf _ _ _ _ h2)]
      rfl
    rw [this]; simpa using h2
  · have : Computation.Leaves (ConcatLeafComputations cs) = cs := by
      unfold ConcatLeafComputations
      rw [leaves_foldl_append cs none (isRun_mem_leaf _ _ _ _ h2)]
      rfl
    rw [this]; simpa using h3

theorem reparseAfterEdit_spec [DecidableEq σ] [ParseState σ] (f : Func σ)
    (hf : f.ReadsWhatItConsumes) (p : P σ) (hp : p.parseFunc = f.recoverFromFailure)
    (tree : Doc) (edit : Edit) (inserted : List Rune) (hv : edit.ValidFor inserted tree)
    (hprev : IsRun f.recoverFromFailure tree ParseState.EmptyState
      (Computation.Leaves p.prevComputation)) :
    ∃ c, p.ReparseAfterEdit (edit.applyTo inserted tree) edit =
        some (c, { p with prevComputation := c }) ∧
      IsRun f.recoverFromFailure (edit.applyTo inserted tree) ParseState.EmptyState
        (Computation.Leaves c) ∧
      (edit.applyTo inserted tree).length ≤ sumConsumed (Computation.Leaves c) := by
  obtain ⟨out, cs, h1, h2, h3, h4⟩ := reparseLoop_spec f hf p hp tree edit inserted hv hprev
    (edit.applyTo inserted tree).length 0 ParseState.EmptyState none (by omega)
  refine ⟨out, by simp [P.ReparseAfterEdit, h1], ?_, ?_⟩
  · rw [h2]; simpa [Computation.Leaves] using h3
  · rw [h2]; simpa [Computation.Leaves] using h4

theorem reparseEdits_spec [DecidableEq σ] [ParseState σ] (f : Func σ)
    (hf : f.ReadsWhatItConsumes) (edits : List (Edit × List Rune)) (tree : Doc)
    (hv : ValidEdits tree edits) (c : Option (Computation σ)) (p : P σ)
    (hp : p.parseFunc = f.recoverFromFailure) (hpc : p.prevComputation = c)
    (hrun : IsRun f.recoverFromFailure tree ParseState.EmptyState (Computation.Leaves c))
    (hlen : tree.length ≤ sumConsumed (Computation.Leaves c)) :
    ∃ c' p', reparseEdits edits (c, p, tree) = some (c', p', finalDoc tree edits) ∧
      IsRun f.recoverFromFailure (finalDoc tree edits) ParseState.EmptyState
        (Computation.Leaves c') ∧
      (finalDoc tree edits).length ≤ sumConsumed (Computation.Leaves c') := by
  induction edits generalizing tree c p with
  | nil => exact ⟨c, p, rfl, hrun, hlen⟩
  | cons e rest ih =>
    obtain ⟨edit, inserted⟩ := e
    obtain ⟨hv1, hv2⟩ := hv
    obtain ⟨c1, h1, h2, h3⟩ := reparseAfterEdit_spec f hf p hp tree edit inserted hv1
      (by rw [hpc]; exact hrun)
    obtain ⟨c', p', h4, h5, h6⟩ := ih (edit.applyTo inserted tree) hv2 c1
      { p with prevComputation := c1 } hp rfl h2 h3
    exact ⟨c', p', by simp only [reparseEdits, h1, finalDoc]; exact h4, h5, h6⟩

end Parser

namespace Parser

variable {σ : Type}

/-! ### Coverage of the document by the leaves -/

theorem consumed_le_read_of_leaves (c : Computation σ)
    (h : ∀ l ∈ c.leaves, l.ConsumedLength ≤ l.ReadLength) : c.ConsumedLength ≤ c.ReadLength := by
  induction c with
  | leaf rl cl ss es toks => exact h _ (by simp [Computation.leaves])
  | node l r ihl ihr =>
    have hr := ihr (fun x hx => h x (by simp [Computation.leaves, hx]))
    simp only [Computation.ConsumedLength, Computation.ReadLength]
    have := le_max_right l.ReadLength (l.ConsumedLength + r.ReadLength)
    omega

theorem sumConsumed_pos_of_leaves (cs : List (Computation σ)) (hne : cs ≠ [])
    (h : ∀ l ∈ cs, 0 < l.ConsumedLength) : 0 < sumConsumed cs := by
  cases cs with
  | nil => exact absurd rfl hne
  | cons c cs =>
    have := h c (List.mem_cons_self _ _)
    rw [sumConsumed_cons]
    omega

/-- A run of a parse function that reads what it consumes stays within its input, and each
of its computations satisfies `0 < consumed ≤ maxRead`. -/
theorem isRun_honest (f : Func σ) (hf : f.ReadsWhatItConsumes) (t : List Rune) (state : σ)
    (cs : List (Computation σ)) (h : IsRun f.recoverFromFailure t state cs) :
    sumConsumed cs ≤ t.length ∧
      ∀ l ∈ cs, 0 < l.ConsumedLength ∧ l.ConsumedLength ≤ l.ReadLength := by
  induction cs generalizing t state with
  | nil => simp [sumConsumed]
  | cons c cs ih =>
    obtain ⟨hne, hc, hrest⟩ := h
    have h1 := leafOn_recover_consumed_pos f t state
    have h2 := leafOn_recover_consumed_le_read f hf t hne state
    have h3 := leafOn_readLength_le f.recoverFromFailure t state
    rw [← hc] at h1 h2 h3
    obtain ⟨h4, h5⟩ := ih _ _ hrest
    rw [List.length_drop] at h4
    refine ⟨by rw [sumConsumed_cons]; omega, ?_⟩
    intro l hl
    rcases List.mem_cons.mp hl with rfl | hl
    · exact ⟨h1, h2⟩
    · exact h5 l hl

theorem applyTo_length (edit : Edit) (inserted : List Rune) (tree : Doc) :
    (edit.applyTo inserted tree).length =
      min edit.pos tree.length + inserted.length + (tree.length - (edit.pos + edit.numDeleted)) := by
  simp [Edit.applyTo, Nat.add_assoc]

/-- A reused computation is made of leaves of the previous computation and ends within the
document after the edit. -/
theorem findReusable_covers [DecidableEq σ] (p : P σ) (tree : Doc) (edit : Edit)
    (inserted : List Rune) (hlen : inserted.length = edit.numInserted) (hpure : edit.IsPure)
    (hcov : Computation.Covers p.prevComputation tree.length) (pos : Nat) (state : σ)
    (sub : Computation σ) (h : p.findReusableComputation pos edit state = some sub) :
    (∀ l ∈ sub.leaves, 0 < l.ConsumedLength ∧ l.ConsumedLength ≤ l.ReadLength) ∧
      pos + sub.ConsumedLength ≤ (edit.applyTo inserted tree).length := by
  obtain ⟨hsum, hinv⟩ := hcov
  have key : ∀ target bound, Computation.LargestMatchingSubComputation p.prevComputation target
      bound state = some sub →
      (∀ l ∈ sub.leaves, 0 < l.ConsumedLength ∧ l.ConsumedLength ≤ l.ReadLength) ∧
        target + sub.ConsumedLength ≤ tree.length ∧ target + sub.ReadLength ≤ bound ∧
        sub.ConsumedLength ≤ sub.ReadLength := by
    intro target bound hs
    cases hprevc : p.prevComputation with
    | none => simp [hprevc, Computation.LargestMatchingSubComputation] at hs
    | some c =>
      rw [hprevc] at hs hsum hinv
      simp only [Computation.LargestMatchingSubComputation] at hs
      simp only [Computation.Leaves] at hsum hinv
      obtain ⟨pre, post, h1, h2, h3, _⟩ := largestSub_infix c 0 target bound state sub hs
      have hmem : ∀ l ∈ sub.leaves, 0 < l.ConsumedLength ∧ l.ConsumedLength ≤ l.ReadLength := by
        intro l hl
        exact hinv l (by rw [h1]; simp [hl])
      rw [h1, sumConsumed_append, sumConsumed_append, sumConsumed_leaves] at hsum
      exact ⟨hmem, by omega, h3, consumed_le_read_of_leaves sub (fun l hl => (hmem l hl).2)⟩
  have hl := applyTo_length edit inserted tree
  unfold P.findReusableComputation at h
  unfold Edit.IsPure at hpure
  split at h
  · obtain ⟨k1, k2, k3, k4⟩ := key _ _ h
    refine ⟨k1, ?_⟩
    rw [hl]
    rcases Nat.le_total edit.pos tree.length with hle | hle
    · rw [Nat.min_eq_left hle]; omega
    · rw [Nat.min_eq_right hle]; omega
  · split at h
    · obtain ⟨k1, k2, k3, k4⟩ := key _ _ h
      refine ⟨k1, ?_⟩
      rw [hl]
      rcases Nat.le_total edit.pos tree.length with hle | hle
      · rw [Nat.min_eq_left hle]; omega
      · rw [Nat.min_eq_right hle]; omega
    · split at h
      · obtain ⟨k1, k2, k3, k4⟩ := key _ _ h
        refine ⟨k1, ?_⟩
        rw [hl]
        rcases Nat.le_total edit.pos tree.length with hle | hle
        · rw [Nat.min_eq_left hle]; omega
        · rw [Nat.min_eq_right hle]; omega
      · cases h

/-- The loop of `ReparseAfterEdit` keeps the leaves within the document after the edit and
ends exactly at its end. -/
theorem reparseLoop_covers [DecidableEq σ] (f : Func σ) (hf : f.ReadsWhatItConsumes) (p : P σ)
    (hp : p.parseFunc = f.recoverFromFailure) (tree : Doc) (edit : Edit) (inserted : List Rune)
    (hlen : inserted.length = edit.numInserted) (hpure : edit.IsPure)
    (hcov : Computation.Covers p.prevComputation tree.length)
    (fuel pos : Nat) (state : σ) (acc : Option (Computation σ))
    (hfuel : (edit.applyTo inserted tree).length - pos ≤ fuel)
    (hpos : pos ≤ (edit.applyTo inserted tree).length)
    (hacc : Computation.Covers acc pos) :
    ∃ out, p.reparseLoop (edit.applyTo inserted tree) edit fuel pos state acc = some out ∧
      Computation.Covers out (edit.applyTo inserted tree).length := by
  induction fuel generalizing pos state acc with
  | zero =>
    refine ⟨acc, ?_, ?_⟩
    · unfold P.reparseLoop
      rw [if_neg (by omega)]
    · have : pos = (edit.applyTo inserted tree).length := by omega
      rw [← this]; exact hacc
  | succ k ih =>
    unfold P.reparseLoop
    by_cases hlt : pos < (edit.applyTo inserted tree).length
    · rw [if_pos hlt]
      simp only []
      generalize hnext : (match p.findReusableComputation pos edit state with
        | some reused => reused
        | none => p.runParseFunc (edit.applyTo inserted tree) pos state) = next
      have hstep : (∀ l ∈ next.leaves, 0 < l.ConsumedLength ∧ l.ConsumedLength ≤ l.ReadLength) ∧
          pos + next.ConsumedLength ≤ (edit.applyTo inserted tree).length := by
        cases hfind : p.findReusableComputation pos edit state with
        | some reused =>
          rw [hfind] at hnext
          subst hnext
          exact findReusable_covers p tree edit inserted hlen hpure hcov pos state _ hfind
        | none =>
          rw [hfind] at hnext
          dsimp only at hnext
          subst hnext
          rw [runParseFunc_eq_leafOn, hp]
          have hne : (edit.applyTo inserted tree).drop pos ≠ [] := by
            intro hnil
            have := congrArg List.length hnil
            simp only [List.length_drop, List.length_nil] at this
            omega
          have h1 := leafOn_recover_consumed_pos f ((edit.applyTo inserted tree).drop pos) state
          have h2 := leafOn_recover_consumed_le_read f hf _ hne state
          have h3 := leafOn_readLength_le f.recoverFromFailure
            ((edit.applyTo inserted tree).drop pos) state
          rw [List.length_drop] at h3
          refine ⟨?_, by omega⟩
          intro l hl
          rw [leafOn_leaves, List.mem_singleton] at hl
          subst hl
          exact ⟨h1, h2⟩
      have hcl : 0 < next.ConsumedLength := by
        rw [← sumConsumed_leaves]
        exact sumConsumed_pos_of_leaves _ (leaves_ne_nil next) (fun l hl => (hstep.1 l hl).1)
      apply ih (pos + next.ConsumedLength) next.EndState (Computation.Append acc next)
        (by omega) hstep.2
      constructor
      · rw [leaves_append, sumConsumed_append, sumConsumed_leaves, hacc.1]
      · intro l hl
        rw [leaves_append, List.mem_append] at hl
        rcases hl with hl | hl
        · exact hacc.2 l hl
        · exact hstep.1 l hl
    · rw [if_neg hlt]
      refine ⟨acc, rfl, ?_⟩
      have : pos = (edit.applyTo inserted tree).length := by omega
      rw [← this]; exact hacc

end Parser


namespace Parser

/-- The example parser is the parser of `perRuneFunc` after `ParseAll` on `[10, 20]`. -/
theorem perRuneParser_eq :
    (New perRuneFunc).ParseAll [10, 20] = some (perRuneParser.prevComputation, perRuneParser) := rfl

end Parser

/-! ### Lemmas about the grapheme-cluster iterators -/

namespace segment

/-! ### The forward iterator -/

theorem processRune_currentSegment (props : Rune → gbProp) (g : graphemeClusterIter) (r : Rune) :
    (g.processRune props r).2.currentSegment = g.currentSegment ∧
      (g.processRune props r).2.runeIter = g.runeIter := by
  exact ⟨rfl, rfl⟩

theorem processRune_tracks (props : Rune → gbProp) (g : graphemeClusterIter) (r : Rune)
    (before : List gbProp) (h : g.Tracks before) :
    (g.processRune props r).2.Tracks (props r :: before) := by
  obtain ⟨h1, h2, h3, h4, h5⟩ := h
  have hg : (g.processRune props r).2 =
      { g with
        lastPropsWereRIEven := decide (props r = gbProp.Regional_Indicator) && g.lastPropsWereRIOdd
        lastPropsWereRIOdd := decide (props r = gbProp.Regional_Indicator) && !g.lastPropsWereRIOdd
        afterExtendedPictographicPlusZWJ :=
          g.inExtendedPictographic && decide (props r = gbProp.ZWJ)
        inExtendedPictographic :=
          decide (props r = gbProp.Extended_Pictographic) ||
            (g.inExtendedPictographic && decide (props r = gbProp.Extend))
        lastProp := props r } := rfl
  rw [hg]
  refine ⟨?_, ?_, ?_, ?_, ?_⟩
  · intro q rest hq
    simp only [List.cons.injEq] at hq
    exact hq.1
  · simp only [h2, endsExtPictExtend]
    cases props r <;> simp
  · simp only [h2]
    cases hp : props r <;> simp [endsExtPictExtendZWJ]
  · simp only [h4, riRunLength]
    by_cases hp : props r = gbProp.Regional_Indicator
    · simp only [hp, decide_True, Bool.true_and, if_true]
      by_cases hodd : riRunLength before % 2 = 1
      · simp [hodd]; omega
      · simp [hodd]; omega
    · simp [hp]
  · simp only [h4, riRunLength]
    by_cases hp : props r = gbProp.Regional_Indicator
    · simp only [hp, decide_True, Bool.true_and, if_true]
      by_cases hodd : riRunLength before % 2 = 1
      · simp [hodd]; omega
      · simp [hodd]; omega
    · simp [hp]

theorem processRune_break (props : Rune → gbProp) (g : graphemeClusterIter) (r : Rune)
    (q : gbProp) (before : List gbProp) (h : g.Tracks (q :: before)) :
    (g.processRune props r).1 = uaxBreakAfter (q :: before) (props r) := by
  obtain ⟨h1, _, h3, h4, _⟩ := h
  have hq := h1 q before rfl
  unfold graphemeClusterIter.processRune uaxBreakAfter
  dsimp only
  rw [hq, h3, h4]
  generalize props r = p
  generalize endsExtPictExtendZWJ (q :: before) = b1
  generalize riRunLength (q :: before) % 2 = n
  cases q <;> cases p <;> simp [gbProp.isControlOrNewline]

end segment

namespace segment

theorem tracks_congr (g g' : graphemeClusterIter) (before : List gbProp) (h : g.Tracks before)
    (h1 : g'.lastProp = g.lastProp) (h2 : g'.inExtendedPictographic = g.inExtendedPictographic)
    (h3 : g'.afterExtendedPictographicPlusZWJ = g.afterExtendedPictographicPlusZWJ)
    (h4 : g'.lastPropsWereRIOdd = g.lastPropsWereRIOdd)
    (h5 : g'.lastPropsWereRIEven = g.lastPropsWereRIEven) : g'.Tracks before := by
  unfold graphemeClusterIter.Tracks at h ⊢
  rw [h1, h2, h3, h4, h5]
  exact h

theorem allSegments_succ_eq (props : Rune → gbProp) (g g' : graphemeClusterIter) (fuel : Nat)
    (h : g.NextSegment props = g'.NextSegment props) :
    g.allSegments props (fuel + 1) = g'.allSegments props (fuel + 1) := by
  simp only [graphemeClusterIter.allSegments, h]

/-- Calling `NextSegment` until `io.EOF` yields the segmentation by the rules. -/
theorem allSegments_eq_splitForward (props : Rune → gbProp) (rest : List Rune)
    (g : graphemeClusterIter) (before : List gbProp) (cur : List Rune) (fuel : Nat)
    (ht : g.Tracks before) (hcur : g.currentSegment = some ⟨cur⟩) (hrest : g.runeIter = rest)
    (hne : 0 < cur.length → before ≠ [])
    (hfuel : (splitForward props before cur rest).length + 1 ≤ fuel) :
    g.allSegments props fuel = some ((splitForward props before cur rest).map Segment.mk) := by
  induction rest generalizing g before cur fuel with
  | nil =>
    obtain ⟨k, rfl⟩ : ∃ k, fuel = k + 1 := ⟨fuel - 1, by omega⟩
    simp only [graphemeClusterIter.allSegments, graphemeClusterIter.NextSegment, hrest,
      graphemeClusterIter.nextSegmentLoop, hcur, Segment.NumRunes, splitForward]
    by_cases hc : 0 < cur.length
    · simp only [hc, if_true]
      simp only [splitForward, hc, if_true, List.length_singleton] at hfuel
      obtain ⟨k', rfl⟩ : ∃ k', k = k' + 1 := ⟨k - 1, by omega⟩
      simp [graphemeClusterIter.allSegments, graphemeClusterIter.NextSegment,
        graphemeClusterIter.nextSegmentLoop]
    · simp [hc]
  | cons r rs ih =>
    obtain ⟨k, rfl⟩ : ∃ k, fuel = k + 1 := ⟨fuel - 1, by omega⟩
    have hseg := (processRune_currentSegment props g r).1
    rw [hcur] at hseg
    have htr := processRune_tracks props g r before ht
    have hcond : ((g.processRune props r).1 = true ∧ (Segment.mk cur).NumRunes > 0) ↔
        (uaxBreakAfter before (props r) = true ∧ 0 < cur.length) := by
      simp only [Segment.NumRunes]
      constructor
      · rintro ⟨h1, h2⟩
        cases hb : before with
        | nil => exact absurd hb (hne h2)
        | cons q t =>
          rw [hb] at ht
          rw [processRune_break props g r q t ht] at h1
          exact ⟨h1, h2⟩
      · rintro ⟨h1, h2⟩
        cases hb : before with
        | nil => exact absurd hb (hne h2)
        | cons q t =>
          rw [hb] at ht h1
          rw [processRune_break props g r q t ht]
          exact ⟨h1, h2⟩
    by_cases hbrk : uaxBreakAfter before (props r) = true ∧ 0 < cur.length
    · obtain ⟨g2, hg2⟩ : ∃ g2 : graphemeClusterIter, g2 =
          { (g.processRune props r).2 with
            runeIter := rs, currentSegment := some (NewSegment.Append r) } := ⟨_, rfl⟩
      have hnext : g.NextSegment props = some (some ⟨cur⟩, g2) := by
        simp only [graphemeClusterIter.NextSegment, hrest, graphemeClusterIter.nextSegmentLoop, hseg]
        rw [if_pos (hcond.mpr hbrk), hg2]
      have key := ih g2 (props r :: before) [r] k
        (tracks_congr _ g2 _ htr (by rw [hg2]) (by rw [hg2]) (by rw [hg2]) (by rw [hg2])
          (by rw [hg2]))
        (by rw [hg2]; rfl) (by rw [hg2]) (by simp)
        (by simp only [splitForward, if_pos hbrk, List.length_cons] at hfuel; omega)
      rw [graphemeClusterIter.allSegments, hnext]
      simp only [key, splitForward, if_pos hbrk, Option.map_some', List.map_cons]
    · obtain ⟨g1, hg1⟩ : ∃ g1 : graphemeClusterIter, g1 =
          { (g.processRune props r).2 with
            runeIter := rs, currentSegment := some ((Segment.mk cur).Append r) } := ⟨_, rfl⟩
      have hnext : g.NextSegment props = g1.NextSegment props := by
        simp only [graphemeClusterIter.NextSegment, hrest, graphemeClusterIter.nextSegmentLoop, hseg]
        rw [if_neg (fun hc => hbrk (hcond.mp hc)), hg1]
      rw [allSegments_succ_eq props _ _ k hnext]
      simp only [splitForward, if_neg hbrk] at hfuel ⊢
      exact ih g1 (props r :: before) (cur ++ [r]) (k + 1)
        (tracks_congr _ g1 _ htr (by rw [hg1]) (by rw [hg1]) (by rw [hg1]) (by rw [hg1])
          (by rw [hg1]))
        (by rw [hg1]; rfl) (by rw [hg1]) (by simp) hfuel

theorem newGraphemeClusterIter_tracks (runes : List Rune) :
    (NewGraphemeClusterIter runes).Tracks [] := by
  refine ⟨?_, rfl, rfl, rfl, rfl⟩
  intro q rest h
  cases h

/-! ### Properties of the segmentation by the rules -/

theorem splitForward_flatten (props : Rune → gbProp) (rest : List Rune) (before : List gbProp)
    (cur : List Rune) :
    (splitForward props before cur rest).flatten = cur ++ rest ∧
      (∀ s ∈ splitForward props before cur rest, s ≠ []) ∧
      (splitForward props before cur rest).length ≤ rest.length + (if 0 < cur.length then 1 else 0) := by
  induction rest generalizing before cur with
  | nil =>
    by_cases hc : 0 < cur.length
    · simp only [splitForward, hc, if_true]
      refine ⟨by simp, ?_, by simp⟩
      intro s hs
      rw [List.mem_singleton] at hs
      subst hs
      exact List.length_pos.mp hc
    · have : cur = [] := by
        cases cur with
        | nil => rfl
        | cons a l => simp at hc
      subst this
      simp [splitForward]
  | cons r rs ih =>
    by_cases hbrk : uaxBreakAfter before (props r) = true ∧ 0 < cur.length
    · simp only [splitForward, if_pos hbrk]
      obtain ⟨h1, h2, h3⟩ := ih (props r :: before) [r]
      refine ⟨by simp [h1], ?_, ?_⟩
      · intro s hs
        rcases List.mem_cons.mp hs with rfl | hs
        · exact List.length_pos.mp hbrk.2
        · exact h2 s hs
      · have h4 : (if 0 < [r].length then 1 else 0) = 1 := by simp
        rw [h4] at h3
        rw [if_pos hbrk.2]
        simp only [List.length_cons]
        omega
    · simp only [splitForward, if_neg hbrk]
      obtain ⟨h1, h2, h3⟩ := ih (props r :: before) (cur ++ [r])
      refine ⟨by simp [h1], h2, ?_⟩
      simp only [List.length_append, List.length_singleton, List.length_cons] at h3 ⊢
      rw [if_pos (by omega)] at h3
      split <;> omega

end segment

namespace segment

theorem uaxBreak_at (props : Rune → gbProp) (pre : List Rune) (r : Rune) (rs : List Rune) :
    uaxBreak ((pre ++ r :: rs).map props) pre.length =
      uaxBreakAfter (pre.map props).reverse (props r) := by
  unfold uaxBreak
  have h1 : ((pre ++ r :: rs).map props).get? pre.length = some (props r) := by
    rw [List.map_append, List.get?_eq_getElem?, List.getElem?_append_right (by simp)]
    simp
  have h2 : ((pre ++ r :: rs).map props).take pre.length = pre.map props := by
    rw [List.map_append, List.take_append_of_le_length (by simp)]
    simp
  rw [h1, h2]

/-- The segmentation by the rules cuts the text where `uaxBreak` holds. -/
theorem splitForward_eq_splitBy (props : Rune → gbProp) (rest pre cur : List Rune) :
    splitForward props (pre.map props).reverse cur rest =
      splitBy (uaxBreak ((pre ++ rest).map props)) pre.length cur rest := by
  induction rest generalizing pre cur with
  | nil => simp [splitForward, splitBy]
  | cons r rs ih =>
    have h1 := ih (pre ++ [r])
    simp only [List.map_append, List.map_cons, List.map_nil, List.reverse_append,
      List.reverse_cons, List.reverse_nil, List.nil_append, List.singleton_append,
      List.append_assoc, List.length_append, List.length_singleton] at h1
    have h2 := uaxBreak_at props pre r rs
    simp only [List.map_append, List.map_cons] at h2
    simp only [splitForward, splitBy, h1, h2, List.map_append, List.map_cons]

/-- Where the segments of `splitBy` end. -/
theorem mem_segmentEnds_splitBy {α : Type} (brk : Nat → Bool) (xs : List α) (i : Nat)
    (cur : List α) (m : Nat) :
    m ∈ segmentEnds (splitBy brk i cur xs) ↔
      0 < m ∧ ∃ j, j ≤ xs.length ∧ m = cur.length + j ∧ (j = xs.length ∨ brk (i + j) = true) := by
  induction xs generalizing i cur m with
  | nil =>
    by_cases hc : 0 < cur.length
    · simp only [splitBy, if_pos hc, segmentEnds, List.map_nil, List.mem_singleton,
        List.length_nil]
      constructor
      · intro h; exact ⟨by omega, 0, by omega, by omega, Or.inl rfl⟩
      · rintro ⟨_, j, h1, h2, _⟩; omega
    · simp only [splitBy, if_neg hc, segmentEnds, List.not_mem_nil, List.length_nil, false_iff]
      rintro ⟨h0, j, h1, h2, _⟩
      omega
  | cons x xs ih =>
    by_cases hb : brk i = true ∧ 0 < cur.length
    · simp only [splitBy, if_pos hb, segmentEnds, List.mem_cons, List.mem_map, ih,
        List.length_singleton, List.length_cons, List.length_nil]
      constructor
      · rintro (h | ⟨m', ⟨h0, j, h1, h2, h3⟩, h4⟩)
        · exact ⟨by omega, 0, by omega, by omega, Or.inr (by simpa using hb.1)⟩
        · refine ⟨by omega, j + 1, by omega, by omega, ?_⟩
          rcases h3 with h3 | h3
          · exact Or.inl (by omega)
          · exact Or.inr (by rw [← h3]; congr 1; omega)
      · rintro ⟨h0, j, h1, h2, h3⟩
        cases j with
        | zero => exact Or.inl (by omega)
        | succ j' =>
          refine Or.inr ⟨1 + j', ⟨by omega, j', by omega, rfl, ?_⟩, by omega⟩
          rcases h3 with h3 | h3
          · exact Or.inl (by omega)
          · exact Or.inr (by rw [← h3]; congr 1; omega)
    · simp only [splitBy, if_neg hb, ih, List.length_append, List.length_singleton,
        List.length_cons, List.length_nil]
      constructor
      · rintro ⟨h0, j, h1, h2, h3⟩
        refine ⟨h0, j + 1, by omega, by omega, ?_⟩
        rcases h3 with h3 | h3
        · exact Or.inl (by omega)
        · exact Or.inr (by rw [← h3]; congr 1; omega)
      · rintro ⟨h0, j, h1, h2, h3⟩
        cases j with
        | zero =>
          exfalso
          rcases h3 with h3 | h3
          · omega
          · exact hb ⟨by simpa using h3, by omega⟩
        | succ j' =>
          refine ⟨h0, j', by omega, by omega, ?_⟩
          rcases h3 with h3 | h3
          · exact Or.inl (by omega)
          · exact Or.inr (by rw [← h3]; congr 1; omega)

theorem map_runes_map_mk (l : List (List Rune)) : (l.map Segment.mk).map Segment.runes = l := by
  induction l with
  | nil => rfl
  | cons a l ih => simp [ih]

/-- The forward iterator over `S`, called until `io.EOF`, yields the segmentation of `S` by
the rules. -/
theorem forward_allSegments (props : Rune → gbProp) (S : List Rune) :
    (NewGraphemeClusterIter S).allSegments props (S.length + 1) =
      some ((splitForward props [] [] S).map Segment.mk) := by
  apply allSegments_eq_splitForward props S _ [] [] _ (newGraphemeClusterIter_tracks S) rfl rfl
    (by simp)
  have := (splitForward_flatten props S [] []).2.2
  simp only [List.length_nil, Nat.lt_irrefl, if_false] at this
  omega

end segment

namespace segment

/-! ### The reverse iterator -/

theorem lookaheadExtendedPictographicLoop_eq (props : Rune → gbProp) (rs : List Rune) :
    lookaheadExtendedPictographicLoop props rs = endsExtPictExtend (rs.map props) := by
  induction rs with
  | nil => rfl
  | cons r rs ih =>
    simp only [lookaheadExtendedPictographicLoop, List.map_cons, endsExtPictExtend, ih]
    split_ifs <;> simp_all

theorem lookaheadRICount_eq (props : Rune → gbProp) (rs : List Rune) (riCount : Nat) :
    lookaheadRICount props rs riCount = riCount + riRunLength (rs.map props) := by
  induction rs generalizing riCount with
  | nil => rfl
  | cons r rs ih =>
    simp only [lookaheadRICount, List.map_cons, riRunLength, ih]
    split_ifs <;> omega

theorem endsExtPictExtendZWJ_cons (p : gbProp) (ps : List gbProp) :
    endsExtPictExtendZWJ (p :: ps) = (decide (p = gbProp.ZWJ) && endsExtPictExtend ps) := by
  cases p <;> simp [endsExtPictExtendZWJ]

theorem reverse_processRune_snd (props : Rune → gbProp) (g : reverseGraphemeClusterIter)
    (r : Rune) : (g.processRune props r).2 = { g with lastProp := props r } := rfl

/-- The reverse iterator allows a break after a rune iff the rules say break between the
text that ends with this rune and the rune processed before. -/
theorem reverse_processRune_break (props : Rune → gbProp) (g : reverseGraphemeClusterIter)
    (r : Rune) :
    (g.processRune props r).1 =
      uaxBreakAfter (props r :: g.runeIter.map props) g.lastProp := by
  unfold reverseGraphemeClusterIter.processRune uaxBreakAfter
    reverseGraphemeClusterIter.lookaheadExtendedPictographicSequence
    reverseGraphemeClusterIter.lookaheadEvenRI
  dsimp only
  rw [lookaheadExtendedPictographicLoop_eq, lookaheadRICount_eq, endsExtPictExtendZWJ_cons]
  simp only [riRunLength]
  generalize props r = p
  generalize g.lastProp = q
  generalize endsExtPictExtend (g.runeIter.map props) = b1
  cases q <;> cases p <;> simp [gbProp.isControlOrNewline]
  omega

theorem reverse_allSegments_succ_eq (props : Rune → gbProp) (g g' : reverseGraphemeClusterIter)
    (fuel : Nat) (h : g.NextSegment props = g'.NextSegment props) :
    g.allSegments props (fuel + 1) = g'.allSegments props (fuel + 1) := by
  simp only [reverseGraphemeClusterIter.allSegments, h]

theorem reverse_nextSegment_cons (props : Rune → gbProp) (r : Rune) (rs cur : List Rune)
    (last : gbProp) :
    reverseGraphemeClusterIter.NextSegment props ⟨some ⟨cur⟩, r :: rs, last⟩ =
      if uaxBreakAfter (props r :: rs.map props) last = true ∧ 0 < cur.length then
        some (some ⟨cur.reverse⟩, ⟨some ⟨[r]⟩, rs, props r⟩)
      else reverseGraphemeClusterIter.NextSegment props ⟨some ⟨cur ++ [r]⟩, rs, props r⟩ := by
  have h := reverse_processRune_break props ⟨some ⟨cur⟩, rs, last⟩ r
  simp only at h
  simp only [reverseGraphemeClusterIter.NextSegment, reverseGraphemeClusterIter.nextSegmentLoop,
    reverse_processRune_snd, h, Segment.NumRunes, Segment.ReverseRunes, Segment.Append,
    NewSegment, List.nil_append, gt_iff_lt]

theorem reverse_nextSegment_nil (props : Rune → gbProp) (cur : List Rune) (last : gbProp) :
    reverseGraphemeClusterIter.NextSegment props ⟨some ⟨cur⟩, [], last⟩ =
      if 0 < cur.length then some (some ⟨cur.reverse⟩, ⟨none, [], last⟩)
      else some (none, ⟨some ⟨cur⟩, [], last⟩) := by
  simp only [reverseGraphemeClusterIter.NextSegment, reverseGraphemeClusterIter.nextSegmentLoop,
    Segment.NumRunes, Segment.ReverseRunes, gt_iff_lt]

/-- Calling `NextSegment` of the reverse iterator until `io.EOF` yields the backward
segmentation by the rules. -/
theorem allSegments_eq_splitBackward (props : Rune → gbProp) (rest cur : List Rune)
    (last : gbProp) (fuel : Nat) (hfuel : (splitBackward props last cur rest).length + 1 ≤ fuel) :
    reverseGraphemeClusterIter.allSegments props fuel ⟨some ⟨cur⟩, rest, last⟩ =
      some ((splitBackward props last cur rest).map Segment.mk) := by
  induction rest generalizing cur last fuel with
  | nil =>
    obtain ⟨k, rfl⟩ : ∃ k, fuel = k + 1 := ⟨fuel - 1, by omega⟩
    rw [reverseGraphemeClusterIter.allSegments, reverse_nextSegment_nil]
    by_cases hc : 0 < cur.length
    · simp only [splitBackward, hc, if_true, List.length_singleton] at hfuel ⊢
      obtain ⟨k', rfl⟩ : ∃ k', k = k' + 1 := ⟨k - 1, by omega⟩
      simp [reverseGraphemeClusterIter.allSegments, reverseGraphemeClusterIter.NextSegment,
        reverseGraphemeClusterIter.nextSegmentLoop]
    · simp [splitBackward, hc]
  | cons r rs ih =>
    obtain ⟨k, rfl⟩ : ∃ k, fuel = k + 1 := ⟨fuel - 1, by omega⟩
    by_cases hbrk : uaxBreakAfter (props r :: rs.map props) last = true ∧ 0 < cur.length
    · simp only [splitBackward, if_pos hbrk, List.length_cons] at hfuel
      rw [reverseGraphemeClusterIter.allSegments, reverse_nextSegment_cons, if_pos hbrk]
      simp only [ih [r] (props r) k (by omega), splitBackward, if_pos hbrk, Option.map_some',
        List.map_cons]
    · have hnext : reverseGraphemeClusterIter.NextSegment props ⟨some ⟨cur⟩, r :: rs, last⟩ =
          reverseGraphemeClusterIter.NextSegment props ⟨some ⟨cur ++ [r]⟩, rs, props r⟩ := by
        rw [reverse_nextSegment_cons, if_neg hbrk]
      rw [reverse_allSegments_succ_eq props _ _ k hnext]
      simp only [splitBackward, if_neg hbrk] at hfuel ⊢
      exact ih (cur ++ [r]) (props r) (k + 1) hfuel

theorem splitBackward_length (props : Rune → gbProp) (rest : List Rune) (last : gbProp)
    (cur : List Rune) :
    (splitBackward props last cur rest).length ≤
      rest.length + (if 0 < cur.length then 1 else 0) := by
  induction rest generalizing last cur with
  | nil => simp only [splitBackward]; split <;> simp
  | cons r rs ih =>
    by_cases hbrk : uaxBreakAfter (props r :: rs.map props) last = true ∧ 0 < cur.length
    · simp only [splitBackward, if_pos hbrk, List.length_cons, if_pos hbrk.2]
      have h3 := ih (props r) [r]
      have h4 : (if 0 < [r].length then 1 else 0) = 1 := by simp
      rw [h4] at h3
      omega
    · simp only [splitBackward, if_neg hbrk, List.length_cons]
      have h3 := ih (props r) (cur ++ [r])
      rw [if_pos (by simp)] at h3
      split <;> omega

end segment

namespace segment

/-! ### Cutting a text from its start and from its end -/

theorem splitBy_shift {α : Type} (brk : Nat → Bool) (b : Nat) (xs : List α) (i : Nat)
    (cur : List α) :
    splitBy (fun k => brk (b + k)) i cur xs = splitBy brk (b + i) cur xs := by
  induction xs generalizing i cur with
  | nil => rfl
  | cons x xs ih => simp only [splitBy, ih, Nat.add_assoc]

theorem splitByBackward_cons {α : Type} (brk : Nat → Bool) (cur : List α) (x : α)
    (xs : List α) :
    splitByBackward brk cur (x :: xs) =
      if brk (xs.length + 1) = true ∧ 0 < cur.length then cur :: splitByBackward brk [x] xs
      else splitByBackward brk (x :: cur) xs := rfl

/-- Without a break inside, the backward cut yields one segment. -/
theorem splitByBackward_of_no_break {α : Type} (brk : Nat → Bool) (P cur : List α)
    (hno : ∀ k, 1 ≤ k → k < P.length + (if 0 < cur.length then 1 else 0) → brk k = false)
    (hne : 0 < P.length + cur.length) :
    splitByBackward brk cur P = [P.reverse ++ cur] := by
  induction P generalizing cur with
  | nil =>
    simp only [List.length_nil, Nat.zero_add] at hne
    simp [splitByBackward, hne]
  | cons p P ih =>
    have hcond : ¬ (brk (P.length + 1) = true ∧ 0 < cur.length) := by
      rintro ⟨h1, h2⟩
      have := hno (P.length + 1) (by omega) (by simp [h2])
      rw [this] at h1
      cases h1
    simp only [splitByBackward, if_neg hcond]
    rw [ih (p :: cur) ?_ (by simp)]
    · simp
    · intro k h1 h2
      apply hno k h1
      have h3 : (if 0 < (p :: cur).length then 1 else 0) = 1 := by simp
      rw [h3] at h2
      simp only [List.length_cons]
      split <;> omega

/-- The backward cut of a text that has a break at the start of its last part `P` (first in
the backward order of processing comes `R`, then `P`). -/
theorem splitByBackward_append {α : Type} (brk : Nat → Bool) (R P cur : List α)
    (hP : 0 < P.length) (hb : brk P.length = true) (hne : 0 < R.length + cur.length) :
    splitByBackward brk cur (R ++ P) =
      splitByBackward (fun i => brk (P.length + i)) cur R ++ splitByBackward brk [] P := by
  induction R generalizing cur with
  | nil =>
    simp only [List.length_nil, Nat.zero_add] at hne
    cases P with
    | nil => simp at hP
    | cons p P' =>
      simp only [List.length_cons] at hb
      simp [splitByBackward, hb, hne]
  | cons r R ih =>
    have hidx : (R ++ P).length + 1 = P.length + (R.length + 1) := by
      simp only [List.length_append]; omega
    rw [List.cons_append, splitByBackward_cons, splitByBackward_cons, hidx]
    by_cases hc : brk (P.length + (R.length + 1)) = true ∧ 0 < cur.length
    · rw [if_pos hc, if_pos hc, ih [r] (by simp)]
      rfl
    · rw [if_neg hc, if_neg hc, ih (r :: cur) (by simp)]

/-- Cutting from the end at the same places yields the segments in reverse order. -/
theorem splitByBackward_eq_reverse_aux {α : Type} (S : List α) (brk : Nat → Bool) (pre : List α)
    (hpre : 0 < pre.length) (hno : ∀ k, 1 ≤ k → k < pre.length → brk k = false) :
    splitByBackward brk [] (pre ++ S).reverse = (splitBy brk pre.length pre S).reverse := by
  induction S generalizing brk pre with
  | nil =>
    simp only [List.append_nil, splitBy, if_pos hpre, List.reverse_cons, List.reverse_nil,
      List.nil_append]
    rw [splitByBackward_of_no_break brk pre.reverse [] (by simpa using hno) (by simpa using hpre)]
    simp
  | cons x S ih =>
    by_cases hb : brk pre.length = true ∧ 0 < pre.length
    · simp only [splitBy, if_pos hb, List.reverse_cons]
      have h1 : (pre ++ x :: S).reverse = (x :: S).reverse ++ pre.reverse := by simp
      rw [h1, splitByBackward_append brk _ pre.reverse [] (by simpa using hpre)
        (by simpa using hb.1) (by simp)]
      rw [splitByBackward_of_no_break brk pre.reverse [] (by simpa using hno)
        (by simpa using hpre)]
      have h2 := ih (fun i => brk (pre.length + i)) [x] (by simp) (by intro k h1 h2; simp at h2; omega)
      simp only [List.singleton_append, List.length_singleton, splitBy_shift] at h2
      simp only [List.length_reverse, List.reverse_reverse, List.append_nil]
      rw [h2]
    · simp only [splitBy, if_neg hb]
      have h2 := ih brk (pre ++ [x]) (by simp) (by
        intro k h1 h2
        simp only [List.length_append, List.length_singleton] at h2
        by_cases hk : k < pre.length
        · exact hno k h1 hk
        · have hk' : k = pre.length := by omega
          subst hk'
          cases hbk : brk pre.length with
          | false => rfl
          | true => exact absurd ⟨hbk, hpre⟩ hb)
      simp only [List.append_assoc, List.singleton_append, List.length_append,
        List.length_singleton] at h2
      exact h2

theorem splitByBackward_eq_reverse {α : Type} (S : List α) (brk : Nat → Bool) :
    splitByBackward brk [] S.reverse = (splitBy brk 0 [] S).reverse := by
  cases S with
  | nil => simp [splitByBackward, splitBy]
  | cons x S =>
    have h := splitByBackward_eq_reverse_aux S brk [x] (by simp) (by intro k h1 h2; simp at h2; omega)
    simpa [splitBy] using h

/-- The backward segmentation by the rules cuts the text where `uaxBreak` holds. -/
theorem splitBackward_eq_splitByBackward (props : Rune → gbProp) (rest cur post : List Rune)
    (last : gbProp) (hlast : ∀ c cs, cur.reverse = c :: cs → last = props c) :
    splitBackward props last cur rest =
      splitByBackward (uaxBreak ((rest.reverse ++ cur.reverse ++ post).map props)) cur.reverse
        rest := by
  induction rest generalizing cur post last with
  | nil => simp [splitBackward, splitByBackward]
  | cons r rs ih =>
    have hcond : (uaxBreakAfter (props r :: rs.map props) last = true ∧ 0 < cur.length) ↔
        (uaxBreak (((r :: rs).reverse ++ cur.reverse ++ post).map props) (rs.length + 1) = true ∧
          0 < cur.reverse.length) := by
      by_cases h2 : 0 < cur.length
      · obtain ⟨c, cs, hc⟩ : ∃ c cs, cur.reverse = c :: cs := by
          cases hcr : cur.reverse with
          | nil => simp at hcr; subst hcr; simp at h2
          | cons c cs => exact ⟨c, cs, rfl⟩
        have hval : uaxBreak (((r :: rs).reverse ++ cur.reverse ++ post).map props)
            (rs.length + 1) = uaxBreakAfter (props r :: rs.map props) last := by
          have hu := uaxBreak_at props (rs.reverse ++ [r]) c (cs ++ post)
          rw [hlast c cs hc, hc]
          simpa using hu
        simp only [hval, List.length_reverse]
      · simp [h2]
    by_cases hbrk : uaxBreakAfter (props r :: rs.map props) last = true ∧ 0 < cur.length
    · simp only [splitBackward, if_pos hbrk, splitByBackward, if_pos (hcond.mp hbrk)]
      have h2 := ih [r] (cur.reverse ++ post) (props r) (by
        intro c cs hc
        simp only [List.reverse_cons, List.reverse_nil, List.nil_append, List.cons.injEq] at hc
        rw [hc.1])
      simp only [List.reverse_cons, List.reverse_nil, List.nil_append, List.append_assoc,
        List.singleton_append, List.cons_append] at h2 ⊢
      rw [h2]
    · simp only [splitBackward, if_neg hbrk, splitByBackward,
        if_neg (fun hc => hbrk (hcond.mpr hc))]
      have h2 := ih (cur ++ [r]) post (props r) (by
        intro c cs hc
        simp only [List.reverse_append, List.reverse_cons, List.reverse_nil, List.nil_append,
          List.singleton_append, List.cons.injEq] at hc
        rw [hc.1])
      simp only [List.reverse_append, List.reverse_cons, List.reverse_nil, List.nil_append,
        List.singleton_append, List.append_assoc, List.cons_append] at h2 ⊢
      rw [h2]

/-- The reverse iterator over the runes of `S` in reverse order, called until `io.EOF`,
yields the segmentation of `S` by the rules in reverse order. -/
theorem reverse_allSegments (props : Rune → gbProp) (S : List Rune) :
    (NewReverseGraphemeClusterIter S.reverse).allSegments props (S.length + 1) =
      some (((splitForward props [] [] S).map Segment.mk).reverse) := by
  have h1 := splitBackward_eq_splitByBackward props S.reverse [] [] gbProp.None
    (by intro c cs hc; simp at hc)
  simp only [List.reverse_reverse, List.reverse_nil, List.append_nil] at h1
  rw [splitByBackward_eq_reverse] at h1
  have h2 := splitForward_eq_splitBy props S [] []
  simp only [List.map_nil, List.reverse_nil, List.nil_append, List.length_nil] at h2
  rw [← h2] at h1
  have h3 := splitBackward_length props S.reverse gbProp.None []
  simp only [List.length_reverse, List.length_nil, Nat.lt_irrefl, if_false] at h3
  have h4 := allSegments_eq_splitBackward props S.reverse [] gbProp.None (S.length + 1) (by omega)
  rw [h1] at h4
  rw [← List.map_reverse]
  exact h4

end segment

/-! ### Lemmas about the text tree -/

namespace text

theorem leafChunks_flatten (maxBytesPerLeaf : Nat) (bs cur : List Byte) :
    (leafChunks maxBytesPerLeaf bs cur).flatten = cur ++ bs := by
  induction bs generalizing cur with
  | nil =>
    cases cur with
    | nil => simp [leafChunks]
    | cons a l => simp [leafChunks]
  | cons b bs ih =>
    simp only [leafChunks]
    split
    · simp [ih]
    · simp [ih]

theorem newLeaf_bytes (bytes : List Byte) : (newLeaf bytes).bytes = bytes := rfl

theorem joinPairs_bytes (nodes : List Node) :
    ((joinPairs nodes).map Node.bytes).flatten = (nodes.map Node.bytes).flatten := by
  induction nodes using joinPairs.induct with
  | case1 a b rest ih =>
    simp only [joinPairs, List.map_cons, List.flatten_cons, ih, newInner, Node.bytes,
      List.append_assoc]
  | case2 rest h =>
    cases rest with
    | nil => rfl
    | cons a l =>
      cases l with
      | nil => rfl
      | cons b l' => exact absurd rfl (h a b l')

theorem joinPairs_length (nodes : List Node) (h : 2 ≤ nodes.length) :
    (joinPairs nodes).length < nodes.length := by
  induction nodes using joinPairs.induct with
  | case1 a b rest ih =>
    simp only [joinPairs, List.length_cons]
    by_cases h2 : 2 ≤ rest.length
    · have := ih h2; omega
    · have h3 : (joinPairs rest).length ≤ rest.length := by
        cases rest with
        | nil => simp [joinPairs]
        | cons c l =>
          cases l with
          | nil => simp [joinPairs]
          | cons d l' => simp at h2
      omega
  | case2 rest hne =>
    cases rest with
    | nil => simp at h
    | cons a l =>
      cases l with
      | nil => simp at h
      | cons b l' => exact absurd rfl (hne a b l')

/-- The text of the tree built over some nodes is the concatenation of their texts. -/
theorem buildTree_bytes (fuel : Nat) (nodes : List Node) (h : nodes.length ≤ fuel + 1) :
    (buildTree fuel nodes).bytes = (nodes.map Node.bytes).flatten := by
  induction fuel generalizing nodes with
  | zero =>
    cases nodes with
    | nil => rfl
    | cons a l =>
      cases l with
      | nil => simp [buildTree]
      | cons b l' => simp at h
  | succ k ih =>
    cases nodes with
    | nil => rfl
    | cons a l =>
      cases l with
      | nil => simp [buildTree]
      | cons b l' =>
        rw [buildTree, ih _ ?_, joinPairs_bytes]
        · have := joinPairs_length (a :: b :: l') (by simp)
          omega
        · intro hx; cases hx
        · intro x hx; cases hx

end text

namespace text

theorem validRune_iff (r : Int) :
    validRune r = true ↔ (0 ≤ r ∧ r < 0xD800) ∨ (0xE000 ≤ r ∧ r ≤ 0x10FFFF) := by
  simp [validRune]

theorem decodeLoop_start (b : Byte) (bs : List Byte) (acc least : Nat) :
    decodeLoop (b :: bs) 0 acc least = decodeLoop (b :: bs) 0 0 0 := by
  simp only [decodeLoop]

/-- Decoding the encoding of a Unicode scalar value yields the value, and goes on with
the bytes that follow. -/
theorem decodeLoop_encodeRune (r : Int) (hr : validRune r = true) (rest : List Byte) :
    decodeLoop (encodeRune r ++ rest) 0 0 0 = (decodeLoop rest 0 0 0).map (r :: ·) := by
  have hv := (validRune_iff r).mp hr
  have h0 : 0 ≤ r := by omega
  obtain ⟨n, rfl⟩ : ∃ n : Nat, r = (n : Int) := ⟨r.toNat, (Int.toNat_of_nonneg h0).symm⟩
  have hn : n < 0xD800 ∨ (0xE000 ≤ n ∧ n ≤ 0x10FFFF) := by omega
  unfold encodeRune
  simp only [hr, Int.toNat_ofNat, if_false, Bool.true_eq_false]
  by_cases h1 : n < 0x80
  · simp only [if_pos h1, List.singleton_append, decodeLoop]
  · rw [if_neg h1]
    by_cases h2 : n < 0x800
    · rw [if_pos h2]
      have c1 : ¬ (0xC0 + n / 64 < 0x80) := by omega
      have c2 : 0xC0 ≤ 0xC0 + n / 64 ∧ 0xC0 + n / 64 < 0xE0 := by omega
      have c3 : 0x80 ≤ 0x80 + n % 64 ∧ 0x80 + n % 64 < 0xC0 := by omega
      have hval : (0xC0 + n / 64 - 0xC0) * 64 + (0x80 + n % 64 - 0x80) = n := by omega
      have c4 : 0x80 ≤ n ∧ validRune (n : Int) = true := ⟨by omega, hr⟩
      simp only [List.cons_append, List.nil_append]
      rw [decodeLoop, if_neg c1, if_pos c2, decodeLoop, if_pos c3, if_pos rfl, hval, if_pos c4]
    · rw [if_neg h2]
      by_cases h3 : n < 0x10000
      · rw [if_pos h3]
        have c1 : ¬ (0xE0 + n / 4096 < 0x80) := by omega
        have c2 : ¬ (0xC0 ≤ 0xE0 + n / 4096 ∧ 0xE0 + n / 4096 < 0xE0) := by omega
        have c3 : 0xE0 ≤ 0xE0 + n / 4096 ∧ 0xE0 + n / 4096 < 0xF0 := by omega
        have c4 : 0x80 ≤ 0x80 + n / 64 % 64 ∧ 0x80 + n / 64 % 64 < 0xC0 := by omega
        have c5 : 0x80 ≤ 0x80 + n % 64 ∧ 0x80 + n % 64 < 0xC0 := by omega
        have hval : ((0xE0 + n / 4096 - 0xE0) * 64 + (0x80 + n / 64 % 64 - 0x80)) * 64 +
            (0x80 + n % 64 - 0x80) = n := by omega
        have c6 : 0x800 ≤ n ∧ validRune (n : Int) = true := ⟨by omega, hr⟩
        simp only [List.cons_append, List.nil_append]
        rw [decodeLoop, if_neg c1, if_neg c2, if_pos c3, decodeLoop, if_pos c4,
          if_neg (by decide), decodeLoop, if_pos c5, if_pos rfl, hval, if_pos c6]
      · rw [if_neg h3]
        have c1 : ¬ (0xF0 + n / 262144 < 0x80) := by omega
        have c2 : ¬ (0xC0 ≤ 0xF0 + n / 262144 ∧ 0xF0 + n / 262144 < 0xE0) := by omega
        have c3 : ¬ (0xE0 ≤ 0xF0 + n / 262144 ∧ 0xF0 + n / 262144 < 0xF0) := by omega
        have c4 : 0xF0 ≤ 0xF0 + n / 262144 ∧ 0xF0 + n / 262144 < 0xF8 := by omega
        have c5 : 0x80 ≤ 0x80 + n / 4096 % 64 ∧ 0x80 + n / 4096 % 64 < 0xC0 := by omega
        have c6 : 0x80 ≤ 0x80 + n / 64 % 64 ∧ 0x80 + n / 64 % 64 < 0xC0 := by omega
        have c7 : 0x80 ≤ 0x80 + n % 64 ∧ 0x80 + n % 64 < 0xC0 := by omega
        have hval : (((0xF0 + n / 262144 - 0xF0) * 64 + (0x80 + n / 4096 % 64 - 0x80)) * 64 +
            (0x80 + n / 64 % 64 - 0x80)) * 64 + (0x80 + n % 64 - 0x80) = n := by omega
        have c8 : 0x10000 ≤ n ∧ validRune (n : Int) = true := ⟨by omega, hr⟩
        simp only [List.cons_append, List.nil_append]
        rw [decodeLoop, if_neg c1, if_neg c2, if_neg c3, if_pos c4, decodeLoop, if_pos c5,
          if_neg (by decide), decodeLoop, if_pos c6, if_neg (by decide), decodeLoop, if_pos c7,
          if_pos rfl, hval, if_pos c8]

/-- The encoding of Unicode scalar values is valid UTF-8 and decodes to them. -/
theorem decodeUtf8_encodeRunes (runes : List Rune) (h : ∀ r ∈ runes, validRune r = true) :
    decodeUtf8 (encodeRunes runes) = some runes := by
  unfold decodeUtf8
  induction runes with
  | nil => rfl
  | cons r rs ih =>
    have h1 : encodeRunes (r :: rs) = encodeRune r ++ encodeRunes rs := by
      simp [encodeRunes]
    rw [h1, decodeLoop_encodeRune r (h r (List.mem_cons_self _ _)),
      ih (fun x hx => h x (List.mem_cons_of_mem _ hx))]
    rfl

end text

/-! ### UTF-8: from the bytes back to the codepoints -/

namespace text

theorem encodeRunes_nil : encodeRunes [] = [] := rfl

theorem encodeRunes_cons (r : Rune) (rs : List Rune) :
    encodeRunes (r :: rs) = encodeRune r ++ encodeRunes rs := by
  simp [encodeRunes]

theorem encodeRunes_append (a b : List Rune) :
    encodeRunes (a ++ b) = encodeRunes a ++ encodeRunes b := by
  simp [encodeRunes]

/-- With one continuation byte expected, decoding succeeds only on a continuation byte that
completes a Unicode scalar value in its shortest form. -/
theorem decodeLoop_one (bs : List Byte) (acc least : Nat) (rs : List Rune)
    (h : decodeLoop bs 1 acc least = some rs) :
    ∃ c rest rs', bs = c :: rest ∧ (0x80 ≤ c ∧ c < 0xC0) ∧ least ≤ acc * 64 + (c - 0x80) ∧
      validRune ((acc * 64 + (c - 0x80) : Nat) : Int) = true ∧
      decodeLoop rest 0 0 0 = some rs' ∧ rs = ((acc * 64 + (c - 0x80) : Nat) : Int) :: rs' := by
  cases bs with
  | nil => simp [decodeLoop] at h
  | cons c rest =>
    rw [decodeLoop] at h
    by_cases hc : 0x80 ≤ c ∧ c < 0xC0
    · rw [if_pos hc, if_pos rfl] at h
      by_cases hv : least ≤ acc * 64 + (c - 0x80) ∧
          validRune ((acc * 64 + (c - 0x80) : Nat) : Rune) = true
      · rw [if_pos hv] at h
        cases hd : decodeLoop rest 0 0 0 with
        | none => rw [hd] at h; simp at h
        | some rs' =>
          rw [hd] at h
          simp only [Option.map_some', Option.some.injEq] at h
          exact ⟨c, rest, rs', rfl, hc, hv.1, hv.2, hd, h.symm⟩
      · rw [if_neg hv] at h; simp at h
    · rw [if_neg hc] at h; simp at h

/-- With more than one continuation byte expected, decoding succeeds only on a continuation
byte, whose bits are added to the codepoint under construction. -/
theorem decodeLoop_more (bs : List Byte) (need acc least : Nat) (rs : List Rune)
    (h : decodeLoop bs (need + 2) acc least = some rs) :
    ∃ c rest, bs = c :: rest ∧ (0x80 ≤ c ∧ c < 0xC0) ∧
      decodeLoop rest (need + 1) (acc * 64 + (c - 0x80)) least = some rs := by
  cases bs with
  | nil => simp [decodeLoop] at h
  | cons c rest =>
    rw [decodeLoop] at h
    by_cases hc : 0x80 ≤ c ∧ c < 0xC0
    · rw [if_pos hc, if_neg (by omega)] at h
      exact ⟨c, rest, rfl, hc, h⟩
    · rw [if_neg hc] at h; simp at h

end text

namespace text

/-- The encoding of a Unicode scalar value given as a natural number. -/
theorem encodeRune_ofNat (v : Nat) (hv : validRune (v : Int) = true) :
    encodeRune (v : Int) =
      if v < 0x80 then [v]
      else if v < 0x800 then [0xC0 + v / 64, 0x80 + v % 64]
      else if v < 0x10000 then [0xE0 + v / 4096, 0x80 + v / 64 % 64, 0x80 + v % 64]
      else [0xF0 + v / 262144, 0x80 + v / 4096 % 64, 0x80 + v / 64 % 64, 0x80 + v % 64] := by
  have hnf : ¬ (validRune (v : Int) = false) := by rw [hv]; decide
  unfold encodeRune
  rw [if_neg hnf, Int.toNat_ofNat]

/-- The encoding of a value decoded from a lead byte and one continuation byte is those
bytes. -/
theorem encodeRune_two (b c v : Nat) (hb : 0xC0 ≤ b ∧ b < 0xE0) (hc : 0x80 ≤ c ∧ c < 0xC0)
    (hdef : v = (b - 0xC0) * 64 + (c - 0x80)) (hl : 0x80 ≤ v)
    (hv : validRune (v : Int) = true) : encodeRune (v : Int) = [b, c] := by
  have c1 : ¬ (v < 0x80) := by omega
  have c2 : v < 0x800 := by omega
  have e1 : 0xC0 + v / 64 = b := by omega
  have e2 : 0x80 + v % 64 = c := by omega
  rw [encodeRune_ofNat v hv, if_neg c1, if_pos c2, e1, e2]

/-- The encoding of a value decoded from a lead byte and two continuation bytes is those
bytes. -/
theorem encodeRune_three (b c d v : Nat) (hb : 0xE0 ≤ b ∧ b < 0xF0) (hc : 0x80 ≤ c ∧ c < 0xC0)
    (hd : 0x80 ≤ d ∧ d < 0xC0)
    (hdef : v = ((b - 0xE0) * 64 + (c - 0x80)) * 64 + (d - 0x80)) (hl : 0x800 ≤ v)
    (hv : validRune (v : Int) = true) : encodeRune (v : Int) = [b, c, d] := by
  have c1 : ¬ (v < 0x80) := by omega
  have c2 : ¬ (v < 0x800) := by omega
  have c3 : v < 0x10000 := by omega
  have e1 : 0xE0 + v / 4096 = b := by omega
  have e2 : 0x80 + v / 64 % 64 = c := by omega
  have e3 : 0x80 + v % 64 = d := by omega
  rw [encodeRune_ofNat v hv, if_neg c1, if_neg c2, if_pos c3, e1, e2, e3]

/-- The encoding of a value decoded from a lead byte and three continuation bytes is those
bytes. -/
theorem encodeRune_four (b c d e v : Nat) (hb : 0xF0 ≤ b ∧ b < 0xF8) (hc : 0x80 ≤ c ∧ c < 0xC0)
    (hd : 0x80 ≤ d ∧ d < 0xC0) (he : 0x80 ≤ e ∧ e < 0xC0)
    (hdef : v = (((b - 0xF0) * 64 + (c - 0x80)) * 64 + (d - 0x80)) * 64 + (e - 0x80))
    (hl : 0x10000 ≤ v) (hv : validRune (v : Int) = true) :
    encodeRune (v : Int) = [b, c, d, e] := by
  have c1 : ¬ (v < 0x80) := by omega
  have c2 : ¬ (v < 0x800) := by omega
  have c3 : ¬ (v < 0x10000) := by omega
  have e1 : 0xF0 + v / 262144 = b := by omega
  have e2 : 0x80 + v / 4096 % 64 = c := by omega
  have e3 : 0x80 + v / 64 % 64 = d := by omega
  have e4 : 0x80 + v % 64 = e := by omega
  rw [encodeRune_ofNat v hv, if_neg c1, if_neg c2, if_neg c3, e1, e2, e3, e4]

/-- Whatever decodes is the encoding of what it decodes to, and that is made of Unicode
scalar values. -/
theorem decodeLoop_sound (n : Nat) : ∀ (bs : List Nat) (rs : List Rune), bs.length ≤ n →
    decodeLoop bs 0 0 0 = some rs → bs = encodeRunes rs ∧ ∀ r ∈ rs, validRune r = true := by
  induction n with
  | zero =>
    intro bs rs hlen h
    have hbs : bs = [] := List.length_eq_zero.mp (by omega)
    subst hbs
    simp only [decodeLoop, if_true, Option.some.injEq] at h
    subst h
    exact ⟨rfl, by simp⟩
  | succ n ih =>
    intro bs rs hlen h
    cases bs with
    | nil =>
      simp only [decodeLoop, if_true, Option.some.injEq] at h
      subst h
      exact ⟨rfl, by simp⟩
    | cons b bs =>
      simp only [List.length_cons] at hlen
      rw [decodeLoop] at h
      by_cases h1 : b < 0x80
      · rw [if_pos h1] at h
        cases hd : decodeLoop bs 0 0 0 with
        | none => rw [hd] at h; simp at h
        | some rs' =>
          rw [hd] at h
          simp only [Option.map_some', Option.some.injEq] at h
          subst h
          obtain ⟨e, hv⟩ := ih bs rs' (by omega) hd
          have hvb : validRune (b : Int) = true := by
            rw [validRune_iff]; omega
          refine ⟨?_, ?_⟩
          · rw [encodeRunes_cons, encodeRune_ofNat b hvb, if_pos h1, ← e]; rfl
          · intro r hr
            rcases List.mem_cons.mp hr with rfl | hr
            · exact hvb
            · exact hv r hr
      · rw [if_neg h1] at h
        by_cases h2 : 0xC0 ≤ b ∧ b < 0xE0
        · rw [if_pos h2] at h
          obtain ⟨c, rest, rs', rfl, hc, hl, hv, hd, rfl⟩ := decodeLoop_one _ _ _ _ h
          simp only [List.length_cons] at hlen
          obtain ⟨e, hvs⟩ := ih rest rs' (by omega) hd
          refine ⟨?_, ?_⟩
          · rw [encodeRunes_cons, encodeRune_two b c _ h2 hc rfl hl hv, ← e]; rfl
          · intro r hr
            rcases List.mem_cons.mp hr with rfl | hr
            · exact hv
            · exact hvs r hr
        · rw [if_neg h2] at h
          by_cases h3 : 0xE0 ≤ b ∧ b < 0xF0
          · rw [if_pos h3] at h
            obtain ⟨c, rest1, rfl, hc, h⟩ := decodeLoop_more _ 0 _ _ _ h
            obtain ⟨d, rest, rs', rfl, hd, hl, hv, hdec, rfl⟩ := decodeLoop_one _ _ _ _ h
            simp only [List.length_cons] at hlen
            obtain ⟨e, hvs⟩ := ih rest rs' (by omega) hdec
            refine ⟨?_, ?_⟩
            · rw [encodeRunes_cons, encodeRune_three b c d _ h3 hc hd rfl hl hv, ← e]; rfl
            · intro r hr
              rcases List.mem_cons.mp hr with rfl | hr
              · exact hv
              · exact hvs r hr
          · rw [if_neg h3] at h
            by_cases h4 : 0xF0 ≤ b ∧ b < 0xF8
            · rw [if_pos h4] at h
              obtain ⟨c, rest1, rfl, hc, h⟩ := decodeLoop_more _ 1 _ _ _ h
              obtain ⟨d, rest2, rfl, hd, h⟩ := decodeLoop_more _ 0 _ _ _ h
              obtain ⟨e4, rest, rs', rfl, he, hl, hv, hdec, rfl⟩ := decodeLoop_one _ _ _ _ h
              simp only [List.length_cons] at hlen
              obtain ⟨e, hvs⟩ := ih rest rs' (by omega) hdec
              refine ⟨?_, ?_⟩
              · rw [encodeRunes_cons, encodeRune_four b c d e4 _ h4 hc hd he rfl hl hv, ← e]; rfl
              · intro r hr
                rcases List.mem_cons.mp hr with rfl | hr
                · exact hv
                · exact hvs r hr
            · rw [if_neg h4] at h; simp at h

/-- A byte sequence decodes to the codepoints `rs` exactly when it is the encoding of `rs`
and `rs` is made of Unicode scalar values. -/
theorem decodeUtf8_eq_some_iff (bs : List Byte) (rs : List Rune) :
    decodeUtf8 bs = some rs ↔ bs = encodeRunes rs ∧ ∀ r ∈ rs, validRune r = true := by
  constructor
  · intro h
    exact decodeLoop_sound bs.length bs rs (Nat.le_refl _) h
  · rintro ⟨rfl, hv⟩
    exact decodeUtf8_encodeRunes rs hv

end text

/-! ### The bytes of whole codepoints -/

namespace text

theorem isStartByte_iff (b : Nat) : isStartByte b = true ↔ b < 0x80 ∨ 0xC0 ≤ b := by
  simp [isStartByte]

theorem byteOffsetForPosition_nil (pos : Nat) : byteOffsetForPosition [] pos = 0 := by
  simp [byteOffsetForPosition]

theorem byteOffsetForPosition_cons_continuation (b : Nat) (bs : List Nat) (pos : Nat)
    (h : isStartByte b = false) :
    byteOffsetForPosition (b :: bs) pos = 1 + byteOffsetForPosition bs pos := by
  simp [byteOffsetForPosition, h]

theorem byteOffsetForPosition_cons_zero (b : Nat) (bs : List Nat) (h : isStartByte b = true) :
    byteOffsetForPosition (b :: bs) 0 = 0 := by
  simp [byteOffsetForPosition, h]

theorem byteOffsetForPosition_cons_succ (b : Nat) (bs : List Nat) (pos : Nat)
    (h : isStartByte b = true) :
    byteOffsetForPosition (b :: bs) (pos + 1) = 1 + byteOffsetForPosition bs pos := by
  simp [byteOffsetForPosition, h]

theorem positionAfterNewline_nil (n : Nat) : positionAfterNewline [] n = 0 := by
  simp [positionAfterNewline]

theorem positionAfterNewline_cons_lineFeed_zero (bs : List Nat) :
    positionAfterNewline (0x0A :: bs) 0 = 1 := by
  simp [positionAfterNewline]

theorem positionAfterNewline_cons_lineFeed_succ (bs : List Nat) (n : Nat) :
    positionAfterNewline (0x0A :: bs) (n + 1) = 1 + positionAfterNewline bs n := by
  simp [positionAfterNewline]

theorem positionAfterNewline_cons_other (b : Nat) (bs : List Nat) (n : Nat) (h : b ≠ 0x0A) :
    positionAfterNewline (b :: bs) n =
      (if isStartByte b = true then 1 else 0) + positionAfterNewline bs n := by
  simp [positionAfterNewline, h]

theorem numNewlinesBeforePosition_nil (pos : Nat) : numNewlinesBeforePosition [] pos = 0 := by
  simp [numNewlinesBeforePosition]

theorem numNewlinesBeforePosition_cons_continuation (b : Nat) (bs : List Nat) (pos : Nat)
    (h : isStartByte b = false) :
    numNewlinesBeforePosition (b :: bs) pos = numNewlinesBeforePosition bs pos := by
  simp [numNewlinesBeforePosition, h]

theorem numNewlinesBeforePosition_cons_zero (b : Nat) (bs : List Nat)
    (h : isStartByte b = true) : numNewlinesBeforePosition (b :: bs) 0 = 0 := by
  simp [numNewlinesBeforePosition, h]

theorem numNewlinesBeforePosition_cons_succ (b : Nat) (bs : List Nat) (pos : Nat)
    (h : isStartByte b = true) :
    numNewlinesBeforePosition (b :: bs) (pos + 1) =
      (if b = 0x0A then 1 else 0) + numNewlinesBeforePosition bs pos := by
  simp [numNewlinesBeforePosition, h]

/-- The encoding of a Unicode scalar value is a start byte followed by continuation bytes,
and its start byte is the line feed only for the line feed. -/
theorem encodeRune_shape (r : Int) (h : validRune r = true) :
    ∃ (b : Nat) (cs : List Nat), encodeRune r = b :: cs ∧ isStartByte b = true ∧
      (∀ c ∈ cs, 0x80 ≤ c ∧ c < 0xC0) ∧ (b = 0x0A ↔ r = 0x0A) := by
  have hv := (validRune_iff r).mp h
  have h0 : 0 ≤ r := by omega
  obtain ⟨n, rfl⟩ : ∃ n : Nat, r = (n : Int) := ⟨r.toNat, (Int.toNat_of_nonneg h0).symm⟩
  rw [encodeRune_ofNat n h]
  by_cases h1 : n < 0x80
  · rw [if_pos h1]
    refine ⟨n, [], rfl, ?_, by simp, by omega⟩
    rw [isStartByte_iff]; omega
  · rw [if_neg h1]
    by_cases h2 : n < 0x800
    · rw [if_pos h2]
      refine ⟨_, _, rfl, ?_, ?_, by omega⟩
      · rw [isStartByte_iff]; omega
      · intro c hc
        simp only [List.mem_singleton] at hc
        omega
    · rw [if_neg h2]
      by_cases h3 : n < 0x10000
      · rw [if_pos h3]
        refine ⟨_, _, rfl, ?_, ?_, by omega⟩
        · rw [isStartByte_iff]; omega
        · intro c hc
          simp only [List.mem_cons, List.mem_singleton, List.not_mem_nil, or_false] at hc
          omega
      · rw [if_neg h3]
        refine ⟨_, _, rfl, ?_, ?_, by omega⟩
        · rw [isStartByte_iff]; omega
        · intro c hc
          simp only [List.mem_cons, List.mem_singleton, List.not_mem_nil, or_false] at hc
          omega

theorem isStartByte_of_continuation (c : Nat) (h : 0x80 ≤ c ∧ c < 0xC0) :
    isStartByte c = false := by
  have h2 : ¬ (isStartByte c = true) := by rw [isStartByte_iff]; omega
  simpa using h2

/-- The codepoint starts among continuation bytes followed by `rest` are those of `rest`. -/
theorem filter_isStartByte_continuation (cs rest : List Nat) (h : ∀ c ∈ cs, 0x80 ≤ c ∧ c < 0xC0) :
    (cs ++ rest).filter isStartByte = rest.filter isStartByte := by
  induction cs with
  | nil => rfl
  | cons c cs ih =>
    rw [List.cons_append, List.filter_cons,
      isStartByte_of_continuation c (h c (List.mem_cons_self _ _)),
      ih (fun x hx => h x (List.mem_cons_of_mem _ hx))]
    simp

/-- The line feeds among continuation bytes followed by `rest` are those of `rest`. -/
theorem filter_lineFeed_continuation (cs rest : List Nat) (h : ∀ c ∈ cs, 0x80 ≤ c ∧ c < 0xC0) :
    (cs ++ rest).filter (· = 0x0A) = rest.filter (· = 0x0A) := by
  induction cs with
  | nil => rfl
  | cons c cs ih =>
    have hc := h c (List.mem_cons_self _ _)
    have hne : ¬ (c = 0x0A) := by omega
    rw [List.cons_append, List.filter_cons, ih (fun x hx => h x (List.mem_cons_of_mem _ hx))]
    simp [hne]

theorem byteOffsetForPosition_continuation (cs rest : List Nat) (pos : Nat)
    (h : ∀ c ∈ cs, 0x80 ≤ c ∧ c < 0xC0) :
    byteOffsetForPosition (cs ++ rest) pos = cs.length + byteOffsetForPosition rest pos := by
  induction cs with
  | nil => simp
  | cons c cs ih =>
    have hc := isStartByte_of_continuation c (h c (List.mem_cons_self _ _))
    rw [List.cons_append, byteOffsetForPosition_cons_continuation _ _ _ hc,
      ih (fun x hx => h x (List.mem_cons_of_mem _ hx)), List.length_cons]
    omega

theorem positionAfterNewline_continuation (cs rest : List Nat) (n : Nat)
    (h : ∀ c ∈ cs, 0x80 ≤ c ∧ c < 0xC0) :
    positionAfterNewline (cs ++ rest) n = positionAfterNewline rest n := by
  induction cs with
  | nil => simp
  | cons c cs ih =>
    have hc := h c (List.mem_cons_self _ _)
    have hs := isStartByte_of_continuation c hc
    have hne : c ≠ 0x0A := by omega
    rw [List.cons_append, positionAfterNewline_cons_other _ _ _ hne, hs,
      ih (fun x hx => h x (List.mem_cons_of_mem _ hx))]
    simp

theorem numNewlinesBeforePosition_continuation (cs rest : List Nat) (pos : Nat)
    (h : ∀ c ∈ cs, 0x80 ≤ c ∧ c < 0xC0) :
    numNewlinesBeforePosition (cs ++ rest) pos = numNewlinesBeforePosition rest pos := by
  induction cs with
  | nil => simp
  | cons c cs ih =>
    have hs := isStartByte_of_continuation c (h c (List.mem_cons_self _ _))
    rw [List.cons_append, numNewlinesBeforePosition_cons_continuation _ _ _ hs,
      ih (fun x hx => h x (List.mem_cons_of_mem _ hx))]

end text

/-! ### Counting and finding codepoints in their encoding -/

namespace text

/-- The encoding of a sequence that starts with a Unicode scalar value: a start byte, its
continuation bytes, and the encoding of the rest. -/
theorem encodeRunes_cons_shape (r : Rune) (S : List Rune) (h : validRune r = true) :
    ∃ (b : Nat) (cs : List Nat), encodeRune r = b :: cs ∧
      encodeRunes (r :: S) = b :: (cs ++ encodeRunes S) ∧ isStartByte b = true ∧
      (∀ c ∈ cs, 0x80 ≤ c ∧ c < 0xC0) ∧ (b = 0x0A ↔ r = lineFeed) := by
  obtain ⟨b, cs, he, hb, hcs, hlf⟩ := encodeRune_shape r h
  refine ⟨b, cs, he, ?_, hb, hcs, hlf⟩
  rw [encodeRunes_cons, he]
  rfl

theorem numChars_encodeRunes (S : List Rune) (h : ∀ r ∈ S, validRune r = true) :
    ((encodeRunes S).filter isStartByte).length = S.length := by
  induction S with
  | nil => rfl
  | cons r S ih =>
    obtain ⟨b, cs, -, he, hb, hcs, -⟩ := encodeRunes_cons_shape r S (h r (List.mem_cons_self _ _))
    rw [he, List.filter_cons, if_pos hb, List.length_cons, filter_isStartByte_continuation _ _ hcs,
      ih (fun x hx => h x (List.mem_cons_of_mem _ hx)), List.length_cons]

theorem numLines_encodeRunes (S : List Rune) (h : ∀ r ∈ S, validRune r = true) :
    ((encodeRunes S).filter (· = 0x0A)).length = S.count lineFeed := by
  induction S with
  | nil => rfl
  | cons r S ih =>
    obtain ⟨b, cs, -, he, -, hcs, hlf⟩ :=
      encodeRunes_cons_shape r S (h r (List.mem_cons_self _ _))
    rw [he, List.filter_cons, filter_lineFeed_continuation _ _ hcs, List.count_cons]
    have ih2 := ih (fun x hx => h x (List.mem_cons_of_mem _ hx))
    by_cases hr : r = lineFeed
    · have hb : b = 0x0A := hlf.mpr hr
      simp [hr, hb, ih2]
    · have hb : ¬ (b = 0x0A) := fun hb => hr (hlf.mp hb)
      simp [hr, hb, ih2]

/-- The summaries of the encoding of a sequence of Unicode scalar values. -/
theorem ofBytes_encodeRunes (S : List Rune) (h : ∀ r ∈ S, validRune r = true) :
    Summary.ofBytes (encodeRunes S) =
      { numBytes := (encodeRunes S).length, numChars := S.length,
        numLines := S.count lineFeed } := by
  simp only [Summary.ofBytes, numChars_encodeRunes S h, numLines_encodeRunes S h]

/-- The byte offset of a position in the encoding of `S` is the length of the encoding of
the codepoints before the position. -/
theorem byteOffsetForPosition_encodeRunes (S : List Rune) (h : ∀ r ∈ S, validRune r = true) :
    ∀ pos, byteOffsetForPosition (encodeRunes S) pos = (encodeRunes (S.take pos)).length := by
  induction S with
  | nil => intro pos; simp [encodeRunes_nil, byteOffsetForPosition_nil]
  | cons r S ih =>
    intro pos
    obtain ⟨b, cs, her, he, hb, hcs, -⟩ :=
      encodeRunes_cons_shape r S (h r (List.mem_cons_self _ _))
    cases pos with
    | zero => rw [he, byteOffsetForPosition_cons_zero _ _ hb]; rfl
    | succ pos =>
      rw [he, byteOffsetForPosition_cons_succ _ _ _ hb,
        byteOffsetForPosition_continuation _ _ _ hcs,
        ih (fun x hx => h x (List.mem_cons_of_mem _ hx)), List.take_succ_cons, encodeRunes_cons,
        her, List.length_append, List.length_cons]
      omega

theorem positionAfterNewline_encodeRunes (S : List Rune) (h : ∀ r ∈ S, validRune r = true) :
    ∀ n, positionAfterNewline (encodeRunes S) n = positionAfterLineFeed S n := by
  induction S with
  | nil => intro n; simp [encodeRunes_nil, positionAfterNewline_nil, positionAfterLineFeed]
  | cons r S ih =>
    intro n
    obtain ⟨b, cs, -, he, hb, hcs, hlf⟩ :=
      encodeRunes_cons_shape r S (h r (List.mem_cons_self _ _))
    have ih2 := ih (fun x hx => h x (List.mem_cons_of_mem _ hx))
    rw [he]
    by_cases hr : r = lineFeed
    · have hb2 : b = 0x0A := hlf.mpr hr
      subst hb2
      cases n with
      | zero => rw [positionAfterNewline_cons_lineFeed_zero]; simp [positionAfterLineFeed, hr]
      | succ n =>
        rw [positionAfterNewline_cons_lineFeed_succ, positionAfterNewline_continuation _ _ _ hcs,
          ih2]
        simp [positionAfterLineFeed, hr]
    · have hb2 : b ≠ 0x0A := fun hb2 => hr (hlf.mp hb2)
      rw [positionAfterNewline_cons_other _ _ _ hb2, if_pos hb,
        positionAfterNewline_continuation _ _ _ hcs, ih2]
      simp [positionAfterLineFeed, hr]

theorem numNewlinesBeforePosition_encodeRunes (S : List Rune)
    (h : ∀ r ∈ S, validRune r = true) :
    ∀ pos, numNewlinesBeforePosition (encodeRunes S) pos = (S.take pos).count lineFeed := by
  induction S with
  | nil => intro pos; simp [encodeRunes_nil, numNewlinesBeforePosition_nil]
  | cons r S ih =>
    intro pos
    obtain ⟨b, cs, -, he, hb, hcs, hlf⟩ :=
      encodeRunes_cons_shape r S (h r (List.mem_cons_self _ _))
    have ih2 := ih (fun x hx => h x (List.mem_cons_of_mem _ hx))
    rw [he]
    cases pos with
    | zero => rw [numNewlinesBeforePosition_cons_zero _ _ hb]; simp
    | succ pos =>
      rw [numNewlinesBeforePosition_cons_succ _ _ _ hb,
        numNewlinesBeforePosition_continuation _ _ _ hcs, ih2, List.take_succ_cons,
        List.count_cons]
      by_cases hr : r = lineFeed
      · have hb2 : b = 0x0A := hlf.mpr hr
        simp [hr, hb2]; omega
      · have hb2 : ¬ (b = 0x0A) := fun hb2 => hr (hlf.mp hb2)
        simp [hr, hb2]

end text

/-! ### Subtrees and the codepoints they represent -/

namespace text

theorem newLeaf_summary (bytes : List Byte) : (newLeaf bytes).summary = Summary.ofBytes bytes :=
  rfl

theorem newInner_summary (left right : Node) :
    (newInner left right).summary = left.summary.add right.summary := rfl

theorem newInner_bytes (left right : Node) :
    (newInner left right).bytes = left.bytes ++ right.bytes := rfl

theorem Node.Rep.bytes_eq {node : Node} {S : List Rune} (h : node.Rep S) :
    node.bytes = encodeRunes S := by
  induction node generalizing S with
  | leaf bytes summary => exact h.2.1
  | inner left right summary ihl ihr =>
    obtain ⟨-, Sl, Sr, rfl, hl, hr⟩ := h
    rw [Node.bytes, ihl hl, ihr hr, encodeRunes_append]

theorem Node.Rep.valid {node : Node} {S : List Rune} (h : node.Rep S) :
    ∀ r ∈ S, validRune r = true := by
  induction node generalizing S with
  | leaf bytes summary => exact h.2.2
  | inner left right summary ihl ihr =>
    obtain ⟨-, Sl, Sr, rfl, hl, hr⟩ := h
    intro r hr2
    rcases List.mem_append.mp hr2 with hm | hm
    · exact ihl hl r hm
    · exact ihr hr r hm

/-- The summaries cached in a subtree that represents `S` count the bytes, the codepoints and
the line feeds of `S`. -/
theorem Node.Rep.summary_eq {node : Node} {S : List Rune} (h : node.Rep S) :
    node.summary = { numBytes := (encodeRunes S).length, numChars := S.length,
                     numLines := S.count lineFeed } := by
  induction node generalizing S with
  | leaf bytes summary =>
    obtain ⟨hs, hb, hv⟩ := h
    rw [Node.summary, hs, hb, ofBytes_encodeRunes S hv]
  | inner left right summary ihl ihr =>
    obtain ⟨hs, Sl, Sr, rfl, hl, hr⟩ := h
    rw [Node.summary, hs, ihl hl, ihr hr]
    simp [Summary.add, encodeRunes_append]

theorem Node.Rep.numChars_eq {node : Node} {S : List Rune} (h : node.Rep S) :
    node.summary.numChars = S.length := by
  rw [h.summary_eq]

theorem Node.Rep.numLines_eq {node : Node} {S : List Rune} (h : node.Rep S) :
    node.summary.numLines = S.count lineFeed := by
  rw [h.summary_eq]

theorem Node.Rep.numBytes_eq {node : Node} {S : List Rune} (h : node.Rep S) :
    node.summary.numBytes = (encodeRunes S).length := by
  rw [h.summary_eq]

theorem Node.Rep.wellFormed_eq {node : Node} {S : List Rune} (h : node.Rep S) :
    node.wellFormed = true := by
  induction node generalizing S with
  | leaf bytes summary =>
    obtain ⟨hs, hb, hv⟩ := h
    simp [Node.wellFormed, hs, hb, decodeUtf8_encodeRunes S hv]
  | inner left right summary ihl ihr =>
    obtain ⟨hs, Sl, Sr, rfl, hl, hr⟩ := h
    simp [Node.wellFormed, hs, ihl hl, ihr hr]

/-- A well-formed subtree represents a codepoint sequence. -/
theorem Node.rep_of_wellFormed (node : Node) (h : node.wellFormed = true) :
    ∃ S, node.Rep S := by
  induction node with
  | leaf bytes summary =>
    simp only [Node.wellFormed, Bool.and_eq_true, decide_eq_true_eq] at h
    obtain ⟨hs, hd⟩ := h
    obtain ⟨S, hS⟩ := Option.isSome_iff_exists.mp hd
    obtain ⟨hb, hv⟩ := (decodeUtf8_eq_some_iff bytes S).mp hS
    exact ⟨S, hs, hb, hv⟩
  | inner left right summary ihl ihr =>
    simp only [Node.wellFormed, Bool.and_eq_true, decide_eq_true_eq] at h
    obtain ⟨⟨hs, hl⟩, hr⟩ := h
    obtain ⟨Sl, hSl⟩ := ihl hl
    obtain ⟨Sr, hSr⟩ := ihr hr
    exact ⟨Sl ++ Sr, hs, Sl, Sr, rfl, hSl, hSr⟩

theorem Node.Rep.decode_eq {node : Node} {S : List Rune} (h : node.Rep S) :
    decodeUtf8 node.bytes = some S := by
  rw [h.bytes_eq]
  exact decodeUtf8_encodeRunes S h.valid

theorem Node.Rep.unique {node : Node} {S T : List Rune} (h : node.Rep S) (h2 : node.Rep T) :
    S = T := by
  have e1 := h.decode_eq
  rw [h2.decode_eq] at e1
  exact (Option.some.inj e1).symm

/-- A tree holds `S` exactly when its root represents `S`. -/
theorem Tree.holds_iff_rep (tree : Tree) (S : List Rune) : tree.Holds S ↔ tree.root.Rep S := by
  constructor
  · rintro ⟨hw, hd⟩
    obtain ⟨T, hT⟩ := tree.root.rep_of_wellFormed hw
    have e := hT.decode_eq
    rw [Tree.String] at hd
    rw [hd] at e
    rw [Option.some.inj e]
    exact hT
  · intro h
    exact ⟨h.wellFormed_eq, h.decode_eq⟩

theorem newLeaf_rep (S : List Rune) (h : ∀ r ∈ S, validRune r = true) :
    (newLeaf (encodeRunes S)).Rep S :=
  ⟨rfl, rfl, h⟩

theorem newInner_rep {left right : Node} {Sl Sr : List Rune} (hl : left.Rep Sl)
    (hr : right.Rep Sr) : (newInner left right).Rep (Sl ++ Sr) :=
  ⟨rfl, Sl, Sr, rfl, hl, hr⟩

theorem rotateRight_rep {node : Node} {S : List Rune} (h : node.Rep S) :
    (rotateRight node).Rep S := by
  unfold rotateRight
  split
  · obtain ⟨-, Sl, Sr, rfl, ⟨-, Sll, Slr, rfl, hll, hlr⟩, hr⟩ := h
    rw [List.append_assoc]
    exact newInner_rep hll (newInner_rep hlr hr)
  · exact h

theorem rotateLeft_rep {node : Node} {S : List Rune} (h : node.Rep S) :
    (rotateLeft node).Rep S := by
  unfold rotateLeft
  split
  · obtain ⟨-, Sl, Sr, rfl, hl, ⟨-, Srl, Srr, rfl, hrl, hrr⟩⟩ := h
    rw [← List.append_assoc]
    exact newInner_rep (newInner_rep hl hrl) hrr
  · exact h

/-- Rebalancing keeps the codepoints that a subtree represents. -/
theorem rebalance_rep {node : Node} {S : List Rune} (h : node.Rep S) :
    (rebalance node).Rep S := by
  cases node with
  | leaf bytes summary => exact h
  | inner left right summary =>
    obtain ⟨hs, Sl, Sr, rfl, hl, hr⟩ := h
    simp only [rebalance]
    split_ifs
    · exact rotateRight_rep (newInner_rep (rotateLeft_rep hl) hr)
    · exact rotateRight_rep (newInner_rep hl hr)
    · exact rotateLeft_rep (newInner_rep hl (rotateRight_rep hr))
    · exact rotateLeft_rep (newInner_rep hl hr)
    · exact ⟨hs, Sl, Sr, rfl, hl, hr⟩

/-- Merging two sibling leaves keeps the codepoints that the subtree represents. -/
theorem mergeLeaves_rep (maxBytesPerLeaf : Nat) {node : Node} {S : List Rune} (h : node.Rep S) :
    (mergeLeaves maxBytesPerLeaf node).Rep S := by
  unfold mergeLeaves
  split
  · split_ifs
    · obtain ⟨-, Sl, Sr, rfl, ⟨-, hbl, hvl⟩, ⟨-, hbr, hvr⟩⟩ := h
      rw [hbl, hbr, ← encodeRunes_append]
      refine newLeaf_rep _ ?_
      intro r hr
      rcases List.mem_append.mp hr with hm | hm
      · exact hvl r hm
      · exact hvr r hm
    · exact h
  · exact h

end text

/-! ### Insertion and deletion in a subtree -/

namespace text

/-- An encoding cut before a start byte (or at its end) is cut between two codepoints. -/
theorem encodeRunes_eq_append (S : List Rune) (hv : ∀ r ∈ S, validRune r = true) :
    ∀ (A B : List Nat), encodeRunes S = A ++ B → (∀ b, B.head? = some b → isStartByte b = true) →
      ∃ S1 S2, S = S1 ++ S2 ∧ A = encodeRunes S1 ∧ B = encodeRunes S2 := by
  induction S with
  | nil =>
    intro A B h _
    have h2 := List.append_eq_nil.mp h.symm
    exact ⟨[], [], rfl, h2.1, h2.2⟩
  | cons r S ih =>
    intro A B h hB
    obtain ⟨b, cs, her, he, hb, hcs, -⟩ :=
      encodeRunes_cons_shape r S (hv r (List.mem_cons_self _ _))
    have hvS : ∀ x ∈ S, validRune x = true := fun x hx => hv x (List.mem_cons_of_mem _ hx)
    cases A with
    | nil => exact ⟨[], r :: S, rfl, rfl, by simpa using h.symm⟩
    | cons a A =>
      rw [he, List.cons_append] at h
      obtain ⟨rfl, h3⟩ := List.cons.inj h
      rcases List.append_eq_append_iff.mp h3 with ⟨A2, hA, hS⟩ | ⟨C, hC, hBC⟩
      · obtain ⟨S1, S2, rfl, rfl, rfl⟩ := ih hvS A2 B hS hB
        refine ⟨r :: S1, S2, rfl, ?_, rfl⟩
        rw [encodeRunes_cons, her, hA]
        rfl
      · cases C with
        | nil =>
          refine ⟨[r], S, rfl, ?_, by simpa using hBC⟩
          rw [encodeRunes_cons, her, hC]
          simp [encodeRunes_nil]
        | cons c C =>
          exfalso
          have hc : c ∈ cs := by rw [hC]; simp
          have h1 := isStartByte_of_continuation c (hcs c hc)
          have h2 := hB c (by rw [hBC]; rfl)
          rw [h1] at h2
          exact Bool.noConfusion h2

/-- The bytes after the offset at which a leaf is split start a codepoint. -/
theorem head_drop_splitOffset (bytes : List Nat) :
    ∀ b, (bytes.drop (splitOffset bytes)).head? = some b → isStartByte b = true := by
  intro b hb
  have e : bytes.drop (splitOffset bytes) =
      (bytes.drop (bytes.length / 2)).dropWhile (fun b => !isStartByte b) := by
    unfold splitOffset
    rw [← List.drop_drop]
    generalize bytes.drop (bytes.length / 2) = l
    induction l with
    | nil => rfl
    | cons x l ih =>
      by_cases hx : isStartByte x = true
      · simp [List.takeWhile, List.dropWhile, hx]
      · simp only [Bool.not_eq_true] at hx
        simp [List.takeWhile, List.dropWhile, hx, ih]
  rw [e] at hb
  have h2 := List.head?_dropWhile_not (fun b => !isStartByte b) (bytes.drop (bytes.length / 2))
  rw [hb] at h2
  simpa using h2

/-- Both halves of a split leaf hold whole codepoints. -/
theorem split_rep (S : List Rune) (hv : ∀ r ∈ S, validRune r = true) :
    (newInner (newLeaf ((encodeRunes S).take (splitOffset (encodeRunes S))))
      (newLeaf ((encodeRunes S).drop (splitOffset (encodeRunes S))))).Rep S := by
  obtain ⟨S1, S2, hS, h1, h2⟩ := encodeRunes_eq_append S hv _ _
    (List.take_append_drop (splitOffset (encodeRunes S)) (encodeRunes S)).symm
    (head_drop_splitOffset _)
  have hv1 : ∀ r ∈ S1, validRune r = true := fun r hr => hv r (by rw [hS]; simp [hr])
  have hv2 : ∀ r ∈ S2, validRune r = true := fun r hr => hv r (by rw [hS]; simp [hr])
  rw [h1, h2]
  conv => rhs; rw [hS]
  exact newInner_rep (newLeaf_rep S1 hv1) (newLeaf_rep S2 hv2)

theorem take_byteOffset_encodeRunes (S : List Rune) (hv : ∀ r ∈ S, validRune r = true)
    (pos : Nat) :
    (encodeRunes S).take (byteOffsetForPosition (encodeRunes S) pos) =
      encodeRunes (S.take pos) := by
  rw [byteOffsetForPosition_encodeRunes S hv]
  conv => lhs; arg 2; rw [← List.take_append_drop pos S, encodeRunes_append]
  simp

theorem drop_byteOffset_encodeRunes (S : List Rune) (hv : ∀ r ∈ S, validRune r = true)
    (pos : Nat) :
    (encodeRunes S).drop (byteOffsetForPosition (encodeRunes S) pos) =
      encodeRunes (S.drop pos) := by
  rw [byteOffsetForPosition_encodeRunes S hv]
  conv => lhs; arg 2; rw [← List.take_append_drop pos S, encodeRunes_append]
  simp

/-- Inserting the encoding of a Unicode scalar value `r` at a position of a subtree that
represents `S` yields a subtree that represents `S` with `r` before the codepoint at the
position, or at the end when there is none. -/
theorem Node.insertAtPosition_rep (maxBytesPerLeaf : Nat) (r : Rune) (hr : validRune r = true)
    (node : Node) : ∀ (S : List Rune) (pos : Nat), node.Rep S →
      (node.insertAtPosition maxBytesPerLeaf pos (encodeRune r)).Rep
        (S.take pos ++ r :: S.drop pos) := by
  induction node with
  | leaf bytes summary =>
    intro S pos h
    obtain ⟨-, hb, hv⟩ := h
    subst hb
    have hv2 : ∀ x ∈ S.take pos ++ r :: S.drop pos, validRune x = true := by
      intro x hx
      rcases List.mem_append.mp hx with hm | hm
      · exact hv x (List.mem_of_mem_take hm)
      · rcases List.mem_cons.mp hm with rfl | hm
        · exact hr
        · exact hv x (List.mem_of_mem_drop hm)
    have e : (encodeRunes S).take (text.byteOffsetForPosition (encodeRunes S) pos) ++
        encodeRune r ++ (encodeRunes S).drop (text.byteOffsetForPosition (encodeRunes S) pos) =
        encodeRunes (S.take pos ++ r :: S.drop pos) := by
      rw [take_byteOffset_encodeRunes S hv, drop_byteOffset_encodeRunes S hv, encodeRunes_append,
        encodeRunes_cons, List.append_assoc]
    simp only [Node.insertAtPosition]
    rw [e]
    split_ifs
    · exact newLeaf_rep _ hv2
    · exact split_rep _ hv2
  | inner left right summary ihl ihr =>
    intro S pos h
    obtain ⟨-, Sl, Sr, rfl, hl, hr2⟩ := h
    simp only [Node.insertAtPosition]
    rw [hl.numChars_eq]
    split_ifs with hlt
    · have e : (Sl ++ Sr).take pos ++ r :: (Sl ++ Sr).drop pos =
          (Sl.take pos ++ r :: Sl.drop pos) ++ Sr := by
        rw [List.take_append_of_le_length (by omega), List.drop_append_of_le_length (by omega)]
        simp
      rw [e]
      exact rebalance_rep (newInner_rep (ihl Sl pos hl) hr2)
    · have hle : Sl.length ≤ pos := by omega
      have e : (Sl ++ Sr).take pos ++ r :: (Sl ++ Sr).drop pos =
          Sl ++ (Sr.take (pos - Sl.length) ++ r :: Sr.drop (pos - Sl.length)) := by
        rw [List.take_append_eq_append_take, List.drop_append_eq_append_drop,
          List.take_of_length_le hle, List.drop_of_length_le hle]
        simp
      rw [e]
      exact rebalance_rep (newInner_rep hl (ihr Sr _ hr2))

/-- Deleting at a position of a subtree that represents `S` yields a subtree that represents
`S` without the codepoint at the position. -/
theorem Node.deleteAtPosition_rep (maxBytesPerLeaf : Nat) (node : Node) :
    ∀ (S : List Rune) (pos : Nat), node.Rep S →
      (node.deleteAtPosition maxBytesPerLeaf pos).Rep (S.eraseIdx pos) := by
  induction node with
  | leaf bytes summary =>
    intro S pos h
    obtain ⟨-, hb, hv⟩ := h
    subst hb
    have hv2 : ∀ x ∈ S.eraseIdx pos, validRune x = true :=
      fun x hx => hv x (List.mem_of_mem_eraseIdx hx)
    simp only [Node.deleteAtPosition]
    rw [take_byteOffset_encodeRunes S hv, drop_byteOffset_encodeRunes S hv, ← encodeRunes_append,
      ← List.eraseIdx_eq_take_drop_succ]
    exact newLeaf_rep _ hv2
  | inner left right summary ihl ihr =>
    intro S pos h
    obtain ⟨-, Sl, Sr, rfl, hl, hr2⟩ := h
    simp only [Node.deleteAtPosition]
    rw [hl.numChars_eq]
    split_ifs with hlt
    · rw [List.eraseIdx_append_of_lt_length hlt]
      exact rebalance_rep (mergeLeaves_rep _ (newInner_rep (ihl Sl pos hl) hr2))
    · rw [List.eraseIdx_append_of_length_le (by omega)]
      exact rebalance_rep (mergeLeaves_rep _ (newInner_rep hl (ihr Sr _ hr2)))

end text

/-! ### Positions and lines in a subtree -/

namespace text

theorem positionAfterLineFeed_nil (n : Nat) : positionAfterLineFeed [] n = 0 := by
  simp [positionAfterLineFeed]

theorem positionAfterLineFeed_cons_lineFeed_zero (rs : List Rune) :
    positionAfterLineFeed (lineFeed :: rs) 0 = 1 := by
  simp [positionAfterLineFeed]

theorem positionAfterLineFeed_cons_lineFeed_succ (rs : List Rune) (n : Nat) :
    positionAfterLineFeed (lineFeed :: rs) (n + 1) = 1 + positionAfterLineFeed rs n := by
  simp [positionAfterLineFeed]

theorem positionAfterLineFeed_cons_other (r : Rune) (rs : List Rune) (n : Nat)
    (h : r ≠ lineFeed) :
    positionAfterLineFeed (r :: rs) n = 1 + positionAfterLineFeed rs n := by
  simp [positionAfterLineFeed, h]

/-- A sequence with at most `n` line feeds has no line feed number `n`: the position is the
length of the sequence. -/
theorem positionAfterLineFeed_of_count_le (S : List Rune) :
    ∀ n, S.count lineFeed ≤ n → positionAfterLineFeed S n = S.length := by
  induction S with
  | nil => intro n _; exact positionAfterLineFeed_nil n
  | cons r S ih =>
    intro n hn
    by_cases hr : r = lineFeed
    · subst hr
      rw [List.count_cons_self] at hn
      cases n with
      | zero => omega
      | succ n =>
        rw [positionAfterLineFeed_cons_lineFeed_succ, ih n (by omega), List.length_cons]
        omega
    · rw [List.count_cons_of_ne (Ne.symm hr)] at hn
      rw [positionAfterLineFeed_cons_other _ _ _ hr, ih n hn, List.length_cons]
      omega

/-- The line feed number `n` of a sequence that has more than `n` line feeds lies in the
sequence: the position after it is at most the length. -/
theorem positionAfterLineFeed_le_length (S : List Rune) :
    ∀ n, positionAfterLineFeed S n ≤ S.length := by
  induction S with
  | nil => intro n; rw [positionAfterLineFeed_nil]; exact Nat.le_refl _
  | cons r S ih =>
    intro n
    by_cases hr : r = lineFeed
    · subst hr
      cases n with
      | zero => rw [positionAfterLineFeed_cons_lineFeed_zero, List.length_cons]; omega
      | succ n =>
        have := ih n
        rw [positionAfterLineFeed_cons_lineFeed_succ, List.length_cons]
        omega
    · have := ih n
      rw [positionAfterLineFeed_cons_other _ _ _ hr, List.length_cons]
      omega

/-- The position found for line feed number `n` in a concatenation: in the left part when it
has more than `n` line feeds, and otherwise in the right part, for the number reduced by the
line feeds of the left part. -/
theorem positionAfterLineFeed_append (Sl Sr : List Rune) :
    ∀ n, positionAfterLineFeed (Sl ++ Sr) n =
      if n < Sl.count lineFeed then positionAfterLineFeed Sl n
      else Sl.length + positionAfterLineFeed Sr (n - Sl.count lineFeed) := by
  induction Sl with
  | nil => intro n; simp
  | cons r Sl ih =>
    intro n
    by_cases hr : r = lineFeed
    · subst hr
      rw [List.cons_append, List.count_cons_self]
      cases n with
      | zero =>
        rw [positionAfterLineFeed_cons_lineFeed_zero, if_pos (by omega),
          positionAfterLineFeed_cons_lineFeed_zero]
      | succ n =>
        rw [positionAfterLineFeed_cons_lineFeed_succ, ih n,
          positionAfterLineFeed_cons_lineFeed_succ, List.length_cons]
        by_cases hn : n < Sl.count lineFeed
        · rw [if_pos hn, if_pos (by omega)]
        · rw [if_neg hn, if_neg (by omega)]
          have e : n + 1 - (List.count lineFeed Sl + 1) = n - List.count lineFeed Sl := by omega
          rw [e]
          omega
    · rw [List.cons_append, List.count_cons_of_ne (Ne.symm hr),
        positionAfterLineFeed_cons_other _ _ _ hr, ih n,
        positionAfterLineFeed_cons_other _ _ _ hr, List.length_cons]
      split_ifs <;> omega

/-- The line feed number `n` of a sequence is where the codepoint is a line feed with `n`
line feeds before it. -/
theorem positionAfterLineFeed_of_index (S : List Rune) :
    ∀ (n i : Nat), S[i]? = some lineFeed → (S.take i).count lineFeed = n →
      positionAfterLineFeed S n = i + 1 := by
  induction S with
  | nil => intro n i hi _; simp at hi
  | cons r S ih =>
    intro n i hi hc
    cases i with
    | zero =>
      simp only [List.getElem?_cons_zero, Option.some.injEq] at hi
      subst hi
      simp only [List.take_zero, List.count_nil] at hc
      subst hc
      exact positionAfterLineFeed_cons_lineFeed_zero S
    | succ i =>
      simp only [List.getElem?_cons_succ] at hi
      rw [List.take_succ_cons] at hc
      by_cases hr : r = lineFeed
      · subst hr
        rw [List.count_cons_self] at hc
        subst hc
        rw [positionAfterLineFeed_cons_lineFeed_succ, ih _ i hi rfl]
        omega
      · rw [List.count_cons_of_ne (Ne.symm hr)] at hc
        rw [positionAfterLineFeed_cons_other _ _ _ hr, ih n i hi hc]
        omega

/-- Before the position after line feed number `n` there are `n + 1` line feeds. -/
theorem count_take_positionAfterLineFeed (S : List Rune) :
    ∀ n, n < S.count lineFeed →
      (S.take (positionAfterLineFeed S n)).count lineFeed = n + 1 := by
  induction S with
  | nil => intro n hn; simp at hn
  | cons r S ih =>
    intro n hn
    by_cases hr : r = lineFeed
    · subst hr
      rw [List.count_cons_self] at hn
      cases n with
      | zero => rw [positionAfterLineFeed_cons_lineFeed_zero]; simp
      | succ n =>
        rw [positionAfterLineFeed_cons_lineFeed_succ, Nat.add_comm 1, List.take_succ_cons,
          List.count_cons_self, ih n (by omega)]
    · rw [List.count_cons_of_ne (Ne.symm hr)] at hn
      rw [positionAfterLineFeed_cons_other _ _ _ hr, Nat.add_comm 1, List.take_succ_cons,
        List.count_cons_of_ne (Ne.symm hr), ih n hn]

theorem Node.byteOffsetForPosition_rep (node : Node) :
    ∀ (S : List Rune) (pos : Nat), node.Rep S →
      node.byteOffsetForPosition pos = (encodeRunes (S.take pos)).length := by
  induction node with
  | leaf bytes summary =>
    intro S pos h
    obtain ⟨-, hb, hv⟩ := h
    subst hb
    exact byteOffsetForPosition_encodeRunes S hv pos
  | inner left right summary ihl ihr =>
    intro S pos h
    obtain ⟨-, Sl, Sr, rfl, hl, hr⟩ := h
    simp only [Node.byteOffsetForPosition]
    rw [hl.numChars_eq, hl.numBytes_eq]
    split_ifs with hlt
    · rw [ihl Sl pos hl, List.take_append_of_le_length (by omega)]
    · have e1 : Sl.take pos = Sl := List.take_of_length_le (by omega)
      rw [ihr Sr _ hr, List.take_append_eq_append_take, e1, encodeRunes_append,
        List.length_append]

/-- The descent for line feed number `n` in a subtree that represents `S` finds the position
after that line feed in `S`. -/
theorem Node.positionAfterNewline_rep (node : Node) :
    ∀ (S : List Rune) (n : Nat), node.Rep S →
      node.positionAfterNewline n = positionAfterLineFeed S n := by
  induction node with
  | leaf bytes summary =>
    intro S n h
    obtain ⟨-, hb, hv⟩ := h
    subst hb
    exact positionAfterNewline_encodeRunes S hv n
  | inner left right summary ihl ihr =>
    intro S n h
    obtain ⟨-, Sl, Sr, rfl, hl, hr⟩ := h
    simp only [Node.positionAfterNewline]
    rw [hl.numLines_eq, hl.numChars_eq, positionAfterLineFeed_append, ihl Sl n hl, ihr Sr _ hr]

/-- The descent for a position in a subtree that represents `S` counts the line feeds of `S`
before the position. -/
theorem Node.numNewlinesBeforePosition_rep (node : Node) :
    ∀ (S : List Rune) (pos : Nat), node.Rep S →
      node.numNewlinesBeforePosition pos = (S.take pos).count lineFeed := by
  induction node with
  | leaf bytes summary =>
    intro S pos h
    obtain ⟨-, hb, hv⟩ := h
    subst hb
    exact numNewlinesBeforePosition_encodeRunes S hv pos
  | inner left right summary ihl ihr =>
    intro S pos h
    obtain ⟨-, Sl, Sr, rfl, hl, hr⟩ := h
    simp only [Node.numNewlinesBeforePosition]
    rw [hl.numLines_eq, hl.numChars_eq]
    split_ifs with hlt
    · rw [ihl Sl pos hl, List.take_append_of_le_length (by omega)]
    · have e1 : Sl.take pos = Sl := List.take_of_length_le (by omega)
      rw [ihr Sr _ hr, List.take_append_eq_append_take, e1, List.count_append]

end text

/-! ### The trees built from a text are well formed -/

namespace text

/-- Every leaf cut from the encoding of Unicode scalar values holds whole codepoints. -/
theorem leafChunks_whole (maxBytesPerLeaf : Nat) (bs : List Nat) :
    ∀ (cur : List Nat) (S : List Rune), (∀ r ∈ S, validRune r = true) →
      cur ++ bs = encodeRunes S → ∀ chunk ∈ leafChunks maxBytesPerLeaf bs cur,
        ∃ T, (∀ r ∈ T, validRune r = true) ∧ chunk = encodeRunes T := by
  induction bs with
  | nil =>
    intro cur S hv h chunk hc
    simp only [leafChunks] at hc
    split_ifs at hc
    · simp only [List.mem_singleton] at hc
      subst hc
      exact ⟨S, hv, by simpa using h⟩
    · simp at hc
  | cons b bs ih =>
    intro cur S hv h chunk hc
    simp only [leafChunks] at hc
    split_ifs at hc with hcut
    · obtain ⟨S1, S2, hS, h1, h2⟩ := encodeRunes_eq_append S hv cur (b :: bs) h.symm
        (by intro x hx; simp only [List.head?_cons, Option.some.injEq] at hx; rw [← hx]; exact hcut.1)
      have hv1 : ∀ r ∈ S1, validRune r = true := fun r hr => hv r (by rw [hS]; simp [hr])
      have hv2 : ∀ r ∈ S2, validRune r = true := fun r hr => hv r (by rw [hS]; simp [hr])
      rcases List.mem_cons.mp hc with rfl | hc
      · exact ⟨S1, hv1, h1⟩
      · exact ih [b] S2 hv2 (by simpa using h2) chunk hc
    · exact ih (cur ++ [b]) S hv (by simpa using h) chunk hc

theorem newLeaf_wellFormed (bytes : List Byte) (h : (decodeUtf8 bytes).isSome = true) :
    (newLeaf bytes).wellFormed = true := by
  simp [newLeaf, Node.wellFormed, h]

theorem newInner_wellFormed (left right : Node) (hl : left.wellFormed = true)
    (hr : right.wellFormed = true) : (newInner left right).wellFormed = true := by
  simp [newInner, Node.wellFormed, hl, hr]

theorem joinPairs_wellFormed (nodes : List Node) (h : ∀ n ∈ nodes, n.wellFormed = true) :
    ∀ n ∈ joinPairs nodes, n.wellFormed = true := by
  induction nodes using joinPairs.induct with
  | case1 a b rest ih =>
    intro n hn
    simp only [joinPairs, List.mem_cons] at hn
    rcases hn with rfl | hn
    · exact newInner_wellFormed a b (h a (by simp)) (h b (by simp))
    · exact ih (fun m hm => h m (by simp [hm])) n hn
  | case2 rest hne =>
    cases rest with
    | nil => intro n hn; simp [joinPairs] at hn
    | cons a l =>
      cases l with
      | nil => simpa [joinPairs] using h
      | cons b l' => exact absurd rfl (hne a b l')

theorem buildTree_wellFormed (fuel : Nat) :
    ∀ nodes : List Node, (∀ n ∈ nodes, n.wellFormed = true) →
      (buildTree fuel nodes).wellFormed = true := by
  induction fuel with
  | zero =>
    intro nodes h
    cases nodes with
    | nil => exact newLeaf_wellFormed [] rfl
    | cons a l =>
      cases l with
      | nil => simpa [buildTree] using h
      | cons b l' => simpa [buildTree] using (h a (by simp))
  | succ k ih =>
    intro nodes h
    cases nodes with
    | nil => exact newLeaf_wellFormed [] rfl
    | cons a l =>
      cases l with
      | nil => simpa [buildTree] using h
      | cons b l' =>
        rw [buildTree]
        · exact ih _ (joinPairs_wellFormed _ h)
        · intro hx; cases hx
        · intro x hx; cases hx

/-- The tree read from valid UTF-8 holds the codepoints of the bytes read. -/
theorem NewTreeFromReader_holds (maxBytesPerLeaf : Nat) (r : Reader) (S : List Rune)
    (hf : r.fails = false) (hd : decodeUtf8 r.bytes = some S) :
    ∃ tree, NewTreeFromReader maxBytesPerLeaf r = .ok tree ∧ tree.Holds S := by
  obtain ⟨hb, hv⟩ := (decodeUtf8_eq_some_iff _ _).mp hd
  refine ⟨Tree.mk (buildTree ((leafChunks maxBytesPerLeaf r.bytes []).map newLeaf).length
    ((leafChunks maxBytesPerLeaf r.bytes []).map newLeaf)), ?_, ?_, ?_⟩
  · simp only [NewTreeFromReader, hf, hd]
    rfl
  · apply buildTree_wellFormed
    intro n hn
    obtain ⟨chunk, hc, rfl⟩ := List.mem_map.mp hn
    obtain ⟨T, hT, rfl⟩ := leafChunks_whole maxBytesPerLeaf r.bytes [] S hv (by simpa using hb)
      chunk hc
    exact newLeaf_wellFormed _ (by rw [decodeUtf8_encodeRunes T hT]; rfl)
  · simp only [Tree.String]
    rw [buildTree_bytes _ _ (by omega), List.map_map]
    have : (Node.bytes ∘ newLeaf) = id := by
      funext b; rfl
    rw [this, List.map_id, leafChunks_flatten]
    exact hd

/-- The tree of the encoding of Unicode scalar values holds them. -/
theorem NewTreeFromString_holds (maxBytesPerLeaf : Nat) (S : List Rune)
    (hv : ∀ r ∈ S, validRune r = true) :
    ∃ tree, NewTreeFromString maxBytesPerLeaf (encodeRunes S) = .ok tree ∧ tree.Holds S :=
  NewTreeFromReader_holds maxBytesPerLeaf { bytes := encodeRunes S, fails := false } S rfl
    (decodeUtf8_encodeRunes S hv)

/-- The empty tree holds the empty text. -/
theorem NewTree_holds : NewTree.Holds [] :=
  ⟨rfl, rfl⟩

end text

/-! ### The operations of the tree, on the codepoints it holds -/

namespace text

theorem Tree.Holds.rep {tree : Tree} {S : List Rune} (h : tree.Holds S) : tree.root.Rep S :=
  (tree.holds_iff_rep S).mp h

theorem Tree.Holds.string_eq {tree : Tree} {S : List Rune} (h : tree.Holds S) :
    tree.String = encodeRunes S :=
  h.rep.bytes_eq

theorem Tree.Holds.runes_valid {tree : Tree} {S : List Rune} (h : tree.Holds S) :
    ∀ r ∈ S, validRune r = true :=
  h.rep.valid

theorem Tree.Holds.treeNumChars_eq {tree : Tree} {S : List Rune} (h : tree.Holds S) :
    tree.NumChars = S.length :=
  h.rep.numChars_eq

theorem Tree.Holds.treeNumLines_eq {tree : Tree} {S : List Rune} (h : tree.Holds S) :
    tree.NumLines = S.count lineFeed + 1 := by
  rw [Tree.NumLines, h.rep.numLines_eq]

theorem Tree.Holds.runes_unique {tree : Tree} {S T : List Rune} (h : tree.Holds S)
    (h2 : tree.Holds T) : S = T :=
  h.rep.unique h2.rep

/-- The insertion of a Unicode scalar value succeeds, and puts it before the codepoint at the
position, or at the end when there is none. -/
theorem Tree.insertAtPosition_holds (maxBytesPerLeaf : Nat) {tree : Tree} {S : List Rune}
    (h : tree.Holds S) (pos : Nat) (r : Rune) (hr : validRune r = true) :
    (tree.InsertAtPosition maxBytesPerLeaf pos r).2 = none ∧
      (tree.InsertAtPosition maxBytesPerLeaf pos r).1.Holds (S.take pos ++ r :: S.drop pos) := by
  have hnf : ¬ (validRune r = false) := by rw [hr]; decide
  unfold Tree.InsertAtPosition
  rw [if_neg hnf]
  refine ⟨rfl, ?_⟩
  rw [Tree.holds_iff_rep]
  exact Node.insertAtPosition_rep maxBytesPerLeaf r hr tree.root S pos h.rep

/-- The insertion of a value that is not a Unicode scalar value fails and leaves the tree as
it is; no other insertion fails. -/
theorem Tree.insertAtPosition_error_iff (maxBytesPerLeaf : Nat) (tree : Tree) (pos : Nat)
    (r : Rune) :
    ((tree.InsertAtPosition maxBytesPerLeaf pos r).2 ≠ none ↔ validRune r = false) ∧
      (validRune r = false →
        tree.InsertAtPosition maxBytesPerLeaf pos r = (tree, some TreeError.InvalidUtf8)) := by
  unfold Tree.InsertAtPosition
  by_cases hv : validRune r = false
  · simp [hv]
  · simp [hv]

/-- The deletion at a position removes the codepoint at the position, if there is one. -/
theorem Tree.deleteAtPosition_holds (maxBytesPerLeaf : Nat) {tree : Tree} {S : List Rune}
    (h : tree.Holds S) (pos : Nat) :
    (tree.DeleteAtPosition maxBytesPerLeaf pos).Holds (S.eraseIdx pos) := by
  unfold Tree.DeleteAtPosition
  split_ifs with hle
  · rw [h.treeNumChars_eq] at hle
    rw [List.eraseIdx_of_length_le hle]
    exact h
  · rw [Tree.holds_iff_rep]
    exact Node.deleteAtPosition_rep maxBytesPerLeaf tree.root S pos h.rep

theorem Tree.lineStartPosition_succ {tree : Tree} {S : List Rune} (h : tree.Holds S) (n : Nat) :
    tree.LineStartPosition (n + 1) = positionAfterLineFeed S n :=
  Node.positionAfterNewline_rep tree.root S n h.rep

/-- The line number of a position is the number of line feeds before the position. -/
theorem Tree.lineNumForPosition_eq {tree : Tree} {S : List Rune} (h : tree.Holds S) (pos : Nat) :
    tree.LineNumForPosition pos = (S.take pos).count lineFeed :=
  Node.numNewlinesBeforePosition_rep tree.root S pos h.rep

/-- A sequence with more than `n` line feeds has a line feed with `n` line feeds before it. -/
theorem exists_lineFeed_of_lt_count (S : List Rune) :
    ∀ n, n < S.count lineFeed →
      ∃ i, S[i]? = some lineFeed ∧ (S.take i).count lineFeed = n := by
  induction S with
  | nil => intro n hn; simp at hn
  | cons r S ih =>
    intro n hn
    by_cases hr : r = lineFeed
    · subst hr
      rw [List.count_cons_self] at hn
      cases n with
      | zero => exact ⟨0, by simp, by simp⟩
      | succ n =>
        obtain ⟨i, hi, hc⟩ := ih n (by omega)
        refine ⟨i + 1, by simpa using hi, ?_⟩
        rw [List.take_succ_cons, List.count_cons_self, hc]
    · rw [List.count_cons_of_ne (Ne.symm hr)] at hn
      obtain ⟨i, hi, hc⟩ := ih n hn
      refine ⟨i + 1, by simpa using hi, ?_⟩
      rw [List.take_succ_cons, List.count_cons_of_ne (Ne.symm hr), hc]

/-- Positions between which there is no line feed have the same number of line feeds before
them. -/
theorem count_take_of_no_lineFeed (S : List Rune) (i : Nat) :
    ∀ d, (∀ j, i ≤ j → j < i + d → S[j]? ≠ some lineFeed) →
      (S.take (i + d)).count lineFeed = (S.take i).count lineFeed := by
  intro d
  induction d with
  | zero => intro _; rfl
  | succ d ih =>
    intro h
    have h1 := ih (fun j hj1 hj2 => h j hj1 (by omega))
    have h2 := h (i + d) (by omega) (by omega)
    rw [← Nat.add_assoc, List.take_succ, List.count_append, h1]
    cases hx : S[i + d]? with
    | none => simp
    | some x =>
      rw [hx] at h2
      have hne : x ≠ lineFeed := fun e => h2 (by rw [e])
      simp [List.count_cons_of_ne (Ne.symm hne)]

end text

/-! ### Lemmas about loading a file -/

namespace file

open text

theorem encodeRune_lineFeed : encodeRune lineFeed = [0x0A] := by
  decide

/-- The encoding of Unicode scalar values ends with the byte U+000A exactly when the last of
them is the line feed. -/
theorem getLast?_encodeRunes (S : List Rune) (hv : ∀ r ∈ S, validRune r = true) :
    (encodeRunes S).getLast? = some 0x0A ↔ S.getLast? = some lineFeed := by
  rcases List.eq_nil_or_concat S with rfl | ⟨S', r, rfl⟩
  · simp [encodeRunes_nil]
  · rw [List.concat_eq_append] at hv ⊢
    have hr : validRune r = true := hv r (by simp)
    rw [encodeRunes_append, List.getLast?_concat]
    have e1 : encodeRunes [r] = encodeRune r := by simp [encodeRunes]
    rw [e1]
    by_cases hlf : r = lineFeed
    · subst hlf
      rw [encodeRune_lineFeed]
      simp
    · obtain ⟨b, cs, he, -, hcs, hb⟩ := encodeRune_shape r hr
      have hne : ∀ x : Nat, x ∈ encodeRune r → x ≠ 0x0A := by
        intro x hx
        rw [he] at hx
        rcases List.mem_cons.mp hx with rfl | hx
        · exact fun e => hlf (hb.mp e)
        · have := hcs x hx
          omega
      have hnn : encodeRune r ≠ [] := by rw [he]; simp
      rw [List.getLast?_append_of_ne_nil _ hnn]
      constructor
      · intro h
        exact absurd rfl (hne _ (List.mem_of_getLast?_eq_some h))
      · intro h
        exact absurd (Option.some.inj h) hlf

/-- The function `endsWithLineFeed` tells whether the last codepoint of the text is the line
feed. -/
theorem endsWithLineFeed_eq {tree : Tree} {S : List Rune} (h : tree.Holds S) :
    endsWithLineFeed tree = decide (S.getLast? = some lineFeed) := by
  have hoff : tree.root.byteOffsetForPosition tree.NumChars = (encodeRunes S).length := by
    rw [Node.byteOffsetForPosition_rep tree.root S _ h.rep, h.treeNumChars_eq, List.take_length]
  have hrem : (tree.ReaderAtPosition tree.NumChars ReadDirection.ReadDirectionBackward).remaining
      = (encodeRunes S).reverse := by
    simp only [Tree.ReaderAtPosition, TreeReader.remaining, hoff, h.string_eq, List.take_length]
  have hiff := getLast?_encodeRunes S h.runes_valid
  unfold endsWithLineFeed
  simp only [TreeReader.Read, hrem]
  cases hb : (encodeRunes S).reverse with
  | nil =>
    have hnil : encodeRunes S = [] := List.reverse_eq_nil_iff.mp hb
    rw [hnil] at hiff
    have hS : ¬ (S.getLast? = some lineFeed) := fun e => by simpa using hiff.mpr e
    simp [hS]
  | cons x rest =>
    have hlast : (encodeRunes S).getLast? = some x := by
      rw [← List.head?_reverse, hb]; rfl
    rw [hlast] at hiff
    by_cases hx : x = 0x0A
    · have hS : S.getLast? = some lineFeed := hiff.mp (by rw [hx])
      simp [hx, hS]
    · have hS : ¬ (S.getLast? = some lineFeed) := fun e => hx (Option.some.inj (hiff.mpr e))
      simp [hx, hS]

/-- The function `removePosixEof` removes the last codepoint of a text that ends with a line
feed, and nothing else. -/
theorem removePosixEof_holds (maxBytesPerLeaf : Nat) {tree : Tree} {S : List Rune}
    (h : tree.Holds S) :
    (removePosixEof maxBytesPerLeaf tree).Holds
      (if S.getLast? = some lineFeed then S.dropLast else S) := by
  unfold removePosixEof
  rw [endsWithLineFeed_eq h]
  by_cases hS : S.getLast? = some lineFeed
  · rw [if_pos (by simpa using hS), if_pos hS]
    have hne : S ≠ [] := by
      intro e; rw [e] at hS; simp at hS
    have hlen : 0 < S.length := List.length_pos.mpr hne
    have e : S.dropLast = S.eraseIdx (tree.NumChars - 1) :=
      List.dropLast_eq_eraseIdx (by rw [h.treeNumChars_eq]; omega)
    rw [e]
    exact Tree.deleteAtPosition_holds maxBytesPerLeaf h _
  · rw [if_neg (by simpa using hS), if_neg hS]
    exact h

end file

/-! ### Lemmas about the mutators -/

namespace exec

open text

/-- The method `deleteCharacters` removes the `count` codepoints from the position on, or
those that there are. -/
theorem deleteCharacters_holds (maxBytesPerLeaf : Nat) (pos : Nat) :
    ∀ (count : Nat) (tree : Tree) (S : List Rune), tree.Holds S →
      (deleteMutator.deleteCharacters maxBytesPerLeaf tree pos count).Holds
        (S.take pos ++ S.drop (pos + count)) := by
  intro count
  induction count with
  | zero =>
    intro tree S h
    simpa [deleteMutator.deleteCharacters] using h
  | succ count ih =>
    intro tree S h
    have h2 := ih _ _ (Tree.deleteAtPosition_holds maxBytesPerLeaf h pos)
    have e : (S.eraseIdx pos).take pos ++ (S.eraseIdx pos).drop (pos + count) =
        S.take pos ++ S.drop (pos + (count + 1)) := by
      by_cases hp : pos < S.length
      · rw [List.eraseIdx_eq_take_drop_succ, List.take_append_of_le_length (by simp; omega),
          List.take_take, Nat.min_self, List.drop_append_eq_append_drop, List.drop_drop,
          List.length_take, Nat.min_eq_left (by omega),
          List.drop_of_length_le (by simp)]
        have e2 : pos + 1 + (pos + count - pos) = pos + (count + 1) := by omega
        rw [e2]
        rfl
      · rw [List.eraseIdx_of_length_le (by omega), List.drop_of_length_le (by omega),
          List.drop_of_length_le (by omega)]
    rw [deleteMutator.deleteCharacters, ← e]
    exact h2

end exec

/-! ### The state of the forward iterator after a prefix -/

namespace segment

theorem processRunes_nil (props : Rune → gbProp) (g : graphemeClusterIter) :
    g.processRunes props [] = g := rfl

theorem processRunes_cons (props : Rune → gbProp) (g : graphemeClusterIter) (r : Rune)
    (rs : List Rune) :
    g.processRunes props (r :: rs) = (g.processRune props r).2.processRunes props rs := rfl

theorem processRunes_append (props : Rune → gbProp) (g : graphemeClusterIter)
    (xs ys : List Rune) :
    g.processRunes props (xs ++ ys) = (g.processRunes props xs).processRunes props ys := by
  simp [graphemeClusterIter.processRunes, List.foldl_append]

/-- The state after a prefix describes the classes of the prefix. -/
theorem processRunes_tracks (props : Rune → gbProp) (P : List Rune) :
    ∀ (g : graphemeClusterIter) (before : List gbProp), g.Tracks before →
      (g.processRunes props P).Tracks ((P.map props).reverse ++ before) := by
  induction P with
  | nil => intro g before h; simpa [processRunes_nil] using h
  | cons r rs ih =>
    intro g before h
    have h2 := ih _ _ (processRune_tracks props g r before h)
    rw [processRunes_cons]
    simpa using h2

theorem processRunes_currentSegment (props : Rune → gbProp) (P : List Rune) :
    ∀ g : graphemeClusterIter, (g.processRunes props P).currentSegment = g.currentSegment ∧
      (g.processRunes props P).runeIter = g.runeIter := by
  induction P with
  | nil => intro g; exact ⟨rfl, rfl⟩
  | cons r rs ih =>
    intro g
    rw [processRunes_cons]
    exact ih _

/-- The state of the iterator does not depend on the segment under construction nor on the
runes still to come. -/
theorem processRune_congr (props : Rune → gbProp) (g : graphemeClusterIter) (r : Rune)
    (seg : Option Segment) (rest : List Rune) :
    (graphemeClusterIter.processRune props { g with currentSegment := seg, runeIter := rest }
        r).2 =
      { (g.processRune props r).2 with currentSegment := seg, runeIter := rest } := rfl

theorem processRunes_congr (props : Rune → gbProp) (P : List Rune) :
    ∀ (g : graphemeClusterIter) (seg : Option Segment) (rest : List Rune),
      graphemeClusterIter.processRunes props { g with currentSegment := seg, runeIter := rest } P
        = { g.processRunes props P with currentSegment := seg, runeIter := rest } := by
  induction P with
  | nil => intro g seg rest; rfl
  | cons r rs ih =>
    intro g seg rest
    rw [processRunes_cons, processRunes_cons, processRune_congr, ih]

/-- One call of `NextSegment` leaves the iterator in the state that `processRune` reaches on
the runes that the call has read, whatever the call returns. -/
theorem nextSegmentLoop_state (props : Rune → gbProp) (rest : List Rune) :
    ∀ (g : graphemeClusterIter) (res : Option Segment) (g' : graphemeClusterIter),
      graphemeClusterIter.nextSegmentLoop props rest g = some (res, g') →
      ∃ consumed, rest = consumed ++ g'.runeIter ∧
        g' = { g.processRunes props consumed with
               currentSegment := g'.currentSegment, runeIter := g'.runeIter } := by
  induction rest with
  | nil =>
    intro g res g' h
    have key : [] = [] ++ g'.runeIter ∧
        g' = { g.processRunes props [] with
               currentSegment := g'.currentSegment, runeIter := g'.runeIter } := by
      simp only [graphemeClusterIter.nextSegmentLoop] at h
      split at h
      · split_ifs at h
        · simp only [Option.some.injEq, Prod.mk.injEq] at h
          obtain ⟨-, rfl⟩ := h
          exact ⟨rfl, rfl⟩
        · simp only [Option.some.injEq, Prod.mk.injEq] at h
          obtain ⟨-, rfl⟩ := h
          exact ⟨rfl, rfl⟩
      · simp only [Option.some.injEq, Prod.mk.injEq] at h
        obtain ⟨-, rfl⟩ := h
        exact ⟨rfl, rfl⟩
    exact ⟨[], key.1, key.2⟩
  | cons r rs ih =>
    intro g res g' h
    simp only [graphemeClusterIter.nextSegmentLoop] at h
    split at h
    · exact absurd h (by simp)
    · rename_i seg hseg
      split_ifs at h with hbrk
      · simp only [Option.some.injEq, Prod.mk.injEq] at h
        refine ⟨[r], by rw [← h.2]; rfl, ?_⟩
        rw [← h.2]
        rfl
      · obtain ⟨consumed, h1, h2⟩ := ih _ res g' h
        refine ⟨r :: consumed, by rw [h1]; rfl, ?_⟩
        rw [processRunes_cons]
        rw [show ({ (g.processRune props r).2 with
              runeIter := rs, currentSegment := some (seg.Append r) } : graphemeClusterIter) =
            { (g.processRune props r).2 with
              currentSegment := some (seg.Append r), runeIter := rs } from rfl,
          processRunes_congr] at h2
        exact h2

end segment

namespace segment

/-- After any number of calls of `NextSegment`, the iterator is in the state that
`processRune` reaches on the runes read so far. -/
theorem afterCalls_state (props : Rune → gbProp) (n : Nat) :
    ∀ (g0 g : graphemeClusterIter), g0.afterCalls props n = some g →
      ∃ consumed, g0.runeIter = consumed ++ g.runeIter ∧
        g = { g0.processRunes props consumed with
              currentSegment := g.currentSegment, runeIter := g.runeIter } := by
  induction n with
  | zero =>
    intro g0 g h
    simp only [graphemeClusterIter.afterCalls, Option.some.injEq] at h
    subst h
    exact ⟨[], rfl, rfl⟩
  | succ n ih =>
    intro g0 g h
    simp only [graphemeClusterIter.afterCalls] at h
    cases hn : g0.NextSegment props with
    | none => rw [hn] at h; exact absurd h (by simp)
    | some val =>
      obtain ⟨res, g1⟩ := val
      rw [hn] at h
      simp only at h
      obtain ⟨c1, h1, h2⟩ := nextSegmentLoop_state props g0.runeIter g0 res g1 hn
      obtain ⟨c2, h3, h4⟩ := ih g1 g h
      refine ⟨c1 ++ c2, by rw [h1, h3, List.append_assoc], ?_⟩
      rw [h4, h2, processRunes_congr, processRunes_append]

/-- The run of Regional_Indicator that ends a sequence of classes: the sequence is some classes
that do not end with Regional_Indicator, followed by `riRunLength` Regional_Indicator. -/
theorem riRunLength_spec (before : List gbProp) :
    ∃ pre, before.reverse = pre ++ List.replicate (riRunLength before) gbProp.Regional_Indicator ∧
      ∀ q, pre.getLast? = some q → q ≠ gbProp.Regional_Indicator := by
  induction before with
  | nil => exact ⟨[], rfl, by simp⟩
  | cons p t ih =>
    by_cases hp : p = gbProp.Regional_Indicator
    · obtain ⟨pre, h1, h2⟩ := ih
      refine ⟨pre, ?_, h2⟩
      rw [List.reverse_cons, h1, riRunLength, if_pos hp, List.replicate_succ', hp,
        List.append_assoc]
    · refine ⟨(p :: t).reverse, ?_, ?_⟩
      · simp [riRunLength, hp]
      · intro q hq
        rw [List.getLast?_reverse] at hq
        simp only [List.head?_cons, Option.some.injEq] at hq
        rw [← hq]
        exact hp

theorem getLast?_extPict_extend (pre : List gbProp) (k : Nat) :
    (pre ++ gbProp.Extended_Pictographic :: List.replicate k gbProp.Extend).getLast? =
      some (if k = 0 then gbProp.Extended_Pictographic else gbProp.Extend) := by
  cases k with
  | zero => simp
  | succ k =>
    rw [List.replicate_succ', ← List.cons_append, ← List.append_assoc, List.getLast?_concat]
    simp

/-- The function `endsExtPictExtend` holds of the classes of a prefix, given backwards,
exactly when the prefix ends with an Extended_Pictographic followed by zero or more
Extend. -/
theorem endsExtPictExtend_iff (before : List gbProp) :
    endsExtPictExtend before = true ↔
      ∃ pre k, before.reverse =
        pre ++ gbProp.Extended_Pictographic :: List.replicate k gbProp.Extend := by
  induction before with
  | nil =>
    simp only [endsExtPictExtend, List.reverse_nil]
    constructor
    · intro h; exact absurd h (by decide)
    · rintro ⟨pre, k, h⟩
      exact absurd h (by simp)
  | cons p t ih =>
    rw [List.reverse_cons]
    by_cases hp : p = gbProp.Extend
    · subst hp
      simp only [endsExtPictExtend, if_true]
      rw [ih]
      constructor
      · rintro ⟨pre, k, h⟩
        refine ⟨pre, k + 1, ?_⟩
        rw [h, List.replicate_succ']
        simp
      · rintro ⟨pre, k, h⟩
        cases k with
        | zero =>
          have h2 := congrArg List.getLast? h
          rw [List.getLast?_concat, getLast?_extPict_extend] at h2
          simp at h2
        | succ k =>
          refine ⟨pre, k, ?_⟩
          rw [List.replicate_succ', ← List.cons_append, ← List.append_assoc] at h
          exact List.append_inj_left' h rfl
    · simp only [endsExtPictExtend, if_neg hp]
      by_cases hx : p = gbProp.Extended_Pictographic
      · subst hx
        simp only [decide_True, true_iff]
        exact ⟨t.reverse, 0, by simp⟩
      · simp only [hx, decide_False, Bool.false_eq_true, false_iff]
        rintro ⟨pre, k, h⟩
        have h2 := congrArg List.getLast? h
        rw [List.getLast?_concat, getLast?_extPict_extend] at h2
        simp only [Option.some.injEq] at h2
        split_ifs at h2
        · exact hx h2
        · exact hp h2

/-- The function `endsExtPictExtendZWJ` holds of the classes of a prefix, given backwards,
exactly when the prefix ends with `Extended_Pictographic Extend* ZWJ`. -/
theorem endsExtPictExtendZWJ_iff (before : List gbProp) :
    endsExtPictExtendZWJ before = true ↔
      ∃ pre k, before.reverse =
        pre ++ gbProp.Extended_Pictographic :: List.replicate k gbProp.Extend ++ [gbProp.ZWJ] := by
  cases before with
  | nil =>
    simp only [endsExtPictExtendZWJ, List.reverse_nil]
    constructor
    · intro h; exact absurd h (by decide)
    · rintro ⟨pre, k, h⟩
      exact absurd h (by simp)
  | cons p t =>
    rw [endsExtPictExtendZWJ_cons, List.reverse_cons, Bool.and_eq_true, decide_eq_true_eq,
      endsExtPictExtend_iff]
    constructor
    · rintro ⟨rfl, pre, k, h⟩
      exact ⟨pre, k, by rw [h]⟩
    · rintro ⟨pre, k, h⟩
      have h3 : t.reverse ++ [p] =
          (pre ++ gbProp.Extended_Pictographic :: List.replicate k gbProp.Extend) ++
            [gbProp.ZWJ] := by
        rw [h]
      have h4 := List.append_inj_right' h3 rfl
      have h5 := List.append_inj_left' h3 rfl
      simp only [List.cons.injEq, and_true] at h4
      exact ⟨h4, pre, k, h5⟩

/-- The count of `lookaheadEvenRI` is the length of the run of Regional_Indicator at the head
of the runes. -/
theorem riRunLength_eq_takeWhile (props : Rune → gbProp) (rs : List Rune) :
    riRunLength (rs.map props) =
      (rs.takeWhile (fun r => decide (props r = gbProp.Regional_Indicator))).length := by
  induction rs with
  | nil => rfl
  | cons r rs ih =>
    by_cases hr : props r = gbProp.Regional_Indicator
    · simp [riRunLength, List.takeWhile, hr, ih]
    · simp [riRunLength, List.takeWhile, hr]

end segment

/-! ### Consequences of the rules for the forward segmentation -/

namespace segment

/-- GB9, GB9a: no break before Extend, ZWJ or SpacingMark, unless GB4 asks for one. -/
theorem uaxBreakAfter_mark (q p : gbProp) (before : List gbProp)
    (hq : q.isControlOrNewline = false) (hp : p.isMark = true) :
    uaxBreakAfter (q :: before) p = false := by
  unfold uaxBreakAfter
  cases q <;> cases p <;> simp_all [gbProp.isControlOrNewline, gbProp.isMark]

/-- GB4: a break after Control, CR or LF, also before Extend, ZWJ or SpacingMark. -/
theorem uaxBreakAfter_control_mark (q p : gbProp) (before : List gbProp)
    (hq : q.isControlOrNewline = true) (hp : p.isMark = true) :
    uaxBreakAfter (q :: before) p = true := by
  unfold uaxBreakAfter
  cases q <;> cases p <;> simp_all [gbProp.isControlOrNewline, gbProp.isMark]

/-- GB12, GB13: between two Regional_Indicator there is a break exactly when the run of
Regional_Indicator before the break has even length. -/
theorem uaxBreakAfter_ri (before : List gbProp) :
    uaxBreakAfter (gbProp.Regional_Indicator :: before) gbProp.Regional_Indicator =
      decide (riRunLength (gbProp.Regional_Indicator :: before) % 2 = 0) := by
  by_cases h : riRunLength (gbProp.Regional_Indicator :: before) % 2 = 1
  · have h0 : ¬ (riRunLength (gbProp.Regional_Indicator :: before) % 2 = 0) := by omega
    simp [uaxBreakAfter, gbProp.isControlOrNewline, h, h0]
  · have h0 : riRunLength (gbProp.Regional_Indicator :: before) % 2 = 0 := by omega
    simp [uaxBreakAfter, gbProp.isControlOrNewline, h, h0]

/-- GB3: no break between CR and LF. -/
theorem uaxBreakAfter_cr_lf (before : List gbProp) :
    uaxBreakAfter (gbProp.CR :: before) gbProp.LF = false := by
  simp [uaxBreakAfter]

/-- GB4, GB5: a break after and before Control, CR or LF, except between CR and LF. -/
theorem uaxBreakAfter_control (q p : gbProp) (before : List gbProp)
    (h : q.isControlOrNewline = true ∨ p.isControlOrNewline = true)
    (hne : ¬ (q = gbProp.CR ∧ p = gbProp.LF)) : uaxBreakAfter (q :: before) p = true := by
  simp only [uaxBreakAfter]
  rw [if_neg hne, if_pos h]

/-- A break is decided by GB3 only if the class before it is CR and the class after it LF. -/
theorem uaxBreakAfter_false_of_control (q p : gbProp) (before : List gbProp)
    (h : q.isControlOrNewline = true ∨ p.isControlOrNewline = true)
    (hb : uaxBreakAfter (q :: before) p = false) : q = gbProp.CR ∧ p = gbProp.LF := by
  by_contra hne
  rw [uaxBreakAfter_control q p before h hne] at hb
  exact Bool.noConfusion hb

theorem riRunLength_replicate (k : Nat) :
    riRunLength (List.replicate k gbProp.Regional_Indicator) = k := by
  induction k with
  | zero => rfl
  | succ k ih => simp [List.replicate_succ, riRunLength, ih]

theorem riSegmentLengths_zero : riSegmentLengths 0 = [] := rfl

theorem riSegmentLengths_one : riSegmentLengths 1 = [1] := rfl

theorem riSegmentLengths_add_two (n : Nat) :
    riSegmentLengths (n + 2) = 2 :: riSegmentLengths n := by
  unfold riSegmentLengths
  have h1 : (n + 2) / 2 = n / 2 + 1 := by omega
  have h2 : (n + 2) % 2 = n % 2 := by omega
  rw [h1, h2, List.replicate_succ]
  rfl

/-- The segmentation of a text of Regional_Indicator that follows `k` Regional_Indicator at
the start of the text: pairs, and a single codepoint at the end when their number is odd. -/
theorem splitForward_ri (props : Rune → gbProp) (rest : List Rune) :
    (∀ r ∈ rest, props r = gbProp.Regional_Indicator) →
    ∀ (k : Nat) (cur : List Rune), (cur.length = if k = 0 then 0 else 2 - k % 2) →
      (splitForward props (List.replicate k gbProp.Regional_Indicator) cur rest).map List.length =
        riSegmentLengths (cur.length + rest.length) := by
  induction rest with
  | nil =>
    intro _ k cur hcur
    have h3 : cur.length = 0 ∨ cur.length = 1 ∨ cur.length = 2 := by
      split_ifs at hcur <;> omega
    rcases h3 with h | h | h
    · simp [splitForward, h, riSegmentLengths]
    · simp [splitForward, h, riSegmentLengths]
    · simp [splitForward, h, riSegmentLengths]
  | cons r rs ih =>
    intro hall k cur hcur
    have hr : props r = gbProp.Regional_Indicator := hall r (List.mem_cons_self _ _)
    have hrs : ∀ x ∈ rs, props x = gbProp.Regional_Indicator :=
      fun x hx => hall x (List.mem_cons_of_mem _ hx)
    have hnext : props r :: List.replicate k gbProp.Regional_Indicator =
        List.replicate (k + 1) gbProp.Regional_Indicator := by
      rw [hr, List.replicate_succ]
    by_cases hk : k = 0
    · subst hk
      simp only [if_true] at hcur
      have hc : cur = [] := List.length_eq_zero.mp hcur
      subst hc
      have e : splitForward props (List.replicate 0 gbProp.Regional_Indicator) [] (r :: rs) =
          splitForward props (props r :: List.replicate 0 gbProp.Regional_Indicator) [r] rs := by
        simp [splitForward]
      have e2 : [r].length + rs.length = ([] : List Rune).length + (r :: rs).length := by
        simp only [List.length_cons, List.length_nil]; omega
      rw [e, hnext, ih hrs 1 [r] (by simp), e2]
    · rw [if_neg hk] at hcur
      obtain ⟨j, rfl⟩ : ∃ j, k = j + 1 := ⟨k - 1, by omega⟩
      have hb : uaxBreakAfter (List.replicate (j + 1) gbProp.Regional_Indicator) (props r) =
          decide ((j + 1) % 2 = 0) := by
        rw [hr]
        conv => lhs; rw [List.replicate_succ]
        rw [uaxBreakAfter_ri, ← List.replicate_succ, riRunLength_replicate]
      by_cases hpar : (j + 1) % 2 = 0
      · have hlen : cur.length = 2 := by omega
        have e : splitForward props (List.replicate (j + 1) gbProp.Regional_Indicator) cur
            (r :: rs) = cur ::
              splitForward props (props r :: List.replicate (j + 1) gbProp.Regional_Indicator)
                [r] rs := by
          rw [splitForward, if_pos ⟨by rw [hb]; simpa using hpar, by omega⟩]
        have e2 : 2 + (r :: rs).length = ([r].length + rs.length) + 2 := by
          simp only [List.length_cons, List.length_nil]; omega
        rw [e, hnext, List.map_cons, ih hrs (j + 2) [r] (by simp; omega), hlen, e2,
          riSegmentLengths_add_two]
      · have hlen : cur.length = 1 := by omega
        have e : splitForward props (List.replicate (j + 1) gbProp.Regional_Indicator) cur
            (r :: rs) =
              splitForward props (props r :: List.replicate (j + 1) gbProp.Regional_Indicator)
                (cur ++ [r]) rs := by
          rw [splitForward, if_neg]
          rintro ⟨h1, -⟩
          rw [hb] at h1
          exact hpar (by simpa using h1)
        have e2 : (cur ++ [r]).length + rs.length = cur.length + (r :: rs).length := by
          simp only [List.length_append, List.length_cons, List.length_nil]; omega
        rw [e, hnext, ih hrs (j + 2) (cur ++ [r]) (by simp [hlen]; omega), e2]

/-- A base codepoint followed by marks stays one segment. -/
theorem splitForward_marks (props : Rune → gbProp) (marks : List Rune) :
    (∀ m ∈ marks, (props m).isMark = true) →
    ∀ (q : gbProp) (before : List gbProp) (cur : List Rune), q.isControlOrNewline = false →
      0 < cur.length → splitForward props (q :: before) cur marks = [cur ++ marks] := by
  induction marks with
  | nil =>
    intro _ q before cur _ hc
    simp [splitForward, hc]
  | cons m ms ih =>
    intro hall q before cur hq hc
    have hm := hall m (List.mem_cons_self _ _)
    have hnb := uaxBreakAfter_mark q (props m) before hq hm
    have hmq : (props m).isControlOrNewline = false := by
      revert hm
      cases props m <;> simp [gbProp.isMark, gbProp.isControlOrNewline]
    rw [splitForward, if_neg (by rw [hnb]; simp),
      ih (fun x hx => hall x (List.mem_cons_of_mem _ hx)) (props m) (q :: before) (cur ++ [m]) hmq
        (by simp)]
    simp

end segment

/-! ### Restarting the segmentation at a boundary -/

namespace segment

theorem endsExtPictExtend_append (m : List gbProp) (p0 : gbProp) (preRev : List gbProp)
    (h : p0 = gbProp.Extend → endsExtPictExtend preRev = false) :
    endsExtPictExtend ((m ++ [p0]) ++ preRev) = endsExtPictExtend (m ++ [p0]) := by
  induction m with
  | nil =>
    by_cases hp : p0 = gbProp.Extend
    · simp [endsExtPictExtend, hp, h hp]
    · simp [endsExtPictExtend, hp]
  | cons x m ih =>
    have e1 : endsExtPictExtend (((x :: m) ++ [p0]) ++ preRev) =
        if x = gbProp.Extend then endsExtPictExtend ((m ++ [p0]) ++ preRev)
        else decide (x = gbProp.Extended_Pictographic) := rfl
    have e2 : endsExtPictExtend ((x :: m) ++ [p0]) =
        if x = gbProp.Extend then endsExtPictExtend (m ++ [p0])
        else decide (x = gbProp.Extended_Pictographic) := rfl
    rw [e1, e2, ih]

theorem endsExtPictExtendZWJ_append (m : List gbProp) (p0 : gbProp) (preRev : List gbProp)
    (h : p0 = gbProp.Extend ∨ p0 = gbProp.ZWJ → endsExtPictExtend preRev = false) :
    endsExtPictExtendZWJ ((m ++ [p0]) ++ preRev) = endsExtPictExtendZWJ (m ++ [p0]) := by
  cases m with
  | nil =>
    simp only [List.nil_append, List.singleton_append, endsExtPictExtendZWJ_cons]
    by_cases hp : p0 = gbProp.ZWJ
    · simp [hp, h (Or.inr hp), endsExtPictExtend]
    · simp [hp]
  | cons x m =>
    simp only [List.cons_append, endsExtPictExtendZWJ_cons]
    rw [endsExtPictExtend_append m p0 preRev (fun hp => h (Or.inl hp))]

theorem riRunLength_append (m : List gbProp) (p0 : gbProp) (preRev : List gbProp)
    (h : p0 = gbProp.Regional_Indicator → riRunLength preRev % 2 = 0) :
    riRunLength ((m ++ [p0]) ++ preRev) % 2 = riRunLength (m ++ [p0]) % 2 := by
  induction m with
  | nil =>
    have e1 : riRunLength (([] ++ [p0]) ++ preRev) =
        if p0 = gbProp.Regional_Indicator then riRunLength preRev + 1 else 0 := rfl
    have e2 : riRunLength ([] ++ [p0]) =
        if p0 = gbProp.Regional_Indicator then riRunLength [] + 1 else 0 := rfl
    rw [e1, e2]
    by_cases hp : p0 = gbProp.Regional_Indicator
    · have h3 := h hp
      have h4 : riRunLength [] = 0 := rfl
      rw [if_pos hp, if_pos hp, h4]
      omega
    · rw [if_neg hp, if_neg hp]
  | cons x m ih =>
    have e1 : riRunLength (((x :: m) ++ [p0]) ++ preRev) =
        if x = gbProp.Regional_Indicator then riRunLength ((m ++ [p0]) ++ preRev) + 1
        else 0 := rfl
    have e2 : riRunLength ((x :: m) ++ [p0]) =
        if x = gbProp.Regional_Indicator then riRunLength (m ++ [p0]) + 1 else 0 := rfl
    rw [e1, e2]
    by_cases hx : x = gbProp.Regional_Indicator
    · rw [if_pos hx, if_pos hx]
      omega
    · rw [if_neg hx, if_neg hx]

/-- GB9: where the rules break before an Extend or a ZWJ, the text before does not end with
`Extended_Pictographic Extend*`. -/
theorem endsExtPictExtend_of_break (preRev : List gbProp) (p0 : gbProp)
    (hb : uaxBreakAfter preRev p0 = true) (hp : p0 = gbProp.Extend ∨ p0 = gbProp.ZWJ) :
    endsExtPictExtend preRev = false := by
  cases preRev with
  | nil => rfl
  | cons q before =>
    have hm : p0.isMark = true := by
      rcases hp with rfl | rfl <;> decide
    have hq : q.isControlOrNewline = true := by
      by_contra hq
      have hq2 : q.isControlOrNewline = false := by simpa using hq
      rw [uaxBreakAfter_mark q p0 before hq2 hm] at hb
      exact Bool.noConfusion hb
    revert hq
    cases q <;> simp [gbProp.isControlOrNewline, endsExtPictExtend]

/-- GB12, GB13: where the rules break before a Regional_Indicator, the run of
Regional_Indicator before it has even length. -/
theorem riRunLength_of_break (preRev : List gbProp)
    (hb : uaxBreakAfter preRev gbProp.Regional_Indicator = true) :
    riRunLength preRev % 2 = 0 := by
  cases preRev with
  | nil => rfl
  | cons q before =>
    by_cases hq : q = gbProp.Regional_Indicator
    · subst hq
      rw [uaxBreakAfter_ri] at hb
      simpa using hb
    · simp [riRunLength, hq]

/-- After a break, the rules do not look at the text before the break. -/
theorem uaxBreakAfter_append (m : List gbProp) (p0 : gbProp) (preRev : List gbProp) (p : gbProp)
    (hb : uaxBreakAfter preRev p0 = true) :
    uaxBreakAfter ((m ++ [p0]) ++ preRev) p = uaxBreakAfter (m ++ [p0]) p := by
  have hz := endsExtPictExtendZWJ_append m p0 preRev
    (fun hp => endsExtPictExtend_of_break preRev p0 hb hp)
  have hr := riRunLength_append m p0 preRev
    (fun hp => riRunLength_of_break preRev (by rw [← hp]; exact hb))
  obtain ⟨q, t, hqt⟩ : ∃ q t, m ++ [p0] = q :: t := by
    cases m with
    | nil => exact ⟨p0, [], rfl⟩
    | cons x m => exact ⟨x, m ++ [p0], rfl⟩
  rw [hqt] at hz hr ⊢
  rw [List.cons_append] at hz hr ⊢
  simp only [uaxBreakAfter, hz, hr]

/-- After a break, the segmentation does not depend on the text before the break. -/
theorem splitForward_local (props : Rune → gbProp) (rest : List Rune) (p0 : gbProp)
    (preRev : List gbProp) (hb : uaxBreakAfter preRev p0 = true) :
    ∀ (m : List gbProp) (cur : List Rune),
      splitForward props ((m ++ [p0]) ++ preRev) cur rest =
        splitForward props (m ++ [p0]) cur rest := by
  induction rest with
  | nil => intro m cur; rfl
  | cons r rs ih =>
    intro m cur
    have h1 := ih (props r :: m) [r]
    have h2 := ih (props r :: m) (cur ++ [r])
    simp only [List.cons_append] at h1 h2
    simp only [splitForward, uaxBreakAfter_append m p0 preRev (props r) hb, h1, h2]

theorem splitForward_nil_cons (props : Rune → gbProp) (r : Rune) (rs : List Rune) :
    splitForward props [] [] (r :: rs) = splitForward props [props r] [r] rs := by
  simp [splitForward]

/-- The segmentation of a text with a break in it is the segmentation of the text before the
break, followed by the segmentation of the text after it. -/
theorem splitForward_append (props : Rune → gbProp) (r : Rune) (rs : List Rune) (P : List Rune) :
    ∀ (before : List gbProp) (cur : List Rune),
      uaxBreakAfter ((P.map props).reverse ++ before) (props r) = true →
      0 < cur.length + P.length →
      splitForward props before cur (P ++ r :: rs) =
        splitForward props before cur P ++ splitForward props [] [] (r :: rs) := by
  induction P with
  | nil =>
    intro before cur hb hc
    simp only [List.map_nil, List.reverse_nil, List.nil_append, List.length_nil,
      Nat.add_zero] at hb hc
    have h1 := splitForward_local props rs (props r) before hb [] [r]
    simp only [List.nil_append, List.singleton_append] at h1
    have e1 : splitForward props before cur (r :: rs) =
        cur :: splitForward props (props r :: before) [r] rs := by
      rw [splitForward, if_pos ⟨hb, hc⟩]
    have e2 : splitForward props before cur [] = [cur] := by
      rw [splitForward, if_pos hc]
    rw [List.nil_append, splitForward_nil_cons, e1, e2, h1]
    rfl
  | cons x P ih =>
    intro before cur hb hc
    have hb2 : uaxBreakAfter ((P.map props).reverse ++ (props x :: before)) (props r) = true := by
      simpa using hb
    by_cases hx : uaxBreakAfter before (props x) = true ∧ 0 < cur.length
    · rw [List.cons_append, splitForward, if_pos hx, ih (props x :: before) [x] hb2 (by simp)]
      conv => rhs; rw [splitForward, if_pos hx]
      rfl
    · rw [List.cons_append, splitForward, if_neg hx,
        ih (props x :: before) (cur ++ [x]) hb2 (by simp)]
      conv => rhs; rw [splitForward, if_neg hx]

/-- The class at the position of a break and the classes before it. -/
theorem uaxBreak_succ (ps : List gbProp) (i : Nat) (q p : gbProp) (hq : ps.get? i = some q)
    (hp : ps.get? (i + 1) = some p) :
    uaxBreak ps (i + 1) = uaxBreakAfter (q :: (ps.take i).reverse) p := by
  unfold uaxBreak
  rw [hp]
  simp only [List.get?_eq_getElem?] at hq
  rw [List.take_succ, hq]
  simp

/-- The forward segmentation ends a segment inside the text exactly where the rules break. -/
theorem mem_segmentEnds_splitForward (props : Rune → gbProp) (S : List Rune) (i : Nat) :
    i ∈ segmentEnds (splitForward props [] [] S) ↔
      0 < i ∧ i ≤ S.length ∧ (i = S.length ∨ uaxBreak (S.map props) i = true) := by
  have h := splitForward_eq_splitBy props S [] []
  simp only [List.map_nil, List.reverse_nil, List.nil_append, List.length_nil] at h
  rw [h, mem_segmentEnds_splitBy]
  constructor
  · rintro ⟨h0, j, hj1, hj2, hj3⟩
    simp only [List.length_nil, Nat.zero_add] at hj2 hj3
    subst hj2
    exact ⟨h0, hj1, hj3⟩
  · rintro ⟨h0, h1, h2⟩
    exact ⟨h0, i, h1, by simp, by simpa using h2⟩

/-- Cutting the forward segmentation at one of its boundaries. -/
theorem splitForward_cut (props : Rune → gbProp) (S : List Rune) (b : Nat)
    (hb : b ∈ segmentEnds (splitForward props [] [] S)) :
    splitForward props [] [] S =
      splitForward props [] [] (S.take b) ++ splitForward props [] [] (S.drop b) := by
  rw [mem_segmentEnds_splitForward] at hb
  obtain ⟨h0, h1, h2⟩ := hb
  by_cases hlt : b < S.length
  · have h3 : uaxBreak (S.map props) b = true := by
      rcases h2 with h2 | h2
      · omega
      · exact h2
    obtain ⟨r, rs, hd⟩ : ∃ r rs, S.drop b = r :: rs := by
      cases hd : S.drop b with
      | nil =>
        have := congrArg List.length hd
        simp only [List.length_drop, List.length_nil] at this
        omega
      | cons r rs => exact ⟨r, rs, rfl⟩
    have hS : S = S.take b ++ r :: rs := by rw [← hd, List.take_append_drop]
    have hlen : (S.take b).length = b := by rw [List.length_take]; omega
    have h4 := uaxBreak_at props (S.take b) r rs
    rw [← hS, hlen, h3] at h4
    have h5 := splitForward_append props r rs (S.take b) [] []
      (by simpa using h4.symm) (by rw [hlen]; simpa using h0)
    rw [hd]
    conv => lhs; rw [hS]
    exact h5
  · have hb : S.length ≤ b := by omega
    rw [List.take_of_length_le hb, List.drop_of_length_le hb]
    simp [splitForward]

/-! ### Segments with a Control, a CR or a LF -/

/-- A segment of one codepoint is a segment as `isControlSegment` asks. -/
theorem isControlSegment_singleton (props : Rune → gbProp) (r : Rune) :
    isControlSegment props [r] := by
  by_cases h : (props r).isControlOrNewline = true
  · exact Or.inr (Or.inl ⟨r, rfl, h⟩)
  · left
    intro x hx
    rw [List.mem_singleton] at hx
    subst hx
    simpa using h

/-- Every segment of the segmentation by the rules that holds a Control, a CR or a LF is that
codepoint alone, or CR LF. -/
theorem splitForward_isControlSegment (props : Rune → gbProp) (rest : List Rune) :
    ∀ (before : List gbProp) (cur : List Rune),
      (cur = [] ∨ (∃ c, cur.getLast? = some c ∧ before.head? = some (props c) ∧
        isControlSegment props cur)) →
      ∀ s ∈ splitForward props before cur rest, isControlSegment props s := by
  induction rest with
  | nil =>
    intro before cur hI s hs
    rcases hI with rfl | ⟨c, -, -, hI⟩
    · simp [splitForward] at hs
    · by_cases hc : 0 < cur.length
      · simp only [splitForward, if_pos hc, List.mem_singleton] at hs
        subst hs
        exact hI
      · simp [splitForward, hc] at hs
  | cons r rs ih =>
    intro before cur hI s hs
    have hsingle : ([r] : List Rune) = [] ∨ (∃ c, ([r] : List Rune).getLast? = some c ∧
        (props r :: before).head? = some (props c) ∧ isControlSegment props [r]) :=
      Or.inr ⟨r, rfl, rfl, isControlSegment_singleton props r⟩
    by_cases hx : uaxBreakAfter before (props r) = true ∧ 0 < cur.length
    · rw [splitForward, if_pos hx] at hs
      rcases List.mem_cons.mp hs with rfl | hs
      · rcases hI with rfl | ⟨c, -, -, hI⟩
        · exact absurd hx.2 (by simp)
        · exact hI
      · exact ih _ _ hsingle s hs
    · rw [splitForward, if_neg hx] at hs
      refine ih (props r :: before) (cur ++ [r]) ?_ s hs
      rcases hI with rfl | ⟨c, hlast, hhead, hI⟩
      · simpa using hsingle
      · right
        refine ⟨r, by simp, rfl, ?_⟩
        have hpos : 0 < cur.length := by
          cases cur with
          | nil => simp at hlast
          | cons a l => simp
        obtain ⟨q, b, hbefore⟩ : ∃ q b, before = q :: b := by
          cases before with
          | nil => simp at hhead
          | cons q b => exact ⟨q, b, rfl⟩
        subst hbefore
        simp only [List.head?_cons, Option.some.injEq] at hhead
        have hnb : uaxBreakAfter (q :: b) (props r) = false := by
          by_contra hne
          exact hx ⟨by simpa using hne, hpos⟩
        rcases hI with hI | ⟨c1, hc1, hc2⟩ | ⟨a1, b1, hab, ha, hb1⟩
        · have hcm : c ∈ cur := List.mem_of_getLast?_eq_some hlast
          have hq : q.isControlOrNewline = false := by rw [hhead]; exact hI c hcm
          have hr : (props r).isControlOrNewline = false := by
            by_contra hr
            have h2 := uaxBreakAfter_false_of_control q (props r) b
              (Or.inr (by simpa using hr)) hnb
            rw [h2.1] at hq
            exact absurd hq (by decide)
          left
          intro y hy
          rcases List.mem_append.mp hy with hy | hy
          · exact hI y hy
          · rw [List.mem_singleton] at hy
            subst hy
            exact hr
        · subst hc1
          simp only [List.getLast?_singleton, Option.some.injEq] at hlast
          subst hlast
          have h2 := uaxBreakAfter_false_of_control q (props r) b
            (Or.inl (by rw [hhead]; exact hc2)) hnb
          exact Or.inr (Or.inr ⟨c1, r, rfl, by rw [← hhead]; exact h2.1, h2.2⟩)
        · subst hab
          have hl : c = b1 := by simpa using hlast.symm
          subst hl
          have h2 := uaxBreakAfter_false_of_control q (props r) b
            (Or.inl (by rw [hhead, hb1]; decide)) hnb
          rw [hhead, hb1] at h2
          exact absurd h2.1 (by decide)

/-! ### Runs of Regional_Indicator -/

theorem riRunLength_replicate_append (j : Nat) (t : List gbProp) :
    riRunLength (List.replicate j gbProp.Regional_Indicator ++ t) = j + riRunLength t := by
  induction j with
  | zero => simp
  | succ j ih =>
    rw [List.replicate_succ, List.cons_append, riRunLength, if_pos rfl, ih]
    omega

theorem riRunLength_eq_zero (t : List gbProp)
    (h : ∀ q, t.head? = some q → q ≠ gbProp.Regional_Indicator) : riRunLength t = 0 := by
  cases t with
  | nil => rfl
  | cons q t => simp [riRunLength, h q rfl]

end segment

/-! ### The flags of the forward iterator -/

namespace segment

/-- The flags for GB12 and GB13 of a state that describes the classes `before`. -/
theorem tracks_ri_flags (g : graphemeClusterIter) (ps : List gbProp) (h : g.Tracks ps.reverse) :
    ∃ n, riRunAtEnd ps n ∧ (g.lastPropsWereRIOdd = true ↔ n % 2 = 1) ∧
      (g.lastPropsWereRIEven = true ↔ 0 < n ∧ n % 2 = 0) ∧
      ¬ (g.lastPropsWereRIOdd = true ∧ g.lastPropsWereRIEven = true) := by
  obtain ⟨-, -, -, h4, h5⟩ := h
  obtain ⟨pre, h1, h2⟩ := riRunLength_spec ps.reverse
  rw [List.reverse_reverse] at h1
  refine ⟨riRunLength ps.reverse, ⟨pre, h1, h2⟩, ?_, ?_, ?_⟩
  · rw [h4]; simp
  · rw [h5]; simp
  · rw [h4, h5]
    simp only [decide_eq_true_eq]
    omega

/-- The flags for GB11 of a state that describes the classes `before`. -/
theorem tracks_extPict_flags (g : graphemeClusterIter) (ps : List gbProp)
    (h : g.Tracks ps.reverse) :
    (g.inExtendedPictographic = true ↔
      ∃ pre k, ps = pre ++ gbProp.Extended_Pictographic :: List.replicate k gbProp.Extend) ∧
    (g.afterExtendedPictographicPlusZWJ = true ↔
      ∃ pre k, ps = pre ++ gbProp.Extended_Pictographic :: List.replicate k gbProp.Extend ++
        [gbProp.ZWJ]) := by
  obtain ⟨-, h2, h3, -, -⟩ := h
  rw [h2, h3, endsExtPictExtend_iff, endsExtPictExtendZWJ_iff, List.reverse_reverse]
  exact ⟨Iff.rfl, Iff.rfl⟩

/-- The state after a prefix of the text describes the classes of the prefix. -/
theorem processRunes_new_tracks (props : Rune → gbProp) (S P : List Rune) :
    ((NewGraphemeClusterIter S).processRunes props P).Tracks (P.map props).reverse := by
  have h := processRunes_tracks props P _ _ (newGraphemeClusterIter_tracks S)
  simpa using h

/-- The state after any number of calls of `NextSegment` describes the classes of the runes
read so far. -/
theorem afterCalls_tracks (props : Rune → gbProp) (S : List Rune) (n : Nat)
    (g : graphemeClusterIter) (h : (NewGraphemeClusterIter S).afterCalls props n = some g) :
    ∃ consumed, S = consumed ++ g.runeIter ∧ g.Tracks (consumed.map props).reverse := by
  obtain ⟨consumed, h1, h2⟩ := afterCalls_state props n _ g h
  refine ⟨consumed, h1, ?_⟩
  have ht := processRunes_new_tracks props S consumed
  exact tracks_congr _ g _ ht
    (by rw [h2]) (by rw [h2]) (by rw [h2]) (by rw [h2]) (by rw [h2])

theorem map_eq_replicate_ri (props : Rune → gbProp) (T : List Rune)
    (h : ∀ r ∈ T, props r = gbProp.Regional_Indicator) :
    T.map props = List.replicate T.length gbProp.Regional_Indicator := by
  rw [List.eq_replicate_iff]
  refine ⟨by simp, ?_⟩
  intro b hb
  obtain ⟨r, hr, rfl⟩ := List.mem_map.mp hb
  exact h r hr

/-- Inside a run of Regional_Indicator that no Regional_Indicator precedes, the rules break
after every second codepoint of the run. -/
theorem uaxBreak_ri_run (props : Rune → gbProp) (A T B : List Rune) (j : Nat)
    (hT : ∀ r ∈ T, props r = gbProp.Regional_Indicator)
    (hA : ∀ a, A.getLast? = some a → props a ≠ gbProp.Regional_Indicator)
    (h1 : 1 ≤ j) (h2 : j < T.length) :
    uaxBreak ((A ++ T ++ B).map props) (A.length + j) = decide (j % 2 = 0) := by
  obtain ⟨r, rs, hd⟩ : ∃ r rs, T.drop j = r :: rs := by
    cases hd : T.drop j with
    | nil =>
      have := congrArg List.length hd
      simp only [List.length_drop, List.length_nil] at this
      omega
    | cons r rs => exact ⟨r, rs, rfl⟩
  have hTs : T = T.take j ++ r :: rs := by rw [← hd, List.take_append_drop]
  have hr : props r = gbProp.Regional_Indicator := by
    apply hT
    rw [hTs]
    simp
  have hlen : (T.take j).length = j := by rw [List.length_take]; omega
  have hS : A ++ T ++ B = (A ++ T.take j) ++ r :: (rs ++ B) := by
    conv => lhs; rw [hTs]
    simp
  have hl2 : (A ++ T.take j).length = A.length + j := by rw [List.length_append, hlen]
  have h3 := uaxBreak_at props (A ++ T.take j) r (rs ++ B)
  rw [← hS, hl2] at h3
  rw [h3, hr, List.map_append, List.reverse_append,
    map_eq_replicate_ri props (T.take j) (fun x hx => hT x (List.mem_of_mem_take hx)), hlen,
    List.reverse_replicate]
  obtain ⟨i, rfl⟩ : ∃ i, j = i + 1 := ⟨j - 1, by omega⟩
  have h0 : riRunLength (A.map props).reverse = 0 := by
    apply riRunLength_eq_zero
    intro q hq
    rw [List.head?_reverse] at hq
    rw [List.getLast?_map] at hq
    cases hl : A.getLast? with
    | none => rw [hl] at hq; simp at hq
    | some a =>
      rw [hl] at hq
      simp only [Option.map_some', Option.some.injEq] at hq
      rw [← hq]
      exact hA a hl
  have h4 : riRunLength (gbProp.Regional_Indicator ::
      (List.replicate i gbProp.Regional_Indicator ++ (A.map props).reverse)) = i + 1 := by
    rw [riRunLength, if_pos rfl, riRunLength_replicate_append, h0]
  rw [List.replicate_succ, List.cons_append, uaxBreakAfter_ri, h4]

end segment

/-! ### Reading forward and backward -/

namespace text

theorem drop_add_take_length (s : List Nat) (offset n : Nat) (h : offset ≤ s.length) :
    s.drop (offset + ((s.drop offset).take n).length) = (s.drop offset).drop n ∧
      offset + ((s.drop offset).take n).length ≤ s.length := by
  rw [List.length_take, List.length_drop, List.drop_drop]
  refine ⟨?_, by omega⟩
  by_cases hn : n ≤ s.length - offset
  · rw [Nat.min_eq_left hn]
  · rw [Nat.min_eq_right (by omega), List.drop_of_length_le (by omega),
      List.drop_of_length_le (by omega)]

theorem take_sub_take_length (s : List Nat) (offset n : Nat) (h : offset ≤ s.length) :
    (s.take (offset - (((s.take offset).reverse).take n).length)).reverse =
        ((s.take offset).reverse).drop n ∧
      offset - (((s.take offset).reverse).take n).length ≤ s.length := by
  rw [List.length_take, List.length_reverse, List.length_take, List.drop_reverse,
    List.length_take, List.take_take, Nat.min_eq_left h]
  refine ⟨?_, by omega⟩
  congr 2
  omega

/-- One `Read` yields the first bytes of what remains and leaves the rest. -/
theorem TreeReader.read_remaining (reader : TreeReader) (n : Nat)
    (h : reader.offset ≤ reader.tree.String.length) :
    (reader.Read n).1 = reader.remaining.take n ∧
      ((reader.Read n).2.1 = true ↔ reader.remaining.length < n) ∧
      (reader.Read n).2.2.remaining = reader.remaining.drop n ∧
      (reader.Read n).2.2.offset ≤ (reader.Read n).2.2.tree.String.length := by
  obtain ⟨tree, offset, direction⟩ := reader
  have hflag : ∀ l : List Nat, (l.take n).length < n ↔ l.length < n := by
    intro l
    rw [List.length_take]
    omega
  cases direction with
  | ReadDirectionForward =>
    obtain ⟨h1, h2⟩ := drop_add_take_length tree.String offset n h
    refine ⟨rfl, ?_, h1, h2⟩
    simp only [TreeReader.Read, decide_eq_true_eq]
    exact hflag _
  | ReadDirectionBackward =>
    obtain ⟨h1, h2⟩ := take_sub_take_length tree.String offset n h
    refine ⟨rfl, ?_, h1, h2⟩
    simp only [TreeReader.Read, decide_eq_true_eq]
    exact hflag _

/-- Reading to the end of the stream yields the bytes that remain. -/
theorem TreeReader.readAll_eq (n : Nat) (hn : 0 < n) (fuel : Nat) :
    ∀ reader : TreeReader, reader.offset ≤ reader.tree.String.length →
      reader.remaining.length < fuel → reader.readAll n fuel = some reader.remaining := by
  induction fuel with
  | zero => intro reader _ h; omega
  | succ fuel ih =>
    intro reader hoff hlen
    obtain ⟨h1, h2, h3, h4⟩ := TreeReader.read_remaining reader n hoff
    rw [TreeReader.readAll]
    by_cases hlt : reader.remaining.length < n
    · rw [if_pos (h2.mpr hlt), h1, List.take_of_length_le (by omega)]
    · rw [if_neg (fun e => hlt (h2.mp e)), ih _ h4 (by rw [h3, List.length_drop]; omega), h1, h3]
      simp

/-- What the reader at a position of a tree has yet to yield. -/
theorem Tree.readerAtPosition_remaining {tree : Tree} {S : List Rune} (h : tree.Holds S)
    (p : Nat) (direction : ReadDirection) :
    (tree.ReaderAtPosition p direction).offset ≤
        (tree.ReaderAtPosition p direction).tree.String.length ∧
      (tree.ReaderAtPosition p ReadDirection.ReadDirectionForward).remaining =
        encodeRunes (S.drop p) ∧
      (tree.ReaderAtPosition p ReadDirection.ReadDirectionBackward).remaining =
        (encodeRunes (S.take p)).reverse := by
  have hoff := Node.byteOffsetForPosition_rep tree.root S p h.rep
  have hstr : tree.String = encodeRunes (S.take p) ++ encodeRunes (S.drop p) := by
    rw [h.string_eq, ← encodeRunes_append, List.take_append_drop]
  simp only [Tree.ReaderAtPosition, TreeReader.remaining, hoff]
  rw [hstr]
  refine ⟨by simp, by simp, by simp⟩

/-- The codepoints read from a position to the end of the stream, in either direction. -/
theorem Tree.readRunes_eq {tree : Tree} {S : List Rune} (h : tree.Holds S) (p bufSize : Nat)
    (hb : 0 < bufSize) :
    tree.readRunes p ReadDirection.ReadDirectionForward bufSize (tree.String.length + 1) =
        some (S.drop p) ∧
      tree.readRunes p ReadDirection.ReadDirectionBackward bufSize (tree.String.length + 1) =
        some (S.take p).reverse := by
  have hvd : ∀ r ∈ S.drop p, validRune r = true :=
    fun r hr => h.runes_valid r (List.mem_of_mem_drop hr)
  have hvt : ∀ r ∈ S.take p, validRune r = true :=
    fun r hr => h.runes_valid r (List.mem_of_mem_take hr)
  have hstr : tree.String = encodeRunes (S.take p) ++ encodeRunes (S.drop p) := by
    rw [h.string_eq, ← encodeRunes_append, List.take_append_drop]
  constructor
  · obtain ⟨h1, h2, -⟩ := Tree.readerAtPosition_remaining h p ReadDirection.ReadDirectionForward
    have h3 := TreeReader.readAll_eq bufSize hb (tree.String.length + 1) _ h1
      (by rw [h2, hstr, List.length_append]; omega)
    rw [Tree.readRunes, h3, h2]
    exact decodeUtf8_encodeRunes _ hvd
  · obtain ⟨h1, -, h2⟩ := Tree.readerAtPosition_remaining h p ReadDirection.ReadDirectionBackward
    have h3 := TreeReader.readAll_eq bufSize hb (tree.String.length + 1) _ h1
      (by rw [h2, hstr, List.length_append, List.length_reverse]; omega)
    rw [Tree.readRunes, h3, h2]
    simp only [decodeStream, List.reverse_reverse]
    rw [decodeUtf8_encodeRunes _ hvt]
    rfl

end text

/-! ### The lookahead for GB11 -/

namespace segment

theorem endsExtPictExtend_replicate (k : Nat) :
    endsExtPictExtend (List.replicate k gbProp.Extend) = false := by
  induction k with
  | zero => rfl
  | succ k ih => rw [List.replicate_succ, endsExtPictExtend, if_pos rfl, ih]

theorem endsExtPictExtend_replicate_append (k : Nat) (ps : List gbProp) :
    endsExtPictExtend (List.replicate k gbProp.Extend ++ ps) = endsExtPictExtend ps := by
  induction k with
  | zero => rfl
  | succ k ih => rw [List.replicate_succ, List.cons_append, endsExtPictExtend, if_pos rfl, ih]

theorem endsExtPictExtend_replicate_cons (k : Nat) (p : gbProp) (rest : List gbProp)
    (h1 : p ≠ gbProp.Extend) (h2 : p ≠ gbProp.Extended_Pictographic) :
    endsExtPictExtend (List.replicate k gbProp.Extend ++ p :: rest) = false := by
  rw [endsExtPictExtend_replicate_append, endsExtPictExtend, if_neg h1]
  simp [h2]

/-- The function `endsExtPictExtend` holds of the classes of the runes that the reverse
iterator still holds exactly when they begin with zero or more Extend followed by an
Extended_Pictographic. -/
theorem endsExtPictExtend_prefix_iff (ps : List gbProp) :
    endsExtPictExtend ps = true ↔
      ∃ k rest, ps = List.replicate k gbProp.Extend ++ gbProp.Extended_Pictographic :: rest := by
  constructor
  · intro h
    induction ps with
    | nil => exact absurd h (by decide)
    | cons p ps ih =>
      rw [endsExtPictExtend] at h
      by_cases hp : p = gbProp.Extend
      · rw [if_pos hp] at h
        obtain ⟨k, rest, hk⟩ := ih h
        exact ⟨k + 1, rest, by rw [hp, hk, List.replicate_succ, List.cons_append]⟩
      · rw [if_neg hp] at h
        have hx : p = gbProp.Extended_Pictographic := by simpa using h
        exact ⟨0, ps, by rw [hx]; rfl⟩
  · rintro ⟨k, rest, rfl⟩
    rw [endsExtPictExtend_replicate_append, endsExtPictExtend, if_neg (by decide)]
    simp

end segment

/-! ### The loops of the configuration -/

namespace config

/-- The loop of `stringSliceOrNil` keeps the strings of the slice, in order. -/
theorem stringSliceLoop_eq_filterMap (l : List Value) :
    stringSliceLoop l = l.filterMap Value.asString := by
  induction l with
  | nil => rfl
  | cons v rest ih =>
    cases v <;> simp [stringSliceLoop, Value.asString, ih]

end config

/-! ### Positions and states along the parse loops -/

namespace Parser

variable {σ : Type}

theorem isChain_append (state : σ) (xs ys : List (Computation σ)) :
    IsChain state (xs ++ ys) ↔ IsChain state xs ∧ IsChain (lastState state xs) ys := by
  induction xs generalizing state with
  | nil => simp [IsChain, lastState]
  | cons c cs ih =>
    have e1 : IsChain state ((c :: cs) ++ ys) ↔
        c.StartState = state ∧ IsChain c.EndState (cs ++ ys) := Iff.rfl
    have e2 : IsChain state (c :: cs) ↔ c.StartState = state ∧ IsChain c.EndState cs := Iff.rfl
    have e3 : lastState state (c :: cs) = lastState c.EndState cs := rfl
    rw [e1, e2, e3, ih, and_assoc]

/-- The entry state of a computation is that of its first leaf. -/
theorem startState_head_leaves (c : Computation σ) :
    ∃ l rest, c.leaves = l :: rest ∧ l.StartState = c.StartState := by
  induction c with
  | leaf rl cl ss es toks => exact ⟨_, [], rfl, rfl⟩
  | node l r ihl _ =>
    obtain ⟨l0, rest, h1, h2⟩ := ihl
    exact ⟨l0, rest ++ r.leaves, by simp [Computation.leaves, h1], h2⟩

/-- Consecutive leaves of a chain are a chain from the entry state of the first of them. -/
theorem isChain_leaves_of_infix (s0 : σ) (pre post : List (Computation σ))
    (sub : Computation σ) (h : IsChain s0 (pre ++ sub.leaves ++ post)) :
    IsChain sub.StartState sub.leaves := by
  rw [List.append_assoc, isChain_append, isChain_append] at h
  obtain ⟨l, rest, h1, h2⟩ := startState_head_leaves sub
  have h3 := h.2.1
  rw [h1] at h3 ⊢
  have h4 : l.StartState = lastState s0 pre := h3.1
  rw [← h2, h4]
  exact h3

/-- A run of a parse function is a chain. -/
theorem isRun_isChain (g : Func σ) (t : List Rune) (state : σ) (cs : List (Computation σ))
    (h : IsRun g t state cs) : IsChain state cs := by
  induction cs generalizing t state with
  | nil => trivial
  | cons c cs ih =>
    refine ⟨?_, ih _ _ h.2.2⟩
    rw [h.2.1]
    rfl

/-- Behind the recovery wrapper every computation of a run consumes a codepoint. -/
theorem isRun_consumed_pos (f : Func σ) (t : List Rune) (state : σ)
    (cs : List (Computation σ)) (h : IsRun f.recoverFromFailure t state cs) :
    ∀ c ∈ cs, 0 < c.ConsumedLength := by
  induction cs generalizing t state with
  | nil => simp
  | cons c cs ih =>
    intro x hx
    rcases List.mem_cons.mp hx with rfl | hx
    · rw [h.2.1]
      exact leafOn_recover_consumed_pos f t state
    · exact ih _ _ h.2.2 x hx

/-- Each computation of a run is the leaf of the parse function started where the
computations before it stopped consuming, which is a position of the input, in the state
in which they ended. -/
theorem isRun_getElem (g : Func σ) (cs : List (Computation σ)) :
    ∀ (t : List Rune) (state : σ) (i : Nat) (l : Computation σ), IsRun g t state cs →
      cs[i]? = some l →
      l = g.leafOn (t.drop (sumConsumed (cs.take i))) (lastState state (cs.take i)) ∧
        sumConsumed (cs.take i) < t.length := by
  induction cs with
  | nil => intro t state i l _ h; simp at h
  | cons c cs ih =>
    intro t state i l h hl
    cases i with
    | zero =>
      simp only [List.getElem?_cons_zero, Option.some.injEq] at hl
      subst hl
      refine ⟨by simpa [sumConsumed, lastState] using h.2.1, ?_⟩
      simp only [List.take_zero, sumConsumed_nil]
      exact List.length_pos.mpr h.1
    | succ i =>
      simp only [List.getElem?_cons_succ] at hl
      obtain ⟨h1, h2⟩ := ih _ _ i l h.2.2 hl
      refine ⟨?_, ?_⟩
      · rw [h1, List.take_succ_cons, sumConsumed_cons, lastState, List.drop_drop]
      · rw [List.take_succ_cons, sumConsumed_cons]
        rw [List.length_drop] at h2
        omega

/-- The leaves of computations appended one after the other. -/
theorem leaves_foldl_append_flatMap (cs : List (Computation σ)) (acc : Option (Computation σ)) :
    Computation.Leaves (cs.foldl Computation.Append acc) =
      Computation.Leaves acc ++ cs.flatMap Computation.leaves := by
  induction cs generalizing acc with
  | nil => simp
  | cons c cs ih =>
    rw [List.foldl_cons, ih, leaves_append, List.flatMap_cons, List.append_assoc]

/-- A computation whose leaves all consume a codepoint consumes one. -/
theorem consumed_pos_of_leaves (c : Computation σ) (h : ∀ l ∈ c.leaves, 0 < l.ConsumedLength) :
    0 < c.ConsumedLength := by
  obtain ⟨l, rest, h1, -⟩ := startState_head_leaves c
  have h2 := h l (by rw [h1]; exact List.mem_cons_self _ _)
  rw [← sumConsumed_leaves, h1, sumConsumed_cons]
  omega

/-- What `findReusableComputation` returns is made of consecutive leaves of the previous
computation and has the entry state asked for. -/
theorem findReusable_infix [DecidableEq σ] (p : P σ) (pos : Nat) (edit : Edit) (state : σ)
    (sub : Computation σ) (h : p.findReusableComputation pos edit state = some sub) :
    ∃ pre post, Computation.Leaves p.prevComputation = pre ++ sub.leaves ++ post ∧
      sub.StartState = state := by
  cases hprevc : p.prevComputation with
  | none =>
    simp [P.findReusableComputation, hprevc, Computation.LargestMatchingSubComputation] at h
  | some c =>
    simp only [P.findReusableComputation, hprevc, Computation.LargestMatchingSubComputation] at h
    simp only [Computation.Leaves]
    split at h
    · obtain ⟨pre, post, h1, -, -, h4⟩ := largestSub_infix c 0 _ _ state sub h
      exact ⟨pre, post, h1, h4⟩
    · split at h
      · obtain ⟨pre, post, h1, -, -, h4⟩ := largestSub_infix c 0 _ _ state sub h
        exact ⟨pre, post, h1, h4⟩
      · split at h
        · obtain ⟨pre, post, h1, -, -, h4⟩ := largestSub_infix c 0 _ _ state sub h
          exact ⟨pre, post, h1, h4⟩
        · cases h

/-- The loop of `ReparseAfterEdit`, for a parse function behind the recovery wrapper and a
cache whose leaves follow one another by their states and each consume a codepoint: the
loop ends within its fuel, appends the computations of its iterations in order, each of
them consumes a codepoint, and their leaves are such a chain again. -/
theorem reparseSteps_spec [DecidableEq σ] (f : Func σ) (p : P σ)
    (hp : p.parseFunc = f.recoverFromFailure) (s0 : σ)
    (hchain : IsChain s0 (Computation.Leaves p.prevComputation))
    (hcons : ∀ l ∈ Computation.Leaves p.prevComputation, 0 < l.ConsumedLength)
    (tree : Doc) (edit : Edit) (fuel : Nat) :
    ∀ (pos : Nat) (state : σ) (acc : Option (Computation σ)), tree.length - pos ≤ fuel →
      ∃ steps, p.reparseSteps tree edit fuel pos state = some steps ∧
        p.reparseLoop tree edit fuel pos state acc = some (steps.foldl Computation.Append acc) ∧
        steps.length ≤ tree.length - pos ∧
        (∀ c ∈ steps, 0 < c.ConsumedLength) ∧
        IsChain state (steps.flatMap Computation.leaves) ∧
        (∀ l ∈ steps.flatMap Computation.leaves, 0 < l.ConsumedLength) := by
  induction fuel with
  | zero =>
    intro pos state acc hfuel
    refine ⟨[], ?_, ?_, by simp, by simp, trivial, by simp⟩
    · unfold P.reparseSteps
      rw [if_neg (by omega)]
    · unfold P.reparseLoop
      rw [if_neg (by omega)]
      rfl
  | succ k ih =>
    intro pos state acc hfuel
    by_cases hlt : pos < tree.length
    · generalize hnext : (match p.findReusableComputation pos edit state with
        | some reused => reused
        | none => p.runParseFunc tree pos state) = next
      have hprops : IsChain state next.leaves ∧ ∀ l ∈ next.leaves, 0 < l.ConsumedLength := by
        cases hfind : p.findReusableComputation pos edit state with
        | some reused =>
          rw [hfind] at hnext
          subst hnext
          obtain ⟨pre, post, h1, h2⟩ := findReusable_infix p pos edit state _ hfind
          refine ⟨?_, ?_⟩
          · rw [h1] at hchain
            rw [← h2]
            exact isChain_leaves_of_infix s0 pre post _ hchain
          · intro l hl
            apply hcons
            rw [h1]
            simp [hl]
        | none =>
          rw [hfind] at hnext
          subst hnext
          rw [runParseFunc_eq_leafOn, hp, leafOn_leaves]
          refine ⟨⟨rfl, trivial⟩, ?_⟩
          intro l hl
          rw [List.mem_singleton] at hl
          rw [hl]
          exact leafOn_recover_consumed_pos f _ _
      have hcl : 0 < next.ConsumedLength := consumed_pos_of_leaves next hprops.2
      obtain ⟨steps, h1, h2, h3, h4, h5, h6⟩ := ih (pos + next.ConsumedLength) next.EndState
        (Computation.Append acc next) (by omega)
      refine ⟨next :: steps, ?_, ?_, ?_, ?_, ?_, ?_⟩
      · unfold P.reparseSteps
        rw [if_pos hlt]
        simp only [hnext, h1, Option.map_some']
      · unfold P.reparseLoop
        rw [if_pos hlt]
        simp only [hnext, h2, List.foldl_cons]
      · simp only [List.length_cons]
        omega
      · intro c hc
        rcases List.mem_cons.mp hc with rfl | hc
        · exact hcl
        · exact h4 c hc
      · rw [List.flatMap_cons, isChain_append, lastState_leaves]
        exact ⟨hprops.1, h5⟩
      · intro l hl
        rw [List.flatMap_cons, List.mem_append] at hl
        rcases hl with hl | hl
        · exact hprops.2 l hl
        · exact h6 l hl
    · refine ⟨[], ?_, ?_, by simp, by simp, trivial, by simp⟩
      · unfold P.reparseSteps
        rw [if_neg hlt]
      · unfold P.reparseLoop
        rw [if_neg hlt]
        rfl

/-- One call of `ReparseAfterEdit`, on any document and for any edit, by a parser whose cache
is a chain of leaves that each consume a codepoint: the loop ends within one iteration per
codepoint and the cache after the call is such a chain again, from `EmptyState`. -/
theorem reparseAfterEdit_steps [DecidableEq σ] [ParseState σ] (f : Func σ) (p : P σ)
    (hp : p.parseFunc = f.recoverFromFailure) (s0 : σ)
    (hchain : IsChain s0 (Computation.Leaves p.prevComputation))
    (hcons : ∀ l ∈ Computation.Leaves p.prevComputation, 0 < l.ConsumedLength)
    (tree : Doc) (edit : Edit) :
    ∃ steps, p.reparseSteps tree edit tree.length 0 ParseState.EmptyState = some steps ∧
      p.ReparseAfterEdit tree edit =
        some (steps.foldl Computation.Append none,
          { p with prevComputation := steps.foldl Computation.Append none }) ∧
      steps.length ≤ tree.length ∧
      (∀ c ∈ steps, 0 < c.ConsumedLength) ∧
      IsChain ParseState.EmptyState
        (Computation.Leaves (steps.foldl Computation.Append none)) ∧
      (∀ l ∈ Computation.Leaves (steps.foldl Computation.Append none),
        0 < l.ConsumedLength) := by
  obtain ⟨steps, h1, h2, h3, h4, h5, h6⟩ := reparseSteps_spec f p hp s0 hchain hcons tree edit
    tree.length 0 ParseState.EmptyState none (by omega)
  have hl : Computation.Leaves (steps.foldl Computation.Append none) =
      steps.flatMap Computation.leaves := by
    rw [leaves_foldl_append_flatMap]
    rfl
  refine ⟨steps, h1, ?_, by omega, h4, by rw [hl]; exact h5, by rw [hl]; exact h6⟩
  simp [P.ReparseAfterEdit, h2]

/-- The loop of `ParseAll` yields at most one leaf for each unit of fuel. -/
theorem parseAllLoop_length (p : P σ) (tree : Doc) (fuel : Nat) :
    ∀ (pos : Nat) (state : σ) (ls : List (Computation σ)),
      p.parseAllLoop tree fuel pos state = some ls → ls.length ≤ fuel := by
  induction fuel with
  | zero =>
    intro pos state ls h
    unfold P.parseAllLoop at h
    split_ifs at h
    cases h
    exact Nat.le_refl 0
  | succ k ih =>
    intro pos state ls h
    unfold P.parseAllLoop at h
    split_ifs at h
    · simp only [Option.map_eq_some'] at h
      obtain ⟨ls2, h5, rfl⟩ := h
      have := ih _ _ _ h5
      simp only [List.length_cons]
      omega
    · cases h
      simp

/-- The call of `ParseAll` by a parser built by `New`: the loop ends within one iteration per
codepoint, and the leaves it yields are a run of the parse function, a chain from
`EmptyState`, and each of them consumes a codepoint. -/
theorem parseAll_chain [ParseState σ] (f : Func σ) (tree : Doc) :
    ∃ leaves, (New f).parseAllLoop tree tree.length 0 ParseState.EmptyState = some leaves ∧
      (New f).ParseAll tree =
        some (ConcatLeafComputations leaves,
          { New f with prevComputation := ConcatLeafComputations leaves }) ∧
      Computation.Leaves (ConcatLeafComputations leaves) = leaves ∧
      IsRun f.recoverFromFailure tree ParseState.EmptyState leaves ∧
      IsChain ParseState.EmptyState leaves ∧
      (∀ l ∈ leaves, 0 < l.ConsumedLength) ∧
      leaves.length ≤ tree.length := by
  obtain ⟨cs, h1, h2, -⟩ := parseAllLoop_spec f (New f) rfl tree tree.length 0
    ParseState.EmptyState (by omega)
  have hl : Computation.Leaves (ConcatLeafComputations cs) = cs := by
    unfold ConcatLeafComputations
    rw [leaves_foldl_append cs none (isRun_mem_leaf _ _ _ _ h2)]
    rfl
  simp only [List.drop_zero] at h2
  exact ⟨cs, h1, by simp [P.ParseAll, h1], hl, h2, isRun_isChain _ _ _ _ h2,
    isRun_consumed_pos f _ _ _ h2, parseAllLoop_length _ _ _ _ _ _ h1⟩

/-- A session of edits, whatever the edits are, keeps the cache a chain of leaves that each
consume a codepoint, and every call of it ends. -/
theorem reparseEdits_chain [DecidableEq σ] [ParseState σ] (f : Func σ)
    (edits : List (Edit × List Rune)) :
    ∀ (tree : Doc) (c : Option (Computation σ)) (p : P σ),
      p.parseFunc = f.recoverFromFailure → p.prevComputation = c →
      IsChain ParseState.EmptyState (Computation.Leaves c) →
      (∀ l ∈ Computation.Leaves c, 0 < l.ConsumedLength) →
      ∃ c' p', reparseEdits edits (c, p, tree) = some (c', p', finalDoc tree edits) ∧
        p'.parseFunc = f.recoverFromFailure ∧ p'.prevComputation = c' ∧
        IsChain ParseState.EmptyState (Computation.Leaves c') ∧
        (∀ l ∈ Computation.Leaves c', 0 < l.ConsumedLength) := by
  induction edits with
  | nil =>
    intro tree c p hp hpc hchain hcons
    exact ⟨c, p, rfl, hp, hpc, hchain, hcons⟩
  | cons e rest ih =>
    intro tree c p hp hpc hchain hcons
    obtain ⟨edit, inserted⟩ := e
    obtain ⟨steps, -, h2, -, -, h5, h6⟩ := reparseAfterEdit_steps f p hp ParseState.EmptyState
      (by rw [hpc]; exact hchain) (by rw [hpc]; exact hcons) (edit.applyTo inserted tree) edit
    obtain ⟨c', p', h7, h8⟩ := ih (edit.applyTo inserted tree) _
      { p with prevComputation := steps.foldl Computation.Append none } hp rfl h5 h6
    exact ⟨c', p', by simp only [reparseEdits, h2, finalDoc]; exact h7, h8⟩

/-- A session of a new parser: `ParseAll`, then any edits. -/
theorem parseThenReparse_chain [DecidableEq σ] [ParseState σ] (f : Func σ) (tree : Doc)
    (edits : List (Edit × List Rune)) :
    ∃ c p, parseThenReparse f tree edits = some (c, p, finalDoc tree edits) ∧
      p.parseFunc = f.recoverFromFailure ∧ p.prevComputation = c ∧
      IsChain ParseState.EmptyState (Computation.Leaves c) ∧
      (∀ l ∈ Computation.Leaves c, 0 < l.ConsumedLength) := by
  obtain ⟨leaves, -, h1, hl, -, h3, h4, -⟩ := parseAll_chain f tree
  obtain ⟨c, p, h5, h6⟩ := reparseEdits_chain f edits tree (ConcatLeafComputations leaves)
    { New f with prevComputation := ConcatLeafComputations leaves } rfl rfl
    (by rw [hl]; exact h3) (by rw [hl]; exact h4)
  exact ⟨c, p, by simp only [parseThenReparse, h1]; exact h5, h6⟩

/-- In a chain, the first computation has the entry state of the chain and each next one the
end state of the one before. -/
theorem isChain_getElem (cs : List (Computation σ)) :
    ∀ (state : σ), IsChain state cs →
      (∀ l, cs[0]? = some l → l.StartState = state) ∧
      ∀ i l l', cs[i]? = some l → cs[i + 1]? = some l' → l'.StartState = l.EndState := by
  induction cs with
  | nil => intro state _; simp
  | cons c cs ih =>
    intro state h
    obtain ⟨h1, h2⟩ := ih c.EndState h.2
    refine ⟨?_, ?_⟩
    · intro l hl
      simp only [List.getElem?_cons_zero, Option.some.injEq] at hl
      rw [← hl]
      exact h.1
    · intro i l l' hl hl'
      cases i with
      | zero =>
        simp only [List.getElem?_cons_zero, Option.some.injEq] at hl
        simp only [List.getElem?_cons_succ] at hl'
        rw [← hl]
        exact h1 l' hl'
      | succ i =>
        simp only [List.getElem?_cons_succ] at hl hl'
        exact h2 i l l' hl hl'

end Parser

/-! ### The parse loops in 64-bit arithmetic -/

namespace Parser

variable {σ : Type}

/-- A run of the loop of `ParseAll` in which no position wraps around is a run of the loop in
64-bit arithmetic. -/
theorem parseAllLoopUint64_eq (p : P σ) (tree : Doc) (fuel : Nat) :
    ∀ (pos : Nat) (state : σ) (leaves : List (Computation σ)),
      p.parseAllLoop tree fuel pos state = some leaves →
      pos + sumConsumed leaves ≤ MaxUint64 →
      p.parseAllLoopUint64 tree fuel pos state = some leaves := by
  induction fuel with
  | zero =>
    intro pos state leaves h _
    unfold P.parseAllLoop at h
    unfold P.parseAllLoopUint64
    by_cases hlt : pos < tree.length
    · rw [if_pos hlt] at h
      cases h
    · rw [if_neg hlt] at h ⊢
      exact h
  | succ k ih =>
    intro pos state leaves h hb
    unfold P.parseAllLoop at h
    unfold P.parseAllLoopUint64
    by_cases hlt : pos < tree.length
    · rw [if_pos hlt] at h ⊢
      simp only [Option.map_eq_some'] at h
      obtain ⟨rest, h1, rfl⟩ := h
      rw [sumConsumed_cons] at hb
      have hmod : (pos + (p.runParseFunc tree pos state).ConsumedLength) % (MaxUint64 + 1) =
          pos + (p.runParseFunc tree pos state).ConsumedLength := Nat.mod_eq_of_lt (by omega)
      simp only [hmod, ih _ _ _ h1 (by omega), Option.map_some']
    · rw [if_neg hlt] at h ⊢
      exact h

/-- A run of the loop of `ReparseAfterEdit` in which no position wraps around is a run of the
loop in 64-bit arithmetic. -/
theorem reparseStepsUint64_eq [DecidableEq σ] (p : P σ) (tree : Doc) (edit : Edit)
    (fuel : Nat) :
    ∀ (pos : Nat) (state : σ) (steps : List (Computation σ)),
      p.reparseSteps tree edit fuel pos state = some steps →
      pos + sumConsumed steps ≤ MaxUint64 →
      p.reparseStepsUint64 tree edit fuel pos state = some steps := by
  induction fuel with
  | zero =>
    intro pos state steps h _
    unfold P.reparseSteps at h
    unfold P.reparseStepsUint64
    by_cases hlt : pos < tree.length
    · rw [if_pos hlt] at h
      cases h
    · rw [if_neg hlt] at h ⊢
      exact h
  | succ k ih =>
    intro pos state steps h hb
    unfold P.reparseSteps at h
    unfold P.reparseStepsUint64
    by_cases hlt : pos < tree.length
    · rw [if_pos hlt] at h ⊢
      generalize hnext : (match p.findReusableComputation pos edit state with
        | some reused => reused
        | none => p.runParseFunc tree pos state) = next at h ⊢
      simp only [Option.map_eq_some'] at h
      obtain ⟨rest, h1, rfl⟩ := h
      rw [sumConsumed_cons] at hb
      have hmod : (pos + next.ConsumedLength) % (MaxUint64 + 1) = pos + next.ConsumedLength :=
        Nat.mod_eq_of_lt (by omega)
      simp only [hmod, ih _ _ _ h1 (by omega), Option.map_some']
    · rw [if_neg hlt] at h ⊢
      exact h

/-- The parser of `wrapFunc` on the document 10, 20, in 64-bit arithmetic: from the position
0 and from the position 1 the loop of `ParseAll` is still running when the fuel is spent,
whatever the fuel. -/
theorem parseAllLoopUint64_wrapFunc (fuel : Nat) :
    (New wrapFunc).parseAllLoopUint64 [10, 20] fuel 0 ExampleState.Empty = none ∧
      (New wrapFunc).parseAllLoopUint64 [10, 20] fuel 1 ExampleState.Empty = none := by
  have s0 : ∀ k, (New wrapFunc).parseAllLoopUint64 [10, 20] (k + 1) 0 ExampleState.Empty =
      ((New wrapFunc).parseAllLoopUint64 [10, 20] k 1 ExampleState.Empty).map
        (Computation.leaf 1 1 ExampleState.Empty ExampleState.Empty [] :: ·) := fun _ => rfl
  have s1 : ∀ k, (New wrapFunc).parseAllLoopUint64 [10, 20] (k + 1) 1 ExampleState.Empty =
      ((New wrapFunc).parseAllLoopUint64 [10, 20] k 0 ExampleState.Empty).map
        (Computation.leaf 1 MaxUint64 ExampleState.Empty ExampleState.Empty [] :: ·) :=
    fun _ => rfl
  induction fuel with
  | zero => exact ⟨rfl, rfl⟩
  | succ k ih =>
    rw [s0, s1, ih.1, ih.2]
    exact ⟨rfl, rfl⟩

end Parser

/-! ### The cursor after a mutation -/

namespace exec

open text

/-- The state after `insertRuneMutator.Mutate` with a Unicode scalar value. -/
theorem insertRuneMutator_mutate_valid (maxBytesPerLeaf : Nat) (state : State) (S : List Rune)
    (r : Rune) (h : state.tree.Holds S) (hr : validRune r = true) :
    ((insertRuneMutator.mk r).Mutate maxBytesPerLeaf state).tree.Holds
        (S.take state.cursor.position ++ r :: S.drop state.cursor.position) ∧
      ((insertRuneMutator.mk r).Mutate maxBytesPerLeaf state).cursor.position =
        state.cursor.position + 1 := by
  obtain ⟨herr, hh⟩ :=
    Tree.insertAtPosition_holds maxBytesPerLeaf h state.cursor.position r hr
  have hm : (insertRuneMutator.mk r).Mutate maxBytesPerLeaf state =
      { state with
        tree := (state.tree.InsertAtPosition maxBytesPerLeaf state.cursor.position r).1
        cursor := { state.cursor with position := state.cursor.position + 1 } } := by
    unfold insertRuneMutator.Mutate
    simp only
    cases hres : state.tree.InsertAtPosition maxBytesPerLeaf state.cursor.position r with
    | mk tree err =>
      rw [hres] at herr
      simp only at herr
      subst herr
      rfl
  rw [hm]
  exact ⟨hh, rfl⟩

/-- The state after `insertRuneMutator.Mutate` with a value that is not a Unicode scalar
value. -/
theorem insertRuneMutator_mutate_invalid (maxBytesPerLeaf : Nat) (state : State) (r : Rune)
    (hr : validRune r = false) : (insertRuneMutator.mk r).Mutate maxBytesPerLeaf state = state := by
  obtain ⟨-, hres⟩ :=
    Tree.insertAtPosition_error_iff maxBytesPerLeaf state.tree state.cursor.position r
  unfold insertRuneMutator.Mutate
  simp only [hres hr]

/-- The state after `deleteMutator.Mutate`. -/
theorem deleteMutator_mutate_holds (maxBytesPerLeaf : Nat) (dm : deleteMutator) (state : State)
    (S : List Rune) (h : state.tree.Holds S) :
    (dm.Mutate maxBytesPerLeaf state).tree.Holds
        (S.take (min state.cursor.position (dm.loc state).position) ++
          S.drop (max state.cursor.position (dm.loc state).position)) ∧
      (dm.Mutate maxBytesPerLeaf state).cursor.position =
        min state.cursor.position (dm.loc state).position := by
  unfold deleteMutator.Mutate
  simp only
  split_ifs with h1 h2
  · rw [Nat.min_eq_left (by omega), Nat.max_eq_right (by omega)]
    refine ⟨?_, rfl⟩
    have hd := deleteCharacters_holds maxBytesPerLeaf state.cursor.position
      ((dm.loc state).position - state.cursor.position) state.tree S h
    rw [Nat.add_sub_cancel' (by omega)] at hd
    exact hd
  · rw [Nat.min_eq_right (by omega), Nat.max_eq_left (by omega)]
    refine ⟨?_, rfl⟩
    have hd := deleteCharacters_holds maxBytesPerLeaf (dm.loc state).position
      (state.cursor.position - (dm.loc state).position) state.tree S h
    rw [Nat.add_sub_cancel' (by omega)] at hd
    exact hd
  · have e : state.cursor.position = (dm.loc state).position := by omega
    rw [← e, Nat.min_self, Nat.max_self, List.take_append_drop]
    exact ⟨h, rfl⟩

/-- The loop of the composite mutator is a left fold. -/
theorem mutateLoop_eq_foldl (ms : List Mutator) :
    ∀ state : State, CompositeMutator.mutateLoop ms state = ms.foldl (fun s subMutator => subMutator s) state := by
  induction ms with
  | nil => intro state; rfl
  | cons m ms ih =>
    intro state
    rw [CompositeMutator.mutateLoop, List.foldl_cons, ih]

end exec

/-! ### Claims about the incremental parser -/

namespace Parser

variable {σ : Type}

/-- The example parse function `perRuneFunc` reads what it consumes. -/
theorem perRuneFunc_readsWhatItConsumes : perRuneFunc.ReadsWhatItConsumes := by
  constructor
  · intro state seen res h
    cases seen with
    | nil => simp [perRuneFunc] at h
    | cons r rs =>
      simp only [perRuneFunc, Option.some.injEq] at h
      subst h
      simp
  · intro state seen
    simp [perRuneFunc, FailedResult]

/-- C1 (amended). For every parse function that reads what it consumes, every document and
every sequence of edits each of which is a deletion or an insertion before the end of the
document, `ParseAll` on the initial document followed by `ReparseAfterEdit` once per edit
returns a computation, and its token list equals the token list of `ParseAll` run from
scratch on the final document. -/
theorem reparse_tokens_eq_parseAll [DecidableEq σ] [ParseState σ] (f : Func σ)
    (hf : f.ReadsWhatItConsumes) (tree : Doc) (edits : List (Edit × List Rune))
    (hv : ValidEdits tree edits) :
    ∃ c p c0 p0, parseThenReparse f tree edits = some (c, p, finalDoc tree edits) ∧
      (New f).ParseAll (finalDoc tree edits) = some (c0, p0) ∧
      Computation.Tokens c = Computation.Tokens c0 := by
  obtain ⟨c1, h1, h2, h3⟩ := parseAll_spec f tree
  obtain ⟨c, p, h4, h5, h6⟩ := reparseEdits_spec f hf edits tree hv c1
    { New f with prevComputation := c1 } rfl rfl h2 h3
  obtain ⟨c0, h7, h8, h9⟩ := parseAll_spec f (finalDoc tree edits)
  refine ⟨c, p, c0, _, by simp only [parseThenReparse, h1]; exact h4, h7, ?_⟩
  rw [tokens_eq_leavesTokens, tokens_eq_leavesTokens, isRun_unique _ _ _ _ _ h5 h6 h8 h9]

/-- Witness for C1: an insertion in the middle, a deletion at the start, a deletion at the end. -/
theorem reparse_tokens_eq_parseAll_witness :
    ValidEdits [10, 20, 30] [(⟨1, 2, 0⟩, [5, 6]), (⟨0, 0, 1⟩, []), (⟨3, 0, 1⟩, [])] ∧
      ∃ c p c0 p0,
        parseThenReparse perRuneFunc [10, 20, 30]
            [(⟨1, 2, 0⟩, [5, 6]), (⟨0, 0, 1⟩, []), (⟨3, 0, 1⟩, [])] =
          some (c, p, finalDoc [10, 20, 30] [(⟨1, 2, 0⟩, [5, 6]), (⟨0, 0, 1⟩, []), (⟨3, 0, 1⟩, [])]) ∧
        (New perRuneFunc).ParseAll
            (finalDoc [10, 20, 30] [(⟨1, 2, 0⟩, [5, 6]), (⟨0, 0, 1⟩, []), (⟨3, 0, 1⟩, [])]) =
          some (c0, p0) ∧
        Computation.Tokens c = Computation.Tokens c0 :=
  ⟨by simp [ValidEdits, Edit.ValidFor, Edit.applyTo],
    reparse_tokens_eq_parseAll perRuneFunc perRuneFunc_readsWhatItConsumes _ _
      (by simp [ValidEdits, Edit.ValidFor, Edit.applyTo])⟩

/-- C1 (counterexample). The claim as stated fails (1) for an edit that both inserts and
deletes, (2) for an insertion at the very end of a document whose last computation read up
to the end, (3) for a parse function that consumes a codepoint it has not read. -/
theorem reparse_tokens_ne_parseAll :
    ((parseThenReparse perRuneFunc [10, 20, 30] [(⟨0, 1, 2⟩, [99])]).map
        (fun r => Computation.Tokens r.1) ≠
      ((New perRuneFunc).ParseAll (finalDoc [10, 20, 30] [(⟨0, 1, 2⟩, [99])])).map
        (fun r => Computation.Tokens r.1)) ∧
    ((parseThenReparse restOfDocFunc [10, 20] [(⟨2, 1, 0⟩, [30])]).map
        (fun r => Computation.Tokens r.1) ≠
      ((New restOfDocFunc).ParseAll (finalDoc [10, 20] [(⟨2, 1, 0⟩, [30])])).map
        (fun r => Computation.Tokens r.1)) ∧
    ((parseThenReparse blindFunc [10, 20] [(⟨1, 0, 1⟩, [])]).map
        (fun r => Computation.Tokens r.1) ≠
      ((New blindFunc).ParseAll (finalDoc [10, 20] [(⟨1, 0, 1⟩, [])])).map
        (fun r => Computation.Tokens r.1)) := by
  refine ⟨?_, ?_, ?_⟩ <;> decide


/-- C2 (amended). For every edit that is a deletion, or an insertion at a position of the
previous document, every current position and entry state: a computation returned by
`findReusableComputation` has the entry state asked for, is a sub-computation of the previous
computation, and the codepoints of its `maxRead` window in the previous document are the
codepoints of the window `[cur, cur + maxRead)` of the current document. -/
theorem findReusable_window_unchanged [DecidableEq σ] (p : P σ) (tree : Doc) (edit : Edit)
    (inserted : List Rune) (hlen : inserted.length = edit.numInserted)
    (hkind : edit.numInserted = 0 ∨ (edit.numDeleted = 0 ∧ edit.pos ≤ tree.length))
    (cur : Nat) (state : σ) (sub : Computation σ)
    (h : p.findReusableComputation cur edit state = some sub) :
    sub.StartState = state ∧
      ∃ prev q, p.prevComputation = some prev ∧ prev.subAt 0 sub q = true ∧
        (tree.drop q).take sub.ReadLength =
          ((edit.applyTo inserted tree).drop cur).take sub.ReadLength := by
  cases hprevc : p.prevComputation with
  | none => simp [P.findReusableComputation, hprevc, Computation.LargestMatchingSubComputation] at h
  | some c =>
    simp only [P.findReusableComputation, hprevc, Computation.LargestMatchingSubComputation] at h
    split at h
    · rename_i h1
      obtain ⟨_, _, _, _, hb, hs⟩ := largestSub_infix c 0 _ _ state sub h
      refine ⟨hs, c, cur, rfl, largestSub_subAt c 0 _ _ state sub h, ?_⟩
      by_cases hin : edit.pos ≤ tree.length
      · exact (take_drop_eq_of_take_eq tree _ edit.pos cur _ hb
          (applyTo_take edit inserted tree hin)).symm
      · have h0 : edit.numInserted = 0 := by
          rcases hkind with h0 | ⟨_, h0⟩
          · exact h0
          · omega
        have hnil : inserted = [] := List.length_eq_zero.mp (by omega)
        subst hnil
        rw [applyTo_noop edit tree (by omega)]
    · split at h
      · rename_i h1 h2
        have h3 : edit.numDeleted = 0 ∧ edit.pos ≤ tree.length := by
          rcases hkind with h0 | h0
          · omega
          · exact h0
        obtain ⟨_, _, _, _, _, hs⟩ := largestSub_infix c 0 _ _ state sub h
        refine ⟨hs, c, _, rfl, largestSub_subAt c 0 _ _ state sub h, ?_⟩
        rw [applyTo_drop edit inserted tree h3.2 cur (by omega), h3.1, hlen]
        rfl
      · split at h
        · rename_i h1 h2 h3
          have h0 : edit.numInserted = 0 := by
            rcases hkind with h0 | h0
            · exact h0
            · omega
          have hnil : inserted = [] := List.length_eq_zero.mp (by omega)
          subst hnil
          obtain ⟨_, _, _, _, _, hs⟩ := largestSub_infix c 0 _ _ state sub h
          refine ⟨hs, c, _, rfl, largestSub_subAt c 0 _ _ state sub h, ?_⟩
          by_cases hin : edit.pos ≤ tree.length
          · rw [applyTo_drop edit [] tree hin cur (by simp; omega)]
            simp
          · rw [applyTo_noop edit tree (by omega), List.drop_eq_nil_of_le (by omega),
              List.drop_eq_nil_of_le (by omega)]
        · cases h

/-- Witness for C2: after the insertion of two codepoints at position 1 of `[10, 20]`, the
computation reused at position 3 is the one that stood at position 1. -/
theorem findReusable_window_unchanged_witness :
    perRuneParser.findReusableComputation 3 ⟨1, 2, 0⟩ ExampleState.Empty =
        some (perRuneLeaf 20) ∧
      ((perRuneLeaf 20).StartState = ExampleState.Empty ∧
        ∃ prev q, perRuneParser.prevComputation = some prev ∧
          prev.subAt 0 (perRuneLeaf 20) q = true ∧
          (([10, 20] : Doc).drop q).take (perRuneLeaf 20).ReadLength =
            (((⟨1, 2, 0⟩ : Edit).applyTo [5, 6] [10, 20]).drop 3).take
              (perRuneLeaf 20).ReadLength) :=
  ⟨by decide,
    findReusable_window_unchanged perRuneParser [10, 20] ⟨1, 2, 0⟩ [5, 6] rfl
      (Or.inr ⟨rfl, by decide⟩) 3 ExampleState.Empty _ (by decide)⟩

/-- C2 (counterexample). With the edit that deletes two codepoints at position 0 of
`[10, 20, 30]` and inserts one, `findReusableComputation` at position 0 returns the computation
that stood at position 2 of the previous document and looked at the codepoint 30 there,
while the current document `[99, 30]` has the codepoint 99 at position 0. -/
theorem findReusable_window_changed :
    ((New perRuneFunc).ParseAll [10, 20, 30]).map
        (fun r => (r.1, r.2.findReusableComputation 0 ⟨0, 1, 2⟩ ExampleState.Empty)) =
      some (some (.node (.node (perRuneLeaf 10) (perRuneLeaf 20)) (perRuneLeaf 30)),
        some (perRuneLeaf 30)) ∧
    (∀ q, (Computation.node (.node (perRuneLeaf 10) (perRuneLeaf 20)) (perRuneLeaf 30)).subAt 0
        (perRuneLeaf 30) q = true → q = 2) ∧
    (([10, 20, 30] : Doc).drop 2).take (perRuneLeaf 30).ReadLength ≠
      (((⟨0, 1, 2⟩ : Edit).applyTo [99] [10, 20, 30]).drop 0).take (perRuneLeaf 30).ReadLength := by
  refine ⟨by decide, ?_, by decide⟩
  intro q hq
  simp [Computation.subAt, perRuneLeaf, Computation.ConsumedLength] at hq
  omega

/-- C6 (amended). For every parse function that reads what it consumes and every
document, `ParseAll` returns a computation whose leaf computations, taken in order from
position 0, have consumed lengths that sum to `NumChars`; and so does `ReparseAfterEdit`
on the document after an edit that is an insertion or a deletion, when the cached
previous computation has that property for the document before the edit. -/
theorem leaves_cover_document [DecidableEq σ] [ParseState σ] (f : Func σ)
    (hf : f.ReadsWhatItConsumes) (tree : Doc) :
    (∃ c p, (New f).ParseAll tree = some (c, p) ∧ Computation.Covers c tree.length) ∧
      ∀ (p : P σ) (edit : Edit) (inserted : List Rune), p.parseFunc = f.recoverFromFailure →
        inserted.length = edit.numInserted → edit.IsPure →
        Computation.Covers p.prevComputation tree.length →
        ∃ c p', p.ReparseAfterEdit (edit.applyTo inserted tree) edit = some (c, p') ∧
          Computation.Covers c (edit.applyTo inserted tree).length := by
  constructor
  · obtain ⟨c, h1, h2, h3⟩ := parseAll_spec f tree
    obtain ⟨h4, h5⟩ := isRun_honest f hf _ _ _ h2
    exact ⟨c, _, h1, by omega, h5⟩
  · intro p edit inserted hp hlen hpure hcov
    obtain ⟨out, h1, h2⟩ := reparseLoop_covers f hf p hp tree edit inserted hlen hpure hcov
      (edit.applyTo inserted tree).length 0 ParseState.EmptyState none (by omega) (by omega)
      ⟨rfl, by simp [Computation.Leaves]⟩
    exact ⟨out, { p with prevComputation := out }, by simp [P.ReparseAfterEdit, h1], h2⟩

/-- The computation cached by the example parser covers the document `[10, 20]`. -/
theorem perRuneParser_covers : Computation.Covers perRuneParser.prevComputation 2 := by
  refine ⟨by decide, ?_⟩
  intro l hl
  simp only [perRuneParser, Computation.Leaves, Computation.leaves, perRuneLeaf,
    List.singleton_append, List.mem_cons, List.mem_singleton, List.not_mem_nil, or_false] at hl
  rcases hl with rfl | rfl <;> decide

/-- Witness for C6: the document `[10, 20]` and the insertion of `[5, 6]` at position 1. -/
theorem leaves_cover_document_witness :
    (∃ c p, (New perRuneFunc).ParseAll [10, 20] = some (c, p) ∧
        Computation.Covers c ([10, 20] : Doc).length) ∧
      ∃ c p', perRuneParser.ReparseAfterEdit ((⟨1, 2, 0⟩ : Edit).applyTo [5, 6] [10, 20]) ⟨1, 2, 0⟩ =
          some (c, p') ∧
        Computation.Covers c ((⟨1, 2, 0⟩ : Edit).applyTo [5, 6] [10, 20]).length :=
  ⟨(leaves_cover_document perRuneFunc perRuneFunc_readsWhatItConsumes [10, 20]).1,
    (leaves_cover_document perRuneFunc perRuneFunc_readsWhatItConsumes [10, 20]).2
      perRuneParser ⟨1, 2, 0⟩ [5, 6] rfl rfl (by decide) perRuneParser_covers⟩

/-- C6 (counterexample). (1) For a parse function that reports two codepoints consumed after
reading one, the single leaf of `ParseAll` on a document of one codepoint consumes two.
(2) After the edit that deletes two codepoints at position 0 of `[10, 20, 30]` and
inserts one, the leaves of `ReparseAfterEdit` consume four codepoints of a document of two. -/
theorem leaves_overshoot_document :
    (((New doubleFunc).ParseAll [10]).map (fun r => sumConsumed (Computation.Leaves r.1)) = some 2 ∧
        ([10] : Doc).length = 1) ∧
      ((parseThenReparse perRuneFunc [10, 20, 30] [(⟨0, 1, 2⟩, [99])]).map
          (fun r => (sumConsumed (Computation.Leaves r.1), r.2.2.length)) = some (4, 2)) := by
  decide

/-- C7. Where the parse function returns a failed result, the parser built by `New` records
a leaf computation that consumes exactly one codepoint, has no tokens and ends in the
state it was entered in; `ParseAll` appends that leaf and goes on one codepoint further.
The position is arbitrary: position 0 is included. -/
theorem runParseFunc_of_failure (f : Func σ) (tree : Doc) (pos : Nat) (state : σ) (fuel : Nat)
    (hfail : (f.call (NewTrackingRuneIter (tree.drop pos)) state).1.IsFailure = true) :
    ∃ readLength, (New f).runParseFunc tree pos state = .leaf readLength 1 state state [] ∧
      (pos < tree.length →
        (New f).parseAllLoop tree (fuel + 1) pos state =
          ((New f).parseAllLoop tree fuel (pos + 1) state).map
            (Computation.leaf readLength 1 state state [] :: ·)) := by
  have hleaf : (New f).runParseFunc tree pos state =
      .leaf (f.call (NewTrackingRuneIter (tree.drop pos)) state).2.MaxRead 1 state state [] := by
    rw [runParseFunc_eq_leafOn, leafOn_eq]
    simp only [New, callOn_recover]
    have hr : recoverResult state (f.callOn state (tree.drop pos) [] 0).1 =
        { NumConsumed := 1, ComputedTokens := [], NextState := state } := by
      unfold recoverResult
      exact if_pos hfail
    rw [hr]
    rfl
  refine ⟨_, hleaf, fun hlt => ?_⟩
  rw [P.parseAllLoop, if_pos hlt]
  dsimp only
  rw [hleaf]
  rfl

/-- Witness for C7: a failure at position 0. -/
theorem runParseFunc_of_failure_witness :
    (failingFunc.call (NewTrackingRuneIter (([10, 20] : Doc).drop 0)) ExampleState.Empty).1.IsFailure
        = true ∧
      ∃ readLength, (New failingFunc).runParseFunc [10, 20] 0 ExampleState.Empty =
          .leaf readLength 1 ExampleState.Empty ExampleState.Empty [] ∧
        (0 < ([10, 20] : Doc).length →
          (New failingFunc).parseAllLoop [10, 20] (1 + 1) 0 ExampleState.Empty =
            ((New failingFunc).parseAllLoop [10, 20] 1 (0 + 1) ExampleState.Empty).map
              (Computation.leaf readLength 1 ExampleState.Empty ExampleState.Empty [] :: ·)) :=
  ⟨by decide, runParseFunc_of_failure failingFunc [10, 20] 0 ExampleState.Empty 1 (by decide)⟩

/-- C8 (amended). Every computation built by `runParseFunc` of a parser built by `New` has
`consumedLength > 0`; when the parse function reads what it consumes and is started
before the end of the document, as `ParseAll` and `ReparseAfterEdit` start it, the
computation also has `consumedLength ≤ maxRead`. -/
theorem runParseFunc_invariant (f : Func σ) (tree : Doc) (pos : Nat) (state : σ) :
    0 < ((New f).runParseFunc tree pos state).ConsumedLength ∧
      (f.ReadsWhatItConsumes → pos < tree.length →
        ((New f).runParseFunc tree pos state).ConsumedLength ≤
          ((New f).runParseFunc tree pos state).ReadLength) := by
  rw [runParseFunc_eq_leafOn]
  refine ⟨leafOn_recover_consumed_pos f _ state, fun hf hlt => ?_⟩
  apply leafOn_recover_consumed_le_read f hf
  intro hnil
  have := congrArg List.length hnil
  simp only [List.length_drop, List.length_nil] at this
  omega

/-- Witness for C8. -/
theorem runParseFunc_invariant_witness :
    0 < ((New perRuneFunc).runParseFunc [10, 20] 1 ExampleState.Empty).ConsumedLength ∧
      ((New perRuneFunc).runParseFunc [10, 20] 1 ExampleState.Empty).ConsumedLength ≤
        ((New perRuneFunc).runParseFunc [10, 20] 1 ExampleState.Empty).ReadLength :=
  ⟨(runParseFunc_invariant perRuneFunc [10, 20] 1 ExampleState.Empty).1,
    (runParseFunc_invariant perRuneFunc [10, 20] 1 ExampleState.Empty).2
      perRuneFunc_readsWhatItConsumes (by decide)⟩

/-- C8 (counterexample). The computation built for a parse function that reports a codepoint
consumed without reading has `consumedLength = 1` and `maxRead = 0`. -/
theorem runParseFunc_consumed_gt_read :
    ¬ ((New blindFunc).runParseFunc [10] 0 ExampleState.Empty).ConsumedLength ≤
        ((New blindFunc).runParseFunc [10] 0 ExampleState.Empty).ReadLength := by
  decide


/-- C9 (amended). For every edit that deletes nothing and every current position inside
the inserted range (`edit.pos ≤ cur < edit.pos + numInserted`), `findReusableComputation`
returns no computation, and the iteration of `ReparseAfterEdit` at that position appends
the computation of `runParseFunc`. -/
theorem findReusable_none_in_inserted [DecidableEq σ] (p : P σ) (tree : Doc) (edit : Edit)
    (cur : Nat) (state : σ) (fuel : Nat) (c : Option (Computation σ))
    (hdel : edit.numDeleted = 0) (h1 : edit.pos ≤ cur) (h2 : cur < edit.pos + edit.numInserted) :
    p.findReusableComputation cur edit state = none ∧
      (cur < tree.length →
        p.reparseLoop tree edit (fuel + 1) cur state c =
          p.reparseLoop tree edit fuel (cur + (p.runParseFunc tree cur state).ConsumedLength)
            (p.runParseFunc tree cur state).EndState
            (Computation.Append c (p.runParseFunc tree cur state))) := by
  have hnone : p.findReusableComputation cur edit state = none := by
    unfold P.findReusableComputation
    rw [if_neg (by omega), if_neg (by omega), if_neg (by omega)]
  refine ⟨hnone, fun hlt => ?_⟩
  rw [P.reparseLoop, if_pos hlt]
  simp only [hnone]

/-- Witness for C9: position 2 after the insertion of two codepoints at position 1. -/
theorem findReusable_none_in_inserted_witness :
    ((⟨1, 2, 0⟩ : Edit).numDeleted = 0 ∧ (⟨1, 2, 0⟩ : Edit).pos ≤ 2 ∧
        2 < (⟨1, 2, 0⟩ : Edit).pos + (⟨1, 2, 0⟩ : Edit).numInserted) ∧
      (perRuneParser.findReusableComputation 2 ⟨1, 2, 0⟩ ExampleState.Empty = none ∧
        (2 < ([10, 5, 6, 20] : Doc).length →
          perRuneParser.reparseLoop [10, 5, 6, 20] ⟨1, 2, 0⟩ (0 + 1) 2 ExampleState.Empty none =
            perRuneParser.reparseLoop [10, 5, 6, 20] ⟨1, 2, 0⟩ 0
              (2 + (perRuneParser.runParseFunc [10, 5, 6, 20] 2 ExampleState.Empty).ConsumedLength)
              (perRuneParser.runParseFunc [10, 5, 6, 20] 2 ExampleState.Empty).EndState
              (Computation.Append none
                (perRuneParser.runParseFunc [10, 5, 6, 20] 2 ExampleState.Empty)))) :=
  ⟨by decide,
    findReusable_none_in_inserted perRuneParser [10, 5, 6, 20] ⟨1, 2, 0⟩ 2 ExampleState.Empty 0
      none rfl (by decide) (by decide)⟩

/-- C9 (counterexample). For the edit `{pos: 0, numInserted: 1, numDeleted: 1}` and the
current position 0, which lies in the inserted range, `findReusableComputation` returns the
computation that stood at position 1 of the previous document. -/
theorem findReusable_some_in_inserted :
    ((⟨0, 1, 1⟩ : Edit).pos ≤ 0 ∧ 0 < (⟨0, 1, 1⟩ : Edit).pos + (⟨0, 1, 1⟩ : Edit).numInserted) ∧
      perRuneParser.findReusableComputation 0 ⟨0, 1, 1⟩ ExampleState.Empty =
        some (perRuneLeaf 20) := by
  decide

end Parser

/-! ### Claims about the grapheme-cluster iterators -/

namespace segment

/-- C3. For every finite rune sequence `S`, calling `NextSegment` on the forward iterator
until it returns `io.EOF` yields segments that are all non-empty and whose concatenation,
in order, is `S`. -/
theorem forward_segments_partition (gbPropForRune : Rune → gbProp) (S : List Rune) :
    ∃ segs, (NewGraphemeClusterIter S).allSegments gbPropForRune (S.length + 1) = some segs ∧
      (∀ seg ∈ segs, 0 < seg.NumRunes) ∧ (segs.map Segment.runes).flatten = S := by
  refine ⟨_, forward_allSegments gbPropForRune S, ?_, ?_⟩
  · intro seg hseg
    obtain ⟨s, hs, rfl⟩ := List.mem_map.mp hseg
    exact List.length_pos.mpr ((splitForward_flatten gbPropForRune S [] []).2.1 s hs)
  · rw [map_runes_map_mk]
    simpa using (splitForward_flatten gbPropForRune S [] []).1

/-- C5. For every sequence of runes with classes `p_0 .. p_{n-1}`, the segments of the forward
iterator are the text cut where UAX #29 says break; so for every `i` with `1 ≤ i < n` the
iterator ends a segment between `i - 1` and `i` iff the rules GB3 to GB999 say break there. -/
theorem forward_breaks_iff_uax (gbPropForRune : Rune → gbProp) (S : List Rune) :
    ∃ segs, (NewGraphemeClusterIter S).allSegments gbPropForRune (S.length + 1) = some segs ∧
      segs.map Segment.runes = splitBy (uaxBreak (S.map gbPropForRune)) 0 [] S ∧
      ∀ i, 1 ≤ i → i < S.length →
        (i ∈ segmentEnds (segs.map Segment.runes) ↔ uaxBreak (S.map gbPropForRune) i = true) := by
  have h := splitForward_eq_splitBy gbPropForRune S [] []
  simp only [List.map_nil, List.reverse_nil, List.nil_append, List.length_nil] at h
  refine ⟨_, forward_allSegments gbPropForRune S, by rw [map_runes_map_mk, h], ?_⟩
  intro i h1 h2
  rw [map_runes_map_mk, h, mem_segmentEnds_splitBy]
  constructor
  · rintro ⟨_, j, hj1, hj2, hj3⟩
    simp only [List.length_nil, Nat.zero_add] at hj2 hj3
    subst hj2
    rcases hj3 with hj3 | hj3
    · omega
    · exact hj3
  · intro hb
    exact ⟨by omega, i, by omega, by simp, Or.inr (by simpa using hb)⟩

/-- Witness for C5: in CR LF a e U+0301 the iterator ends a segment before index 2 (GB4) and
before index 3 (GB999). -/
theorem forward_breaks_iff_uax_witness :
    ∃ segs, (NewGraphemeClusterIter [0x0D, 0x0A, 0x61, 0x65, 0x0301]).allSegments sampleProps
          (([0x0D, 0x0A, 0x61, 0x65, 0x0301] : List Rune).length + 1) = some segs ∧
      segs.map Segment.runes =
        splitBy (uaxBreak (([0x0D, 0x0A, 0x61, 0x65, 0x0301] : List Rune).map sampleProps)) 0 []
          [0x0D, 0x0A, 0x61, 0x65, 0x0301] ∧
      (3 ∈ segmentEnds (segs.map Segment.runes) ↔
        uaxBreak (([0x0D, 0x0A, 0x61, 0x65, 0x0301] : List Rune).map sampleProps) 3 = true) :=
  match forward_breaks_iff_uax sampleProps [0x0D, 0x0A, 0x61, 0x65, 0x0301] with
  | ⟨segs, h1, h2, h3⟩ => ⟨segs, h1, h2, h3 3 (by decide) (by decide)⟩

/-- C4. For every finite rune sequence `S`, the segments of the reverse iterator fed the runes
of `S` in reverse order are the segments of the forward iterator fed `S`, in reverse
order; each of them holds its runes in document order, as the forward segment does. -/
theorem reverse_segments_eq_forward_reversed (gbPropForRune : Rune → gbProp) (S : List Rune) :
    ∃ fwd rev,
      (NewGraphemeClusterIter S).allSegments gbPropForRune (S.length + 1) = some fwd ∧
      (NewReverseGraphemeClusterIter S.reverse).allSegments gbPropForRune (S.length + 1) = some rev ∧
      rev = fwd.reverse :=
  ⟨_, _, forward_allSegments gbPropForRune S, reverse_allSegments gbPropForRune S, rfl⟩

end segment

/-! ### Claims about the text tree -/

namespace text

/-- C10. For every valid UTF-8 string `S`, that is, the encoding of any sequence of Unicode
scalar values (empty, of 1-, 2-, 3- or 4-byte codepoints, of any length), and every capacity
of the leaves, `NewTreeFromString(S)` succeeds and the `String()` of the tree is `S`. -/
theorem newTreeFromString_string (maxBytesPerLeaf : Nat) (runes : List Rune)
    (h : ∀ r ∈ runes, validRune r = true) :
    ∃ tree, NewTreeFromString maxBytesPerLeaf (encodeRunes runes) = .ok tree ∧
      tree.String = encodeRunes runes := by
  refine ⟨Tree.mk (buildTree
    ((leafChunks maxBytesPerLeaf (encodeRunes runes) []).map newLeaf).length
    ((leafChunks maxBytesPerLeaf (encodeRunes runes) []).map newLeaf)), ?_, ?_⟩
  · simp only [NewTreeFromString, NewTreeFromReader, decodeUtf8_encodeRunes runes h]
    rfl
  · simp only [Tree.String]
    rw [buildTree_bytes _ _ (by omega), List.map_map]
    have : (Node.bytes ∘ newLeaf) = id := by
      funext b; rfl
    rw [this, List.map_id, leafChunks_flatten]
    rfl

/-- Witness for C10: a text of 1-, 2-, 3- and 4-byte codepoints in leaves of at most 4 bytes. -/
theorem newTreeFromString_string_witness :
    (∀ r ∈ ([0x61, 0xA3, 0x1374, 0x10AAAA, 0x62, 0x63, 0x64, 0x65, 0x0A] : List Rune),
        validRune r = true) ∧
      ∃ tree, NewTreeFromString 4
          (encodeRunes [0x61, 0xA3, 0x1374, 0x10AAAA, 0x62, 0x63, 0x64, 0x65, 0x0A]) = .ok tree ∧
        tree.String = encodeRunes [0x61, 0xA3, 0x1374, 0x10AAAA, 0x62, 0x63, 0x64, 0x65, 0x0A] :=
  ⟨by decide, newTreeFromString_string 4 _ (by decide)⟩

end text

/-! ### Claims about the edits of the text tree -/

namespace text

/-- C11. For every tree holding the codepoint sequence `S`, every position `p` and every
valid rune `r`, `InsertAtPosition(p, r)` returns no error, and afterwards the tree holds
`S[0..q) ++ [r] ++ S[q..)` with `q = min(p, NumChars)`; a position past the end appends `r`,
and `NumChars` grows by exactly one. -/
theorem insertAtPosition_inserts (maxBytesPerLeaf : Nat) (tree : Tree) (S : List Rune) (p : Nat)
    (r : Rune) (h : tree.Holds S) (hr : validRune r = true) :
    (tree.InsertAtPosition maxBytesPerLeaf p r).2 = none ∧
      (tree.InsertAtPosition maxBytesPerLeaf p r).1.Holds
        (S.take (min p tree.NumChars) ++ [r] ++ S.drop (min p tree.NumChars)) ∧
      (tree.NumChars < p → (tree.InsertAtPosition maxBytesPerLeaf p r).1.Holds (S ++ [r])) ∧
      (tree.InsertAtPosition maxBytesPerLeaf p r).1.NumChars = tree.NumChars + 1 := by
  obtain ⟨herr, hh⟩ := Tree.insertAtPosition_holds maxBytesPerLeaf h p r hr
  have hlen := h.treeNumChars_eq
  have e : S.take (min p tree.NumChars) ++ [r] ++ S.drop (min p tree.NumChars) =
      S.take p ++ r :: S.drop p := by
    rw [hlen]
    by_cases hp : p ≤ S.length
    · rw [Nat.min_eq_left hp]; simp
    · have hp2 : S.length ≤ p := by omega
      rw [Nat.min_eq_right hp2]
      simp [List.take_of_length_le hp2, List.drop_of_length_le hp2]
  refine ⟨herr, by rw [e]; exact hh, ?_, ?_⟩
  · intro hp
    rw [hlen] at hp
    have e2 : S.take p ++ r :: S.drop p = S ++ [r] := by
      rw [List.take_of_length_le (by omega), List.drop_of_length_le (by omega)]
    rw [← e2]
    exact hh
  · rw [hh.treeNumChars_eq, hlen]
    simp only [List.length_append, List.length_cons, List.length_take, List.length_drop]
    omega

/-- Witness for C11: U+1374 inserted at position 1 of the tree of "a£\nb\n". -/
theorem insertAtPosition_inserts_witness :
    exampleTree.Holds exampleText ∧ validRune 0x1374 = true ∧
      (exampleTree.InsertAtPosition 4 1 0x1374).2 = none ∧
      (exampleTree.InsertAtPosition 4 1 0x1374).1.Holds
        (exampleText.take (min 1 exampleTree.NumChars) ++ [0x1374] ++
          exampleText.drop (min 1 exampleTree.NumChars)) ∧
      (exampleTree.NumChars < 1 →
        (exampleTree.InsertAtPosition 4 1 0x1374).1.Holds (exampleText ++ [0x1374])) ∧
      (exampleTree.InsertAtPosition 4 1 0x1374).1.NumChars = exampleTree.NumChars + 1 :=
  ⟨⟨by decide, by decide⟩, by decide,
    insertAtPosition_inserts 4 exampleTree exampleText 1 0x1374 ⟨by decide, by decide⟩
      (by decide)⟩

/-- C12. For every tree holding the codepoint sequence `S` and every position `p`: if
`p < NumChars`, after `DeleteAtPosition(p)` the tree holds `S` without the codepoint at index
`p` (its text is the bytes of the codepoints before `p` followed by the bytes of those after
`p`: all bytes of a multi-byte codepoint go, the neighbours stay); if `p >= NumChars` the
tree is unchanged. -/
theorem deleteAtPosition_deletes (maxBytesPerLeaf : Nat) (tree : Tree) (S : List Rune) (p : Nat)
    (h : tree.Holds S) :
    (p < tree.NumChars →
      (tree.DeleteAtPosition maxBytesPerLeaf p).Holds (S.take p ++ S.drop (p + 1)) ∧
        (tree.DeleteAtPosition maxBytesPerLeaf p).String =
          encodeRunes (S.take p) ++ encodeRunes (S.drop (p + 1)) ∧
        (tree.DeleteAtPosition maxBytesPerLeaf p).NumChars + 1 = tree.NumChars) ∧
      (tree.NumChars ≤ p → tree.DeleteAtPosition maxBytesPerLeaf p = tree) := by
  constructor
  · intro hp
    have hh := Tree.deleteAtPosition_holds maxBytesPerLeaf h p
    rw [List.eraseIdx_eq_take_drop_succ] at hh
    refine ⟨hh, ?_, ?_⟩
    · rw [hh.string_eq, encodeRunes_append]
    · rw [h.treeNumChars_eq] at hp ⊢
      rw [hh.treeNumChars_eq]
      simp only [List.length_append, List.length_take, List.length_drop]
      omega
  · intro hp
    unfold Tree.DeleteAtPosition
    rw [if_pos hp]

/-- Witness for C12: the deletion of the two-byte codepoint at position 1 of "a£\nb\n". -/
theorem deleteAtPosition_deletes_witness :
    exampleTree.Holds exampleText ∧
      (1 < exampleTree.NumChars →
        (exampleTree.DeleteAtPosition 4 1).Holds (exampleText.take 1 ++ exampleText.drop (1 + 1)) ∧
          (exampleTree.DeleteAtPosition 4 1).String =
            encodeRunes (exampleText.take 1) ++ encodeRunes (exampleText.drop (1 + 1)) ∧
          (exampleTree.DeleteAtPosition 4 1).NumChars + 1 = exampleTree.NumChars) ∧
      (exampleTree.NumChars ≤ 1 → exampleTree.DeleteAtPosition 4 1 = exampleTree) :=
  ⟨⟨by decide, by decide⟩,
    deleteAtPosition_deletes 4 exampleTree exampleText 1 ⟨by decide, by decide⟩⟩

/-- C13. For every tree and every position `p`, `InsertAtPosition(p, r)` with a rune `r` that
is not a valid Unicode scalar value (negative, above U+10FFFF, or a surrogate) returns an
error and leaves the tree, and so its text, unchanged. -/
theorem insertAtPosition_invalid (maxBytesPerLeaf : Nat) (tree : Tree) (p : Nat) (r : Int)
    (hr : r < 0 ∨ 0x10FFFF < r ∨ (0xD800 ≤ r ∧ r ≤ 0xDFFF)) :
    (tree.InsertAtPosition maxBytesPerLeaf p r).2 = some TreeError.InvalidUtf8 ∧
      (tree.InsertAtPosition maxBytesPerLeaf p r).1 = tree ∧
      (tree.InsertAtPosition maxBytesPerLeaf p r).1.String = tree.String := by
  have hv : validRune r = false := by
    have hn : ¬ (validRune r = true) := by rw [validRune_iff]; omega
    simpa using hn
  rw [(Tree.insertAtPosition_error_iff maxBytesPerLeaf tree p r).2 hv]
  exact ⟨rfl, rfl, rfl⟩

/-- Witness for C13: `rune(-1)` inserted into the empty tree, as in `TestInsertInvalidUtf8`. -/
theorem insertAtPosition_invalid_witness :
    ((-1 : Int) < 0 ∨ 0x10FFFF < (-1 : Int) ∨ (0xD800 ≤ (-1 : Int) ∧ (-1 : Int) ≤ 0xDFFF)) ∧
      (NewTree.InsertAtPosition 4 0 (-1)).2 = some TreeError.InvalidUtf8 ∧
      (NewTree.InsertAtPosition 4 0 (-1)).1 = NewTree ∧
      (NewTree.InsertAtPosition 4 0 (-1)).1.String = NewTree.String :=
  ⟨by decide, insertAtPosition_invalid 4 NewTree 0 (-1) (by decide)⟩

end text

/-! ### Claims about the mutators -/

namespace exec

open text

/-- C14. For every document `S`, every cursor position `p <= NumChars` and every valid rune
`r`, `insertRuneMutator(r).Mutate` yields the document `S[0..p) ++ [r] ++ S[p..)` and sets
the cursor position to `p + 1`, which is a position of the new document. -/
theorem insertRuneMutator_inserts (maxBytesPerLeaf : Nat) (state : State) (S : List Rune)
    (r : Rune) (h : state.tree.Holds S) (hp : state.cursor.position ≤ state.tree.NumChars)
    (hr : validRune r = true) :
    ((insertRuneMutator.mk r).Mutate maxBytesPerLeaf state).tree.Holds
        (S.take state.cursor.position ++ [r] ++ S.drop state.cursor.position) ∧
      ((insertRuneMutator.mk r).Mutate maxBytesPerLeaf state).cursor.position =
        state.cursor.position + 1 ∧
      ((insertRuneMutator.mk r).Mutate maxBytesPerLeaf state).cursor.position ≤
        ((insertRuneMutator.mk r).Mutate maxBytesPerLeaf state).tree.NumChars := by
  obtain ⟨herr, hh⟩ :=
    Tree.insertAtPosition_holds maxBytesPerLeaf h state.cursor.position r hr
  have hm : (insertRuneMutator.mk r).Mutate maxBytesPerLeaf state =
      { state with
        tree := (state.tree.InsertAtPosition maxBytesPerLeaf state.cursor.position r).1
        cursor := { state.cursor with position := state.cursor.position + 1 } } := by
    unfold insertRuneMutator.Mutate
    simp only
    cases hres : state.tree.InsertAtPosition maxBytesPerLeaf state.cursor.position r with
    | mk tree err =>
      rw [hres] at herr
      simp only at herr
      subst herr
      rfl
  rw [hm]
  refine ⟨by simpa using hh, rfl, ?_⟩
  simp only
  rw [hh.treeNumChars_eq]
  rw [h.treeNumChars_eq] at hp
  simp only [List.length_append, List.length_cons, List.length_take, List.length_drop]
  omega

/-- Witness for C14: U+0078 inserted at the cursor, at position 1 of "a£\nb\n". -/
theorem insertRuneMutator_inserts_witness :
    exampleState.tree.Holds exampleText ∧
      exampleState.cursor.position ≤ exampleState.tree.NumChars ∧ validRune 0x78 = true ∧
      ((insertRuneMutator.mk 0x78).Mutate 4 exampleState).tree.Holds
        (exampleText.take exampleState.cursor.position ++ [0x78] ++
          exampleText.drop exampleState.cursor.position) ∧
      ((insertRuneMutator.mk 0x78).Mutate 4 exampleState).cursor.position =
        exampleState.cursor.position + 1 ∧
      ((insertRuneMutator.mk 0x78).Mutate 4 exampleState).cursor.position ≤
        ((insertRuneMutator.mk 0x78).Mutate 4 exampleState).tree.NumChars :=
  ⟨⟨by decide, by decide⟩, by decide, by decide,
    insertRuneMutator_inserts 4 exampleState exampleText 0x78 ⟨by decide, by decide⟩
      (by decide) (by decide)⟩

/-- C15. For every state and every rune `r` for which `InsertAtPosition` of the tree returns
an error (`r` is not valid), `insertRuneMutator(r).Mutate` leaves the cursor position and the
text of the document unchanged; the whole state is as it was. -/
theorem insertRuneMutator_of_error (maxBytesPerLeaf : Nat) (state : State) (r : Rune)
    (err : TreeError)
    (h : (state.tree.InsertAtPosition maxBytesPerLeaf state.cursor.position r).2 = some err) :
    validRune r = false ∧
      ((insertRuneMutator.mk r).Mutate maxBytesPerLeaf state).cursor.position =
        state.cursor.position ∧
      ((insertRuneMutator.mk r).Mutate maxBytesPerLeaf state).tree.String = state.tree.String ∧
      (insertRuneMutator.mk r).Mutate maxBytesPerLeaf state = state := by
  obtain ⟨hiff, hres⟩ :=
    Tree.insertAtPosition_error_iff maxBytesPerLeaf state.tree state.cursor.position r
  have hv : validRune r = false := hiff.mp (by rw [h]; simp)
  have hm : (insertRuneMutator.mk r).Mutate maxBytesPerLeaf state = state := by
    unfold insertRuneMutator.Mutate
    simp only [hres hv]
  rw [hm]
  exact ⟨hv, rfl, rfl, rfl⟩

/-- Witness for C15: a surrogate, U+D800, typed in the example state. -/
theorem insertRuneMutator_of_error_witness :
    (exampleState.tree.InsertAtPosition 4 exampleState.cursor.position 0xD800).2 =
        some TreeError.InvalidUtf8 ∧
      validRune 0xD800 = false ∧
      ((insertRuneMutator.mk 0xD800).Mutate 4 exampleState).cursor.position =
        exampleState.cursor.position ∧
      ((insertRuneMutator.mk 0xD800).Mutate 4 exampleState).tree.String =
        exampleState.tree.String ∧
      (insertRuneMutator.mk 0xD800).Mutate 4 exampleState = exampleState :=
  ⟨by decide, insertRuneMutator_of_error 4 exampleState 0xD800 TreeError.InvalidUtf8 (by decide)⟩

/-- C16. For every state with document `S`, cursor position `c` and locator result `t` (both
`<= NumChars`), `deleteMutator.Mutate` removes exactly the codepoints at the positions
`[min(c,t), max(c,t))` of `S`, keeps all other codepoints in order, and sets the cursor
position to `min(c,t)`, the start of the deleted region, forwards (`t > c`) and backwards
(`t < c`). -/
theorem deleteMutator_deletes (maxBytesPerLeaf : Nat) (dm : deleteMutator) (state : State)
    (S : List Rune) (h : state.tree.Holds S)
    (hc : state.cursor.position ≤ state.tree.NumChars)
    (ht : (dm.loc state).position ≤ state.tree.NumChars) :
    (dm.Mutate maxBytesPerLeaf state).tree.Holds
        (S.take (min state.cursor.position (dm.loc state).position) ++
          S.drop (max state.cursor.position (dm.loc state).position)) ∧
      (dm.Mutate maxBytesPerLeaf state).cursor.position =
        min state.cursor.position (dm.loc state).position ∧
      (dm.Mutate maxBytesPerLeaf state).tree.NumChars +
          (max state.cursor.position (dm.loc state).position -
            min state.cursor.position (dm.loc state).position) = state.tree.NumChars := by
  rw [h.treeNumChars_eq] at hc ht ⊢
  have key : (dm.Mutate maxBytesPerLeaf state).tree.Holds
        (S.take (min state.cursor.position (dm.loc state).position) ++
          S.drop (max state.cursor.position (dm.loc state).position)) ∧
      (dm.Mutate maxBytesPerLeaf state).cursor.position =
        min state.cursor.position (dm.loc state).position := by
    unfold deleteMutator.Mutate
    simp only
    split_ifs with h1 h2
    · rw [Nat.min_eq_left (by omega), Nat.max_eq_right (by omega)]
      refine ⟨?_, rfl⟩
      have hd := deleteCharacters_holds maxBytesPerLeaf state.cursor.position
        ((dm.loc state).position - state.cursor.position) state.tree S h
      rw [Nat.add_sub_cancel' (by omega)] at hd
      exact hd
    · rw [Nat.min_eq_right (by omega), Nat.max_eq_left (by omega)]
      refine ⟨?_, rfl⟩
      have hd := deleteCharacters_holds maxBytesPerLeaf (dm.loc state).position
        (state.cursor.position - (dm.loc state).position) state.tree S h
      rw [Nat.add_sub_cancel' (by omega)] at hd
      exact hd
    · have e : state.cursor.position = (dm.loc state).position := by omega
      rw [← e, Nat.min_self, Nat.max_self, List.take_append_drop]
      exact ⟨h, rfl⟩
  refine ⟨key.1, key.2, ?_⟩
  rw [key.1.treeNumChars_eq]
  simp only [List.length_append, List.length_take, List.length_drop]
  omega

/-- Witness for C16: in "a£\nb\n" with the cursor at position 1, the deletion up to the
position 4 that the locator finds. -/
theorem deleteMutator_deletes_witness :
    exampleState.tree.Holds exampleText ∧
      exampleState.cursor.position ≤ exampleState.tree.NumChars ∧
      (exampleLocator exampleState).position ≤ exampleState.tree.NumChars ∧
      ((deleteMutator.mk exampleLocator).Mutate 4 exampleState).tree.Holds
        (exampleText.take (min exampleState.cursor.position (exampleLocator exampleState).position)
          ++ exampleText.drop
            (max exampleState.cursor.position (exampleLocator exampleState).position)) ∧
      ((deleteMutator.mk exampleLocator).Mutate 4 exampleState).cursor.position =
        min exampleState.cursor.position (exampleLocator exampleState).position ∧
      ((deleteMutator.mk exampleLocator).Mutate 4 exampleState).tree.NumChars +
          (max exampleState.cursor.position (exampleLocator exampleState).position -
            min exampleState.cursor.position (exampleLocator exampleState).position) =
        exampleState.tree.NumChars :=
  ⟨⟨by decide, by decide⟩, by decide, by decide,
    deleteMutator_deletes 4 (deleteMutator.mk exampleLocator) exampleState exampleText
      ⟨by decide, by decide⟩ (by decide) (by decide)⟩

end exec

/-! ### Claims about loading a file -/

namespace file

open text

/-- C17. For every loaded document text `S` (the file holds the UTF-8 encoding of `S`),
`removePosixEof`, which `Load` applies to the tree read from the file, yields `S` without its
final codepoint when `S` ends with a line feed, and `S` unchanged otherwise, the empty
document included; of several line feeds at the end only the last is removed. -/
theorem load_removes_posix_eof (maxBytesPerLeaf : Nat) (f : Reader) (S : List Rune)
    (hf : f.fails = false) (hd : decodeUtf8 f.bytes = some S) :
    ∃ tree, NewTreeFromReader maxBytesPerLeaf f = .ok tree ∧ tree.Holds S ∧
      Load maxBytesPerLeaf f = .ok (removePosixEof maxBytesPerLeaf tree) ∧
      (removePosixEof maxBytesPerLeaf tree).Holds
        (if S.getLast? = some lineFeed then S.dropLast else S) ∧
      (S = [] → removePosixEof maxBytesPerLeaf tree = tree) ∧
      (∀ T, S = T ++ [lineFeed, lineFeed] →
        (removePosixEof maxBytesPerLeaf tree).Holds (T ++ [lineFeed])) := by
  obtain ⟨tree, hok, hh⟩ := NewTreeFromReader_holds maxBytesPerLeaf f S hf hd
  have hrem := removePosixEof_holds maxBytesPerLeaf hh
  refine ⟨tree, hok, hh, ?_, hrem, ?_, ?_⟩
  · simp only [Load, hok]
  · intro hS
    subst hS
    unfold removePosixEof
    rw [endsWithLineFeed_eq hh]
    simp
  · intro T hT
    subst hT
    have e : (T ++ [lineFeed, lineFeed]).getLast? = some lineFeed := by simp
    rw [if_pos e] at hrem
    have e2 : (T ++ [lineFeed, lineFeed]).dropLast = T ++ [lineFeed] := by
      rw [show T ++ [lineFeed, lineFeed] = (T ++ [lineFeed]) ++ [lineFeed] by simp,
        List.dropLast_concat]
    rw [e2] at hrem
    exact hrem

/-- Witness for C17: a file that holds "a\n\n". -/
theorem load_removes_posix_eof_witness :
    (⟨[0x61, 0x0A, 0x0A], false⟩ : Reader).fails = false ∧
      decodeUtf8 (⟨[0x61, 0x0A, 0x0A], false⟩ : Reader).bytes = some [0x61, 0x0A, 0x0A] ∧
      ∃ tree, NewTreeFromReader 4 ⟨[0x61, 0x0A, 0x0A], false⟩ = .ok tree ∧
        tree.Holds [0x61, 0x0A, 0x0A] ∧
        Load 4 ⟨[0x61, 0x0A, 0x0A], false⟩ = .ok (removePosixEof 4 tree) ∧
        (removePosixEof 4 tree).Holds
          (if ([0x61, 0x0A, 0x0A] : List Rune).getLast? = some lineFeed
            then ([0x61, 0x0A, 0x0A] : List Rune).dropLast else [0x61, 0x0A, 0x0A]) ∧
        (([0x61, 0x0A, 0x0A] : List Rune) = [] → removePosixEof 4 tree = tree) ∧
        (∀ T, ([0x61, 0x0A, 0x0A] : List Rune) = T ++ [lineFeed, lineFeed] →
          (removePosixEof 4 tree).Holds (T ++ [lineFeed])) :=
  ⟨rfl, by decide, load_removes_posix_eof 4 ⟨[0x61, 0x0A, 0x0A], false⟩ [0x61, 0x0A, 0x0A] rfl
    (by decide)⟩

end file

/-! ### Claims about the lines of the text tree -/

namespace text

/-- The cases of `TestLineNumForPosition` on short texts, for leaves of at most 4 bytes: the
empty text, "abcd", "abcd\n", "abcd\nefgh" and five line feeds. -/
theorem lineNumOfString_tests :
    lineNumOfString 4 [] 0 = some 0 ∧
      lineNumOfString 4 [0x61, 0x62, 0x63, 0x64] 0 = some 0 ∧
      lineNumOfString 4 [0x61, 0x62, 0x63, 0x64] 2 = some 0 ∧
      lineNumOfString 4 [0x61, 0x62, 0x63, 0x64] 3 = some 0 ∧
      lineNumOfString 4 [0x61, 0x62, 0x63, 0x64] 4 = some 0 ∧
      lineNumOfString 4 [0x61, 0x62, 0x63, 0x64, 0x0A] 2 = some 0 ∧
      lineNumOfString 4 [0x61, 0x62, 0x63, 0x64, 0x0A, 0x65, 0x66, 0x67, 0x68] 2 = some 0 ∧
      lineNumOfString 4 [0x61, 0x62, 0x63, 0x64, 0x0A, 0x65, 0x66, 0x67, 0x68] 5 = some 1 ∧
      lineNumOfString 4 [0x61, 0x62, 0x63, 0x64, 0x0A, 0x65, 0x66, 0x67, 0x68] 6 = some 1 ∧
      lineNumOfString 4 [0x61, 0x62, 0x63, 0x64, 0x0A, 0x65, 0x66, 0x67, 0x68] 9 = some 1 ∧
      lineNumOfString 4 [0x0A, 0x0A, 0x0A, 0x0A, 0x0A] 2 = some 2 := by
  decide

/-- C18. For every document `S` and every line number `k`: `LineStartPosition(k)` is 0 when
`k = 0`; when `S` contains at least `k` line feeds (`k > 0`) it is the index immediately
after the `k`-th line feed, the line feed at the index `i` that has `k - 1` line feeds before
it; and it is `NumChars` when `S` contains fewer than `k` line feeds. -/
theorem lineStartPosition_spec (tree : Tree) (S : List Rune) (h : tree.Holds S) :
    tree.LineStartPosition 0 = 0 ∧
      (∀ k i, S[i]? = some lineFeed → (S.take i).count lineFeed + 1 = k →
        tree.LineStartPosition k = i + 1) ∧
      (∀ k, 0 < k → k ≤ S.count lineFeed →
        ∃ i, S[i]? = some lineFeed ∧ (S.take i).count lineFeed + 1 = k) ∧
      (∀ k, S.count lineFeed < k → tree.LineStartPosition k = tree.NumChars) := by
  refine ⟨rfl, ?_, ?_, ?_⟩
  · intro k i hi hk
    subst hk
    rw [Tree.lineStartPosition_succ h]
    exact positionAfterLineFeed_of_index S _ i hi rfl
  · intro k hk0 hk
    obtain ⟨n, rfl⟩ : ∃ n, k = n + 1 := ⟨k - 1, by omega⟩
    obtain ⟨i, hi, hc⟩ := exists_lineFeed_of_lt_count S n (by omega)
    exact ⟨i, hi, by rw [hc]⟩
  · intro k hk
    obtain ⟨n, rfl⟩ : ∃ n, k = n + 1 := ⟨k - 1, by omega⟩
    rw [Tree.lineStartPosition_succ h, h.treeNumChars_eq]
    exact positionAfterLineFeed_of_count_le S n (by omega)

/-- Witness for C18: the lines of "a£\nb\n" start at the positions 0, 3 and 5. -/
theorem lineStartPosition_spec_witness :
    exampleTree.Holds exampleText ∧
      (exampleTree.LineStartPosition 0 = 0 ∧ exampleTree.LineStartPosition 1 = 3 ∧
        exampleTree.LineStartPosition 2 = 5 ∧ exampleTree.LineStartPosition 3 = 5) ∧
      (exampleTree.LineStartPosition 0 = 0 ∧
        (∀ k i, exampleText[i]? = some lineFeed → (exampleText.take i).count lineFeed + 1 = k →
          exampleTree.LineStartPosition k = i + 1) ∧
        (∀ k, 0 < k → k ≤ exampleText.count lineFeed →
          ∃ i, exampleText[i]? = some lineFeed ∧ (exampleText.take i).count lineFeed + 1 = k) ∧
        (∀ k, exampleText.count lineFeed < k →
          exampleTree.LineStartPosition k = exampleTree.NumChars)) :=
  ⟨⟨by decide, by decide⟩, by decide,
    lineStartPosition_spec exampleTree exampleText ⟨by decide, by decide⟩⟩

/-- C19. For every document and every `k` in `[0, NumLines)`,
`LineNumForPosition(LineStartPosition(k)) == k`. -/
theorem lineNumForPosition_lineStartPosition (tree : Tree) (S : List Rune) (h : tree.Holds S)
    (k : Nat) (hk : k < tree.NumLines) :
    tree.LineNumForPosition (tree.LineStartPosition k) = k := by
  rw [h.treeNumLines_eq] at hk
  rw [Tree.lineNumForPosition_eq h]
  cases k with
  | zero => simp [Tree.LineStartPosition]
  | succ n =>
    rw [Tree.lineStartPosition_succ h]
    exact count_take_positionAfterLineFeed S n (by omega)

/-- Witness for C19: line 2, the last of the three lines of "a£\nb\n". -/
theorem lineNumForPosition_lineStartPosition_witness :
    exampleTree.Holds exampleText ∧ 2 < exampleTree.NumLines ∧
      exampleTree.LineNumForPosition (exampleTree.LineStartPosition 2) = 2 :=
  ⟨⟨by decide, by decide⟩, by decide,
    lineNumForPosition_lineStartPosition exampleTree exampleText ⟨by decide, by decide⟩ 2
      (by decide)⟩

/-- C20 (amended). For every document, every line feed that ends line `k` (it stands at an
index `i` with `k` line feeds before it) and every position `p` past that line feed with no
line feed between them (`p` may be on the next line feed), `LineNumForPosition(p)` returns
`k + 1`; a lookup exactly at the line feed returns `k`, the line that the line feed ends. -/
theorem lineNumForPosition_past_lineFeed (tree : Tree) (S : List Rune) (h : tree.Holds S)
    (k i p : Nat) (hi : S[i]? = some lineFeed) (hk : (S.take i).count lineFeed = k) :
    (i < p → (∀ j, i < j → j < p → S[j]? ≠ some lineFeed) →
        tree.LineNumForPosition p = k + 1) ∧
      tree.LineNumForPosition i = k := by
  constructor
  · intro hp hno
    obtain ⟨d, rfl⟩ : ∃ d, p = i + 1 + d := ⟨p - (i + 1), by omega⟩
    rw [Tree.lineNumForPosition_eq h,
      count_take_of_no_lineFeed S (i + 1) d (fun j hj1 hj2 => hno j (by omega) hj2),
      List.take_succ, List.count_append, hk, hi]
    simp
  · rw [Tree.lineNumForPosition_eq h, hk]

/-- Witness for C20 (amended): in "a£\nb\n" the line feed at index 2 ends line 0; the
position 4, on the next line feed, is on line 1 and the position 2 on line 0. -/
theorem lineNumForPosition_past_lineFeed_witness :
    exampleTree.Holds exampleText ∧ exampleText[2]? = some lineFeed ∧
      (exampleText.take 2).count lineFeed = 0 ∧
      ((2 < 4 → (∀ j, 2 < j → j < 4 → exampleText[j]? ≠ some lineFeed) →
          exampleTree.LineNumForPosition 4 = 0 + 1) ∧
        exampleTree.LineNumForPosition 2 = 0) :=
  ⟨⟨by decide, by decide⟩, by decide, by decide,
    lineNumForPosition_past_lineFeed exampleTree exampleText ⟨by decide, by decide⟩ 0 2 4
      (by decide) (by decide)⟩

/-- C20 (counterexample). (1) In the text of five line feeds of `TestLineNumForPosition`, the
position 2 is on the line feed that ends line 2, and its line number is 2, as the test
expects, not 3. (2) In "abcd\nefgh" the position 4 is on the line feed that ends line 0, and
its line number is 0, not 1. -/
theorem lineNumForPosition_on_lineFeed :
    (([0x0A, 0x0A, 0x0A, 0x0A, 0x0A] : List Rune)[2]? = some lineFeed ∧
        (([0x0A, 0x0A, 0x0A, 0x0A, 0x0A] : List Rune).take 2).count lineFeed = 2 ∧
        lineNumOfString 4 (encodeRunes [0x0A, 0x0A, 0x0A, 0x0A, 0x0A]) 2 = some 2 ∧
        lineNumOfString 4 (encodeRunes [0x0A, 0x0A, 0x0A, 0x0A, 0x0A]) 2 ≠ some (2 + 1)) ∧
      (([0x61, 0x62, 0x63, 0x64, 0x0A, 0x65, 0x66, 0x67, 0x68] : List Rune)[4]? = some lineFeed ∧
        (([0x61, 0x62, 0x63, 0x64, 0x0A, 0x65, 0x66, 0x67, 0x68] : List Rune).take 4).count
          lineFeed = 0 ∧
        lineNumOfString 4
          (encodeRunes [0x61, 0x62, 0x63, 0x64, 0x0A, 0x65, 0x66, 0x67, 0x68]) 4 = some 0 ∧
        lineNumOfString 4
          (encodeRunes [0x61, 0x62, 0x63, 0x64, 0x0A, 0x65, 0x66, 0x67, 0x68]) 4 ≠
            some (0 + 1)) := by
  decide

end text

/-! ### Claims about the readers of the text tree -/

namespace text

/-- C21 (amended). For every document `S`, every position `p` and every buffer size, the
codepoints read forward from `p` to the end of the document are `S[p..)` and the codepoints
read backward from `p` to the beginning of the document are `S[..p)`, last codepoint first;
so the reverse of the backward read followed by the forward read is `S`. -/
theorem reader_forward_backward (tree : Tree) (S : List Rune) (h : tree.Holds S)
    (p bufSize : Nat) (hb : 0 < bufSize) :
    ∃ fwd bwd,
      tree.readRunes p ReadDirection.ReadDirectionForward bufSize (tree.String.length + 1) =
        some fwd ∧
      tree.readRunes p ReadDirection.ReadDirectionBackward bufSize (tree.String.length + 1) =
        some bwd ∧
      fwd = S.drop p ∧ bwd = (S.take p).reverse ∧ bwd.reverse ++ fwd = S := by
  obtain ⟨h1, h2⟩ := Tree.readRunes_eq h p bufSize hb
  exact ⟨_, _, h1, h2, rfl, rfl, by simp⟩

/-- Witness for C21 (amended): in "a£\nb\n", read from the position 2 through a buffer of two
bytes. -/
theorem reader_forward_backward_witness :
    exampleTree.Holds exampleText ∧ 0 < 2 ∧
      ∃ fwd bwd,
        exampleTree.readRunes 2 ReadDirection.ReadDirectionForward 2
          (exampleTree.String.length + 1) = some fwd ∧
        exampleTree.readRunes 2 ReadDirection.ReadDirectionBackward 2
          (exampleTree.String.length + 1) = some bwd ∧
        fwd = exampleText.drop 2 ∧ bwd = (exampleText.take 2).reverse ∧
        bwd.reverse ++ fwd = exampleText :=
  ⟨⟨by decide, by decide⟩, by decide,
    reader_forward_backward exampleTree exampleText ⟨by decide, by decide⟩ 2 2 (by decide)⟩

/-- C21 (counterexample). (1) In "abcd", the case of `TestReadBackwards`, the codepoints read
forward from the position 2 are c, d and those read backward are b, a, whose reverse a, b is
not c, d. (2) In "a£፴cd" the codepoints read backward from the position 3 are ፴, £, a and
those read forward are c, d. -/
theorem reader_forward_ne_reverse_backward :
    (readRunesOfString 4 (encodeRunes [0x61, 0x62, 0x63, 0x64]) 2
          ReadDirection.ReadDirectionForward 3 = some [0x63, 0x64] ∧
        readRunesOfString 4 (encodeRunes [0x61, 0x62, 0x63, 0x64]) 2
          ReadDirection.ReadDirectionBackward 3 = some [0x62, 0x61] ∧
        ([0x63, 0x64] : List Rune) ≠ ([0x62, 0x61] : List Rune).reverse) ∧
      (readRunesOfString 4 (encodeRunes [0x61, 0xA3, 0x1374, 0x63, 0x64]) 3
          ReadDirection.ReadDirectionBackward 3 = some [0x1374, 0xA3, 0x61] ∧
        readRunesOfString 4 (encodeRunes [0x61, 0xA3, 0x1374, 0x63, 0x64]) 3
          ReadDirection.ReadDirectionForward 3 = some [0x63, 0x64] ∧
        ([0x63, 0x64] : List Rune) ≠ ([0x1374, 0xA3, 0x61] : List Rune).reverse) := by
  decide

end text

/-! ### Claims about the state and the segments of the forward iterator -/

namespace segment

/-- C22. For every rune sequence, the forward iterator ends a segment immediately before a
codepoint of class Extend, ZWJ or SpacingMark only if (and whenever) the codepoint before it
is Control, CR or LF; a codepoint that is none of these followed by such marks is one
segment; and a text of four codepoints of classes None, Extend, None, Extend, such as
a, U+0308, e, U+0301, yields exactly two segments of two codepoints each. -/
theorem forward_keeps_marks (gbPropForRune : Rune → gbProp) (S : List Rune) :
    ∃ segs, (NewGraphemeClusterIter S).allSegments gbPropForRune (S.length + 1) = some segs ∧
      (∀ i q p, (S.map gbPropForRune).get? i = some q →
        (S.map gbPropForRune).get? (i + 1) = some p → p.isMark = true →
        (i + 1 ∈ segmentEnds (segs.map Segment.runes) ↔ q.isControlOrNewline = true)) ∧
      (∀ base marks, S = base :: marks → (gbPropForRune base).isControlOrNewline = false →
        (∀ m ∈ marks, (gbPropForRune m).isMark = true) → segs = [⟨S⟩]) ∧
      (∀ a u e v, S = [a, u, e, v] → gbPropForRune a = gbProp.None →
        gbPropForRune u = gbProp.Extend → gbPropForRune e = gbProp.None →
        gbPropForRune v = gbProp.Extend → segs = [⟨[a, u]⟩, ⟨[e, v]⟩]) := by
  refine ⟨_, forward_allSegments gbPropForRune S, ?_, ?_, ?_⟩
  · intro i q p hq hp hm
    rw [map_runes_map_mk, mem_segmentEnds_splitForward, uaxBreak_succ _ i q p hq hp]
    have hlt : i + 1 < S.length := by
      have := List.get?_eq_some.mp hp
      obtain ⟨h, -⟩ := this
      simpa using h
    by_cases hc : q.isControlOrNewline = true
    · rw [uaxBreakAfter_control_mark q p _ hc hm]
      simp only [hc, iff_true]
      exact ⟨by omega, by omega, Or.inr trivial⟩
    · have hc2 : q.isControlOrNewline = false := by simpa using hc
      rw [uaxBreakAfter_mark q p _ hc2 hm]
      simp only [hc2, Bool.false_eq_true, iff_false]
      rintro ⟨-, -, h | h⟩
      · omega
      · exact h
  · intro base marks hS hb hm
    subst hS
    rw [splitForward_nil_cons, splitForward_marks gbPropForRune marks hm _ [] [base] hb (by simp)]
    rfl
  · intro a u e v hS ha hu he hv
    subst hS
    simp [splitForward, uaxBreakAfter, gbProp.isControlOrNewline, endsExtPictExtendZWJ,
      riRunLength, ha, hu, he, hv]

/-- Witness for C22: a, U+0308, e, U+0301 yields the segments a U+0308 and e U+0301, and no
segment ends before U+0308. -/
theorem forward_keeps_marks_witness :
    ∃ segs, (NewGraphemeClusterIter [0x61, 0x0308, 0x65, 0x0301]).allSegments sampleProps
          (([0x61, 0x0308, 0x65, 0x0301] : List Rune).length + 1) = some segs ∧
      segs = [⟨[0x61, 0x0308]⟩, ⟨[0x65, 0x0301]⟩] ∧
      (0 + 1 ∈ segmentEnds (segs.map Segment.runes) ↔
        gbProp.isControlOrNewline gbProp.None = true) :=
  match forward_keeps_marks sampleProps [0x61, 0x0308, 0x65, 0x0301] with
  | ⟨segs, h1, h2, _, h4⟩ =>
    ⟨segs, h1, h4 0x61 0x0308 0x65 0x0301 rfl (by decide) (by decide) (by decide) (by decide),
      h2 0 gbProp.None gbProp.Extend (by decide) (by decide) (by decide)⟩

/-- C26. For every rune sequence `S` and every index `b` at which the forward iterator over
`S` ends a segment, the segments of `S` are some segments that make up `S[..b)` followed by
exactly the segments that a fresh forward iterator yields on the suffix `S[b..)`. -/
theorem forward_restart_at_boundary (gbPropForRune : Rune → gbProp) (S : List Rune) (b : Nat) :
    ∃ segs, (NewGraphemeClusterIter S).allSegments gbPropForRune (S.length + 1) = some segs ∧
      (b ∈ segmentEnds (segs.map Segment.runes) →
        ∃ pre suf, segs = pre ++ suf ∧ (pre.map Segment.runes).flatten = S.take b ∧
          (NewGraphemeClusterIter (S.drop b)).allSegments gbPropForRune ((S.drop b).length + 1) =
            some suf) := by
  refine ⟨_, forward_allSegments gbPropForRune S, ?_⟩
  intro hb
  rw [map_runes_map_mk] at hb
  refine ⟨(splitForward gbPropForRune [] [] (S.take b)).map Segment.mk,
    (splitForward gbPropForRune [] [] (S.drop b)).map Segment.mk, ?_, ?_,
    forward_allSegments gbPropForRune (S.drop b)⟩
  · rw [← List.map_append, ← splitForward_cut gbPropForRune S b hb]
  · rw [map_runes_map_mk]
    simpa using (splitForward_flatten gbPropForRune (S.take b) [] []).1

/-- Witness for C26: in CR LF a U+0308 e a segment ends at index 2, and the iterator started
on a U+0308 e yields the segments after it. -/
theorem forward_restart_at_boundary_witness :
    ∃ segs, (NewGraphemeClusterIter [0x0D, 0x0A, 0x61, 0x0308, 0x65]).allSegments sampleProps
          (([0x0D, 0x0A, 0x61, 0x0308, 0x65] : List Rune).length + 1) = some segs ∧
      2 ∈ segmentEnds (segs.map Segment.runes) ∧
      ∃ pre suf, segs = pre ++ suf ∧
        (pre.map Segment.runes).flatten = ([0x0D, 0x0A, 0x61, 0x0308, 0x65] : List Rune).take 2 ∧
        (NewGraphemeClusterIter (([0x0D, 0x0A, 0x61, 0x0308, 0x65] : List Rune).drop 2)).allSegments
            sampleProps ((([0x0D, 0x0A, 0x61, 0x0308, 0x65] : List Rune).drop 2).length + 1) =
          some suf := by
  obtain ⟨segs, h1, h2⟩ :=
    forward_restart_at_boundary sampleProps [0x0D, 0x0A, 0x61, 0x0308, 0x65] 2
  have h3 : (NewGraphemeClusterIter [0x0D, 0x0A, 0x61, 0x0308, 0x65]).allSegments sampleProps
      (([0x0D, 0x0A, 0x61, 0x0308, 0x65] : List Rune).length + 1) =
        some [⟨[0x0D, 0x0A]⟩, ⟨[0x61, 0x0308]⟩, ⟨[0x65]⟩] := by decide
  have h4 : segs = [⟨[0x0D, 0x0A]⟩, ⟨[0x61, 0x0308]⟩, ⟨[0x65]⟩] :=
    Option.some.inj (h1.symm.trans h3)
  have h5 : 2 ∈ segmentEnds (segs.map Segment.runes) := by
    rw [h4]
    decide
  exact ⟨segs, h1, h5, h2 h5⟩

/-- C27. After the forward iterator has processed a prefix `P` of a text, `lastPropsWereRIOdd`
is true iff the maximal run of Regional_Indicator that ends `P` has odd length,
`lastPropsWereRIEven` is true iff that run has positive even length, and the two flags are
never both true; the same holds of the iterator after any number of calls of `NextSegment`,
for the runes read so far. So inside a run of Regional_Indicator that no Regional_Indicator
precedes, a segment ends after `j` codepoints of the run iff `j` is even, and a text of `n`
Regional_Indicator is cut into `n / 2` pairs followed by a single codepoint when `n` is
odd. -/
theorem forward_ri_flags (gbPropForRune : Rune → gbProp) (P R : List Rune) :
    (∃ n, riRunAtEnd (P.map gbPropForRune) n ∧
      (((NewGraphemeClusterIter (P ++ R)).processRunes gbPropForRune P).lastPropsWereRIOdd = true
        ↔ n % 2 = 1) ∧
      (((NewGraphemeClusterIter (P ++ R)).processRunes gbPropForRune P).lastPropsWereRIEven = true
        ↔ 0 < n ∧ n % 2 = 0) ∧
      ¬ (((NewGraphemeClusterIter (P ++ R)).processRunes gbPropForRune P).lastPropsWereRIOdd = true
        ∧ ((NewGraphemeClusterIter (P ++ R)).processRunes gbPropForRune P).lastPropsWereRIEven
          = true)) ∧
    (∀ k g, (NewGraphemeClusterIter (P ++ R)).afterCalls gbPropForRune k = some g →
      ∃ consumed n, P ++ R = consumed ++ g.runeIter ∧ riRunAtEnd (consumed.map gbPropForRune) n ∧
        (g.lastPropsWereRIOdd = true ↔ n % 2 = 1) ∧
        (g.lastPropsWereRIEven = true ↔ 0 < n ∧ n % 2 = 0) ∧
        ¬ (g.lastPropsWereRIOdd = true ∧ g.lastPropsWereRIEven = true)) ∧
    (∃ segs, (NewGraphemeClusterIter (P ++ R)).allSegments gbPropForRune ((P ++ R).length + 1) =
        some segs ∧
      (∀ A T B j, P ++ R = A ++ T ++ B →
        (∀ r ∈ T, gbPropForRune r = gbProp.Regional_Indicator) →
        (∀ a, A.getLast? = some a → gbPropForRune a ≠ gbProp.Regional_Indicator) →
        1 ≤ j → j < T.length →
        (A.length + j ∈ segmentEnds (segs.map Segment.runes) ↔ j % 2 = 0)) ∧
      ((∀ r ∈ P ++ R, gbPropForRune r = gbProp.Regional_Indicator) →
        segs.map Segment.NumRunes = riSegmentLengths (P ++ R).length)) := by
  refine ⟨tracks_ri_flags _ _ (processRunes_new_tracks gbPropForRune (P ++ R) P), ?_, ?_⟩
  · intro k g h
    obtain ⟨consumed, h1, h2⟩ := afterCalls_tracks gbPropForRune (P ++ R) k g h
    obtain ⟨n, h3⟩ := tracks_ri_flags g _ h2
    exact ⟨consumed, n, h1, h3⟩
  · refine ⟨_, forward_allSegments gbPropForRune (P ++ R), ?_, ?_⟩
    · intro A T B j hS hT hA h1 h2
      rw [map_runes_map_mk, mem_segmentEnds_splitForward, hS,
        uaxBreak_ri_run gbPropForRune A T B j hT hA h1 h2]
      simp only [List.length_append, decide_eq_true_eq]
      constructor
      · rintro ⟨-, -, h | h⟩
        · omega
        · exact h
      · intro h
        exact ⟨by omega, by omega, Or.inr h⟩
    · intro hall
      have h := splitForward_ri gbPropForRune (P ++ R) hall 0 [] (by simp)
      simp only [List.replicate_zero, List.length_nil, Nat.zero_add] at h
      rw [List.map_map]
      rw [← h]
      apply List.map_congr_left
      intro s _
      rfl

/-- Witness for C27: after three Regional_Indicator the odd flag is set and the even flag is
not, and the iterator cuts the three into a pair and a single codepoint. -/
theorem forward_ri_flags_witness :
    ((NewGraphemeClusterIter ([0x1F1E6, 0x1F1E7, 0x1F1E8] ++ [])).processRunes sampleProps
        [0x1F1E6, 0x1F1E7, 0x1F1E8]).lastPropsWereRIOdd = true ∧
      ∃ segs, (NewGraphemeClusterIter ([0x1F1E6, 0x1F1E7, 0x1F1E8] ++ [])).allSegments sampleProps
          ((([0x1F1E6, 0x1F1E7, 0x1F1E8] : List Rune) ++ []).length + 1) = some segs ∧
        segs.map Segment.NumRunes =
          riSegmentLengths (([0x1F1E6, 0x1F1E7, 0x1F1E8] : List Rune) ++ []).length ∧
        (0 + 1 ∈ segmentEnds (segs.map Segment.runes) ↔ 1 % 2 = 0) :=
  match forward_ri_flags sampleProps [0x1F1E6, 0x1F1E7, 0x1F1E8] [] with
  | ⟨_, _, segs, h1, h2, h3⟩ =>
    ⟨by decide, segs, h1, h3 (by decide),
      h2 [] [0x1F1E6, 0x1F1E7, 0x1F1E8] [] 1 rfl (by decide) (by decide) (by decide)
        (by decide)⟩

/-- C28. After the forward iterator has processed a prefix `P` of a text,
`inExtendedPictographic` is true iff the classes of `P` end with an Extended_Pictographic
followed by zero or more Extend, and `afterExtendedPictographicPlusZWJ` is true iff they end
with Extended_Pictographic, zero or more Extend, ZWJ; the same holds of the iterator after
any number of calls of `NextSegment`, for the runes read so far. -/
theorem forward_extPict_flags (gbPropForRune : Rune → gbProp) (P R : List Rune) :
    ((((NewGraphemeClusterIter (P ++ R)).processRunes gbPropForRune P).inExtendedPictographic
        = true ↔
      ∃ pre k, P.map gbPropForRune =
        pre ++ gbProp.Extended_Pictographic :: List.replicate k gbProp.Extend) ∧
    (((NewGraphemeClusterIter (P ++ R)).processRunes gbPropForRune
        P).afterExtendedPictographicPlusZWJ = true ↔
      ∃ pre k, P.map gbPropForRune =
        pre ++ gbProp.Extended_Pictographic :: List.replicate k gbProp.Extend ++
          [gbProp.ZWJ])) ∧
    (∀ n g, (NewGraphemeClusterIter (P ++ R)).afterCalls gbPropForRune n = some g →
      ∃ consumed, P ++ R = consumed ++ g.runeIter ∧
        (g.inExtendedPictographic = true ↔
          ∃ pre k, consumed.map gbPropForRune =
            pre ++ gbProp.Extended_Pictographic :: List.replicate k gbProp.Extend) ∧
        (g.afterExtendedPictographicPlusZWJ = true ↔
          ∃ pre k, consumed.map gbPropForRune =
            pre ++ gbProp.Extended_Pictographic :: List.replicate k gbProp.Extend ++
              [gbProp.ZWJ])) := by
  refine ⟨tracks_extPict_flags _ _ (processRunes_new_tracks gbPropForRune (P ++ R) P), ?_⟩
  intro n g h
  obtain ⟨consumed, h1, h2⟩ := afterCalls_tracks gbPropForRune (P ++ R) n g h
  exact ⟨consumed, h1, tracks_extPict_flags g _ h2⟩

/-- Witness for C28: after one call of `NextSegment` on an emoji, U+0308, ZWJ, a the iterator
has read the whole text, and after the prefix emoji, U+0308, ZWJ the second flag is set. -/
theorem forward_extPict_flags_witness :
    ((NewGraphemeClusterIter ([0x1F600, 0x0308, 0x200D] ++ [0x61])).processRunes sampleProps
        [0x1F600, 0x0308, 0x200D]).afterExtendedPictographicPlusZWJ = true ∧
      (∃ pre k, ([0x1F600, 0x0308, 0x200D] : List Rune).map sampleProps =
        pre ++ gbProp.Extended_Pictographic :: List.replicate k gbProp.Extend ++
          [gbProp.ZWJ]) ∧
      ∃ consumed, ([0x1F600, 0x0308, 0x200D] : List Rune) ++ [0x61] = consumed ++ [] ∧
        (false = true ↔
          ∃ pre k, consumed.map sampleProps =
            pre ++ gbProp.Extended_Pictographic :: List.replicate k gbProp.Extend) := by
  obtain ⟨⟨_, h2⟩, h3⟩ := forward_extPict_flags sampleProps [0x1F600, 0x0308, 0x200D] [0x61]
  obtain ⟨consumed, h4, h5, _⟩ :=
    h3 1 ⟨some ⟨[0x61]⟩, [], gbProp.None, false, false, false, false⟩ (by decide)
  exact ⟨by decide, h2.mp (by decide), consumed, h4, h5⟩

/-- C29. For every rune sequence, every segment of the forward iterator that holds a codepoint
of class Control, CR or LF is that codepoint alone or exactly a CR followed by a LF; and no
segment ends between a CR and a LF that follows it immediately. -/
theorem forward_control_segments (gbPropForRune : Rune → gbProp) (S : List Rune) :
    ∃ segs, (NewGraphemeClusterIter S).allSegments gbPropForRune (S.length + 1) = some segs ∧
      (∀ seg ∈ segs, ∀ r ∈ seg.runes, (gbPropForRune r).isControlOrNewline = true →
        seg.runes = [r] ∨
          ∃ a b, seg.runes = [a, b] ∧ gbPropForRune a = gbProp.CR ∧ gbPropForRune b = gbProp.LF) ∧
      (∀ i, (S.map gbPropForRune).get? i = some gbProp.CR →
        (S.map gbPropForRune).get? (i + 1) = some gbProp.LF →
        i + 1 ∉ segmentEnds (segs.map Segment.runes)) := by
  refine ⟨_, forward_allSegments gbPropForRune S, ?_, ?_⟩
  · intro seg hseg r hr hc
    obtain ⟨s, hs, rfl⟩ := List.mem_map.mp hseg
    have h := splitForward_isControlSegment gbPropForRune S [] [] (Or.inl rfl) s hs
    rcases h with h | ⟨c, h1, -⟩ | ⟨a, b, h1, h2, h3⟩
    · have := h r hr
      rw [hc] at this
      exact Bool.noConfusion this
    · left
      change s = [r]
      change r ∈ s at hr
      rw [h1] at hr ⊢
      rw [List.mem_singleton] at hr
      rw [hr]
    · exact Or.inr ⟨a, b, h1, h2, h3⟩
  · intro i hq hp
    rw [map_runes_map_mk, mem_segmentEnds_splitForward, uaxBreak_succ _ i _ _ hq hp,
      uaxBreakAfter_cr_lf]
    have hlt : i + 1 < S.length := by
      obtain ⟨h, -⟩ := List.get?_eq_some.mp hp
      simpa using h
    rintro ⟨-, -, h | h⟩
    · omega
    · exact Bool.noConfusion h

/-- Witness for C29: in a CR LF b the segment of the CR is CR LF, and no segment ends at
index 2. -/
theorem forward_control_segments_witness :
    ∃ segs, (NewGraphemeClusterIter [0x61, 0x0D, 0x0A, 0x62]).allSegments sampleProps
          (([0x61, 0x0D, 0x0A, 0x62] : List Rune).length + 1) = some segs ∧
      (⟨[0x0D, 0x0A]⟩ ∈ segs →
        ([0x0D, 0x0A] : List Rune) = [0x0D] ∨
          ∃ a b, ([0x0D, 0x0A] : List Rune) = [a, b] ∧ sampleProps a = gbProp.CR ∧
            sampleProps b = gbProp.LF) ∧
      1 + 1 ∉ segmentEnds (segs.map Segment.runes) :=
  match forward_control_segments sampleProps [0x61, 0x0D, 0x0A, 0x62] with
  | ⟨segs, h1, h2, h3⟩ =>
    ⟨segs, h1, fun hm => h2 ⟨[0x0D, 0x0A]⟩ hm 0x0D (by decide) (by decide),
      h3 1 (by decide) (by decide)⟩

/-- C30. For every state of the reverse iterator, `lookaheadEvenRI` returns true iff the number
of Regional_Indicator codepoints at the head of the runes the iterator still holds, counted
up to the first other codepoint or the end, is even; and `processRune`, which calls it,
leaves the runes of the iterator as they are. -/
theorem lookaheadEvenRI_iff (gbPropForRune : Rune → gbProp) (g : reverseGraphemeClusterIter) :
    (g.lookaheadEvenRI gbPropForRune = true ↔
      (g.runeIter.takeWhile
        (fun r => decide (gbPropForRune r = gbProp.Regional_Indicator))).length % 2 = 0) ∧
    ∀ r, (g.processRune gbPropForRune r).2.runeIter = g.runeIter := by
  refine ⟨?_, fun r => rfl⟩
  unfold reverseGraphemeClusterIter.lookaheadEvenRI
  rw [lookaheadRICount_eq, riRunLength_eq_takeWhile, Nat.zero_add]
  simp

end segment

/-! ### Claims about the results of a parse function -/

namespace Parser

/-- C23. For every parse `Result` `r`, `r.IsSuccess()` holds iff `r.NumConsumed >= 1`,
`r.IsFailure()` holds iff `r.NumConsumed = 0`, exactly one of the two holds, and
`FailedResult` is a failure. -/
theorem result_isSuccess_isFailure {σ : Type} [ParseState σ] (r : Result σ) :
    (r.IsSuccess = true ↔ 1 ≤ r.NumConsumed) ∧ (r.IsFailure = true ↔ r.NumConsumed = 0) ∧
      (r.IsSuccess = true ↔ ¬ (r.IsFailure = true)) ∧
      (FailedResult : Result σ).IsFailure = true ∧ (FailedResult : Result σ).IsSuccess = false := by
  refine ⟨?_, ?_, ?_, ?_, ?_⟩
  · simp only [Result.IsSuccess, decide_eq_true_eq]
    omega
  · simp only [Result.IsFailure, Result.IsSuccess, Bool.not_eq_true', decide_eq_false_iff_not]
    omega
  · simp [Result.IsFailure]
  · simp [Result.IsFailure, Result.IsSuccess, FailedResult]
  · simp [Result.IsSuccess, FailedResult]

/-- Witness for C23: the failed result of the example states consumes nothing, is a failure
and is not a success. -/
theorem result_isSuccess_isFailure_witness :
    ((FailedResult : Result ExampleState).IsSuccess = true ↔
        1 ≤ (FailedResult : Result ExampleState).NumConsumed) ∧
      (FailedResult : Result ExampleState).IsFailure = true :=
  ⟨(result_isSuccess_isFailure (FailedResult : Result ExampleState)).1,
    (result_isSuccess_isFailure (FailedResult : Result ExampleState)).2.2.2.1⟩

end Parser

/-! ### Claims about the configuration -/

namespace config

/-- C24. For every `Config` `c`, `c.Validate()` returns an error iff `c.TabSize < 1`; no
other field affects the result: two configurations with the same tab size are validated
alike. -/
theorem validate_error_iff (c c2 : Config) :
    (c.Validate ≠ none ↔ c.TabSize < 1) ∧ (c.TabSize = c2.TabSize → c.Validate = c2.Validate) := by
  constructor
  · unfold Config.Validate
    by_cases h : c.TabSize < 1
    · simp [h]
    · simp [h]
  · intro h
    unfold Config.Validate
    rw [h]

/-- Witness for C24: a tab size of 8 is valid, whatever the other fields are. -/
theorem validate_error_iff_witness :
    (exampleConfig.Validate ≠ none ↔ exampleConfig.TabSize < 1) ∧
      (exampleConfig.TabSize = ({ exampleConfig with SyntaxLanguage := "c" } : Config).TabSize →
        exampleConfig.Validate = ({ exampleConfig with SyntaxLanguage := "c" } : Config).Validate)
      ∧ exampleConfig.Validate = none :=
  ⟨(validate_error_iff exampleConfig { exampleConfig with SyntaxLanguage := "c" }).1,
    (validate_error_iff exampleConfig { exampleConfig with SyntaxLanguage := "c" }).2, by decide⟩

/-- C25. The configuration `DefaultConfig()` is `ConfigFromUntypedMap` of the nil map, which
is also that of the empty map, and has every key at its default: `SyntaxLanguage` is
"undefined", `TabSize` is 4, `TabExpand` and `AutoIndent` are false, there are no menu
commands (an empty slice) and no hidden directories (a nil slice). -/
theorem defaultConfig_eq (float64ToInt : Float64 → Int) :
    DefaultConfig float64ToInt = ConfigFromUntypedMap float64ToInt none ∧
      DefaultConfig float64ToInt = ConfigFromUntypedMap float64ToInt (some []) ∧
      DefaultConfig float64ToInt =
        { SyntaxLanguage := "undefined", TabSize := 4, TabExpand := false, AutoIndent := false,
          MenuCommands := some [], HideDirectories := none } ∧
      (DefaultConfig float64ToInt).SyntaxLanguage = DefaultSyntaxLanguage ∧
      (DefaultConfig float64ToInt).TabSize = DefaultTabSize ∧
      (DefaultConfig float64ToInt).TabExpand = DefaultTabExpand ∧
      (DefaultConfig float64ToInt).AutoIndent = DefaultAutoIndent :=
  ⟨rfl, rfl, rfl, rfl, rfl, rfl, rfl⟩

end config

/-! ### Claims about the lookahead of the reverse iterator -/

namespace segment

/-- C31. For every state of the reverse iterator, `lookaheadExtendedPictographicSequence`
returns true iff the classes of the runes the iterator still holds begin with zero or more
Extend followed by an Extended_Pictographic; it returns false when the runes end after the
Extend codepoints and when another class is met first; and `processRune`, which calls it,
leaves the runes of the iterator as they are. -/
theorem lookaheadExtendedPictographicSequence_iff (gbPropForRune : Rune → gbProp)
    (g : reverseGraphemeClusterIter) :
    (g.lookaheadExtendedPictographicSequence gbPropForRune = true ↔
      ∃ k rest, g.runeIter.map gbPropForRune =
        List.replicate k gbProp.Extend ++ gbProp.Extended_Pictographic :: rest) ∧
    (∀ k, g.runeIter.map gbPropForRune = List.replicate k gbProp.Extend →
      g.lookaheadExtendedPictographicSequence gbPropForRune = false) ∧
    (∀ k p rest, g.runeIter.map gbPropForRune = List.replicate k gbProp.Extend ++ p :: rest →
      p ≠ gbProp.Extend → p ≠ gbProp.Extended_Pictographic →
      g.lookaheadExtendedPictographicSequence gbPropForRune = false) ∧
    ∀ r, (g.processRune gbPropForRune r).2.runeIter = g.runeIter := by
  unfold reverseGraphemeClusterIter.lookaheadExtendedPictographicSequence
  rw [lookaheadExtendedPictographicLoop_eq]
  refine ⟨endsExtPictExtend_prefix_iff _, ?_, ?_, fun r => rfl⟩
  · intro k h
    rw [h]
    exact endsExtPictExtend_replicate k
  · intro k p rest h hp1 hp2
    rw [h]
    exact endsExtPictExtend_replicate_cons k p rest hp1 hp2

/-- Witness for C31: before U+0308, an emoji and a the lookahead finds the emoji; before
U+0308 alone and before U+0308, a it finds none. -/
theorem lookaheadExtendedPictographicSequence_iff_witness :
    reverseGraphemeClusterIter.lookaheadExtendedPictographicSequence sampleProps
        { currentSegment := none, runeIter := [0x0308, 0x1F600, 0x61], lastProp := gbProp.ZWJ }
        = true ∧
      reverseGraphemeClusterIter.lookaheadExtendedPictographicSequence sampleProps
        { currentSegment := none, runeIter := [0x0308], lastProp := gbProp.ZWJ } = false ∧
      reverseGraphemeClusterIter.lookaheadExtendedPictographicSequence sampleProps
        { currentSegment := none, runeIter := [0x0308, 0x61], lastProp := gbProp.ZWJ } = false :=
  ⟨(lookaheadExtendedPictographicSequence_iff sampleProps
      { currentSegment := none, runeIter := [0x0308, 0x1F600, 0x61], lastProp := gbProp.ZWJ }).1.mpr
      ⟨1, [gbProp.None], by decide⟩,
    (lookaheadExtendedPictographicSequence_iff sampleProps
      { currentSegment := none, runeIter := [0x0308], lastProp := gbProp.ZWJ }).2.1 1 (by decide),
    (lookaheadExtendedPictographicSequence_iff sampleProps
      { currentSegment := none, runeIter := [0x0308, 0x61], lastProp := gbProp.ZWJ }).2.2.1 1
      gbProp.None [] (by decide) (by decide) (by decide)⟩

end segment

/-! ### Claims about the search for reusable computations and about the parse loops -/

namespace Parser

variable {σ : Type}

/-- C32. For every edit, entry state `s` and current position `cur` with `cur < edit.pos`,
`findReusableComputation` returns exactly the result of the query
`LargestMatchingSubComputation(cur, edit.pos, s)` on the previous computation, whatever
`numInserted` and `numDeleted` are; what it returns is a sub-computation of the previous
computation at `cur` with entry state `s` that looked at nothing at or past `edit.pos`. -/
theorem findReusable_before_edit [DecidableEq σ] (p : P σ) (cur : Nat) (edit : Edit) (s : σ)
    (h : cur < edit.pos) :
    p.findReusableComputation cur edit s =
        Computation.LargestMatchingSubComputation p.prevComputation cur edit.pos s ∧
      (∀ numInserted numDeleted,
        p.findReusableComputation cur ⟨edit.pos, numInserted, numDeleted⟩ s =
          p.findReusableComputation cur edit s) ∧
      (∀ sub, p.findReusableComputation cur edit s = some sub →
        sub.StartState = s ∧ cur + sub.ReadLength ≤ edit.pos ∧
          ∃ c, p.prevComputation = some c ∧ c.subAt 0 sub cur = true) := by
  have h1 : p.findReusableComputation cur edit s =
      Computation.LargestMatchingSubComputation p.prevComputation cur edit.pos s := by
    unfold P.findReusableComputation
    rw [if_pos h]
  refine ⟨h1, ?_, ?_⟩
  · intro numInserted numDeleted
    rw [h1]
    unfold P.findReusableComputation
    rw [if_pos h]
  · intro sub hsub
    rw [h1] at hsub
    cases hc : p.prevComputation with
    | none => rw [hc] at hsub; cases hsub
    | some c =>
      rw [hc] at hsub
      simp only [Computation.LargestMatchingSubComputation] at hsub
      obtain ⟨pre, post, -, -, h3, h4⟩ := largestSub_infix c 0 cur edit.pos s sub hsub
      exact ⟨h4, h3, c, rfl, largestSub_subAt c 0 cur edit.pos s sub hsub⟩

/-- Witness for C32: the example parser, before an insertion at position 1, reuses the leaf of
the codepoint at position 0. -/
theorem findReusable_before_edit_witness :
    0 < (⟨1, 1, 0⟩ : Edit).pos ∧
      perRuneParser.findReusableComputation 0 ⟨1, 1, 0⟩ ExampleState.Empty =
        Computation.LargestMatchingSubComputation perRuneParser.prevComputation 0
          (⟨1, 1, 0⟩ : Edit).pos ExampleState.Empty ∧
      Computation.LargestMatchingSubComputation perRuneParser.prevComputation 0
          (⟨1, 1, 0⟩ : Edit).pos ExampleState.Empty = some (perRuneLeaf 10) :=
  ⟨by decide,
    (findReusable_before_edit perRuneParser 0 ⟨1, 1, 0⟩ ExampleState.Empty (by decide)).1,
    by decide⟩

/-- C33 (amended). For every edit that is an insertion or a deletion (not both) at a position
of the previous document, and every position `cur` of the current document: past an
insertion (`cur >= edit.pos + numInserted`) `findReusableComputation` searches the previous
computation at `cur - numInserted` with the upper bound `math.MaxUint64`, and past a deletion
(`cur >= edit.pos`) it searches at `cur + numDeleted` with that bound; in both cases the
searched position is a position of the previous document, and the previous document from it
on is the current document from `cur` on: it is the old-document position of the codepoint
now at `cur`. -/
theorem findReusable_after_edit [DecidableEq σ] (p : P σ) (cur : Nat) (edit : Edit) (s : σ)
    (inserted : List Rune) (tree : Doc) (hpure : edit.IsPure)
    (hlen : inserted.length = edit.numInserted) (hpos : edit.pos ≤ tree.length)
    (hcur : cur < (edit.applyTo inserted tree).length) :
    (0 < edit.numInserted → edit.pos + edit.numInserted ≤ cur →
      p.findReusableComputation cur edit s =
          Computation.LargestMatchingSubComputation p.prevComputation (cur - edit.numInserted)
            MaxUint64 s ∧
        cur - edit.numInserted < tree.length ∧
        (edit.applyTo inserted tree).drop cur = tree.drop (cur - edit.numInserted)) ∧
    (0 < edit.numDeleted → edit.pos ≤ cur →
      p.findReusableComputation cur edit s =
          Computation.LargestMatchingSubComputation p.prevComputation (cur + edit.numDeleted)
            MaxUint64 s ∧
        cur + edit.numDeleted < tree.length ∧
        (edit.applyTo inserted tree).drop cur = tree.drop (cur + edit.numDeleted)) := by
  rw [applyTo_length, Nat.min_eq_left hpos] at hcur
  constructor
  · intro hins hcur2
    have hdel : edit.numDeleted = 0 := by
      rcases hpure with h | h
      · omega
      · exact h
    refine ⟨?_, by omega, ?_⟩
    · unfold P.findReusableComputation
      rw [if_neg (by omega), if_pos ⟨hins, hcur2⟩]
    · rw [applyTo_drop edit inserted tree hpos cur (by omega), hlen, hdel, Nat.add_zero]
  · intro hdel hcur2
    have hins : edit.numInserted = 0 := by
      rcases hpure with h | h
      · exact h
      · omega
    have hnil : inserted = [] := List.length_eq_zero.mp (by omega)
    refine ⟨?_, by omega, ?_⟩
    · unfold P.findReusableComputation
      rw [if_neg (by omega), if_neg (by omega), if_pos ⟨hdel, hcur2⟩]
    · rw [applyTo_drop edit inserted tree hpos cur (by rw [hnil]; simpa using hcur2), hnil]
      simp

/-- Witness for C33 (amended): in the document 10, 20, past the insertion of 30 at position 0
the search is made at position 0 of the previous document, and past the deletion of the
codepoint at position 0 it is made at position 1. -/
theorem findReusable_after_edit_witness :
    ((⟨0, 1, 0⟩ : Edit).IsPure ∧
        perRuneParser.findReusableComputation 1 ⟨0, 1, 0⟩ ExampleState.Empty =
          Computation.LargestMatchingSubComputation perRuneParser.prevComputation
            (1 - (⟨0, 1, 0⟩ : Edit).numInserted) MaxUint64 ExampleState.Empty ∧
        1 - (⟨0, 1, 0⟩ : Edit).numInserted < ([10, 20] : Doc).length ∧
        ((⟨0, 1, 0⟩ : Edit).applyTo [30] [10, 20]).drop 1 =
          ([10, 20] : Doc).drop (1 - (⟨0, 1, 0⟩ : Edit).numInserted)) ∧
      ((⟨0, 0, 1⟩ : Edit).IsPure ∧
        perRuneParser.findReusableComputation 0 ⟨0, 0, 1⟩ ExampleState.Empty =
          Computation.LargestMatchingSubComputation perRuneParser.prevComputation
            (0 + (⟨0, 0, 1⟩ : Edit).numDeleted) MaxUint64 ExampleState.Empty ∧
        0 + (⟨0, 0, 1⟩ : Edit).numDeleted < ([10, 20] : Doc).length ∧
        ((⟨0, 0, 1⟩ : Edit).applyTo [] [10, 20]).drop 0 =
          ([10, 20] : Doc).drop (0 + (⟨0, 0, 1⟩ : Edit).numDeleted)) :=
  ⟨⟨by decide,
      (findReusable_after_edit perRuneParser 1 ⟨0, 1, 0⟩ ExampleState.Empty [30] [10, 20]
        (by decide) (by decide) (by decide) (by decide)).1 (by decide) (by decide)⟩,
    ⟨by decide,
      (findReusable_after_edit perRuneParser 0 ⟨0, 0, 1⟩ ExampleState.Empty [] [10, 20]
        (by decide) (by decide) (by decide) (by decide)).2 (by decide) (by decide)⟩⟩

/-- C33 (counterexample). The edit that replaces the codepoint at position 0 of the document
10, 20 by 30 has both counts positive. (1) At `cur` = 1, past the inserted codepoint, the
search is made at position 1 - 1 = 0 of the previous document, but the codepoint now at
position 1 stood at position 1: the previous document from position 0 on is not the
current document from position 1 on. (2) With two codepoints inserted, at `cur` = 1, inside
the inserted text, the search is made at position 1 + 1 = 2. -/
theorem findReusable_after_mixed_edit :
    (0 < (⟨0, 1, 1⟩ : Edit).numInserted ∧
        (⟨0, 1, 1⟩ : Edit).pos + (⟨0, 1, 1⟩ : Edit).numInserted ≤ 1 ∧
        perRuneParser.findReusableComputation 1 ⟨0, 1, 1⟩ ExampleState.Empty =
          Computation.LargestMatchingSubComputation perRuneParser.prevComputation 0 MaxUint64
            ExampleState.Empty ∧
        ((⟨0, 1, 1⟩ : Edit).applyTo [30] [10, 20]).drop 1 ≠ ([10, 20] : Doc).drop 0 ∧
        ((⟨0, 1, 1⟩ : Edit).applyTo [30] [10, 20]).drop 1 = ([10, 20] : Doc).drop 1) ∧
      (0 < (⟨0, 2, 1⟩ : Edit).numDeleted ∧ (⟨0, 2, 1⟩ : Edit).pos ≤ 1 ∧
        perRuneParser.findReusableComputation 1 ⟨0, 2, 1⟩ ExampleState.Empty =
          Computation.LargestMatchingSubComputation perRuneParser.prevComputation 2 MaxUint64
            ExampleState.Empty ∧
        ((⟨0, 2, 1⟩ : Edit).applyTo [30, 40] [10, 20]).drop 1 ≠ ([10, 20] : Doc).drop 2) := by
  decide

/-- C34. `ParseAll` starts at position 0 with `EmptyState`: each of its leaf computations is
the one that `runParseFunc` builds at the position equal to the sum of the consumed lengths
of the leaves before it, a position of the document, in the end state of the leaf before
it; and it stores the computation it returns as the previous computation of the parser. After
`ParseAll` and any edits, each followed by `ReparseAfterEdit`, the computation returned is
the one stored, its first leaf has the entry state `EmptyState`, and each next leaf has for
entry state the end state of the leaf before it. -/
theorem parse_positions_and_states [DecidableEq σ] [ParseState σ] (f : Func σ) (tree : Doc)
    (edits : List (Edit × List Rune)) :
    (∃ c0, (New f).ParseAll tree = some (c0, { New f with prevComputation := c0 }) ∧
      ∀ i l, (Computation.Leaves c0)[i]? = some l →
        l = (New f).runParseFunc tree (sumConsumed ((Computation.Leaves c0).take i))
            (lastState ParseState.EmptyState ((Computation.Leaves c0).take i)) ∧
          sumConsumed ((Computation.Leaves c0).take i) < tree.length) ∧
    ∃ c p, parseThenReparse f tree edits = some (c, p, finalDoc tree edits) ∧
      p.prevComputation = c ∧
      (∀ l, (Computation.Leaves c)[0]? = some l → l.StartState = ParseState.EmptyState) ∧
      ∀ i l l', (Computation.Leaves c)[i]? = some l → (Computation.Leaves c)[i + 1]? = some l' →
        l'.StartState = l.EndState := by
  constructor
  · obtain ⟨leaves, -, h1, hl, h2, -⟩ := parseAll_chain f tree
    refine ⟨_, h1, ?_⟩
    intro i l hi
    rw [hl] at hi ⊢
    exact isRun_getElem _ _ tree ParseState.EmptyState i l h2 hi
  · obtain ⟨c, p, h1, -, h3, h4, -⟩ := parseThenReparse_chain f tree edits
    obtain ⟨h5, h6⟩ := isChain_getElem _ _ h4
    exact ⟨c, p, h1, h3, h5, h6⟩

/-- Witness for C34: `ParseAll` of the parser of `perRuneFunc` on 10, 20: the second leaf is
built at position 1. -/
theorem parse_positions_and_states_witness :
    ∃ c0, (New perRuneFunc).ParseAll [10, 20] =
        some (c0, { New perRuneFunc with prevComputation := c0 }) ∧
      c0 = some (.node (perRuneLeaf 10) (perRuneLeaf 20)) ∧
      perRuneLeaf 20 = (New perRuneFunc).runParseFunc [10, 20]
        (sumConsumed ((Computation.Leaves c0).take 1))
        (lastState ParseState.EmptyState ((Computation.Leaves c0).take 1)) := by
  obtain ⟨⟨c0, h1, h2⟩, -⟩ := parse_positions_and_states perRuneFunc [10, 20] []
  have h3 : (New perRuneFunc).ParseAll [10, 20] =
      some (some (.node (perRuneLeaf 10) (perRuneLeaf 20)),
        { New perRuneFunc with
          prevComputation := some (.node (perRuneLeaf 10) (perRuneLeaf 20)) }) := rfl
  have h4 : c0 = some (.node (perRuneLeaf 10) (perRuneLeaf 20)) := by
    have := Option.some.inj (h1.symm.trans h3)
    exact (Prod.mk.inj this).1
  refine ⟨c0, h1, h4, (h2 1 (perRuneLeaf 20) ?_).1⟩
  rw [h4]
  rfl

/-- C35 (amended). For every parse function, also one that fails on every input, and every
document with `n` codepoints, as long as no position wraps around (the consumed lengths of
the run sum to at most `math.MaxUint64`): `ParseAll` of the parser built by `New` ends within
`n` iterations of its loop, with at most `n` leaf computations, each of which consumes at
least one codepoint; and after `ParseAll` and any edits, `ReparseAfterEdit` of that parser,
for any edit and any document with `n` codepoints, ends within `n` iterations too, each
iteration appending one computation, found in the cache or built by one call of the parse
function, that consumes at least one codepoint. -/
theorem parse_terminates [DecidableEq σ] [ParseState σ] (f : Func σ) (tree : Doc)
    (edits : List (Edit × List Rune)) :
    (∃ leaves, (New f).parseAllLoop tree tree.length 0 ParseState.EmptyState = some leaves ∧
      (New f).ParseAll tree =
        some (ConcatLeafComputations leaves,
          { New f with prevComputation := ConcatLeafComputations leaves }) ∧
      leaves.length ≤ tree.length ∧ (∀ l ∈ leaves, 0 < l.ConsumedLength) ∧
      (sumConsumed leaves ≤ MaxUint64 →
        (New f).parseAllLoopUint64 tree tree.length 0 ParseState.EmptyState = some leaves)) ∧
    ∃ c p, parseThenReparse f tree edits = some (c, p, finalDoc tree edits) ∧
      ∀ (tree2 : Doc) (edit : Edit), ∃ steps,
        p.reparseSteps tree2 edit tree2.length 0 ParseState.EmptyState = some steps ∧
        p.ReparseAfterEdit tree2 edit =
          some (steps.foldl Computation.Append none,
            { p with prevComputation := steps.foldl Computation.Append none }) ∧
        steps.length ≤ tree2.length ∧ (∀ s ∈ steps, 0 < s.ConsumedLength) ∧
        (sumConsumed steps ≤ MaxUint64 →
          p.reparseStepsUint64 tree2 edit tree2.length 0 ParseState.EmptyState = some steps) := by
  constructor
  · obtain ⟨leaves, h0, h1, -, -, -, h4, h5⟩ := parseAll_chain f tree
    refine ⟨leaves, h0, h1, h5, h4, ?_⟩
    intro hb
    exact parseAllLoopUint64_eq _ _ _ _ _ _ h0 (by omega)
  · obtain ⟨c, p, h1, h2, h3, h4, h5⟩ := parseThenReparse_chain f tree edits
    refine ⟨c, p, h1, ?_⟩
    intro tree2 edit
    obtain ⟨steps, h6, h7, h8, h9, -⟩ := reparseAfterEdit_steps f p h2 ParseState.EmptyState
      (by rw [h3]; exact h4) (by rw [h3]; exact h5) tree2 edit
    refine ⟨steps, h6, h7, h8, h9, ?_⟩
    intro hb
    exact reparseStepsUint64_eq _ _ _ _ _ _ _ h6 (by omega)

/-- Witness for C35 (amended): the parse function that fails on every input, on a document of
three codepoints: the loop of `ParseAll`, in 64-bit arithmetic, ends with three leaves. -/
theorem parse_terminates_witness :
    ∃ leaves, (New failingFunc).parseAllLoop [10, 20, 30] ([10, 20, 30] : Doc).length 0
          ExampleState.Empty = some leaves ∧
      leaves.length ≤ ([10, 20, 30] : Doc).length ∧ sumConsumed leaves ≤ MaxUint64 ∧
      (New failingFunc).parseAllLoopUint64 [10, 20, 30] ([10, 20, 30] : Doc).length 0
          ExampleState.Empty = some leaves := by
  obtain ⟨⟨leaves, h1, -, h3, -, h5⟩, -⟩ := parse_terminates failingFunc [10, 20, 30] []
  have h6 : (New failingFunc).parseAllLoop [10, 20, 30] ([10, 20, 30] : Doc).length 0
      ExampleState.Empty =
        some [.leaf 0 1 .Empty .Empty [], .leaf 0 1 .Empty .Empty [],
          .leaf 0 1 .Empty .Empty []] := rfl
  have h7 : leaves = [.leaf 0 1 .Empty .Empty [], .leaf 0 1 .Empty .Empty [],
      .leaf 0 1 .Empty .Empty []] := Option.some.inj (h1.symm.trans h6)
  have h8 : sumConsumed leaves ≤ MaxUint64 := by
    rw [h7]
    decide
  exact ⟨leaves, h1, h3, h8, h5 h8⟩

/-- C35 (counterexample). The parse function `wrapFunc` reports `math.MaxUint64` codepoints
consumed at the codepoint 20. On the document 10, 20 the loop of `ParseAll`, in 64-bit
arithmetic, goes from the position 0 to the position 1 and from there back to the position
`(1 + MaxUint64) mod 2^64 = 0`: it never ends, whatever the number of iterations. -/
theorem parseAll_wraps_around :
    (¬ ∃ fuel leaves,
        (New wrapFunc).parseAllLoopUint64 [10, 20] fuel 0 ExampleState.Empty = some leaves) ∧
      ((New wrapFunc).runParseFunc [10, 20] 0 ExampleState.Empty).ConsumedLength = 1 ∧
      ((New wrapFunc).runParseFunc [10, 20] 1 ExampleState.Empty).ConsumedLength = MaxUint64 ∧
      (1 + MaxUint64) % (MaxUint64 + 1) = 0 := by
  refine ⟨?_, rfl, rfl, by decide⟩
  rintro ⟨fuel, leaves, h⟩
  rw [(parseAllLoopUint64_wrapFunc fuel).1] at h
  cases h

end Parser

/-! ### Claims about the cursor invariant and the composite mutator -/

namespace exec

open text

/-- C36. For every editor state whose tree is well formed and whose cursor position is at most
`NumChars` of its document, the tree is still well formed and the cursor position is still
at most `NumChars` of the resulting document after `insertRuneMutator.Mutate` with any rune,
valid or not, and after `deleteMutator.Mutate` with any locator whose result is at most
`NumChars`. -/
theorem mutators_keep_cursor_in_document (maxBytesPerLeaf : Nat) (state : State) (S : List Rune)
    (h : state.tree.Holds S) (hc : state.cursor.position ≤ state.tree.NumChars) :
    (∀ r : Rune,
      (∃ S2, ((insertRuneMutator.mk r).Mutate maxBytesPerLeaf state).tree.Holds S2) ∧
        ((insertRuneMutator.mk r).Mutate maxBytesPerLeaf state).cursor.position ≤
          ((insertRuneMutator.mk r).Mutate maxBytesPerLeaf state).tree.NumChars) ∧
    (∀ dm : deleteMutator, (dm.loc state).position ≤ state.tree.NumChars →
      (∃ S2, (dm.Mutate maxBytesPerLeaf state).tree.Holds S2) ∧
        (dm.Mutate maxBytesPerLeaf state).cursor.position ≤
          (dm.Mutate maxBytesPerLeaf state).tree.NumChars) := by
  have hn := h.treeNumChars_eq
  constructor
  · intro r
    by_cases hr : validRune r = true
    · obtain ⟨h1, h2⟩ := insertRuneMutator_mutate_valid maxBytesPerLeaf state S r h hr
      refine ⟨⟨_, h1⟩, ?_⟩
      rw [h2, h1.treeNumChars_eq]
      simp only [List.length_append, List.length_cons, List.length_take, List.length_drop]
      omega
    · have hr2 : validRune r = false := by simpa using hr
      rw [insertRuneMutator_mutate_invalid maxBytesPerLeaf state r hr2]
      exact ⟨⟨S, h⟩, hc⟩
  · intro dm ht
    obtain ⟨h1, h2⟩ := deleteMutator_mutate_holds maxBytesPerLeaf dm state S h
    refine ⟨⟨_, h1⟩, ?_⟩
    rw [h2, h1.treeNumChars_eq]
    simp only [List.length_append, List.length_take, List.length_drop]
    omega

/-- Witness for C36: in the example state, a surrogate typed, the letter x typed, and the
deletion up to the position that the example locator finds. -/
theorem mutators_keep_cursor_in_document_witness :
    exampleState.tree.Holds exampleText ∧
      exampleState.cursor.position ≤ exampleState.tree.NumChars ∧
      ((insertRuneMutator.mk 0xD800).Mutate 4 exampleState).cursor.position ≤
        ((insertRuneMutator.mk 0xD800).Mutate 4 exampleState).tree.NumChars ∧
      ((insertRuneMutator.mk 0x78).Mutate 4 exampleState).cursor.position ≤
        ((insertRuneMutator.mk 0x78).Mutate 4 exampleState).tree.NumChars ∧
      (exampleLocator exampleState).position ≤ exampleState.tree.NumChars ∧
      ((deleteMutator.mk exampleLocator).Mutate 4 exampleState).cursor.position ≤
        ((deleteMutator.mk exampleLocator).Mutate 4 exampleState).tree.NumChars :=
  ⟨⟨by decide, by decide⟩, by decide,
    ((mutators_keep_cursor_in_document 4 exampleState exampleText ⟨by decide, by decide⟩
      (by decide)).1 0xD800).2,
    ((mutators_keep_cursor_in_document 4 exampleState exampleText ⟨by decide, by decide⟩
      (by decide)).1 0x78).2,
    by decide,
    ((mutators_keep_cursor_in_document 4 exampleState exampleText ⟨by decide, by decide⟩
      (by decide)).2 (deleteMutator.mk exampleLocator) (by decide)).2⟩

/-- C37. For every list of mutators `ms` and every state, `CompositeMutator(ms).Mutate` is the
`Mutate` of each element of `ms` applied in the order of the list (a left fold); so the empty
composite leaves the state as it is, and the composite of `xs ++ ys` has the effect of the
composite of the two composites of `xs` and of `ys`. -/
theorem compositeMutator_fold (ms : List Mutator) (state : State) :
    (CompositeMutator.mk ms).Mutate state = ms.foldl (fun s subMutator => subMutator s) state ∧
      (CompositeMutator.mk []).Mutate state = state ∧
      ∀ xs ys : List Mutator,
        (CompositeMutator.mk (xs ++ ys)).Mutate state =
          (CompositeMutator.mk [NewCompositeMutator xs, NewCompositeMutator ys]).Mutate state := by
  refine ⟨mutateLoop_eq_foldl ms state, rfl, ?_⟩
  intro xs ys
  simp only [CompositeMutator.Mutate, NewCompositeMutator, mutateLoop_eq_foldl,
    List.foldl_append, List.foldl_cons, List.foldl_nil]

end exec

/-! ### Claims about the decoding of the configuration -/

namespace config

/-- C38. For every untyped map and each scalar key (`syntaxLanguage`, `tabSize`, `tabExpand`,
`autoIndent`): when the key holds a value of the expected dynamic type (string, int, bool,
bool), `ConfigFromUntypedMap` copies the value into the field as it is, without validating
it; when the key is absent or holds a value of another type, the field takes its default,
except that a `float64` for `tabSize` is converted to an int. -/
theorem configFromUntypedMap_scalars (float64ToInt : Float64 → Int) (m : UntypedMap) :
    ((∀ s, m.get "syntaxLanguage" = some (.string s) →
        (ConfigFromUntypedMap float64ToInt m).SyntaxLanguage = s) ∧
      (∀ n, m.get "tabSize" = some (.int n) →
        (ConfigFromUntypedMap float64ToInt m).TabSize = n) ∧
      (∀ b, m.get "tabExpand" = some (.bool b) →
        (ConfigFromUntypedMap float64ToInt m).TabExpand = b) ∧
      (∀ b, m.get "autoIndent" = some (.bool b) →
        (ConfigFromUntypedMap float64ToInt m).AutoIndent = b)) ∧
    ((m.get "syntaxLanguage" = none ∨
          (∃ v, m.get "syntaxLanguage" = some v ∧ ∀ s, v ≠ .string s) →
        (ConfigFromUntypedMap float64ToInt m).SyntaxLanguage = DefaultSyntaxLanguage) ∧
      (m.get "tabSize" = none ∨
          (∃ v, m.get "tabSize" = some v ∧ (∀ n, v ≠ .int n) ∧ ∀ f, v ≠ .float64 f) →
        (ConfigFromUntypedMap float64ToInt m).TabSize = DefaultTabSize) ∧
      (m.get "tabExpand" = none ∨ (∃ v, m.get "tabExpand" = some v ∧ ∀ b, v ≠ .bool b) →
        (ConfigFromUntypedMap float64ToInt m).TabExpand = DefaultTabExpand) ∧
      (m.get "autoIndent" = none ∨ (∃ v, m.get "autoIndent" = some v ∧ ∀ b, v ≠ .bool b) →
        (ConfigFromUntypedMap float64ToInt m).AutoIndent = DefaultAutoIndent)) ∧
    (∀ f, m.get "tabSize" = some (.float64 f) →
      (ConfigFromUntypedMap float64ToInt m).TabSize = float64ToInt f) ∧
    (∀ n, m.get "tabSize" = some (.int n) → n < 1 →
      (ConfigFromUntypedMap float64ToInt m).Validate ≠ none) := by
  refine ⟨⟨?_, ?_, ?_, ?_⟩, ⟨?_, ?_, ?_, ?_⟩, ?_, ?_⟩
  · intro s h
    simp [ConfigFromUntypedMap, stringOrDefault, h]
  · intro n h
    simp [ConfigFromUntypedMap, intOrDefault, h]
  · intro b h
    simp [ConfigFromUntypedMap, boolOrDefault, h]
  · intro b h
    simp [ConfigFromUntypedMap, boolOrDefault, h]
  · rintro (h | ⟨v, h, hv⟩)
    · simp [ConfigFromUntypedMap, stringOrDefault, h]
    · cases v <;> simp_all [ConfigFromUntypedMap, stringOrDefault]
  · rintro (h | ⟨v, h, hv1, hv2⟩)
    · simp [ConfigFromUntypedMap, intOrDefault, h]
    · cases v <;> simp_all [ConfigFromUntypedMap, intOrDefault]
  · rintro (h | ⟨v, h, hv⟩)
    · simp [ConfigFromUntypedMap, boolOrDefault, h]
    · cases v <;> simp_all [ConfigFromUntypedMap, boolOrDefault]
  · rintro (h | ⟨v, h, hv⟩)
    · simp [ConfigFromUntypedMap, boolOrDefault, h]
    · cases v <;> simp_all [ConfigFromUntypedMap, boolOrDefault]
  · intro f h
    simp [ConfigFromUntypedMap, intOrDefault, h]
  · intro n h hn
    simp [ConfigFromUntypedMap, intOrDefault, h, Config.Validate, hn]

/-- Witness for C38: in the example map the tab size -3 is copied and then refused by
`Validate`, the tab-expand flag of type string gives the default, and the absent keys give
their defaults. -/
theorem configFromUntypedMap_scalars_witness :
    (ConfigFromUntypedMap (fun _ => 0) exampleMap).TabSize = -3 ∧
      (ConfigFromUntypedMap (fun _ => 0) exampleMap).Validate ≠ none ∧
      (ConfigFromUntypedMap (fun _ => 0) exampleMap).TabExpand = DefaultTabExpand ∧
      (ConfigFromUntypedMap (fun _ => 0) exampleMap).SyntaxLanguage = DefaultSyntaxLanguage :=
  ⟨(configFromUntypedMap_scalars (fun _ => 0) exampleMap).1.2.1 (-3) rfl,
    (configFromUntypedMap_scalars (fun _ => 0) exampleMap).2.2.2 (-3) rfl (by decide),
    (configFromUntypedMap_scalars (fun _ => 0) exampleMap).2.1.2.2.1
      (Or.inr ⟨.string "yes", rfl, fun _ h => Value.noConfusion h⟩),
    (configFromUntypedMap_scalars (fun _ => 0) exampleMap).2.1.1 (Or.inl rfl)⟩

/-- C39. For every two untyped maps that agree on the six recognised keys,
`ConfigFromUntypedMap` returns equal configurations: the keys that are not recognised never
influence the result. -/
theorem configFromUntypedMap_congr (float64ToInt : Float64 → Int) (m1 m2 : UntypedMap)
    (h : ∀ key ∈ recognisedKeys, m1.get key = m2.get key) :
    ConfigFromUntypedMap float64ToInt m1 = ConfigFromUntypedMap float64ToInt m2 := by
  have h1 := h "syntaxLanguage" (by simp [recognisedKeys])
  have h2 := h "tabSize" (by simp [recognisedKeys])
  have h3 := h "tabExpand" (by simp [recognisedKeys])
  have h4 := h "autoIndent" (by simp [recognisedKeys])
  have h5 := h "menuCommands" (by simp [recognisedKeys])
  have h6 := h "hideDirectories" (by simp [recognisedKeys])
  simp only [ConfigFromUntypedMap, stringOrDefault, intOrDefault, boolOrDefault, sliceOrNil,
    stringSliceOrNil, h1, h2, h3, h4, h5, h6]

/-- Witness for C39: the two example maps differ in the keys that are not recognised only, and
give the same configuration. -/
theorem configFromUntypedMap_congr_witness :
    (∀ key ∈ recognisedKeys, exampleMap.get key = exampleMap2.get key) ∧
      exampleMap.get "colour" ≠ exampleMap2.get "colour" ∧
      ConfigFromUntypedMap (fun _ => 0) exampleMap =
        ConfigFromUntypedMap (fun _ => 0) exampleMap2 :=
  ⟨by simp [recognisedKeys, exampleMap, exampleMap2, UntypedMap.get, List.lookup],
    by simp [exampleMap, exampleMap2, UntypedMap.get, List.lookup],
    configFromUntypedMap_congr (fun _ => 0) exampleMap exampleMap2
      (by simp [recognisedKeys, exampleMap, exampleMap2, UntypedMap.get, List.lookup])⟩

/-- C40. For every untyped map whose `hideDirectories` value is a slice, the elements of the
field `HideDirectories` of `ConfigFromUntypedMap(m)` are exactly the string elements of that
slice in their order (a sub-list of its elements), and the field is nil only for a nil
slice; when the key is absent or its value is not a slice, `HideDirectories` is nil. -/
theorem configFromUntypedMap_hideDirectories (float64ToInt : Float64 → Int) (m : UntypedMap) :
    (∀ s, m.get "hideDirectories" = some (.slice s) →
      sliceElems (ConfigFromUntypedMap float64ToInt m).HideDirectories =
          (sliceElems s).filterMap Value.asString ∧
        ((sliceElems (ConfigFromUntypedMap float64ToInt m).HideDirectories).map Value.string).Sublist
          (sliceElems s) ∧
        ((ConfigFromUntypedMap float64ToInt m).HideDirectories = none ↔ s = none)) ∧
    (m.get "hideDirectories" = none ∨
        (∃ v, m.get "hideDirectories" = some v ∧ ∀ s, v ≠ .slice s) →
      (ConfigFromUntypedMap float64ToInt m).HideDirectories = none) := by
  constructor
  · intro s h
    have hfield : (ConfigFromUntypedMap float64ToInt m).HideDirectories =
        s.map stringSliceLoop := by
      cases s <;> simp [ConfigFromUntypedMap, stringSliceOrNil, sliceOrNil, h]
    have helems : sliceElems (ConfigFromUntypedMap float64ToInt m).HideDirectories =
        (sliceElems s).filterMap Value.asString := by
      rw [hfield]
      cases s with
      | none => rfl
      | some l => exact stringSliceLoop_eq_filterMap l
    refine ⟨helems, ?_, ?_⟩
    · rw [helems]
      generalize sliceElems s = l
      induction l with
      | nil => simp
      | cons v rest ih =>
        cases v <;> simp [Value.asString, ih]
    · rw [hfield]
      cases s <;> simp
  · rintro (h | ⟨v, h, hv⟩)
    · simp [ConfigFromUntypedMap, stringSliceOrNil, sliceOrNil, h]
    · cases v <;> simp_all [ConfigFromUntypedMap, stringSliceOrNil, sliceOrNil]

/-- Witness for C40: the hidden directories of the example map are ".git" and "vendor"; the
number between them is dropped. -/
theorem configFromUntypedMap_hideDirectories_witness :
    sliceElems (ConfigFromUntypedMap (fun _ => 0) exampleMap).HideDirectories =
        [".git", "vendor"] ∧
      (ConfigFromUntypedMap (fun _ => 0) (some [("hideDirectories", .int 3)])).HideDirectories
        = none :=
  ⟨((configFromUntypedMap_hideDirectories (fun _ => 0) exampleMap).1
      (some [.string ".git", .int 7, .string "vendor"]) rfl).1,
    (configFromUntypedMap_hideDirectories (fun _ => 0) (some [("hideDirectories", .int 3)])).2
      (Or.inr ⟨.int 3, rfl, fun _ h => Value.noConfusion h⟩)⟩

end config

end Aretext
